import Mathlib

/-! Kavosh subgraph enumeration: a shallow embedding.

The development follows `src/kavosh`: the graph container (`cpp-graph.cpp`),
the canonicalizer workspace (`cpp-nauty.cpp`) and the enumerator
(`cpp-enumerate.cpp`).

Conventions of the embedding.

* `long`, `short`, `int16_t`, `int8_t` values are `Int` (or `Nat` for counters
  and array positions that never go negative); the one place where a narrow
  type wraps (`int8_t color = edge->color + 1`) wraps explicitly.
* A `std::unordered_set<long>` is a duplicate-free `List Int` holding the
  elements in insertion order.  The standard leaves the iteration order of an
  unordered set open, so every loop over such a set walks `it.iter s`, where
  `it : IterOrder` is an arbitrary rearrangement of the elements.
* A `std::map` is an association list; where the source walks a map in key
  order the keys are sorted at that point.
* An `assert` that fails aborts the process: the operation returns `none`.
* `densenauty` is third-party code; it is a parameter of the enumerator.
-/

namespace Kavosh

/-! ## Containers -/

/-- The order in which a loop walks a `std::unordered_set<long>`: some
rearrangement of its elements. -/
structure IterOrder where
  iter : List Int → List Int
  perm : ∀ s : List Int, List.Perm (iter s) s

/-- The iteration order that walks a set in insertion order. -/
def IterOrder.insertion : IterOrder := ⟨fun s => s, fun s => List.Perm.refl s⟩

/-- The iteration order that walks a set in reverse insertion order. -/
def IterOrder.reversed : IterOrder := ⟨fun s => s.reverse, fun s => List.reverse_perm s⟩

/-- The iteration order that walks a set from its largest element down. -/
def IterOrder.descending : IterOrder :=
  ⟨fun s => s.insertionSort (fun a b => b ≤ a),
   fun s => List.perm_insertionSort (fun a b => b ≤ a) s⟩

/-- `s.insert(x)` on a `std::unordered_set<long>`. -/
def setInsert (s : List Int) (x : Int) : List Int :=
  if x ∈ s then s else s ++ [x]

/-- `s.erase(x)` on a `std::unordered_set<long>`. -/
def setErase (s : List Int) (x : Int) : List Int :=
  s.filter (fun y => decide (y ≠ x))

/-- `m.find(k)` on a `std::map`: the value stored under `k`, if any. -/
def mapFind {κ β : Type} [DecidableEq κ] (m : List (κ × β)) (k : κ) : Option β :=
  match m with
  | [] => none
  | (k', v) :: rest => if k' = k then some v else mapFind rest k

/-- `m[k] = v` on a `std::map`: overwrite the entry of `k`, or add one. -/
def mapSet {κ β : Type} [DecidableEq κ] (m : List (κ × β)) (k : κ) (v : β) : List (κ × β) :=
  match m with
  | [] => [(k, v)]
  | (k', v') :: rest => if k' = k then (k, v) :: rest else (k', v') :: mapSet rest k v

/-! ## The graph container (`cpp-graph.cpp`) -/

/-- `class Edge`.  The `double` weight is only stored and copied, never
computed with; it is carried as a rational. -/
structure Edge where
  source_index : Int
  destination_index : Int
  weight : Rat
  color : Int
deriving DecidableEq, Repr

/-- `class Vertex` (the back pointer to the graph is dropped; `Edge *` entries
are held by value, edges being immutable once built). -/
structure Vertex where
  index : Int
  enumeration_index : Int
  community : Int
  color : Int
  incoming_edges : List Edge
  outgoing_edges : List Edge
  incoming_neighbors : List Int
  outgoing_neighbors : List Int
  neighbors : List Int
deriving DecidableEq, Repr

/-- `class Graph` (the label of at most 127 bytes is dropped). -/
structure Graph where
  directed : Bool
  vertex_colored : Bool
  edge_colored : Bool
  vertices : List (Int × Vertex)
  edges : List ((Int × Int) × Edge)
  nedge_types : Int
deriving DecidableEq, Repr

/-- `Vertex::Vertex`: a fresh vertex without edges. -/
def Vertex.new (index enumeration_index community color : Int) : Vertex :=
  { index := index, enumeration_index := enumeration_index, community := community,
    color := color, incoming_edges := [], outgoing_edges := [],
    incoming_neighbors := [], outgoing_neighbors := [], neighbors := [] }

/-- `Graph::Graph`: the empty graph.  The constructor leaves `nedge_types`
unset (only `ReadBZ2Graph` assigns it), so its value is an argument. -/
def Graph.new (directed vertex_colored edge_colored : Bool) (nedge_types : Int) : Graph :=
  { directed := directed, vertex_colored := vertex_colored, edge_colored := edge_colored,
    vertices := [], edges := [], nedge_types := nedge_types }

/-- `Vertex::AddEdge`, with `graph->directed` passed in. -/
def Vertex.AddEdge (directed : Bool) (v : Vertex) (edge : Edge) : Option Vertex :=
  if ¬ (edge.source_index = v.index ∨ edge.destination_index = v.index) then none
  else if directed then
    if edge.source_index = v.index then
      if edge.destination_index ∈ v.outgoing_neighbors then none
      else some { v with
        outgoing_edges := v.outgoing_edges ++ [edge]
        outgoing_neighbors := setInsert v.outgoing_neighbors edge.destination_index
        neighbors := setInsert v.neighbors edge.destination_index }
    else
      if edge.source_index ∈ v.incoming_neighbors then none
      else some { v with
        incoming_edges := v.incoming_edges ++ [edge]
        incoming_neighbors := setInsert v.incoming_neighbors edge.source_index
        neighbors := setInsert v.neighbors edge.source_index }
  else
    if edge.source_index = v.index then
      if edge.destination_index ∈ v.incoming_neighbors then none
      else if edge.destination_index ∈ v.outgoing_neighbors then none
      else some { v with
        incoming_edges := v.incoming_edges ++ [edge]
        outgoing_edges := v.outgoing_edges ++ [edge]
        incoming_neighbors := setInsert v.incoming_neighbors edge.destination_index
        outgoing_neighbors := setInsert v.outgoing_neighbors edge.destination_index
        neighbors := setInsert v.neighbors edge.destination_index }
    else
      if edge.source_index ∈ v.incoming_neighbors then none
      else if edge.source_index ∈ v.outgoing_neighbors then none
      else some { v with
        incoming_edges := v.incoming_edges ++ [edge]
        outgoing_edges := v.outgoing_edges ++ [edge]
        incoming_neighbors := setInsert v.incoming_neighbors edge.source_index
        outgoing_neighbors := setInsert v.outgoing_neighbors edge.source_index
        neighbors := setInsert v.neighbors edge.source_index }

/-- `Graph::AddVertex`. -/
def Graph.AddVertex (G : Graph) (index enumeration_index community color : Int) : Option Graph :=
  match mapFind G.vertices index with
  | some _ => none
  | none =>
    some { G with
      vertices := mapSet G.vertices index (Vertex.new index enumeration_index community color) }

/-- The call `vertices[index]->AddEdge(edge)` inside `Graph::AddEdge`. -/
def Graph.vertexAddEdge (G : Graph) (index : Int) (edge : Edge) : Option Graph :=
  match mapFind G.vertices index with
  | none => none
  | some v =>
    match Vertex.AddEdge G.directed v edge with
    | none => none
    | some v' => some { G with vertices := mapSet G.vertices index v' }

/-- `Graph::AddEdge`. -/
def Graph.AddEdge (G : Graph) (source_index destination_index : Int) (weight : Rat)
    (color : Int) : Option Graph :=
  if (mapFind G.vertices source_index).isNone then none
  else if (mapFind G.vertices destination_index).isNone then none
  else if source_index = destination_index then none
  else
    let swap : Bool := (!G.directed) && decide (destination_index < source_index)
    let s := if swap then destination_index else source_index
    let d := if swap then source_index else destination_index
    let edge : Edge := { source_index := s, destination_index := d, weight := weight, color := color }
    let edges1 := mapSet G.edges (s, d) edge
    let edges2 := if !G.directed then mapSet edges1 (d, s) edge else edges1
    let G1 : Graph := { G with edges := edges2 }
    match G1.vertexAddEdge s edge with
    | none => none
    | some G2 => G2.vertexAddEdge d edge

/-- `Graph::NVertices`. -/
def Graph.NVertices (G : Graph) : Nat := G.vertices.length

/-- `Graph::NEdges`. -/
def Graph.NEdges (G : Graph) : Nat := G.edges.length

/-- The graphs that successful `AddVertex` and `AddEdge` calls build from an
empty graph. -/
inductive Graph.Built : Graph → Prop
  | new (directed vertex_colored edge_colored : Bool) (nedge_types : Int) :
      Graph.Built (Graph.new directed vertex_colored edge_colored nedge_types)
  | addVertex {G G' : Graph} (index enumeration_index community color : Int) :
      Graph.Built G → G.AddVertex index enumeration_index community color = some G' →
      Graph.Built G'
  | addEdge {G G' : Graph} (source_index destination_index : Int) (weight : Rat) (color : Int) :
      Graph.Built G → G.AddEdge source_index destination_index weight color = some G' →
      Graph.Built G'

/-- One construction step of a graph. -/
inductive GraphOp where
  | vertex (index enumeration_index community color : Int)
  | edge (source_index destination_index : Int) (weight : Rat) (color : Int)
deriving DecidableEq, Repr

/-- Run a sequence of `AddVertex` and `AddEdge` calls. -/
def Graph.build (G : Graph) : List GraphOp → Option Graph
  | [] => some G
  | GraphOp.vertex i e c col :: ops =>
    match G.AddVertex i e c col with
    | none => none
    | some G' => G'.build ops
  | GraphOp.edge s d w col :: ops =>
    match G.AddEdge s d w col with
    | none => none
    | some G' => G'.build ops

/-- `G->vertices[v]->neighbors` (empty for an id the graph does not hold, where
the source would dereference a null pointer). -/
def Graph.neighbors (G : Graph) (v : Int) : List Int :=
  match mapFind G.vertices v with
  | some x => x.neighbors
  | none => []

/-- `G->vertices[v]->outgoing_neighbors`. -/
def Graph.outgoing_neighbors (G : Graph) (v : Int) : List Int :=
  match mapFind G.vertices v with
  | some x => x.outgoing_neighbors
  | none => []

/-- `G->vertices[v]->incoming_neighbors`. -/
def Graph.incoming_neighbors (G : Graph) (v : Int) : List Int :=
  match mapFind G.vertices v with
  | some x => x.incoming_neighbors
  | none => []

/-- `G->vertices[v]->enumeration_index`. -/
def Graph.enumeration_index (G : Graph) (v : Int) : Int :=
  match mapFind G.vertices v with
  | some x => x.enumeration_index
  | none => 0

/-- `G->vertices[v]->community`. -/
def Graph.community (G : Graph) (v : Int) : Int :=
  match mapFind G.vertices v with
  | some x => x.community
  | none => 0

/-- `G->vertices[v]->color`. -/
def Graph.color (G : Graph) (v : Int) : Int :=
  match mapFind G.vertices v with
  | some x => x.color
  | none => 0

/-- `G->edges.find(pair) != G->edges.end()`. -/
def Graph.hasEdge (G : Graph) (a b : Int) : Bool :=
  (mapFind G.edges (a, b)).isSome

/-- `G->edges[pair]->color`. -/
def Graph.edgeColor (G : Graph) (a b : Int) : Int :=
  match mapFind G.edges (a, b) with
  | some e => e.color
  | none => 0

/-- `G->vertices.find(u) != G->vertices.end()`. -/
def Graph.hasVertex (G : Graph) (u : Int) : Bool :=
  (mapFind G.vertices u).isSome

/-- The vertex ids in the order in which a loop walks `G->vertices`
(a `std::map`: ascending key). -/
def Graph.vertexIds (G : Graph) : List Int :=
  (G.vertices.map Prod.fst).insertionSort (fun a b => a ≤ b)

/-! ## The canonicalizer workspace (`cpp-nauty.cpp`) -/

/-- The nauty word size of the build the source targets (`setword` is 64 bits). -/
def WORDSIZE : Nat := 64

/-- The nauty table `bit[pos]`: position 0 is the most significant bit of a
`setword`. -/
def bit (pos : Nat) : Nat := 2 ^ (WORDSIZE - 1 - pos)

/-- The nauty macro `ADDELEMENT(GRAPHROW(matrix, v, m), pos)`. -/
def ADDELEMENT (matrix : List Nat) (m v pos : Nat) : List Nat :=
  List.modify (fun w => w ||| bit (pos % WORDSIZE)) (m * v + pos / WORDSIZE) matrix

/-- The test `ISELEMENT(GRAPHROW(matrix, v, m), pos)` of nauty: is there an
arc from `v` to `pos`. -/
def ISELEMENT (matrix : List Nat) (m v pos : Nat) : Bool :=
  Nat.testBit (matrix.getD (m * v + pos / WORDSIZE) 0) (WORDSIZE - 1 - pos % WORDSIZE)

/-- The nauty macro `EMPTYGRAPH(matrix, m, n)`. -/
def EMPTYGRAPH (m n : Nat) : List Nat := List.replicate (m * n) 0

/-- `class NyGraph`: the fields the enumerator reads or writes.  Memory that
`malloc` leaves unset is taken to hold zeros. -/
structure NyGraph where
  no_vertices : Nat
  colored : Bool
  no_setwords : Nat
  matrix : List Nat
  cmatrix : List Nat
  lab : List Nat
  ptn : List Nat
deriving DecidableEq, Repr

/-- `NyGraph::NyGraph`. -/
def NyGraph.new (no_vertices : Nat) (colored : Bool) : NyGraph :=
  let no_setwords := (no_vertices + WORDSIZE - 1) / WORDSIZE
  { no_vertices := no_vertices, colored := colored, no_setwords := no_setwords,
    matrix := EMPTYGRAPH no_setwords no_vertices,
    cmatrix := List.replicate (no_setwords * no_vertices) 0,
    lab := List.replicate no_vertices 0,
    ptn := List.replicate no_vertices 0 }

/-- What a call of `densenauty` leaves in `lab`, `ptn` and `cmatrix`. -/
structure NautyResult where
  lab : List Nat
  ptn : List Nat
  cmatrix : List Nat
deriving DecidableEq, Repr

/-- The library routine `densenauty(matrix, lab, ptn, orbits, options, stats,
m, n, cmatrix)`; of the options only `defaultptn` varies (`digraph` and
`getcanon` are always set). -/
abbrev Densenauty : Type :=
  (matrix lab ptn : List Nat) → (defaultptn : Bool) → (m n : Nat) → NautyResult

/-! ## The enumerator (`cpp-enumerate.cpp`) -/

/-- The global parameter flags. -/
structure Flags where
  VERTEX_COLORED : Bool
  EDGE_COLORED : Bool
  COMMUNITY_BASED : Bool
  WRITE_SUBGRAPHS : Bool
deriving DecidableEq, Repr

/-- What the enumerator reads and never writes: the flags, the iteration order
of unordered sets and the canonicalizer. -/
structure Env where
  flags : Flags
  it : IterOrder
  densenauty : Densenauty

/-- The mutable state of one enumeration: the arguments `S` and `visited`
passed by reference, and the globals `nauty_graph`, `nvertex_layers`,
`certificates`, `enumerated_subgraphs` and the text sent to `subgraph_fp`.
`emitted` is a ghost log: each pass through the `rem == 0` branch appends the
level sets `S[0], ..., S[i-1]` it found, as walked by the loop that numbers the
vertices.  `calls` is a second ghost log: each pass appends the workspace as
it is handed to `densenauty`. -/
structure EnumState where
  S : Nat → List Int
  visited : List Int
  nauty_graph : NyGraph
  nvertex_layers : Nat
  certificates : List (List Nat × Nat)
  enumerated_subgraphs : Nat
  subgraph_lines : List (List Nat × List Int)
  emitted : List (List (List Int))
  calls : List NyGraph

/-- One pass of the inner loop of `Validate`: the neighbour `w` of parent `v`. -/
def ValidateStep (env : Env) (G : Graph) (u v : Int) (acc : List Int × List Int) (w : Int) :
    List Int × List Int :=
  if env.flags.COMMUNITY_BASED && decide (G.community v ≠ G.community w) then acc
  else if decide (G.enumeration_index u ≤ G.enumeration_index w) && decide (w ∉ acc.2) then
    (setInsert acc.1 w, setInsert acc.2 w)
  else acc

/-- The two loops of `Validate`, on the pair `(valid_vertices, visited)`. -/
def ValidateLoop (env : Env) (G : Graph) (parents : List Int) (u : Int)
    (acc : List Int × List Int) : List Int × List Int :=
  (env.it.iter parents).foldl
    (fun acc v => (env.it.iter (G.neighbors v)).foldl (ValidateStep env G u v) acc) acc

/-- `Validate`: returns `valid_vertices_vector` and the updated `visited`. -/
def Validate (env : Env) (G : Graph) (parents : List Int) (u : Int) (visited : List Int) :
    List Int × List Int :=
  let r := ValidateLoop env G parents u ([], visited)
  (env.it.iter r.1, r.2)

/-- `Combination`.  `rest` holds `vertices[vertex_index ..]` and `combination`
the slots `combination[0 .. combo_index)`; `next` is the call
`EnumerateVertex(G, u, S, rem - k_i, i + 1, visited)`. -/
def Combination (next : EnumState → EnumState) (i r : Nat) :
    List Int → List Int → EnumState → EnumState
  | rest, combination, st =>
    if combination.length = r then
      next { st with S := Function.update st.S i (combination.foldl setInsert []) }
    else
      match rest with
      | [] => st
      | v :: rest' =>
        let st1 := Combination next i r rest' (combination ++ [v]) st
        Combination next i r rest' combination st1

/-- `Combinations`. -/
def Combinations (next : EnumState → EnumState) (i : Nat) (vertices : List Int) (r : Nat)
    (st : EnumState) : EnumState :=
  Combination next i r vertices [] st

/-- The loop numbering the subgraph vertices: `index_to_vertex` as the list of
its values at `0, 1, ..., k - 1`, level by level. -/
def levelSets (env : Env) (S : Nat → List Int) (i : Nat) : List (List Int) :=
  (List.range i).map (fun level => env.it.iter (S level))

/-- `index_to_vertex[x]` (a `std::map`: a missing key reads as 0). -/
def lookupVertex (index_to_vertex : List Int) (x : Nat) : Int :=
  index_to_vertex.getD x 0

/-- The map `coloring` (colour to the subgraph indices of that colour, in
increasing index order), filled only when `VERTEX_COLORED`. -/
def buildColoring (G : Graph) (index_to_vertex : List Int) : List (Int × List Nat) :=
  (List.range index_to_vertex.length).foldl
    (fun coloring index =>
      let color := G.color (lookupVertex index_to_vertex index)
      match mapFind coloring color with
      | none => mapSet coloring color [index]
      | some vec => mapSet coloring color (vec ++ [index]))
    []

/-- `index_to_coloring[x]`, filled only when `VERTEX_COLORED`. -/
def lookupColoring (flags : Flags) (G : Graph) (index_to_vertex : List Int) (x : Nat) : Int :=
  if flags.VERTEX_COLORED && decide (x < index_to_vertex.length) then
    G.color (lookupVertex index_to_vertex x)
  else 0

/-- The loop creating the cycle that links the layers (`EDGE_COLORED` only). -/
def addLayerCycle (ng : NyGraph) (nvertex_layers k : Nat) : List Nat :=
  (List.range nvertex_layers).foldl
    (fun matrix il =>
      (List.range k).foldl
        (fun matrix iv =>
          let current_vertex_layer_index := iv + il * k
          let next_vertex_layer_index :=
            if il = nvertex_layers - 1 then iv else iv + (il + 1) * k
          ADDELEMENT matrix ng.no_setwords current_vertex_layer_index next_vertex_layer_index)
        matrix)
    ng.matrix

/-- Conversion of an integer to `int8_t`. -/
def toInt8 (x : Int) : Int := (x + 128) % 256 - 128

/-- The loop `while (color)` that adds an edge on the layer of each set bit of
`color`; `/` and `%` round towards zero as in C, and eight rounds exhaust an
`int8_t`. -/
def addColoredEdge (m k out_index in_index : Nat) :
    Nat → Int → Nat → List Nat → List Nat
  | 0, _, _, matrix => matrix
  | fuel + 1, color, current_layer, matrix =>
    if color = 0 then matrix
    else
      let matrix1 :=
        if Int.tmod color 2 ≠ 0 then
          ADDELEMENT matrix m (out_index + current_layer * k) (in_index + current_layer * k)
        else matrix
      addColoredEdge m k out_index in_index fuel (Int.tdiv color 2) (current_layer + 1) matrix1

/-- The double loop over `out_index` and `in_index` that copies the induced
edges into the nauty matrix. -/
def addInducedEdges (flags : Flags) (G : Graph) (index_to_vertex : List Int)
    (m nvertex_layers k : Nat) (matrix : List Nat) : List Nat :=
  (List.range k).foldl
    (fun matrix out_index =>
      let out_vertex := lookupVertex index_to_vertex out_index
      (List.range k).foldl
        (fun matrix in_index =>
          let in_vertex := lookupVertex index_to_vertex in_index
          if in_vertex ∈ G.outgoing_neighbors out_vertex then
            if flags.EDGE_COLORED && decide (nvertex_layers > 1) then
              addColoredEdge m k out_index in_index 8
                (toInt8 (G.edgeColor out_vertex in_vertex + 1)) 0 matrix
            else ADDELEMENT matrix m out_index in_index
          else matrix)
        matrix)
    matrix

/-- The `EDGE_COLORED` setting of `lab` and `ptn`: one cell per layer. -/
def setLayerPartition (nvertex_layers k : Nat) (lab ptn : List Nat) : List Nat × List Nat :=
  let r := (List.range nvertex_layers).foldl
    (fun (acc : Nat × List Nat × List Nat) il =>
      let r := (List.range k).foldl
        (fun (acc : Nat × List Nat × List Nat) iv =>
          (acc.1 + 1, acc.2.1.set acc.1 (iv + il * k), acc.2.2.set acc.1 1))
        acc
      (r.1, r.2.1, r.2.2.set (r.1 - 1) 0))
    (0, lab, ptn)
  (r.2.1, r.2.2)

/-- The entries of a `std::map` with integer keys in the order a loop walks
them (ascending key). -/
def mapEntries {β : Type} (m : List (Int × β)) : List (Int × β) :=
  m.insertionSort (fun a b => a.1 ≤ b.1)

/-- The `VERTEX_COLORED` setting of `lab` and `ptn`: one cell per colour, the
colours in ascending order. -/
def setColorPartition (coloring : List (Int × List Nat)) (lab ptn : List Nat) :
    List Nat × List Nat :=
  let r := (mapEntries coloring).foldl
    (fun (acc : Nat × List Nat × List Nat) entry =>
      let r := entry.2.foldl
        (fun (acc : Nat × List Nat × List Nat) vertex_index =>
          (acc.1 + 1, acc.2.1.set acc.1 vertex_index, acc.2.2.set acc.1 1))
        acc
      (r.1, r.2.1, r.2.2.set (r.1 - 1) 0))
    (0, lab, ptn)
  (r.2.1, r.2.2)

/-- The eight bytes of a `setword` as `memcpy` lays them out (little-endian
host). -/
def setwordBytes (w : Nat) : List Nat :=
  (List.range 8).map (fun b => (w / 2 ^ (8 * b)) % 256)

/-- The loop that keeps byte 7 of every 8-byte word among the first `nbytes`
bytes of a matrix. -/
def keptBytes (matrix : List Nat) (nbytes : Nat) : List Nat :=
  let certificate_bytes := (matrix.flatMap setwordBytes).take nbytes
  (List.range nbytes).filterMap
    (fun iv => if iv % 8 ≠ 7 then none else some (certificate_bytes.getD iv 0))

/-- Conversion of an integer to `unsigned char`. -/
def toByte (x : Int) : Nat := (x % 256).toNat

/-- The `EDGE_COLORED` walk over the ordered pairs of `vertex_ordering`:
returns `edge_colors` and the matrix of the condensed graph. -/
def condense (G : Graph) (vertex_ordering : List Int) (k : Nat) (cg : NyGraph) :
    List Int × List Nat :=
  (List.range k).foldl
    (fun acc iv1 =>
      let vertex_one := lookupVertex vertex_ordering iv1
      (List.range k).foldl
        (fun acc iv2 =>
          let vertex_two := lookupVertex vertex_ordering iv2
          if !G.hasEdge vertex_one vertex_two then acc
          else (acc.1 ++ [G.edgeColor vertex_one vertex_two],
                ADDELEMENT acc.2 cg.no_setwords iv1 iv2))
        acc)
    ([], cg.matrix)

/-- The two bytes appended for one vertex colour: `(color << 8 * ib) >> 8`
cut to `unsigned char`, for `ib = 0, 1`. -/
def colorBytes (color : Int) : List Nat :=
  (List.range 2).map (fun ib => toByte ((color * 2 ^ (8 * ib)) / 2 ^ 8))

/-- The certificate string built after the call of `densenauty`. -/
def buildCertificate (flags : Flags) (G : Graph) (index_to_vertex : List Int) (k : Nat)
    (ng : NyGraph) : List Nat :=
  if flags.EDGE_COLORED then
    let vertex_ordering := (List.range k).map
      (fun iv => lookupVertex index_to_vertex (ng.lab.getD iv 0))
    let condensed_nauty_graph := NyGraph.new k false
    let r := condense G vertex_ordering k condensed_nauty_graph
    let nbytes := condensed_nauty_graph.no_vertices * condensed_nauty_graph.no_setwords * 8
    keptBytes r.2 nbytes ++ r.1.map toByte
  else
    let nbytes := ng.no_vertices * ng.no_setwords * 8
    let base := keptBytes ng.cmatrix nbytes
    if flags.VERTEX_COLORED then
      base ++ (List.range k).flatMap
        (fun iv => colorBytes (lookupColoring flags G index_to_vertex (ng.lab.getD iv 0)))
    else base

/-- The vertices of the subgraph in canonical order: `vertex_ordering` of the
`EDGE_COLORED` branch. -/
def vertexOrdering (index_to_vertex : List Int) (k : Nat) (ng : NyGraph) : List Int :=
  (List.range k).map (fun iv => lookupVertex index_to_vertex (ng.lab.getD iv 0))

/-- The base part of the certificate: the bytes the loops over
`certificate_bytes` push. -/
def certificateBase (flags : Flags) (G : Graph) (index_to_vertex : List Int) (k : Nat)
    (ng : NyGraph) : List Nat :=
  if flags.EDGE_COLORED then
    let condensed_nauty_graph := NyGraph.new k false
    let r := condense G (vertexOrdering index_to_vertex k ng) k condensed_nauty_graph
    keptBytes r.2 (condensed_nauty_graph.no_vertices * condensed_nauty_graph.no_setwords * 8)
  else keptBytes ng.cmatrix (ng.no_vertices * ng.no_setwords * 8)

/-- The colour appendix of the certificate: the bytes the loops after
`// add the edge coloring to the certificate` push. -/
def colorAppendix (flags : Flags) (G : Graph) (index_to_vertex : List Int) (k : Nat)
    (ng : NyGraph) : List Nat :=
  if flags.EDGE_COLORED then
    (condense G (vertexOrdering index_to_vertex k ng) k (NyGraph.new k false)).1.map toByte
  else if flags.VERTEX_COLORED then
    (List.range k).flatMap
      (fun iv => colorBytes (lookupColoring flags G index_to_vertex (ng.lab.getD iv 0)))
  else []

/-- The nauty workspace as handed to `densenauty`: the matrix with the layer
cycle and the induced edges added, `lab` and `ptn` set for the colouring. -/
def prepareNauty (flags : Flags) (G : Graph) (index_to_vertex : List Int)
    (nvertex_layers : Nat) (ng : NyGraph) : NyGraph :=
  let k := index_to_vertex.length
  let matrix1 := if flags.EDGE_COLORED then addLayerCycle ng nvertex_layers k else ng.matrix
  let matrix2 := addInducedEdges flags G index_to_vertex ng.no_setwords nvertex_layers k matrix1
  let labptn :=
    if flags.EDGE_COLORED then setLayerPartition nvertex_layers k ng.lab ng.ptn
    else if flags.VERTEX_COLORED then
      setColorPartition (buildColoring G index_to_vertex) ng.lab ng.ptn
    else (ng.lab, ng.ptn)
  { ng with matrix := matrix2, lab := labptn.1, ptn := labptn.2 }

/-- The call of `densenauty` on the prepared workspace. -/
def callNauty (env : Env) (ng : NyGraph) : NyGraph :=
  let r := env.densenauty ng.matrix ng.lab ng.ptn (!ng.colored) ng.no_setwords ng.no_vertices
  { ng with lab := r.lab, ptn := r.ptn, cmatrix := r.cmatrix }

/-- The certificate the `rem == 0` branch computes for the subgraph numbered
by `index_to_vertex`. -/
def subgraphCertificate (env : Env) (G : Graph) (index_to_vertex : List Int)
    (nvertex_layers : Nat) (ng : NyGraph) : List Nat :=
  buildCertificate env.flags G index_to_vertex index_to_vertex.length
    (callNauty env (prepareNauty env.flags G index_to_vertex nvertex_layers ng))

/-- The `rem == 0` branch of `EnumerateVertex`. -/
def emitSubgraph (env : Env) (G : Graph) (st : EnumState) (i : Nat) : EnumState :=
  let levels := levelSets env st.S i
  let index_to_vertex := levels.flatten
  let k := index_to_vertex.length
  let ng := callNauty env (prepareNauty env.flags G index_to_vertex st.nvertex_layers st.nauty_graph)
  let certificate := buildCertificate env.flags G index_to_vertex k ng
  let certificates :=
    match mapFind st.certificates certificate with
    | none => mapSet st.certificates certificate 1
    | some n => mapSet st.certificates certificate (n + 1)
  let subgraph_lines :=
    if env.flags.WRITE_SUBGRAPHS then
      st.subgraph_lines ++
        [(certificate, (List.range k).map (fun iv => lookupVertex index_to_vertex (ng.lab.getD iv 0)))]
    else st.subgraph_lines
  { st with
    nauty_graph := { ng with matrix := EMPTYGRAPH ng.no_setwords ng.no_vertices }
    certificates := certificates
    enumerated_subgraphs := st.enumerated_subgraphs + 1
    subgraph_lines := subgraph_lines
    emitted := st.emitted ++ [levels]
    calls := st.calls ++
      [prepareNauty env.flags G index_to_vertex st.nvertex_layers st.nauty_graph] }

/-- `EnumerateVertex`.  Every recursive call lowers `rem` by at least one, so
`fuel` bounds the depth of the recursion: `fuel ≥ rem` never runs out. -/
def EnumerateVertex (env : Env) (G : Graph) (u : Int) :
    Nat → EnumState → Nat → Nat → EnumState
  | _, st, 0, i => emitSubgraph env G st i
  | 0, st, _ + 1, _ => st
  | fuel + 1, st, rem + 1, i =>
    let r := Validate env G (st.S (i - 1)) u st.visited
    let valid_vertices := r.1
    let st1 := { st with visited := r.2 }
    let n_i := min valid_vertices.length (rem + 1)
    let st2 := (List.range' 1 n_i).foldl
      (fun st k_i =>
        Combinations (fun st => EnumerateVertex env G u fuel st (rem + 1 - k_i) (i + 1))
          i valid_vertices k_i st)
      st1
    { st2 with visited := valid_vertices.foldl setErase st2.visited }

/-- The layer count `(long) ceil(log2(G->nedge_types + 1))`. -/
def layerCount (nedge_types : Int) : Nat := Nat.clog 2 (nedge_types + 1).toNat

/-- The state in which `EnumerateSubgraphsFromNode` makes its call of
`EnumerateVertex`. -/
def initialState (flags : Flags) (G : Graph) (k : Nat) (u : Int) : EnumState :=
  let nvertex_layers := if flags.EDGE_COLORED then layerCount G.nedge_types else 1
  let nauty_graph :=
    if flags.EDGE_COLORED then NyGraph.new (nvertex_layers * k) true
    else if flags.VERTEX_COLORED then NyGraph.new k true
    else NyGraph.new k false
  { S := Function.update (fun _ => []) 0 (setInsert [] u)
    visited := setInsert [] u
    nauty_graph := nauty_graph
    nvertex_layers := nvertex_layers
    certificates := []
    enumerated_subgraphs := 0
    subgraph_lines := []
    emitted := []
    calls := [] }

/-- The two digits `%02x` prints for a byte. -/
def hexByte (b : Nat) : String :=
  String.mk [Nat.digitChar (b / 16 % 16), Nat.digitChar (b % 16)]

/-- The entries of `certificates` in the order a loop walks the `std::map`:
ascending byte strings. -/
def certificateEntries (certificates : List (List Nat × Nat)) : List (List Nat × Nat) :=
  certificates.insertionSort (fun a b => a.1 ≤ b.1)

/-- The lines written to `certificate_fp` for one root, the summary line left
out (it carries the running time). -/
def certificateLines (certificates : List (List Nat × Nat)) : List String :=
  (certificateEntries certificates).map
    (fun entry => String.join (entry.1.map hexByte) ++ ": " ++ toString entry.2 ++ "\n")

/-- `EnumerateSubgraphsFromNode`: the state when the enumeration of root `u`
is over, or `none` when one of the two assertions fails. -/
def EnumerateSubgraphsFromNode (env : Env) (G : Graph) (k : Nat) (u : Int) : Option EnumState :=
  let st := initialState env.flags G k u
  if !G.hasVertex u then none
  else if st.nauty_graph.no_setwords ≠ 1 then none
  else some (EnumerateVertex env G u (k - 1) st (k - 1) 1)

/-- The loop `for (...) EnumerateSubgraphsFromNode(G, k, u)` over a list of
roots: the final state of every root, or `none` when a root aborts. -/
def enumerateRoots (env : Env) (G : Graph) (k : Nat) : List Int → Option (List EnumState)
  | [] => some []
  | u :: rest =>
    match EnumerateSubgraphsFromNode env G k u with
    | none => none
    | some st =>
      match enumerateRoots env G k rest with
      | none => none
      | some sts => some (st :: sts)

/-- The loop of `CppEnumerateSubgraphsSequentially` over the vertices of the
graph. -/
def EnumerateSubgraphsSequentially (env : Env) (G : Graph) (k : Nat) : Option (List EnumState) :=
  enumerateRoots env G k G.vertexIds

/-- The number of vertices of the nauty graph that
`EnumerateSubgraphsFromNode` allocates for motif size `k`. -/
def nautyVertices (flags : Flags) (G : Graph) (k : Nat) : Nat :=
  if flags.EDGE_COLORED then layerCount G.nedge_types * k else k

/-! ## Notions the statements are about -/

/-- The graph has an edge between `a` and `b`, in either direction: an entry
of the edge index under `(a, b)` or under `(b, a)`. -/
def Graph.adjacent (G : Graph) (a b : Int) : Prop :=
  G.hasEdge a b = true ∨ G.hasEdge b a = true

/-- The subgraph of `G` induced by the vertex set `H` is connected: any two
vertices of `H` are joined by a walk that stays in `H`, edges being usable in
either direction. -/
def Graph.InducedConnected (G : Graph) (H : Finset Int) : Prop :=
  ∀ a ∈ H, ∀ b ∈ H,
    Relation.ReflTransGen (fun x y => x ∈ H ∧ y ∈ H ∧ G.adjacent x y) a b

/-- The vertex ids of the graph, as a finite set. -/
def Graph.vertexSet (G : Graph) : Finset Int := (G.vertices.map Prod.fst).toFinset

/-- The enumeration indices of the graph are pairwise distinct. -/
def Graph.UniqueEnumeration (G : Graph) : Prop :=
  ∀ a ∈ G.vertexSet, ∀ b ∈ G.vertexSet,
    G.enumeration_index a = G.enumeration_index b → a = b

instance (G : Graph) : Decidable G.UniqueEnumeration := by
  unfold Graph.UniqueEnumeration
  infer_instance

/-- The vertex set of an emitted subgraph, given by its level sets. -/
def subgraphVertices (levels : List (List Int)) : Finset Int := levels.flatten.toFinset

/-- The number of times `EnumerateSubgraphsFromNode(G, k, u)` emits a subgraph
with vertex set `H` (none when an assertion aborts the run). -/
def emissionCount (env : Env) (G : Graph) (k : Nat) (u : Int) (H : Finset Int) : Nat :=
  match EnumerateSubgraphsFromNode env G k u with
  | none => 0
  | some st => (st.emitted.map subgraphVertices).count H

/-- The vertices of `H` whose enumeration index is the minimum over `H`. -/
def minimalVertices (G : Graph) (H : Finset Int) : Finset Int :=
  H.filter (fun v => ∀ w ∈ H, G.enumeration_index v ≤ G.enumeration_index w)

/-- What holds of every graph built by `AddVertex` and `AddEdge`: the
neighbour sets of the vertices mirror the edge index. -/
structure Graph.WellFormed (G : Graph) : Prop where
  index_eq : ∀ key v, mapFind G.vertices key = some v → v.index = key
  keys_nodup : (G.vertices.map Prod.fst).Nodup
  neighbors_iff : ∀ a b, b ∈ G.neighbors a ↔ G.adjacent a b
  outgoing_iff : ∀ a b, b ∈ G.outgoing_neighbors a ↔ G.hasEdge a b = true
  incoming_iff : ∀ a b, b ∈ G.incoming_neighbors a ↔ G.hasEdge b a = true
  edge_vertices : ∀ a b, G.hasEdge a b = true → G.hasVertex a = true ∧ G.hasVertex b = true
  no_loop : ∀ a, G.hasEdge a a = false
  undirected_symm : G.directed = false → ∀ a b, G.hasEdge a b = true → G.hasEdge b a = true
  neighbors_nodup : ∀ a, (G.neighbors a).Nodup

/-- The test `Validate` applies to a neighbour `w` of the parent `v` before
looking at `visited`: same community as `v` (in community mode) and an
enumeration index not below that of the root `u`. -/
def Admissible (env : Env) (G : Graph) (u v w : Int) : Prop :=
  (env.flags.COMMUNITY_BASED = true → G.community v = G.community w) ∧
  G.enumeration_index u ≤ G.enumeration_index w

/-- The combinations `Combination` reaches, in the order it reaches them:
`rest` and `combination` as in `Combination`. -/
def combinationsFrom (r : Nat) : List Int → List Int → List (List Int)
  | rest, combination =>
    if combination.length = r then [combination]
    else
      match rest with
      | [] => []
      | v :: rest' =>
        combinationsFrom r rest' (combination ++ [v]) ++ combinationsFrom r rest' combination

/-- The set `S[i]` that `Combination` builds from a finished combination. -/
def levelOf (combination : List Int) : List Int := combination.foldl setInsert []

/-- The level sets `S[i], S[i+1], ...` of the subgraphs that
`EnumerateVertex` emits when called with `S[i-1] = parents`, the given
`visited` set and budget `rem`: one list of level sets per pass through the
`rem == 0` branch, in the order of the passes. -/
def levelTails (env : Env) (G : Graph) (u : Int) :
    Nat → List Int → List Int → Nat → List (List (List Int))
  | _, _, _, 0 => [[]]
  | 0, _, _, _ + 1 => []
  | fuel + 1, parents, visited, rem + 1 =>
    let r := Validate env G parents u visited
    (List.range' 1 (min r.1.length (rem + 1))).flatMap
      (fun k_i => (combinationsFrom k_i r.1 []).flatMap
        (fun c => (levelTails env G u fuel (levelOf c) r.2 (rem + 1 - k_i)).map
          (fun tail => levelOf c :: tail)))

/-- The state transformer `f` (a piece of the enumeration at depth `i`, entered
with level sets `S0` below `i` and visited set `v0`) leaves `visited` and the
level sets below `i` as they were, appends exactly `L` to the log of emitted
subgraphs and counts them in `enumerated_subgraphs`. -/
def Emits (S0 : Nat → List Int) (v0 : List Int) (i : Nat) (f : EnumState → EnumState)
    (L : List (List (List Int))) : Prop :=
  ∀ st : EnumState, (∀ j, j < i → st.S j = S0 j) → st.visited = v0 →
    (f st).visited = v0 ∧ (∀ j, j < i → (f st).S j = S0 j) ∧
    (f st).emitted = st.emitted ++ L ∧
    (f st).enumerated_subgraphs = st.enumerated_subgraphs + L.length

/-- The level sets `tail` grow out of `parents` level by level: every level is
non-empty and each of its vertices is an admissible neighbour of a vertex of
the level before. -/
def LevelChain (env : Env) (G : Graph) (u : Int) : List Int → List (List Int) → Prop
  | _, [] => True
  | parents, level :: rest =>
    level ≠ [] ∧
    (∀ w ∈ level, ∃ v ∈ parents, w ∈ G.neighbors v ∧ Admissible env G u v w) ∧
    LevelChain env G u level rest

/-- The enumeration may step from `v` to `w`: `w` is a neighbour of `v`, of
the same community when the enumeration is community based. -/
def Expands (env : Env) (G : Graph) (v w : Int) : Prop :=
  w ∈ G.neighbors v ∧ (env.flags.COMMUNITY_BASED = true → G.community v = G.community w)

/-- The vertex `t` of `T` is reached from the level `parents` along steps of
the enumeration that all end in `T`. -/
inductive ReachVia (env : Env) (G : Graph) (T : Finset Int) (parents : List Int) : Int → Prop
  | base {p t : Int} : p ∈ parents → t ∈ T → Expands env G p t → ReachVia env G T parents t
  | step {s t : Int} : ReachVia env G T parents s → t ∈ T → Expands env G s t →
      ReachVia env G T parents t

/-! ## The canonicalizer contract and isomorphic subgraphs -/

/-- Entry `(x, y)` of an adjacency matrix held with one setword per row. -/
def matrixBit (matrix : List Nat) (x y : Nat) : Bool := ISELEMENT matrix 1 x y

/-- The number of the cell of the partition `ptn` in which position `p` lies:
the number of cell ends (entries 0) before `p`. -/
def cellAt (ptn : List Nat) (p : Nat) : Nat :=
  ((ptn.take p).filter (fun x => decide (x = 0))).length

/-- Two inputs of the canonicalizer are isomorphic partitioned digraphs: a
renumbering `σ` of the vertices carries the arcs of `x` onto the arcs of `y`
and, when a partition is given (`colored`), every cell of `x` into the cell
of `y` with the same number. -/
def IsomorphicInputs (x y : NyGraph) : Prop :=
  ∃ σ : Nat → Nat,
    (∀ v, v < x.no_vertices → σ v < x.no_vertices) ∧
    (∀ v w, v < x.no_vertices → w < x.no_vertices → σ v = σ w → v = w) ∧
    (∀ v w, v < x.no_vertices → w < x.no_vertices →
      matrixBit y.matrix (σ v) (σ w) = matrixBit x.matrix v w) ∧
    (x.colored = true → ∀ p, p < x.no_vertices → ∃ q, q < x.no_vertices ∧
      y.lab.getD q 0 = σ (x.lab.getD p 0) ∧ cellAt y.ptn q = cellAt x.ptn p)

/-- The output `out` of the canonicalizer fits its input `x`: `lab` is a
permutation of the vertices that keeps the cells of the input partition in
their positions, and the canonical matrix is the input matrix renumbered by
`lab`. -/
def CanonicalOutput (x out : NyGraph) : Prop :=
  (∀ p, p < x.no_vertices → out.lab.getD p 0 < x.no_vertices) ∧
  (∀ p q, p < x.no_vertices → q < x.no_vertices →
    out.lab.getD p 0 = out.lab.getD q 0 → p = q) ∧
  (x.colored = true → ∀ p, p < x.no_vertices → ∃ q, q < x.no_vertices ∧
    x.lab.getD q 0 = out.lab.getD p 0 ∧ cellAt x.ptn q = cellAt x.ptn p) ∧
  (∀ p q, p < x.no_vertices → q < x.no_vertices →
    matrixBit out.cmatrix p q = matrixBit x.matrix (out.lab.getD p 0) (out.lab.getD q 0))

/-- The canonicalizer meets its contract at the two calls made for the inputs
`x` and `y`: both outputs fit their inputs, and the canonical matrices are the
same when the inputs are isomorphic partitioned digraphs. -/
def MeetsContractAt (env : Env) (x y : NyGraph) : Prop :=
  CanonicalOutput x (callNauty env x) ∧ CanonicalOutput y (callNauty env y) ∧
  (IsomorphicInputs x y → (callNauty env x).cmatrix = (callNauty env y).cmatrix)

/-- The map `φ` is a colour-preserving isomorphism from the subgraph induced
on the vertices `A` onto the one induced on `B`: a bijection that keeps the
arcs, the edge colours in edge-coloured mode and the vertex colours in
vertex-coloured mode. -/
def ColorIso (flags : Flags) (G : Graph) (A B : List Int) (φ : Int → Int) : Prop :=
  (∀ a ∈ A, φ a ∈ B) ∧
  (∀ a ∈ A, ∀ b ∈ A, φ a = φ b → a = b) ∧
  (∀ a ∈ A, ∀ b ∈ A, G.hasEdge (φ a) (φ b) = G.hasEdge a b) ∧
  (flags.EDGE_COLORED = true → ∀ a ∈ A, ∀ b ∈ A, G.hasEdge a b = true →
    G.edgeColor (φ a) (φ b) = G.edgeColor a b) ∧
  (flags.EDGE_COLORED = false → flags.VERTEX_COLORED = true →
    ∀ a ∈ A, G.color (φ a) = G.color a)

instance (flags : Flags) (G : Graph) (A B : List Int) (φ : Int → Int) :
    Decidable (ColorIso flags G A B φ) := by
  unfold ColorIso
  infer_instance

/-- The nauty workspace as the `rem == 0` branch finds it for a motif of `k`
vertices with `nvertex_layers` layers: dimensions as `EnumerateSubgraphsFromNode`
allocated them and passed its word-size assertion, the matrix empty, and
whatever an earlier call left in the `lab` and `ptn` arrays. -/
def EntryWorkspace (flags : Flags) (nvertex_layers k : Nat) (ng : NyGraph) : Prop :=
  ng.no_vertices = (if flags.EDGE_COLORED then nvertex_layers * k else k) ∧
  ng.no_setwords = 1 ∧
  ng.colored = (flags.EDGE_COLORED || flags.VERTEX_COLORED) ∧
  ng.matrix = EMPTYGRAPH 1 ng.no_vertices ∧
  ng.lab.length = ng.no_vertices ∧ ng.ptn.length = ng.no_vertices ∧
  1 ≤ ng.no_vertices ∧ ng.no_vertices ≤ 64

/-- The renumbering `π` of the subgraph indices carries the subgraph numbered
by `A` onto the one numbered by `B`: a bijection of `0, ..., k - 1` that keeps
the arcs, the edge colours in edge-coloured mode and the vertex colours in
vertex-coloured mode. -/
def IndexIso (flags : Flags) (G : Graph) (A B : List Int) (π : Nat → Nat) : Prop :=
  (∀ i, i < A.length → π i < A.length) ∧
  (∀ i j, i < A.length → j < A.length → π i = π j → i = j) ∧
  (∀ i j, i < A.length → j < A.length →
    G.hasEdge (lookupVertex B (π i)) (lookupVertex B (π j)) =
      G.hasEdge (lookupVertex A i) (lookupVertex A j)) ∧
  (flags.EDGE_COLORED = true → ∀ i j, i < A.length → j < A.length →
    G.hasEdge (lookupVertex A i) (lookupVertex A j) = true →
    G.edgeColor (lookupVertex B (π i)) (lookupVertex B (π j)) =
      G.edgeColor (lookupVertex A i) (lookupVertex A j)) ∧
  (flags.EDGE_COLORED = false → flags.VERTEX_COLORED = true → ∀ i, i < A.length →
    G.color (lookupVertex B (π i)) = G.color (lookupVertex A i))

/-- The marks `ptn` gets on a cell of `n` positions: 1 on all but the last,
0 on the last. -/
def cellMarks (n : Nat) : List Nat := List.replicate (n - 1) 1 ++ [0]

/-- The loop shared by `setLayerPartition` and `setColorPartition`: write the
cells one after the other into `lab`, and mark their ends in `ptn`. -/
def writeCells (cells : List (List Nat)) (acc : Nat × List Nat × List Nat) :
    Nat × List Nat × List Nat :=
  cells.foldl
    (fun (acc : Nat × List Nat × List Nat) cell =>
      let r := cell.foldl
        (fun (acc : Nat × List Nat × List Nat) vertex_index =>
          (acc.1 + 1, acc.2.1.set acc.1 vertex_index, acc.2.2.set acc.1 1))
        acc
      (r.1, r.2.1, r.2.2.set (r.1 - 1) 0))
    acc

/-- The colours of the map `coloring` in the order in which the loop over it
walks them. -/
def colorKeys (G : Graph) (index_to_vertex : List Int) : List Int :=
  (mapEntries (buildColoring G index_to_vertex)).map Prod.fst

/-- The matrix `M'` has the arcs of `M` and, besides, exactly the arcs `P`. -/
def BitsAdded (M M' : List Nat) (P : Nat → Nat → Prop) : Prop :=
  M'.length = M.length ∧
  ∀ x y, y < 64 → (matrixBit M' x y = true ↔ (matrixBit M x y = true ∨ P x y))

/-- The layers on which the loop `while (color)` of `addColoredEdge` adds an
edge. -/
def coloredLayers : Nat → Int → Nat → List Nat
  | 0, _, _ => []
  | fuel + 1, color, current_layer =>
    if color = 0 then []
    else
      (if Int.tmod color 2 ≠ 0 then [current_layer] else []) ++
        coloredLayers fuel (Int.tdiv color 2) (current_layer + 1)

/-- The edges among the vertices `A` carry colours in `0, ..., nedge_types - 1`
(and within `int8_t`, the type of the field `color`). -/
def ColorsInRange (G : Graph) (A : List Int) : Prop :=
  ∀ a ∈ A, ∀ b ∈ A, G.hasEdge a b = true →
    0 ≤ G.edgeColor a b ∧ G.edgeColor a b < G.nedge_types ∧ G.edgeColor a b ≤ 127

instance (G : Graph) (A : List Int) : Decidable (ColorsInRange G A) := by
  unfold ColorsInRange
  infer_instance

/-- The layered digraph of the subgraph numbered by `A` has an arc from the
copy of index `a` on layer `l` to the copy of index `b` on layer `m`: an arc
of the cycle that links the layers, or an edge put on layer `l` by its
colour. -/
def layeredArc (G : Graph) (A : List Int) (L a b l m : Nat) : Prop :=
  (a = b ∧ m = (if l = L - 1 then 0 else l + 1)) ∨
  (G.hasEdge (lookupVertex A a) (lookupVertex A b) = true ∧ l = m ∧
    (1 < L → l ∈ coloredLayers 8
      (toInt8 (G.edgeColor (lookupVertex A a) (lookupVertex A b) + 1)) 0))

/-- Byte 7 of a `setword` as `memcpy` lays it out: the byte the certificate
loop keeps. -/
def lastByte (w : Nat) : Nat := (setwordBytes w).getD 7 0

/-- A `k`-by-`k` adjacency matrix held with one 64-bit `setword` per row: `k`
words, with no bit set outside the columns `0, ..., k - 1`. -/
def IsAdjacencyMatrix (k : Nat) (M : List Nat) : Prop :=
  M.length = k ∧ ∀ w ∈ M, w < 2 ^ 64 ∧ ∀ j, j < 64 → k ≤ j → Nat.testBit w (63 - j) = false

instance (k : Nat) (M : List Nat) : Decidable (IsAdjacencyMatrix k M) := by
  unfold IsAdjacencyMatrix
  infer_instance

/-- The number of entries set in the upper left `k`-by-`k` block of a
matrix. -/
def setBitCount (M : List Nat) (k : Nat) : Nat :=
  ((List.range k).flatMap (fun i => (List.range k).filter (fun j => matrixBit M i j))).length

/-- The 16-bit signed value with high byte `hi` and low byte `lo`. -/
def decodeColor (hi lo : Nat) : Int :=
  ((hi : Int) * 256 + (lo : Int) + 32768) % 65536 - 32768

/-- The graph `G'` is `G` with the colour of one edge between `a` and `b`
changed, as far as the vertices `A` show: the same pairs are in the edge
index, the colour under `(a, b)` differs, the colour under every pair other
than `(a, b)` and `(b, a)` is the same, and the colour under `(b, a)` is
either unchanged (no such edge, or another edge) or that of the same edge
indexed under both orders. -/
def RecoloredEdge (G G' : Graph) (A : List Int) (a b : Int) : Prop :=
  a ∈ A ∧ b ∈ A ∧ G.hasEdge a b = true ∧ G'.edgeColor a b ≠ G.edgeColor a b ∧
  (∀ x ∈ A, ∀ y ∈ A, G'.hasEdge x y = G.hasEdge x y) ∧
  (∀ x ∈ A, ∀ y ∈ A, (x, y) ≠ (a, b) → (x, y) ≠ (b, a) →
    G'.edgeColor x y = G.edgeColor x y) ∧
  (G'.edgeColor b a = G.edgeColor b a ∨
    (G.edgeColor b a = G.edgeColor a b ∧ G'.edgeColor b a = G'.edgeColor a b))

instance (G G' : Graph) (A : List Int) (a b : Int) : Decidable (RecoloredEdge G G' A a b) := by
  unfold RecoloredEdge
  infer_instance

/-- The colour bytes of the pairs of vertices of `A` in the edge index, in
row-major order of `A`. -/
def edgeColorBytes (G : Graph) (A : List Int) : List Nat :=
  A.flatMap (fun x => A.filterMap (fun y =>
    if G.hasEdge x y = true then some (toByte (G.edgeColor x y)) else none))

/-- The canonicalizer writes `lab` and `ptn` in place: called on arrays of `n`
entries it leaves arrays of `n` entries. -/
def KeepsArrays (densenauty : Densenauty) : Prop :=
  ∀ (matrix lab ptn : List Nat) (defaultptn : Bool) (m n : Nat),
    lab.length = n → ptn.length = n →
    (densenauty matrix lab ptn defaultptn m n).lab.length = n ∧
    (densenauty matrix lab ptn defaultptn m n).ptn.length = n

/-- Every pass through the `rem == 0` branch so far found the workspace in a
state `Q`, and so does the next one: the log `calls` holds, for each emitted
subgraph, the workspace prepared from a `Q` state for the numbering of that
subgraph. -/
def CallsFrom (Q : NyGraph → Prop) (env : Env) (G : Graph) (L : Nat) (st : EnumState) : Prop :=
  st.nvertex_layers = L ∧ Q st.nauty_graph ∧
  List.Forall₂
    (fun levels x => ∃ ng, Q ng ∧ x = prepareNauty env.flags G levels.flatten L ng)
    st.emitted st.calls

/-- The matrix of the workspace is empty and has one word for each of its `n`
rows. -/
def MatrixEmpty (n : Nat) (ng : NyGraph) : Prop :=
  ng.no_vertices = n ∧ ng.no_setwords = 1 ∧ ng.matrix = EMPTYGRAPH 1 n

/-- The arrays `lab` and `ptn` hold the partition of the subgraph indices by
vertex colour: `lab` lists the indices `0, ..., k - 1`, each once, in
ascending order of colour; `ptn[p]` is 0 when `p` is the last position of its
colour group (the last position of all, or followed by another colour) and 1
otherwise; the zeros of `ptn` are as many as the distinct colours. -/
def ColorPartitioned (G : Graph) (index_to_vertex : List Int) (lab ptn : List Nat) : Prop :=
  lab.Perm (List.range index_to_vertex.length) ∧
  (lab.map (fun x => G.color (lookupVertex index_to_vertex x))).Sorted (fun a b => a ≤ b) ∧
  (∀ p, p < index_to_vertex.length →
    ptn.getD p 0 =
      if p + 1 = index_to_vertex.length ∨
          G.color (lookupVertex index_to_vertex (lab.getD p 0)) ≠
            G.color (lookupVertex index_to_vertex (lab.getD (p + 1) 0)) then 0
      else 1) ∧
  (ptn.filter (fun x => decide (x = 0))).length =
    ((index_to_vertex.map G.color).dedup).length ∧
  (0 < index_to_vertex.length → ptn.getD (index_to_vertex.length - 1) 0 = 0)

/-- A probe standing for the call of `EnumerateVertex` inside `Combination`:
it appends the set `S[i]` it is called with to the log `emitted` and counts
the call in `enumerated_subgraphs`. -/
def recordCall (i : Nat) (st : EnumState) : EnumState :=
  { st with
    emitted := st.emitted ++ [[st.S i]]
    enumerated_subgraphs := st.enumerated_subgraphs + 1 }

/-- The number of `AddEdge` calls in a sequence of construction steps. -/
def edgeOpCount (ops : List GraphOp) : Nat :=
  (ops.filter (fun op => match op with
    | GraphOp.edge _ _ _ _ => true
    | GraphOp.vertex _ _ _ _ => false)).length

/-- The certificates of the subgraphs emitted so far, in the order of
emission: for each pass through the `rem == 0` branch, the certificate built
from the numbering of the subgraph and from what `densenauty` returns for the
workspace handed to it. -/
def emittedCertificates (env : Env) (G : Graph) (st : EnumState) : List (List Nat) :=
  List.zipWith
    (fun levels x =>
      buildCertificate env.flags G levels.flatten levels.flatten.length (callNauty env x))
    st.emitted st.calls

/-- The map `certificates` counts the certificates of the subgraphs emitted
so far: one entry for each distinct certificate, holding the number of
emitted subgraphs with that certificate. -/
def CountsCertificates (env : Env) (G : Graph) (st : EnumState) : Prop :=
  st.emitted.length = st.calls.length ∧
  (st.certificates.map Prod.fst).Nodup ∧
  (∀ f, mapFind st.certificates f =
    if (emittedCertificates env G st).count f = 0 then none
    else some ((emittedCertificates env G st).count f)) ∧
  (st.certificates.map Prod.snd).sum = st.emitted.length

/-- The sixteen digits that `%02x` prints. -/
def hexDigits : List Char := "0123456789abcdef".toList

/-- The `lab` returned by the canonicalizer keeps the cells of the input
partition in their positions: the vertex at each position `p` of the output
comes from a position of the input that lies in the same cell as `p`. -/
def KeepsCells (x out : NyGraph) : Prop :=
  ∀ p, p < x.no_vertices → ∃ q, q < x.no_vertices ∧
    x.lab.getD q 0 = out.lab.getD p 0 ∧ cellAt x.ptn q = cellAt x.ptn p

/-- The graph `G'` is `G` with every vertex whose community differs from `c`
deleted, together with its edges: `G'` has the direction flag and the edge
types of `G`; its vertices are the vertices of `G` of community `c`, with the
enumeration index, community and colour they have in `G`; the keys of its
edge index are the keys of the edge index of `G` with both ends of community
`c`, with the same colours. -/
def CommunityRestriction (G G' : Graph) (c : Int) : Prop :=
  G'.directed = G.directed ∧ G'.nedge_types = G.nedge_types ∧
  (∀ v ∈ G'.vertices.map Prod.fst,
    v ∈ G.vertices.map Prod.fst ∧ G.community v = c ∧
    G'.enumeration_index v = G.enumeration_index v ∧
    G'.community v = G.community v ∧ G'.color v = G.color v) ∧
  (∀ v ∈ G.vertices.map Prod.fst, G.community v = c → v ∈ G'.vertices.map Prod.fst) ∧
  (∀ e ∈ G'.edges.map Prod.fst,
    e ∈ G.edges.map Prod.fst ∧ G.community e.1 = c ∧ G.community e.2 = c ∧
    G'.edgeColor e.1 e.2 = G.edgeColor e.1 e.2) ∧
  (∀ e ∈ G.edges.map Prod.fst,
    G.community e.1 = c → G.community e.2 = c → e ∈ G'.edges.map Prod.fst)

instance (G G' : Graph) (c : Int) : Decidable (CommunityRestriction G G' c) := by
  unfold CommunityRestriction
  infer_instance

/-- There is a walk of `n` steps from `a` to `b` that stays inside `H`, the
edges being usable in either direction. -/
def Graph.WalkWithin (G : Graph) (H : Finset Int) : Nat → Int → Int → Prop
  | 0, a, b => a = b ∧ a ∈ H
  | n + 1, a, b => ∃ c, G.WalkWithin H n a c ∧ b ∈ H ∧ G.adjacent c b

/-- The vertex `b` is at breadth-first distance `n` from `a` inside `H`: a
walk of `n` steps inside `H` leads from `a` to `b`, and no shorter one. -/
def Graph.DistanceWithin (G : Graph) (H : Finset Int) (n : Nat) (a b : Int) : Prop :=
  G.WalkWithin H n a b ∧ ∀ m, m < n → ¬ G.WalkWithin H m a b

/-- The level sets `tail` are chosen by the enumeration below the level
`parents`, entered with the visited set `visited`: each level is a non-empty
choice among the vertices `Validate` returns for the level before it, and the
level after it is chosen with the visited set that this call of `Validate`
leaves. -/
def ValidChain (env : Env) (G : Graph) (u : Int) :
    List Int → List Int → List (List Int) → Prop
  | _, _, [] => True
  | visited, parents, level :: rest =>
    level ≠ [] ∧ (∀ w ∈ level, w ∈ (Validate env G parents u visited).1) ∧
    ValidChain env G u (Validate env G parents u visited).2 level rest

/-! ## Example graphs and a stand-in environment -/

/-- A stand-in canonicalizer for running examples: it keeps the numbering it
is given. -/
def identityNauty : Densenauty :=
  fun matrix _ _ _ _ n => ⟨List.range n, List.replicate n 0, matrix⟩

/-- An environment for running examples: no colours, sets walked in insertion
order, the stand-in canonicalizer. -/
def plainEnv (community_based : Bool) : Env :=
  ⟨⟨false, false, community_based, false⟩, IterOrder.insertion, identityNauty⟩

/-- The graph a list of construction steps builds from the empty undirected
or directed graph (the empty graph when a step fails). -/
def graphOf (directed : Bool) (ops : List GraphOp) : Graph :=
  ((Graph.new directed false false 0).build ops).getD (Graph.new directed false false 0)

/-- The undirected triangle on 0, 1, 2 with `enum_index = index`. -/
def triangleOps : List GraphOp :=
  [GraphOp.vertex 0 0 (-1) (-1), GraphOp.vertex 1 1 (-1) (-1), GraphOp.vertex 2 2 (-1) (-1),
   GraphOp.edge 0 1 (-1) (-1), GraphOp.edge 1 2 (-1) (-1), GraphOp.edge 0 2 (-1) (-1)]

/-- The undirected path 0-1-2-3 with `enum_index = index`. -/
def pathOps : List GraphOp :=
  [GraphOp.vertex 0 0 (-1) (-1), GraphOp.vertex 1 1 (-1) (-1), GraphOp.vertex 2 2 (-1) (-1),
   GraphOp.vertex 3 3 (-1) (-1),
   GraphOp.edge 0 1 (-1) (-1), GraphOp.edge 1 2 (-1) (-1), GraphOp.edge 2 3 (-1) (-1)]

/-- The directed 3-cycle 0→1→2→0 with `enum_index = index`. -/
def cycleOps : List GraphOp :=
  [GraphOp.vertex 0 0 (-1) (-1), GraphOp.vertex 1 1 (-1) (-1), GraphOp.vertex 2 2 (-1) (-1),
   GraphOp.edge 0 1 (-1) (-1), GraphOp.edge 1 2 (-1) (-1), GraphOp.edge 2 0 (-1) (-1)]

/-- The complete graph on 0, 1, 2, 3 with communities 0, 0, 1, 1 and
`enum_index = index`. -/
def completeOps : List GraphOp :=
  [GraphOp.vertex 0 0 0 (-1), GraphOp.vertex 1 1 0 (-1), GraphOp.vertex 2 2 1 (-1),
   GraphOp.vertex 3 3 1 (-1),
   GraphOp.edge 0 1 (-1) (-1), GraphOp.edge 0 2 (-1) (-1), GraphOp.edge 0 3 (-1) (-1),
   GraphOp.edge 1 2 (-1) (-1), GraphOp.edge 1 3 (-1) (-1), GraphOp.edge 2 3 (-1) (-1)]

/-- The undirected star with centre 0 and leaves 1, ..., `n`, with
`enum_index = index`. -/
def starOps (n : Nat) : List GraphOp :=
  (List.range (n + 1)).map (fun i => GraphOp.vertex i i (-1) (-1)) ++
  (List.range n).map (fun i => GraphOp.edge 0 (i + 1) (-1) (-1))

/-- A single edge 0-1 with `enum_index = index`. -/
def edgeOps : List GraphOp :=
  [GraphOp.vertex 0 0 (-1) (-1), GraphOp.vertex 1 1 (-1) (-1), GraphOp.edge 0 1 (-1) (-1)]

/-- The state `EnumerateSubgraphsFromNode` ends in when its assertions hold. -/
def rootState (env : Env) (G : Graph) (k : Nat) (u : Int) : EnumState :=
  EnumerateVertex env G u (k - 1) (initialState env.flags G k u) (k - 1) 1

/-- The vertices 0, 1, ..., `n` of the star with `n` leaves. -/
def starVertices (n : Nat) : Finset Int :=
  ((List.range (n + 1)).map (fun i => (i : Int))).toFinset

/-- An environment for running examples in edge-coloured mode. -/
def edgeColoredEnv : Env :=
  ⟨⟨false, true, false, false⟩, IterOrder.insertion, identityNauty⟩

/-- A single vertex 0. -/
def pointOps : List GraphOp := [GraphOp.vertex 0 0 (-1) (-1)]

/-- An environment for running examples in vertex-coloured mode. -/
def vertexColoredEnv : Env :=
  ⟨⟨true, false, false, false⟩, IterOrder.insertion, identityNauty⟩

/-- The undirected path 0-1-2-3 with vertex colours 1, 2, 2, 1 and
`enum_index = index`. -/
def coloredPathOps : List GraphOp :=
  [GraphOp.vertex 0 0 (-1) 1, GraphOp.vertex 1 1 (-1) 2, GraphOp.vertex 2 2 (-1) 2,
   GraphOp.vertex 3 3 (-1) 1,
   GraphOp.edge 0 1 (-1) (-1), GraphOp.edge 1 2 (-1) (-1), GraphOp.edge 2 3 (-1) (-1)]

/-- Two directed 3-cycles with edge colours: 0→1 (0), 1→2 (1), 2→0 (0) and
3→4 (1), 4→5 (0), 5→3 (0), with `enum_index = index`. -/
def coloredTrianglesOps : List GraphOp :=
  [GraphOp.vertex 0 0 (-1) (-1), GraphOp.vertex 1 1 (-1) (-1), GraphOp.vertex 2 2 (-1) (-1),
   GraphOp.vertex 3 3 (-1) (-1), GraphOp.vertex 4 4 (-1) (-1), GraphOp.vertex 5 5 (-1) (-1),
   GraphOp.edge 0 1 (-1) 0, GraphOp.edge 1 2 (-1) 1, GraphOp.edge 2 0 (-1) 0,
   GraphOp.edge 3 4 (-1) 1, GraphOp.edge 4 5 (-1) 0, GraphOp.edge 5 3 (-1) 0]

/-- The directed edge-coloured graph with two edge types that
`coloredTrianglesOps` builds. -/
def coloredTriangles : Graph :=
  ((Graph.new true false true 2).build coloredTrianglesOps).getD (Graph.new true false true 2)

/-- The undirected triangle on 0, 1, 2 with enumeration indices 0, 0, 1. -/
def tiedTriangleOps : List GraphOp :=
  [GraphOp.vertex 0 0 (-1) (-1), GraphOp.vertex 1 0 (-1) (-1), GraphOp.vertex 2 1 (-1) (-1),
   GraphOp.edge 0 1 (-1) (-1), GraphOp.edge 1 2 (-1) (-1), GraphOp.edge 0 2 (-1) (-1)]

/-- The undirected path 0-1-2 with edge colours 0 (on 0-1) and 1 (on 1-2). -/
def edgePathOps : List GraphOp :=
  [GraphOp.vertex 0 0 (-1) (-1), GraphOp.vertex 1 1 (-1) (-1), GraphOp.vertex 2 2 (-1) (-1),
   GraphOp.edge 0 1 (-1) 0, GraphOp.edge 1 2 (-1) 1]

/-- The undirected edge-coloured graph with two edge types that `edgePathOps`
builds. -/
def edgePath : Graph :=
  ((Graph.new false false true 2).build edgePathOps).getD (Graph.new false false true 2)

/-- What the stand-in canonicalizer leaves for the path `edgePath` numbered
`[0, 1, 2]` on two layers. -/
def edgePathOutput : NyGraph :=
  callNauty edgeColoredEnv
    (prepareNauty edgeColoredEnv.flags edgePath [0, 1, 2] 2 (NyGraph.new 6 true))

/-- The undirected path 0-1-2 with vertex colours -1, 258, 2. -/
def mixedColorOps : List GraphOp :=
  [GraphOp.vertex 0 0 (-1) (-1), GraphOp.vertex 1 1 (-1) 258, GraphOp.vertex 2 2 (-1) 2,
   GraphOp.edge 0 1 (-1) (-1), GraphOp.edge 1 2 (-1) (-1)]

/-- What the stand-in canonicalizer leaves for the path of `mixedColorOps`
numbered `[0, 1, 2]` in vertex-coloured mode. -/
def mixedColorOutput : NyGraph :=
  callNauty vertexColoredEnv
    (prepareNauty vertexColoredEnv.flags (graphOf false mixedColorOps) [0, 1, 2] 1
      (NyGraph.new 3 true))

/-- What the stand-in canonicalizer leaves for the first 3-cycle of
`coloredTriangles` numbered `[0, 1, 2]` on two layers. -/
def coloredTrianglesOutput : NyGraph :=
  callNauty edgeColoredEnv
    (prepareNauty edgeColoredEnv.flags coloredTriangles [0, 1, 2] 2 (NyGraph.new 6 true))

/-- The undirected triangle on 0, 1, 2 with vertex colours 1, 1, 2
("red, red, blue"). -/
def redRedBlueOps : List GraphOp :=
  [GraphOp.vertex 0 0 (-1) 1, GraphOp.vertex 1 1 (-1) 1, GraphOp.vertex 2 2 (-1) 2,
   GraphOp.edge 0 1 (-1) (-1), GraphOp.edge 1 2 (-1) (-1), GraphOp.edge 0 2 (-1) (-1)]

/-- The undirected triangle on 0, 1, 2 with vertex colours 1, 2, 2
("red, blue, blue"). -/
def redBlueBlueOps : List GraphOp :=
  [GraphOp.vertex 0 0 (-1) 1, GraphOp.vertex 1 1 (-1) 2, GraphOp.vertex 2 2 (-1) 2,
   GraphOp.edge 0 1 (-1) (-1), GraphOp.edge 1 2 (-1) (-1), GraphOp.edge 0 2 (-1) (-1)]

/-- The path of `edgePathOps` with the colour of the edge 0-1 changed from 0
to 1. -/
def edgePathRecoloredOps : List GraphOp :=
  [GraphOp.vertex 0 0 (-1) (-1), GraphOp.vertex 1 1 (-1) (-1), GraphOp.vertex 2 2 (-1) (-1),
   GraphOp.edge 0 1 (-1) 1, GraphOp.edge 1 2 (-1) 1]

/-- The undirected edge-coloured graph that `edgePathRecoloredOps` builds. -/
def edgePathRecolored : Graph :=
  ((Graph.new false false true 2).build edgePathRecoloredOps).getD
    (Graph.new false false true 2)

/-- The undirected star with centre 0 of colour 5 and leaves 1, 2, 3 of
colours 1, 5, 7, with `enum_index = index`. -/
def coloredStarOps : List GraphOp :=
  [GraphOp.vertex 0 0 (-1) 5, GraphOp.vertex 1 1 (-1) 1, GraphOp.vertex 2 2 (-1) 5,
   GraphOp.vertex 3 3 (-1) 7,
   GraphOp.edge 0 1 (-1) (-1), GraphOp.edge 0 2 (-1) (-1), GraphOp.edge 0 3 (-1) (-1)]

/-- The single vertex 0 in an edge-coloured graph with `nedge_types` edge
types. -/
def typedPoint (nedge_types : Int) : Graph :=
  ((Graph.new true false true nedge_types).build pointOps).getD
    (Graph.new true false true nedge_types)

/-- The two vertices 0 and 1, without edges. -/
def twoPointsOps : List GraphOp :=
  [GraphOp.vertex 0 0 (-1) (-1), GraphOp.vertex 1 1 (-1) (-1)]

/-- The undirected graph on 0 and 1 after `AddEdge(1, 0, -1, 3)`. -/
def joinedPoints : Graph :=
  ((graphOf false twoPointsOps).AddEdge 1 0 (-1) 3).getD (graphOf false twoPointsOps)

/-- The undirected star with centre 0 of colour 5 and leaves 1, 2, 3 of
colours 7, 7, 1, with `enum_index = index`. -/
def mixedStarOps : List GraphOp :=
  [GraphOp.vertex 0 0 (-1) 5, GraphOp.vertex 1 1 (-1) 7, GraphOp.vertex 2 2 (-1) 7,
   GraphOp.vertex 3 3 (-1) 1,
   GraphOp.edge 0 1 (-1) (-1), GraphOp.edge 0 2 (-1) (-1), GraphOp.edge 0 3 (-1) (-1)]

/-- An environment for running examples in vertex-coloured mode in which the
loops walk every unordered set from its largest element down. -/
def descendingEnv : Env :=
  ⟨⟨true, false, false, false⟩, IterOrder.descending, identityNauty⟩

/-- The undirected path 2-0-1 built by adding the edge 0-2 before the edge
0-1, with `enum_index = index`. -/
def wedgeOps : List GraphOp :=
  [GraphOp.vertex 0 0 (-1) (-1), GraphOp.vertex 1 1 (-1) (-1), GraphOp.vertex 2 2 (-1) (-1),
   GraphOp.edge 0 2 (-1) (-1), GraphOp.edge 0 1 (-1) (-1)]

/-- An environment for running examples without colours in which the loops
walk every unordered set in reverse insertion order. -/
def reversedEnv : Env :=
  ⟨⟨false, false, false, false⟩, IterOrder.reversed, identityNauty⟩

/-- The undirected path 0-1-2 with vertex colours 7, -1, 3. -/
def unsortedColorOps : List GraphOp :=
  [GraphOp.vertex 0 0 (-1) 7, GraphOp.vertex 1 1 (-1) (-1), GraphOp.vertex 2 2 (-1) 3,
   GraphOp.edge 0 1 (-1) (-1), GraphOp.edge 1 2 (-1) (-1)]

/-- A stand-in canonicalizer that keeps the `lab` it is given, and so keeps
every cell of the partition in its positions. -/
def cellNauty : Densenauty :=
  fun matrix lab ptn _ _ _ => ⟨lab, ptn, matrix⟩

/-- An environment for running examples in vertex-coloured mode with the
canonicalizer `cellNauty`. -/
def cellEnv : Env :=
  ⟨⟨true, false, false, false⟩, IterOrder.insertion, cellNauty⟩

/-- The vertices 0 and 1 of community 0 joined by an edge, with
`enum_index = index`: the complete graph of `completeOps` without its
vertices of community 1. -/
def communityPairOps : List GraphOp :=
  [GraphOp.vertex 0 0 0 (-1), GraphOp.vertex 1 1 0 (-1), GraphOp.edge 0 1 (-1) (-1)]

/-! # Properties -/

theorem mem_setInsert (s : List Int) (x y : Int) : y ∈ setInsert s x ↔ y ∈ s ∨ y = x := by
  unfold setInsert
  split
  · constructor
    · intro h; exact Or.inl h
    · rintro (h | h)
      · exact h
      · subst h; assumption
  · simp

theorem nodup_setInsert (s : List Int) (x : Int) (h : s.Nodup) : (setInsert s x).Nodup := by
  unfold setInsert
  split
  · exact h
  · rename_i hx
    exact List.Nodup.append h (List.nodup_singleton x) (by simpa using hx)

theorem mem_setErase (s : List Int) (x y : Int) : y ∈ setErase s x ↔ y ∈ s ∧ y ≠ x := by
  simp [setErase]

theorem mapFind_mapSet {κ β : Type} [DecidableEq κ] (m : List (κ × β)) (k k' : κ) (v : β) :
    mapFind (mapSet m k v) k' = if k = k' then some v else mapFind m k' := by
  induction m with
  | nil =>
    simp [mapSet, mapFind]
  | cons p rest ih =>
    obtain ⟨k0, v0⟩ := p
    by_cases h0 : k0 = k
    · subst h0
      by_cases h1 : k0 = k' <;> simp [mapSet, mapFind, h1]
    · by_cases h1 : k0 = k'
      · subst h1
        have : ¬ k = k0 := fun h => h0 h.symm
        simp [mapSet, mapFind, h0, this]
      · simp [mapSet, mapFind, h0, h1, ih]

theorem mapFind_isSome_iff {κ β : Type} [DecidableEq κ] (m : List (κ × β)) (k : κ) :
    (mapFind m k).isSome = true ↔ k ∈ m.map Prod.fst := by
  induction m with
  | nil => simp [mapFind]
  | cons p rest ih =>
    obtain ⟨k0, v0⟩ := p
    by_cases h0 : k0 = k
    · subst h0; simp [mapFind]
    · have : ¬ k = k0 := fun h => h0 h.symm
      simp [mapFind, h0, ih, this]

theorem keys_mapSet {κ β : Type} [DecidableEq κ] (m : List (κ × β)) (k : κ) (v : β) :
    (mapSet m k v).map Prod.fst =
      if k ∈ m.map Prod.fst then m.map Prod.fst else m.map Prod.fst ++ [k] := by
  induction m with
  | nil => simp [mapSet]
  | cons p rest ih =>
    obtain ⟨k0, v0⟩ := p
    by_cases h0 : k0 = k
    · subst h0; simp [mapSet]
    · have h1 : ¬ k = k0 := fun h => h0 h.symm
      simp only [mapSet, h0, if_false, List.map_cons, ih, List.mem_cons, h1, false_or]
      split <;> simp

theorem keys_nodup_mapSet {κ β : Type} [DecidableEq κ] (m : List (κ × β)) (k : κ) (v : β)
    (h : (m.map Prod.fst).Nodup) : ((mapSet m k v).map Prod.fst).Nodup := by
  rw [keys_mapSet]
  split
  · exact h
  · rename_i hk
    exact List.Nodup.append h (List.nodup_singleton k) (by simpa using hk)

/-- The source and destination under which `Graph::AddEdge` files an edge. -/
theorem AddEdge_decompose {G G' : Graph} {src dst : Int} {w : Rat} {c : Int}
    (h : G.AddEdge src dst w c = some G') :
    ∃ s d vs vd vs' vd',
      ((s = src ∧ d = dst) ∨ (G.directed = false ∧ s = dst ∧ d = src)) ∧
      (G.directed = false → s < d) ∧
      s ≠ d ∧
      mapFind G.vertices s = some vs ∧ mapFind G.vertices d = some vd ∧
      Vertex.AddEdge G.directed vs ⟨s, d, w, c⟩ = some vs' ∧
      Vertex.AddEdge G.directed vd ⟨s, d, w, c⟩ = some vd' ∧
      G' = { G with
        edges := if !G.directed then mapSet (mapSet G.edges (s, d) ⟨s, d, w, c⟩) (d, s) ⟨s, d, w, c⟩
                 else mapSet G.edges (s, d) ⟨s, d, w, c⟩
        vertices := mapSet (mapSet G.vertices s vs') d vd' } := by
  unfold Graph.AddEdge at h
  split at h
  · exact absurd h (by simp)
  rename_i h1
  split at h
  · exact absurd h (by simp)
  rename_i h2
  split at h
  · exact absurd h (by simp)
  rename_i h3
  simp only at h
  generalize hs : (if ((!G.directed) && decide (dst < src)) = true then dst else src) = s at h
  generalize hd : (if ((!G.directed) && decide (dst < src)) = true then src else dst) = d at h
  have hsd : ((s = src ∧ d = dst) ∨ (G.directed = false ∧ s = dst ∧ d = src)) ∧
      (G.directed = false → s < d) ∧ s ≠ d := by
    by_cases hsw : ((!G.directed) && decide (dst < src)) = true
    · rw [if_pos hsw] at hs hd
      subst hs; subst hd
      simp at hsw
      exact ⟨Or.inr ⟨hsw.1, rfl, rfl⟩, fun _ => hsw.2, fun e => h3 e.symm⟩
    · rw [if_neg hsw] at hs hd
      subst hs; subst hd
      refine ⟨Or.inl ⟨rfl, rfl⟩, ?_, h3⟩
      intro hdir
      simp [hdir] at hsw
      omega
  have hvs : ∃ vs, mapFind G.vertices s = some vs := by
    rcases hsd.1 with ⟨e1, _⟩ | ⟨_, e1, _⟩
    · subst e1; exact Option.ne_none_iff_exists'.mp (by simpa using h1)
    · subst e1; exact Option.ne_none_iff_exists'.mp (by simpa using h2)
  have hvd : ∃ vd, mapFind G.vertices d = some vd := by
    rcases hsd.1 with ⟨_, e1⟩ | ⟨_, _, e1⟩
    · subst e1; exact Option.ne_none_iff_exists'.mp (by simpa using h2)
    · subst e1; exact Option.ne_none_iff_exists'.mp (by simpa using h1)
  obtain ⟨vs, hvs⟩ := hvs
  obtain ⟨vd, hvd⟩ := hvd
  simp only [Graph.vertexAddEdge, hvs] at h
  split at h
  · exact absurd h (by simp)
  rename_i G2 hG2
  split at hG2
  · exact absurd hG2 (by simp)
  rename_i vs' hvs'
  simp only [Option.some.injEq] at hG2
  subst hG2
  simp only [mapFind_mapSet, hsd.2.2, if_false, hvd] at h
  split at h
  · exact absurd h (by simp)
  rename_i vd' hvd'
  simp only [Option.some.injEq] at h
  exact ⟨s, d, vs, vd, vs', vd', hsd.1, hsd.2.1, hsd.2.2, hvs, hvd, hvs', hvd', h.symm⟩

theorem Vertex_AddEdge_source {dir : Bool} {v v' : Vertex} {s d : Int} {w : Rat} {c : Int}
    (hi : v.index = s) (h : Vertex.AddEdge dir v ⟨s, d, w, c⟩ = some v') :
    v'.index = v.index ∧ v'.enumeration_index = v.enumeration_index ∧
    v'.community = v.community ∧ v'.color = v.color ∧
    v'.neighbors = setInsert v.neighbors d ∧
    v'.outgoing_neighbors = setInsert v.outgoing_neighbors d ∧
    v'.incoming_neighbors =
      (if dir then v.incoming_neighbors else setInsert v.incoming_neighbors d) := by
  subst hi
  unfold Vertex.AddEdge at h
  simp only [true_or, not_true_eq_false, if_false, if_true] at h
  cases dir
  · simp only [Bool.false_eq_true, if_false] at h
    split at h
    · exact absurd h (by simp)
    split at h
    · exact absurd h (by simp)
    simp only [Option.some.injEq] at h
    subst h
    simp
  · simp only [if_true] at h
    split at h
    · exact absurd h (by simp)
    simp only [Option.some.injEq] at h
    subst h
    simp

theorem Vertex_AddEdge_destination {dir : Bool} {v v' : Vertex} {s d : Int} {w : Rat} {c : Int}
    (hi : v.index = d) (hsd : s ≠ d) (h : Vertex.AddEdge dir v ⟨s, d, w, c⟩ = some v') :
    v'.index = v.index ∧ v'.enumeration_index = v.enumeration_index ∧
    v'.community = v.community ∧ v'.color = v.color ∧
    v'.neighbors = setInsert v.neighbors s ∧
    v'.incoming_neighbors = setInsert v.incoming_neighbors s ∧
    v'.outgoing_neighbors =
      (if dir then v.outgoing_neighbors else setInsert v.outgoing_neighbors s) := by
  subst hi
  unfold Vertex.AddEdge at h
  simp only [or_true, not_true_eq_false, if_false, hsd] at h
  cases dir
  · simp only [Bool.false_eq_true, if_false] at h
    split at h
    · exact absurd h (by simp)
    split at h
    · exact absurd h (by simp)
    simp only [Option.some.injEq] at h
    subst h
    simp
  · simp only [if_true] at h
    split at h
    · exact absurd h (by simp)
    simp only [Option.some.injEq] at h
    subst h
    simp

theorem hasEdge_iff (G : Graph) (a b : Int) :
    G.hasEdge a b = true ↔ (a, b) ∈ G.edges.map Prod.fst := by
  unfold Graph.hasEdge
  exact mapFind_isSome_iff _ _

theorem hasVertex_iff (G : Graph) (a : Int) :
    G.hasVertex a = true ↔ a ∈ G.vertices.map Prod.fst := by
  unfold Graph.hasVertex
  exact mapFind_isSome_iff _ _

theorem mapFind_isSome_mapSet {κ β : Type} [DecidableEq κ] (m : List (κ × β)) (k k' : κ) (v : β) :
    (mapFind (mapSet m k v) k').isSome = (decide (k = k') || (mapFind m k').isSome) := by
  rw [mapFind_mapSet]
  by_cases h : k = k' <;> simp [h]

theorem WellFormed_new (directed vertex_colored edge_colored : Bool) (nedge_types : Int) :
    (Graph.new directed vertex_colored edge_colored nedge_types).WellFormed := by
  constructor <;>
    simp [Graph.new, mapFind, Graph.neighbors, Graph.adjacent, Graph.hasEdge,
      Graph.outgoing_neighbors, Graph.incoming_neighbors, Graph.hasVertex]

theorem WellFormed_AddVertex {G G' : Graph} {index e c col : Int} (hwf : G.WellFormed)
    (h : G.AddVertex index e c col = some G') : G'.WellFormed := by
  unfold Graph.AddVertex at h
  split at h
  · exact absurd h (by simp)
  rename_i hnone
  simp only [Option.some.injEq] at h
  subst h
  have hnv : G.hasVertex index = false := by simp [Graph.hasVertex, hnone]
  have hne1 : ∀ b, G.hasEdge index b = false := by
    intro b
    by_contra hc
    have := (hwf.edge_vertices index b (by simpa using hc)).1
    simp [hnv] at this
  have hne2 : ∀ b, G.hasEdge b index = false := by
    intro b
    by_contra hc
    have := (hwf.edge_vertices b index (by simpa using hc)).2
    simp [hnv] at this
  constructor
  · intro key v hv
    simp only [mapFind_mapSet] at hv
    split at hv
    · rename_i hk
      simp only [Option.some.injEq] at hv
      subst hv; subst hk
      rfl
    · exact hwf.index_eq key v hv
  · exact keys_nodup_mapSet _ _ _ hwf.keys_nodup
  · intro a b
    have := hwf.neighbors_iff a b
    simp only [Graph.neighbors, mapFind_mapSet, Graph.adjacent, Graph.hasEdge] at this ⊢
    by_cases ha : index = a
    · subst ha
      simp only [if_true, Vertex.new, List.not_mem_nil, false_iff]
      have h1 := hne1 b
      have h2 := hne2 b
      simp only [Graph.hasEdge] at h1 h2
      simp [h1, h2]
    · simpa [ha] using this
  · intro a b
    have := hwf.outgoing_iff a b
    simp only [Graph.outgoing_neighbors, mapFind_mapSet, Graph.hasEdge] at this ⊢
    by_cases ha : index = a
    · subst ha
      have h1 := hne1 b
      simp only [Graph.hasEdge] at h1
      simp [Vertex.new, h1]
    · simpa [ha] using this
  · intro a b
    have := hwf.incoming_iff a b
    simp only [Graph.incoming_neighbors, mapFind_mapSet, Graph.hasEdge] at this ⊢
    by_cases ha : index = a
    · subst ha
      have h1 := hne2 b
      simp only [Graph.hasEdge] at h1
      simp [Vertex.new, h1]
    · simpa [ha] using this
  · intro a b hab
    have := hwf.edge_vertices a b hab
    simp only [Graph.hasVertex, mapFind_isSome_mapSet] at this ⊢
    simp [this]
  · exact hwf.no_loop
  · exact hwf.undirected_symm
  · intro a
    have := hwf.neighbors_nodup a
    simp only [Graph.neighbors, mapFind_mapSet] at this ⊢
    by_cases ha : index = a
    · simp [ha, Vertex.new]
    · simpa [ha] using this

/-- What a successful `Graph::AddEdge` changes, read through the accessors. -/
theorem AddEdge_spec {G G' : Graph} {src dst : Int} {w : Rat} {c : Int} (hwf : G.WellFormed)
    (h : G.AddEdge src dst w c = some G') :
    ∃ s d,
      ((s = src ∧ d = dst) ∨ (G.directed = false ∧ s = dst ∧ d = src)) ∧
      s ≠ d ∧ G.hasVertex s = true ∧ G.hasVertex d = true ∧
      G'.directed = G.directed ∧
      G'.vertices.map Prod.fst = G.vertices.map Prod.fst ∧
      (∀ key v', mapFind G'.vertices key = some v' → v'.index = key) ∧
      (∀ a b, G'.hasEdge a b = true ↔
        ((a = s ∧ b = d) ∨ (G.directed = false ∧ a = d ∧ b = s) ∨ G.hasEdge a b = true)) ∧
      (∀ a, G'.neighbors a =
        if a = d then setInsert (G.neighbors d) s
        else if a = s then setInsert (G.neighbors s) d else G.neighbors a) ∧
      (∀ a, G'.outgoing_neighbors a =
        if a = d then
          (if G.directed then G.outgoing_neighbors d else setInsert (G.outgoing_neighbors d) s)
        else if a = s then setInsert (G.outgoing_neighbors s) d else G.outgoing_neighbors a) ∧
      (∀ a, G'.incoming_neighbors a =
        if a = d then setInsert (G.incoming_neighbors d) s
        else if a = s then
          (if G.directed then G.incoming_neighbors s else setInsert (G.incoming_neighbors s) d)
        else G.incoming_neighbors a) := by
  obtain ⟨s, d, vs, vd, vs', vd', hrel, _, hsd, hvs, hvd, hvs', hvd', hG'⟩ := AddEdge_decompose h
  have his : vs.index = s := hwf.index_eq s vs hvs
  have hid : vd.index = d := hwf.index_eq d vd hvd
  obtain ⟨s1, _, _, _, s5, s6, s7⟩ := Vertex_AddEdge_source his hvs'
  obtain ⟨d1, _, _, _, d5, d6, d7⟩ := Vertex_AddEdge_destination hid hsd hvd'
  have hds : ¬ d = s := fun e => hsd e.symm
  refine ⟨s, d, hrel, hsd, by simp [Graph.hasVertex, hvs], by simp [Graph.hasVertex, hvd], ?_, ?_,
    ?_, ?_, ?_, ?_, ?_⟩
  · subst hG'; rfl
  · subst hG'
    have hs_mem : s ∈ G.vertices.map Prod.fst :=
      (mapFind_isSome_iff _ _).mp (by simp [hvs])
    have hd_mem : d ∈ G.vertices.map Prod.fst :=
      (mapFind_isSome_iff _ _).mp (by simp [hvd])
    simp only [keys_mapSet, hs_mem, hd_mem, if_true]
  · subst hG'
    intro key v' hv'
    simp only [mapFind_mapSet] at hv'
    split at hv'
    · rename_i hk
      simp only [Option.some.injEq] at hv'
      subst hv'; subst hk
      rw [d1, hid]
    · split at hv'
      · rename_i hk
        simp only [Option.some.injEq] at hv'
        subst hv'; subst hk
        rw [s1, his]
      · exact hwf.index_eq key v' hv'
  · subst hG'
    intro a b
    simp only [Graph.hasEdge]
    cases hdir : G.directed
    · simp only [Bool.not_false, if_true, mapFind_isSome_mapSet, Bool.or_eq_true,
        decide_eq_true_eq, Prod.mk.injEq, true_and]
      constructor
      · rintro (⟨h1, h2⟩ | ⟨h1, h2⟩ | h3)
        · exact Or.inr (Or.inl ⟨h1.symm, h2.symm⟩)
        · exact Or.inl ⟨h1.symm, h2.symm⟩
        · exact Or.inr (Or.inr h3)
      · rintro (⟨h1, h2⟩ | ⟨h1, h2⟩ | h3)
        · exact Or.inr (Or.inl ⟨h1.symm, h2.symm⟩)
        · exact Or.inl ⟨h1.symm, h2.symm⟩
        · exact Or.inr (Or.inr h3)
    · simp only [Bool.not_true, Bool.false_eq_true, if_false, mapFind_isSome_mapSet,
        Bool.or_eq_true, decide_eq_true_eq, Prod.mk.injEq, false_and, false_or,
        Bool.true_eq_false]
      constructor
      · rintro (⟨h1, h2⟩ | h3)
        · exact Or.inl ⟨h1.symm, h2.symm⟩
        · exact Or.inr h3
      · rintro (⟨h1, h2⟩ | h3)
        · exact Or.inl ⟨h1.symm, h2.symm⟩
        · exact Or.inr h3
  · subst hG'
    intro a
    simp only [Graph.neighbors, mapFind_mapSet, hvs, hvd]
    by_cases had : a = d
    · subst had; simp [d5]
    · have had' : ¬ d = a := fun e => had e.symm
      by_cases has : a = s
      · subst has; simp [had, had', s5]
      · have has' : ¬ s = a := fun e => has e.symm
        simp [had, had', has, has']
  · subst hG'
    intro a
    simp only [Graph.outgoing_neighbors, mapFind_mapSet, hvs, hvd]
    by_cases had : a = d
    · subst had; simp [d7]
    · have had' : ¬ d = a := fun e => had e.symm
      by_cases has : a = s
      · subst has; simp [had, had', s6]
      · have has' : ¬ s = a := fun e => has e.symm
        simp [had, had', has, has']
  · subst hG'
    intro a
    simp only [Graph.incoming_neighbors, mapFind_mapSet, hvs, hvd]
    by_cases had : a = d
    · subst had; simp [d6]
    · have had' : ¬ d = a := fun e => had e.symm
      by_cases has : a = s
      · subst has; simp [had, had', s7]
      · have has' : ¬ s = a := fun e => has e.symm
        simp [had, had', has, has']

theorem WellFormed_AddEdge {G G' : Graph} {src dst : Int} {w : Rat} {c : Int} (hwf : G.WellFormed)
    (h : G.AddEdge src dst w c = some G') : G'.WellFormed := by
  obtain ⟨s, d, _, hsd, hvs, hvd, hdir, hkeys, hidx, hE, hN, hO, hI⟩ := AddEdge_spec hwf h
  have hds : ¬ d = s := fun e => hsd e.symm
  have hAdj : ∀ a b, G'.adjacent a b ↔
      ((a = s ∧ b = d) ∨ (a = d ∧ b = s) ∨ G.adjacent a b) := by
    intro a b
    simp only [Graph.adjacent, hE]
    constructor
    · rintro ((h1 | ⟨_, h1⟩ | h1) | (⟨h1, h2⟩ | ⟨_, h1, h2⟩ | h1))
      · exact Or.inl h1
      · exact Or.inr (Or.inl h1)
      · exact Or.inr (Or.inr (Or.inl h1))
      · exact Or.inr (Or.inl ⟨h2, h1⟩)
      · exact Or.inl ⟨h2, h1⟩
      · exact Or.inr (Or.inr (Or.inr h1))
    · rintro (h1 | ⟨h1, h2⟩ | h1 | h1)
      · exact Or.inl (Or.inl h1)
      · exact Or.inr (Or.inl ⟨h2, h1⟩)
      · exact Or.inl (Or.inr (Or.inr h1))
      · exact Or.inr (Or.inr (Or.inr h1))
  constructor
  · exact hidx
  · rw [hkeys]; exact hwf.keys_nodup
  · intro a b
    rw [hN, hAdj]
    have h1 := hwf.neighbors_iff a b
    by_cases had : a = d
    · subst had
      simp only [if_true, mem_setInsert, h1, hds, false_and, true_and, false_or]
      tauto
    · by_cases has : a = s
      · subst has
        simp only [had, if_false, if_true, mem_setInsert, h1, true_and, false_and, false_or]
        tauto
      · simp only [had, has, if_false, h1, false_and, false_or]
  · intro a b
    rw [hO, hE]
    have h1 := hwf.outgoing_iff a b
    by_cases had : a = d
    · subst had
      cases hd : G.directed
      · simp only [Bool.false_eq_true, if_false, if_true, mem_setInsert, h1, hds, false_and,
          true_and, false_or]
        tauto
      · simp only [if_true, h1, hds, false_and, Bool.true_eq_false, false_or]
    · by_cases has : a = s
      · subst has
        simp only [had, if_false, if_true, mem_setInsert, h1, true_and, false_and, and_false,
          false_or]
        tauto
      · simp only [had, has, if_false, h1, false_and, and_false, false_or]
  · intro a b
    rw [hI, hE]
    have h1 := hwf.incoming_iff a b
    by_cases had : a = d
    · subst had
      simp only [if_true, mem_setInsert, h1, and_true, hds, and_false, false_or]
      tauto
    · by_cases has : a = s
      · subst has
        cases hd : G.directed
        · simp only [had, Bool.false_eq_true, if_false, if_true, mem_setInsert, h1, and_false,
            and_true, true_and, false_or]
          tauto
        · simp only [had, if_false, if_true, h1, and_false, Bool.true_eq_false, false_and,
            false_or]
      · simp only [had, has, if_false, h1, and_false, false_or]
  · intro a b hab
    have hV : ∀ x, G.hasVertex x = true → G'.hasVertex x = true := by
      intro x hx
      rw [hasVertex_iff] at hx ⊢
      rw [hkeys]; exact hx
    rcases (hE a b).mp hab with ⟨h1, h2⟩ | ⟨_, h1, h2⟩ | h1
    · subst h1; subst h2; exact ⟨hV _ hvs, hV _ hvd⟩
    · subst h1; subst h2; exact ⟨hV _ hvd, hV _ hvs⟩
    · exact ⟨hV _ (hwf.edge_vertices a b h1).1, hV _ (hwf.edge_vertices a b h1).2⟩
  · intro a
    by_contra hc
    rcases (hE a a).mp (by simpa using hc) with ⟨h1, h2⟩ | ⟨_, h1, h2⟩ | h1
    · exact hsd (h1.symm.trans h2)
    · exact hsd (h2.symm.trans h1)
    · simp [hwf.no_loop a] at h1
  · intro hd' a b hab
    rw [hdir] at hd'
    rcases (hE a b).mp hab with ⟨h1, h2⟩ | ⟨_, h1, h2⟩ | h1
    · exact (hE b a).mpr (Or.inr (Or.inl ⟨hd', h2, h1⟩))
    · exact (hE b a).mpr (Or.inl ⟨h2, h1⟩)
    · exact (hE b a).mpr (Or.inr (Or.inr (hwf.undirected_symm hd' a b h1)))
  · intro a
    rw [hN]
    split
    · exact nodup_setInsert _ _ (hwf.neighbors_nodup d)
    · split
      · exact nodup_setInsert _ _ (hwf.neighbors_nodup s)
      · exact hwf.neighbors_nodup a

/-- Every graph built by `AddVertex` and `AddEdge` is well formed. -/
theorem WellFormed_of_Built {G : Graph} (h : G.Built) : G.WellFormed := by
  induction h with
  | new directed vertex_colored edge_colored nedge_types =>
    exact WellFormed_new directed vertex_colored edge_colored nedge_types
  | addVertex index e c col _ hadd ih => exact WellFormed_AddVertex ih hadd
  | addEdge s d w c _ hadd ih => exact WellFormed_AddEdge ih hadd

theorem Built_of_build {G G' : Graph} (hG : G.Built) (ops : List GraphOp)
    (h : G.build ops = some G') : G'.Built := by
  induction ops generalizing G with
  | nil =>
    simp only [Graph.build, Option.some.injEq] at h
    subst h; exact hG
  | cons op ops ih =>
    cases op with
    | vertex i e c col =>
      simp only [Graph.build] at h
      split at h
      · exact absurd h (by simp)
      · rename_i G1 h1
        exact ih (Graph.Built.addVertex i e c col hG h1) h
    | edge s d w col =>
      simp only [Graph.build] at h
      split at h
      · exact absurd h (by simp)
      · rename_i G1 h1
        exact ih (Graph.Built.addEdge s d w col hG h1) h

theorem ValidateStep_spec (env : Env) (G : Graph) (u v : Int) (v0 : List Int)
    (acc : List Int × List Int) (w : Int)
    (h2 : acc.2 = v0 ++ acc.1) (hnd : acc.1.Nodup) (hdis : ∀ x ∈ acc.1, x ∉ v0) :
    let r := ValidateStep env G u v acc w
    r.2 = v0 ++ r.1 ∧ r.1.Nodup ∧ (∀ x ∈ r.1, x ∉ v0) ∧
    (∀ x, x ∈ r.1 ↔ x ∈ acc.1 ∨ (x = w ∧ Admissible env G u v w ∧ w ∉ v0)) := by
  intro r
  obtain ⟨a1, a2⟩ := acc
  simp only at h2 hnd hdis
  subst h2
  simp only [r, ValidateStep]
  by_cases hc : (env.flags.COMMUNITY_BASED && decide (G.community v ≠ G.community w)) = true
  · rw [if_pos hc]
    refine ⟨rfl, hnd, hdis, ?_⟩
    intro x
    constructor
    · exact Or.inl
    · rintro (h | ⟨_, hadm, _⟩)
      · exact h
      · exfalso
        simp only [Bool.and_eq_true, decide_eq_true_eq] at hc
        exact hc.2 (hadm.1 hc.1)
  · rw [if_neg hc]
    have hcomm : env.flags.COMMUNITY_BASED = true → G.community v = G.community w := by
      intro hcb
      by_contra hne
      exact hc (by simp [hcb, hne])
    by_cases he : (decide (G.enumeration_index u ≤ G.enumeration_index w) &&
        decide (w ∉ v0 ++ a1)) = true
    · rw [if_pos he]
      simp only [Bool.and_eq_true, decide_eq_true_eq, List.mem_append, not_or] at he
      obtain ⟨he1, he2, he3⟩ := he
      have hs1 : setInsert a1 w = a1 ++ [w] := by simp [setInsert, he3]
      have hs2 : setInsert (v0 ++ a1) w = v0 ++ a1 ++ [w] := by simp [setInsert, he2, he3]
      simp only [hs1, hs2]
      refine ⟨by simp, ?_, ?_, ?_⟩
      · exact List.Nodup.append hnd (List.nodup_singleton w) (by simpa using he3)
      · intro x hx
        rcases List.mem_append.mp hx with h | h
        · exact hdis x h
        · simp only [List.mem_singleton] at h; subst h; exact he2
      · intro x
        simp only [List.mem_append, List.mem_singleton]
        constructor
        · rintro (h | h)
          · exact Or.inl h
          · exact Or.inr ⟨h, ⟨hcomm, he1⟩, he2⟩
        · rintro (h | ⟨h, _⟩)
          · exact Or.inl h
          · exact Or.inr h
    · rw [if_neg he]
      refine ⟨rfl, hnd, hdis, ?_⟩
      intro x
      constructor
      · exact Or.inl
      · rintro (h | ⟨hx, hadm, hv0⟩)
        · exact h
        · subst hx
          simp only [Bool.and_eq_true, decide_eq_true_eq, List.mem_append, not_or, not_and,
            not_not] at he
          exact he hadm.2 hv0

theorem ValidateInner_spec (env : Env) (G : Graph) (u v : Int) (v0 : List Int) (ws : List Int)
    (acc : List Int × List Int)
    (h2 : acc.2 = v0 ++ acc.1) (hnd : acc.1.Nodup) (hdis : ∀ x ∈ acc.1, x ∉ v0) :
    let r := ws.foldl (ValidateStep env G u v) acc
    r.2 = v0 ++ r.1 ∧ r.1.Nodup ∧ (∀ x ∈ r.1, x ∉ v0) ∧
    (∀ x, x ∈ r.1 ↔ x ∈ acc.1 ∨ (x ∈ ws ∧ Admissible env G u v x ∧ x ∉ v0)) := by
  induction ws generalizing acc with
  | nil => simp [h2, hnd]; exact hdis
  | cons w ws ih =>
    obtain ⟨s1, s2, s3, s4⟩ := ValidateStep_spec env G u v v0 acc w h2 hnd hdis
    obtain ⟨t1, t2, t3, t4⟩ := ih (ValidateStep env G u v acc w) s1 s2 s3
    simp only [List.foldl_cons]
    refine ⟨t1, t2, t3, ?_⟩
    intro x
    rw [t4, s4]
    simp only [List.mem_cons]
    constructor
    · rintro ((h | ⟨h1, h2, h3⟩) | ⟨h1, h2⟩)
      · exact Or.inl h
      · subst h1; exact Or.inr ⟨Or.inl rfl, h2, h3⟩
      · exact Or.inr ⟨Or.inr h1, h2⟩
    · rintro (h | ⟨h1 | h1, h2, h3⟩)
      · exact Or.inl (Or.inl h)
      · subst h1; exact Or.inl (Or.inr ⟨rfl, h2, h3⟩)
      · exact Or.inr ⟨h1, h2, h3⟩

theorem ValidateOuter_spec (env : Env) (G : Graph) (u : Int) (v0 : List Int) (ps : List Int)
    (acc : List Int × List Int)
    (h2 : acc.2 = v0 ++ acc.1) (hnd : acc.1.Nodup) (hdis : ∀ x ∈ acc.1, x ∉ v0) :
    let r := ps.foldl
      (fun acc v => (env.it.iter (G.neighbors v)).foldl (ValidateStep env G u v) acc) acc
    r.2 = v0 ++ r.1 ∧ r.1.Nodup ∧ (∀ x ∈ r.1, x ∉ v0) ∧
    (∀ x, x ∈ r.1 ↔
      x ∈ acc.1 ∨ (∃ v ∈ ps, x ∈ G.neighbors v ∧ Admissible env G u v x ∧ x ∉ v0)) := by
  induction ps generalizing acc with
  | nil => simp [h2, hnd]; exact hdis
  | cons v ps ih =>
    obtain ⟨s1, s2, s3, s4⟩ :=
      ValidateInner_spec env G u v v0 (env.it.iter (G.neighbors v)) acc h2 hnd hdis
    obtain ⟨t1, t2, t3, t4⟩ := ih _ s1 s2 s3
    simp only [List.foldl_cons]
    refine ⟨t1, t2, t3, ?_⟩
    intro x
    rw [t4, s4]
    simp only [List.mem_cons, (env.it.perm (G.neighbors v)).mem_iff]
    constructor
    · rintro ((h | ⟨h1, h2⟩) | ⟨p, hp, h2⟩)
      · exact Or.inl h
      · exact Or.inr ⟨v, Or.inl rfl, h1, h2⟩
      · exact Or.inr ⟨p, Or.inr hp, h2⟩
    · rintro (h | ⟨p, hp | hp, h2⟩)
      · exact Or.inl (Or.inl h)
      · subst hp; exact Or.inl (Or.inr h2)
      · exact Or.inr ⟨p, hp, h2⟩

/-- What `Validate` returns: the admissible, not yet visited neighbours of the
parents, each once; `visited` grows by exactly these. -/
theorem Validate_spec (env : Env) (G : Graph) (parents : List Int) (u : Int)
    (visited : List Int) :
    let r := Validate env G parents u visited
    r.1.Nodup ∧ (∀ x ∈ r.1, x ∉ visited) ∧
    (∀ x, x ∈ r.1 ↔ x ∉ visited ∧ ∃ v ∈ parents, x ∈ G.neighbors v ∧ Admissible env G u v x) ∧
    (∃ new, r.2 = visited ++ new ∧ List.Perm r.1 new) := by
  obtain ⟨t1, t2, t3, t4⟩ := ValidateOuter_spec env G u visited (env.it.iter parents)
    ([], visited) (by simp) (by simp) (by simp)
  intro r
  have hperm := env.it.perm (ValidateLoop env G parents u ([], visited)).1
  refine ⟨?_, ?_, ?_, ?_⟩
  · exact hperm.nodup_iff.mpr t2
  · intro x hx
    exact t3 x (hperm.mem_iff.mp hx)
  · intro x
    simp only [r, Validate, hperm.mem_iff]
    unfold ValidateLoop
    rw [t4]
    simp only [List.not_mem_nil, false_or, (env.it.perm parents).mem_iff]
    constructor
    · rintro ⟨v, hv, h1, h2, h3⟩
      exact ⟨h3, v, hv, h1, h2⟩
    · rintro ⟨h3, v, hv, h1, h2⟩
      exact ⟨v, hv, h1, h2, h3⟩
  · exact ⟨_, t1, hperm⟩

theorem foldl_setErase (l s : List Int) :
    l.foldl setErase s = s.filter (fun y => decide (y ∉ l)) := by
  induction l generalizing s with
  | nil => simp
  | cons x l ih =>
    simp only [List.foldl_cons, ih, setErase, List.filter_filter, List.mem_cons, not_or]
    congr 1
    funext y
    simp [Bool.and_comm]

/-- Erasing what `Validate` returned restores the `visited` set. -/
theorem Validate_erase (env : Env) (G : Graph) (parents : List Int) (u : Int)
    (visited : List Int) :
    (Validate env G parents u visited).1.foldl setErase (Validate env G parents u visited).2
      = visited := by
  obtain ⟨_, h2, _, new, h4, h5⟩ := Validate_spec env G parents u visited
  rw [foldl_setErase, h4, List.filter_append]
  have e1 : visited.filter (fun y => decide (y ∉ (Validate env G parents u visited).1))
      = visited := by
    apply List.filter_eq_self.mpr
    intro x hx
    simp only [decide_eq_true_eq]
    intro hc
    exact h2 x hc hx
  have e2 : new.filter (fun y => decide (y ∉ (Validate env G parents u visited).1)) = [] := by
    apply List.filter_eq_nil_iff.mpr
    intro x hx
    simp only [decide_eq_true_eq, not_not]
    exact h5.mem_iff.mpr hx
  rw [e1, e2, List.append_nil]

theorem Combination_eq_foldl (next : EnumState → EnumState) (i r : Nat) (rest : List Int)
    (combination : List Int) (st : EnumState) :
    Combination next i r rest combination st =
      (combinationsFrom r rest combination).foldl
        (fun st c => next { st with S := Function.update st.S i (levelOf c) }) st := by
  induction rest generalizing combination st with
  | nil =>
    unfold Combination combinationsFrom
    split <;> simp [levelOf]
  | cons v rest ih =>
    unfold Combination combinationsFrom
    split
    · simp [levelOf]
    · simp only [List.foldl_append, ih]

theorem Emits_foldl {α : Type} (S0 : Nat → List Int) (v0 : List Int) (i : Nat)
    (f : α → EnumState → EnumState) (L : α → List (List (List Int))) (xs : List α)
    (h : ∀ x ∈ xs, Emits S0 v0 i (f x) (L x)) :
    Emits S0 v0 i (fun st => xs.foldl (fun st x => f x st) st) (xs.flatMap L) := by
  induction xs with
  | nil =>
    intro st hS hv
    simp [hS, hv]
    exact hS
  | cons x xs ih =>
    intro st hS hv
    obtain ⟨a1, a2, a3, a4⟩ := h x (List.mem_cons_self x xs) st hS hv
    obtain ⟨b1, b2, b3, b4⟩ := ih (fun y hy => h y (List.mem_cons_of_mem x hy)) (f x st) a2 a1
    simp only [List.foldl_cons, List.flatMap_cons]
    refine ⟨b1, b2, ?_, ?_⟩
    · rw [b3, a3, List.append_assoc]
    · rw [b4, a4, List.length_append]; omega

theorem levelSets_congr (env : Env) (S S' : Nat → List Int) (i : Nat)
    (h : ∀ j, j < i → S j = S' j) : levelSets env S i = levelSets env S' i := by
  unfold levelSets
  apply List.map_congr_left
  intro j hj
  rw [h j (List.mem_range.mp hj)]

theorem levelSets_succ (env : Env) (S : Nat → List Int) (i : Nat) :
    levelSets env S (i + 1) = levelSets env S i ++ [env.it.iter (S i)] := by
  simp [levelSets, List.range_succ]

theorem emitSubgraph_fields (env : Env) (G : Graph) (st : EnumState) (i : Nat) :
    (emitSubgraph env G st i).visited = st.visited ∧
    (emitSubgraph env G st i).S = st.S ∧
    (emitSubgraph env G st i).emitted = st.emitted ++ [levelSets env st.S i] ∧
    (emitSubgraph env G st i).enumerated_subgraphs = st.enumerated_subgraphs + 1 := by
  simp [emitSubgraph]

/-- The log of emitted subgraphs that a call of `EnumerateVertex` appends is
the list `levelTails` describes, each tail put after the level sets found so
far; the call restores `visited` and keeps the level sets below `i`. -/
theorem EnumerateVertex_emits (env : Env) (G : Graph) (u : Int) (fuel : Nat) :
    ∀ (S0 : Nat → List Int) (v0 : List Int) (rem i : Nat), 1 ≤ i →
      Emits S0 v0 i (fun st => EnumerateVertex env G u fuel st rem i)
        ((levelTails env G u fuel (S0 (i - 1)) v0 rem).map
          (fun tail => levelSets env S0 i ++ tail.map env.it.iter)) := by
  induction fuel with
  | zero =>
    intro S0 v0 rem i hi st hS hv
    cases rem with
    | zero =>
      obtain ⟨e1, e2, e3, e4⟩ := emitSubgraph_fields env G st i
      simp only [EnumerateVertex, levelTails, List.map_cons, List.map_nil, List.append_nil]
      refine ⟨e1.trans hv, fun j hj => by rw [e2]; exact hS j hj, ?_, ?_⟩
      · rw [e3, levelSets_congr env st.S S0 i hS]
      · rw [e4]; rfl
    | succ rem =>
      simp only [EnumerateVertex, levelTails, List.map_nil, List.append_nil]
      exact ⟨hv, hS, trivial, rfl⟩
  | succ fuel ih =>
    intro S0 v0 rem i hi st hS hv
    cases rem with
    | zero =>
      obtain ⟨e1, e2, e3, e4⟩ := emitSubgraph_fields env G st i
      simp only [EnumerateVertex, levelTails, List.map_cons, List.map_nil, List.append_nil]
      refine ⟨e1.trans hv, fun j hj => by rw [e2]; exact hS j hj, ?_, ?_⟩
      · rw [e3, levelSets_congr env st.S S0 i hS]
      · rw [e4]; rfl
    | succ rem =>
      have hP : st.S (i - 1) = S0 (i - 1) := hS (i - 1) (by omega)
      simp only [EnumerateVertex, levelTails, hP, hv]
      generalize hr : Validate env G (S0 (i - 1)) u v0 = r
      have hfold := Emits_foldl S0 r.2 i
        (fun k_i st => Combinations
          (fun st => EnumerateVertex env G u fuel st (rem + 1 - k_i) (i + 1)) i r.1 k_i st)
        (fun k_i => (combinationsFrom k_i r.1 []).flatMap
          (fun c => ((levelTails env G u fuel (levelOf c) r.2 (rem + 1 - k_i)).map
            (fun tail => levelOf c :: tail)).map
              (fun tail => levelSets env S0 i ++ tail.map env.it.iter)))
        (List.range' 1 (min r.1.length (rem + 1)))
        (by
          intro k_i _
          unfold Combinations
          simp only [Combination_eq_foldl]
          apply Emits_foldl S0 r.2 i
            (fun c st => EnumerateVertex env G u fuel
              { st with S := Function.update st.S i (levelOf c) } (rem + 1 - k_i) (i + 1))
          intro c _ st' hS' hv'
          have := ih (Function.update S0 i (levelOf c)) r.2 (rem + 1 - k_i) (i + 1) (by omega)
            { st' with S := Function.update st'.S i (levelOf c) }
            (by
              intro j hj
              by_cases hji : j = i
              · subst hji; simp
              · simp only [Function.update_noteq hji]
                exact hS' j (by omega))
            hv'
          obtain ⟨c1, c2, c3, c4⟩ := this
          refine ⟨c1, ?_, ?_, ?_⟩
          · intro j hj
            have := c2 j (by omega)
            rw [this, Function.update_noteq (by omega)]
          · rw [c3]
            have hi1 : i + 1 - 1 = i := by omega
            rw [hi1]
            simp only [Function.update_same, levelSets_succ, List.map_map]
            congr 1
            apply List.map_congr_left
            intro tail _
            simp only [Function.comp, List.map_cons, List.append_assoc, List.singleton_append]
            congr 1
            exact levelSets_congr env _ _ i
              (fun j hj => Function.update_noteq (by omega) _ _)
          · rw [c4]
            simp)
      obtain ⟨f1, f2, f3, f4⟩ := hfold { st with visited := r.2 } hS rfl
      refine ⟨?_, f2, ?_, ?_⟩
      · simp only [f1]
        rw [← hr]
        exact Validate_erase env G (S0 (i - 1)) u v0
      · simp only [f3, List.map_flatMap]
      · simp only [f4, List.map_flatMap, List.length_map]

theorem NyGraph_new_no_setwords (n : Nat) (c : Bool) :
    (NyGraph.new n c).no_setwords = 1 ↔ 1 ≤ n ∧ n ≤ 64 := by
  simp only [NyGraph.new, WORDSIZE]
  omega

theorem initialState_no_setwords (flags : Flags) (G : Graph) (k : Nat) (u : Int) :
    (initialState flags G k u).nauty_graph.no_setwords = 1 ↔
      1 ≤ nautyVertices flags G k ∧ nautyVertices flags G k ≤ 64 := by
  unfold initialState nautyVertices
  by_cases he : flags.EDGE_COLORED = true
  · simp only [he, if_true]
    exact NyGraph_new_no_setwords _ _
  · simp only [he, if_false]
    by_cases hvc : flags.VERTEX_COLORED = true
    · simp only [hvc, if_true]; exact NyGraph_new_no_setwords _ _
    · simp only [hvc, if_false]; exact NyGraph_new_no_setwords _ _

theorem iter_singleton (it : IterOrder) (u : Int) : it.iter [u] = [u] :=
  List.perm_singleton.mp (it.perm [u])

/-- `EnumerateSubgraphsFromNode` returns exactly when its two assertions hold. -/
theorem EnumerateSubgraphsFromNode_eq_some_iff (env : Env) (G : Graph) (k : Nat) (u : Int)
    (st : EnumState) :
    EnumerateSubgraphsFromNode env G k u = some st ↔
      G.hasVertex u = true ∧ 1 ≤ nautyVertices env.flags G k ∧ nautyVertices env.flags G k ≤ 64 ∧
      st = EnumerateVertex env G u (k - 1) (initialState env.flags G k u) (k - 1) 1 := by
  unfold EnumerateSubgraphsFromNode
  have h := initialState_no_setwords env.flags G k u
  by_cases hv : G.hasVertex u = true
  · by_cases hw : (initialState env.flags G k u).nauty_graph.no_setwords = 1
    · have h' := h.mp hw
      simp only [hv, hw, Bool.not_true, Bool.false_eq_true, if_false, ne_eq, not_true_eq_false,
        Option.some.injEq, true_and, h'.1, h'.2]
      exact eq_comm
    · have h' : ¬ (1 ≤ nautyVertices env.flags G k ∧ nautyVertices env.flags G k ≤ 64) :=
        fun hc => hw (h.mpr hc)
      simp only [hv, hw, Bool.not_true, Bool.false_eq_true, if_false, ne_eq, not_false_eq_true,
        if_true, true_and]
      constructor
      · intro hc; exact absurd hc (by simp)
      · intro hc; exact absurd ⟨hc.1, hc.2.1⟩ h'
  · simp [hv]

/-- The subgraphs one root emits, in terms of `levelTails`. -/
theorem EnumerateSubgraphsFromNode_emitted {env : Env} {G : Graph} {k : Nat} {u : Int}
    {st : EnumState} (h : EnumerateSubgraphsFromNode env G k u = some st) :
    st.emitted = (levelTails env G u (k - 1) [u] [u] (k - 1)).map
        (fun tail => [u] :: tail.map env.it.iter) ∧
    st.visited = [u] ∧ st.enumerated_subgraphs = st.emitted.length := by
  obtain ⟨_, _, _, hst⟩ := (EnumerateSubgraphsFromNode_eq_some_iff env G k u st).mp h
  have hS0 : (initialState env.flags G k u).S 0 = [u] := by
    simp [initialState, setInsert]
  have hem := EnumerateVertex_emits env G u (k - 1) (initialState env.flags G k u).S [u]
    (k - 1) 1 (le_refl 1) (initialState env.flags G k u) (fun _ _ => rfl)
    (by simp [initialState, setInsert])
  obtain ⟨e1, _, e3, e4⟩ := hem
  simp only [Nat.sub_self, hS0] at e3 e4
  have hl : levelSets env (initialState env.flags G k u).S 1 = [[u]] := by
    simp [levelSets, List.range_succ, hS0, iter_singleton]
  have hi0 : (initialState env.flags G k u).emitted = [] := by simp [initialState]
  have hc0 : (initialState env.flags G k u).enumerated_subgraphs = 0 := by simp [initialState]
  subst hst
  refine ⟨?_, e1, ?_⟩
  · rw [e3, hi0, hl]; simp
  · rw [e4, e3, hi0, hc0]; simp

theorem foldl_setInsert_of_nodup (c acc : List Int) (h : (acc ++ c).Nodup) :
    c.foldl setInsert acc = acc ++ c := by
  induction c generalizing acc with
  | nil => simp
  | cons x c ih =>
    have hx : x ∉ acc := by
      intro hc
      have := List.nodup_append.mp h
      exact this.2.2 hc (List.mem_cons_self x c)
    have e : setInsert acc x = acc ++ [x] := by simp [setInsert, hx]
    simp only [List.foldl_cons, e]
    rw [ih (acc ++ [x]) (by simpa using h)]
    simp

theorem levelOf_of_nodup (c : List Int) (h : c.Nodup) : levelOf c = c := by
  unfold levelOf
  rw [foldl_setInsert_of_nodup c [] (by simpa using h)]
  simp

theorem sublist_eq_filter {l c : List Int} (hl : l.Nodup) (hc : c.Sublist l) :
    c = l.filter (fun x => decide (x ∈ c)) := by
  induction hc with
  | slnil => simp
  | @cons c l a hcl ih =>
    have hal : a ∉ l := (List.nodup_cons.mp hl).1
    have hac : a ∉ c := fun h => hal (hcl.subset h)
    rw [List.filter_cons_of_neg (by simpa using hac)]
    exact ih (List.nodup_cons.mp hl).2
  | @cons₂ c l a hcl ih =>
    have hal : a ∉ l := (List.nodup_cons.mp hl).1
    rw [List.filter_cons_of_pos (by simp)]
    congr 1
    have := ih (List.nodup_cons.mp hl).2
    conv_lhs => rw [this]
    apply List.filter_congr
    intro x hx
    have hxa : x ≠ a := fun e => hal (e ▸ hx)
    simp [hxa]

theorem sublist_ext_of_nodup {l c c' : List Int} (hl : l.Nodup) (hc : c.Sublist l)
    (hc' : c'.Sublist l) (h : ∀ x, x ∈ c ↔ x ∈ c') : c = c' := by
  rw [sublist_eq_filter hl hc, sublist_eq_filter hl hc']
  apply List.filter_congr
  intro x _
  simp [h x]

theorem combinationsFrom_perm (r : Nat) (rest combination : List Int)
    (h : combination.length ≤ r) :
    List.Perm (combinationsFrom r rest combination)
      ((List.sublistsLen (r - combination.length) rest).map (fun t => combination ++ t)) := by
  induction rest generalizing combination with
  | nil =>
    unfold combinationsFrom
    by_cases e : combination.length = r
    · simp [e]
    · have : r - combination.length = (r - combination.length - 1) + 1 := by omega
      rw [if_neg e, this, List.sublistsLen_succ_nil]
      simp
  | cons v rest ih =>
    unfold combinationsFrom
    by_cases e : combination.length = r
    · simp [e]
    · have hn : r - combination.length = (r - combination.length - 1) + 1 := by omega
      rw [if_neg e, hn, List.sublistsLen_succ_cons, List.map_append, List.map_map]
      have h1 := ih (combination ++ [v]) (by simp; omega)
      have h2 := ih combination h
      rw [hn] at h2
      have e1 : (combination ++ [v]).length = combination.length + 1 := by simp
      have e2 : r - (combination ++ [v]).length = r - combination.length - 1 := by
        rw [e1]; omega
      rw [e2] at h1
      refine (List.Perm.append h1 h2).trans ?_
      refine List.perm_append_comm.trans ?_
      apply List.Perm.append_left
      apply List.Perm.of_eq
      apply List.map_congr_left
      intro t _
      simp

/-- The combinations of size `r` that `Combinations` passes on are the
sublists of `vertices` of length `r`, each once. -/
theorem combinationsFrom_spec (r : Nat) (vertices : List Int) (hv : vertices.Nodup) :
    (combinationsFrom r vertices []).Nodup ∧
    (∀ c, c ∈ combinationsFrom r vertices [] ↔ c.Sublist vertices ∧ c.length = r) ∧
    (combinationsFrom r vertices []).length = Nat.choose vertices.length r := by
  have hp := combinationsFrom_perm r vertices [] (Nat.zero_le r)
  simp only [List.length_nil, Nat.sub_zero, List.nil_append, List.map_id'] at hp
  refine ⟨hp.nodup_iff.mpr (List.nodup_sublistsLen r hv), ?_, ?_⟩
  · intro c
    rw [hp.mem_iff, List.mem_sublistsLen]
  · rw [hp.length_eq, List.length_sublistsLen]

/-- How a tail of `levelTails` at a positive budget arises. -/
theorem mem_levelTails_succ {env : Env} {G : Graph} {u : Int} {fuel rem : Nat}
    {parents visited : List Int} {tail : List (List Int)} :
    tail ∈ levelTails env G u (fuel + 1) parents visited (rem + 1) ↔
      ∃ k_i c t', 1 ≤ k_i ∧ k_i ≤ (Validate env G parents u visited).1.length ∧ k_i ≤ rem + 1 ∧
        c ∈ combinationsFrom k_i (Validate env G parents u visited).1 [] ∧
        t' ∈ levelTails env G u fuel (levelOf c) (Validate env G parents u visited).2
          (rem + 1 - k_i) ∧
        tail = levelOf c :: t' := by
  simp only [levelTails, List.mem_flatMap, List.mem_map, List.mem_range'_1]
  constructor
  · rintro ⟨k_i, ⟨h1, h2⟩, c, hc, t', ht', rfl⟩
    exact ⟨k_i, c, t', h1, by omega, by omega, hc, ht', rfl⟩
  · rintro ⟨k_i, c, t', h1, h2, h3, hc, ht', rfl⟩
    exact ⟨k_i, ⟨h1, by omega⟩, c, hc, t', ht', rfl⟩

/-- Every tail of `levelTails` consists of `rem` pairwise distinct vertices
outside `visited`, arranged in a chain of levels. -/
theorem levelTails_sound (env : Env) (G : Graph) (u : Int) (fuel : Nat) :
    ∀ (parents visited : List Int) (rem : Nat) (tail : List (List Int)),
      tail ∈ levelTails env G u fuel parents visited rem →
      tail.flatten.Nodup ∧ (∀ x ∈ tail.flatten, x ∉ visited) ∧ tail.flatten.length = rem ∧
      LevelChain env G u parents tail := by
  induction fuel with
  | zero =>
    intro parents visited rem tail h
    cases rem with
    | zero =>
      simp only [levelTails, List.mem_singleton] at h
      subst h
      simp [LevelChain]
    | succ rem => simp [levelTails] at h
  | succ fuel ih =>
    intro parents visited rem tail h
    cases rem with
    | zero =>
      simp only [levelTails, List.mem_singleton] at h
      subst h
      simp [LevelChain]
    | succ rem =>
      obtain ⟨k_i, c, t', h1, h2, h3, hc, ht', rfl⟩ := mem_levelTails_succ.mp h
      obtain ⟨v1, v2, v3, new, v4, v5⟩ := Validate_spec env G parents u visited
      obtain ⟨_, cmem, _⟩ := combinationsFrom_spec k_i _ v1
      obtain ⟨csub, clen⟩ := (cmem c).mp hc
      have cnd : c.Nodup := csub.nodup v1
      rw [levelOf_of_nodup c cnd] at ht' ⊢
      obtain ⟨i1, i2, i3, i4⟩ := ih c _ (rem + 1 - k_i) t' ht'
      have hcv : ∀ x ∈ c, x ∈ (Validate env G parents u visited).2 := by
        intro x hx
        rw [v4]
        exact List.mem_append_right _ (v5.mem_iff.mp (csub.subset hx))
      refine ⟨?_, ?_, ?_, ?_, ?_, i4⟩
      · rw [List.flatten_cons]
        exact List.Nodup.append cnd i1 (fun x hx hx' => i2 x hx' (hcv x hx))
      · intro x hx
        rw [List.flatten_cons] at hx
        rcases List.mem_append.mp hx with hx | hx
        · exact v2 x (csub.subset hx)
        · intro hv
          exact i2 x hx (by rw [v4]; exact List.mem_append_left _ hv)
      · rw [List.flatten_cons, List.length_append, i3, clen]; omega
      · intro e
        rw [e] at clen
        simp at clen
        omega
      · intro w hw
        exact ((v3 w).mp (csub.subset hw)).2

/-- Two tails of `levelTails` with the same vertices are the same tail. -/
theorem levelTails_inj (env : Env) (G : Graph) (u : Int) (fuel : Nat) :
    ∀ (parents visited : List Int) (rem : Nat) (t1 t2 : List (List Int)),
      t1 ∈ levelTails env G u fuel parents visited rem →
      t2 ∈ levelTails env G u fuel parents visited rem →
      (∀ x, x ∈ t1.flatten ↔ x ∈ t2.flatten) → t1 = t2 := by
  induction fuel with
  | zero =>
    intro parents visited rem t1 t2 h1 h2 _
    cases rem with
    | zero =>
      simp only [levelTails, List.mem_singleton] at h1 h2
      rw [h1, h2]
    | succ rem => simp [levelTails] at h1
  | succ fuel ih =>
    intro parents visited rem t1 t2 h1 h2 hmem
    cases rem with
    | zero =>
      simp only [levelTails, List.mem_singleton] at h1 h2
      rw [h1, h2]
    | succ rem =>
      obtain ⟨k1, c1, t1', _, _, _, hc1, ht1', rfl⟩ := mem_levelTails_succ.mp h1
      obtain ⟨k2, c2, t2', _, _, _, hc2, ht2', rfl⟩ := mem_levelTails_succ.mp h2
      obtain ⟨v1, v2, v3, new, v4, v5⟩ := Validate_spec env G parents u visited
      obtain ⟨csub1, clen1⟩ := ((combinationsFrom_spec k1 _ v1).2.1 c1).mp hc1
      obtain ⟨csub2, clen2⟩ := ((combinationsFrom_spec k2 _ v1).2.1 c2).mp hc2
      rw [levelOf_of_nodup c1 (csub1.nodup v1)] at ht1' hmem h1 ⊢
      rw [levelOf_of_nodup c2 (csub2.nodup v1)] at ht2' hmem h2 ⊢
      obtain ⟨a1, a2, _, _⟩ := levelTails_sound env G u fuel _ _ _ _ ht1'
      obtain ⟨b1, b2, _, _⟩ := levelTails_sound env G u fuel _ _ _ _ ht2'
      obtain ⟨n1, _, _, _⟩ := levelTails_sound env G u (fuel + 1) _ _ _ _ h1
      obtain ⟨n2, _, _, _⟩ := levelTails_sound env G u (fuel + 1) _ _ _ _ h2
      have hin : ∀ {c : List Int}, c.Sublist (Validate env G parents u visited).1 →
          ∀ x ∈ c, x ∈ (Validate env G parents u visited).2 := by
        intro c hc x hx
        rw [v4]
        exact List.mem_append_right _ (v5.mem_iff.mp (hc.subset hx))
      simp only [List.flatten_cons, List.mem_append] at hmem
      have hc : c1 = c2 := by
        apply sublist_ext_of_nodup v1 csub1 csub2
        intro x
        constructor
        · intro hx
          rcases (hmem x).mp (Or.inl hx) with h | h
          · exact h
          · exact absurd (hin csub1 x hx) (b2 x h)
        · intro hx
          rcases (hmem x).mpr (Or.inl hx) with h | h
          · exact h
          · exact absurd (hin csub2 x hx) (a2 x h)
      subst hc
      have hk : k1 = k2 := clen1.symm.trans clen2
      subst hk
      rw [List.flatten_cons] at n1 n2
      have d1 := (List.nodup_append.mp n1).2.2
      have d2 := (List.nodup_append.mp n2).2.2
      have := ih c1 _ _ t1' t2' ht1' ht2' (by
        intro x
        constructor
        · intro hx
          rcases (hmem x).mp (Or.inr hx) with h | h
          · exact absurd hx (fun hx' => d1 h hx')
          · exact h
        · intro hx
          rcases (hmem x).mpr (Or.inr hx) with h | h
          · exact absurd hx (fun hx' => d2 h hx')
          · exact h)
      rw [this]

/-- The list `levelTails` has no repeated entry. -/
theorem levelTails_nodup (env : Env) (G : Graph) (u : Int) (fuel : Nat) :
    ∀ (parents visited : List Int) (rem : Nat),
      (levelTails env G u fuel parents visited rem).Nodup := by
  induction fuel with
  | zero =>
    intro parents visited rem
    cases rem <;> simp [levelTails]
  | succ fuel ih =>
    intro parents visited rem
    cases rem with
    | zero => simp [levelTails]
    | succ rem =>
      obtain ⟨v1, _, _, _⟩ := Validate_spec env G parents u visited
      simp only [levelTails]
      rw [List.nodup_flatMap]
      constructor
      · intro k_i _
        rw [List.nodup_flatMap]
        constructor
        · intro c _
          exact (ih _ _ _).map (fun a b h => (List.cons.inj h).2)
        · apply (combinationsFrom_spec k_i _ v1).1.pairwise_of_forall_ne
          intro c1 hc1 c2 hc2 hne
          have s1 := ((combinationsFrom_spec k_i _ v1).2.1 c1).mp hc1
          have s2 := ((combinationsFrom_spec k_i _ v1).2.1 c2).mp hc2
          simp only [Function.onFun]
          intro t h1 h2
          obtain ⟨t1, _, rfl⟩ := List.mem_map.mp h1
          obtain ⟨t2, _, e⟩ := List.mem_map.mp h2
          rw [levelOf_of_nodup c1 (s1.1.nodup v1), levelOf_of_nodup c2 (s2.1.nodup v1)] at e
          exact hne (List.cons.inj e).1.symm
      · apply (List.nodup_range' 1 _).pairwise_of_forall_ne
        intro k1 _ k2 _ hne
        simp only [Function.onFun]
        intro t h1 h2
        obtain ⟨c1, hc1, h1⟩ := List.mem_flatMap.mp h1
        obtain ⟨c2, hc2, h2⟩ := List.mem_flatMap.mp h2
        have s1 := ((combinationsFrom_spec k1 _ v1).2.1 c1).mp hc1
        have s2 := ((combinationsFrom_spec k2 _ v1).2.1 c2).mp hc2
        obtain ⟨t1, _, rfl⟩ := List.mem_map.mp h1
        obtain ⟨t2, _, e⟩ := List.mem_map.mp h2
        rw [levelOf_of_nodup c1 (s1.1.nodup v1), levelOf_of_nodup c2 (s2.1.nodup v1)] at e
        have : c2 = c1 := (List.cons.inj e).1
        subst this
        exact hne (s1.2.symm.trans s2.2)

theorem ReachVia_mem {env : Env} {G : Graph} {T : Finset Int} {parents : List Int} {t : Int}
    (h : ReachVia env G T parents t) : t ∈ T := by
  cases h with
  | base _ ht _ => exact ht
  | step _ ht _ => exact ht

theorem ReachVia_first {env : Env} {G : Graph} {T : Finset Int} {parents : List Int} {t : Int}
    (h : ReachVia env G T parents t) : ∃ w ∈ T, ∃ p ∈ parents, Expands env G p w := by
  induction h with
  | base hp ht hn => exact ⟨_, ht, _, hp, hn⟩
  | step _ _ _ ih => exact ih

theorem ReachVia_restrict {env : Env} {G : Graph} {T : Finset Int} {parents valid c : List Int}
    (hvalid : ∀ x ∈ T, (∃ p ∈ parents, Expands env G p x) → x ∈ valid)
    (hc : ∀ x, x ∈ c ↔ x ∈ valid ∧ x ∈ T) {t : Int} (h : ReachVia env G T parents t) :
    t ∈ valid ∨ ReachVia env G (T.filter (fun x => x ∉ valid)) c t := by
  induction h with
  | base hp ht hn => exact Or.inl (hvalid _ ht ⟨_, hp, hn⟩)
  | @step s t hs ht hn ih =>
    by_cases htv : t ∈ valid
    · exact Or.inl htv
    · right
      have ht' : t ∈ T.filter (fun x => x ∉ valid) := Finset.mem_filter.mpr ⟨ht, htv⟩
      rcases ih with h | h
      · exact ReachVia.base ((hc s).mpr ⟨h, ReachVia_mem hs⟩) ht' hn
      · exact ReachVia.step h ht' hn

/-- Every set `T` of `rem` unvisited vertices with admissible enumeration
indices, each reached from `parents` by steps of the enumeration inside `T`,
is the vertex set of some tail of `levelTails`. -/
theorem levelTails_complete (env : Env) (G : Graph) (u : Int) (fuel : Nat) :
    ∀ (parents visited : List Int) (rem : Nat) (T : Finset Int),
      rem ≤ fuel → T.card = rem → (∀ t ∈ T, t ∉ visited) →
      (∀ t ∈ T, G.enumeration_index u ≤ G.enumeration_index t) →
      (∀ t ∈ T, ReachVia env G T parents t) →
      ∃ tail ∈ levelTails env G u fuel parents visited rem, ∀ x, x ∈ tail.flatten ↔ x ∈ T := by
  induction fuel with
  | zero =>
    intro parents visited rem T hrem hcard _ _ _
    have : rem = 0 := by omega
    subst this
    have hT : T = ∅ := Finset.card_eq_zero.mp hcard
    subst hT
    exact ⟨[], by simp [levelTails], by simp⟩
  | succ fuel ih =>
    intro parents visited rem T hrem hcard hvis henum hreach
    cases rem with
    | zero =>
      have hT : T = ∅ := Finset.card_eq_zero.mp hcard
      subst hT
      exact ⟨[], by simp [levelTails], by simp⟩
    | succ rem =>
      obtain ⟨v1, v2, v3, new, v4, v5⟩ := Validate_spec env G parents u visited
      generalize hval : (Validate env G parents u visited).1 = valid at v1 v2 v3 v5
      have hvalid : ∀ x ∈ T, (∃ p ∈ parents, Expands env G p x) → x ∈ valid := by
        intro x hx ⟨p, hp, hn⟩
        exact (v3 x).mpr ⟨hvis x hx, p, hp, hn.1, hn.2, henum x hx⟩
      let c := valid.filter (fun x => decide (x ∈ T))
      have hcmem : ∀ x, x ∈ c ↔ x ∈ valid ∧ x ∈ T := by
        intro x; simp [c]
      have csub : c.Sublist valid := List.filter_sublist valid
      have cnd : c.Nodup := csub.nodup v1
      have hne : c ≠ [] := by
        obtain ⟨t0, ht0⟩ := Finset.card_pos.mp (by omega : 0 < T.card)
        obtain ⟨w, hw, p, hp, hn⟩ := ReachVia_first (hreach t0 ht0)
        intro e
        have : w ∈ c := (hcmem w).mpr ⟨hvalid w hw ⟨p, hp, hn⟩, hw⟩
        rw [e] at this
        simp at this
      have hlen1 : 1 ≤ c.length := by
        cases hcc : c with
        | nil => exact absurd hcc hne
        | cons a l => simp
      have hlen2 : c.length ≤ valid.length := csub.length_le
      have hsplit : T = T.filter (fun x => x ∉ valid) ∪ c.toFinset := by
        ext x
        simp only [Finset.mem_union, Finset.mem_filter, List.mem_toFinset, hcmem]
        constructor
        · intro hx
          by_cases hxv : x ∈ valid
          · exact Or.inr ⟨hxv, hx⟩
          · exact Or.inl ⟨hx, hxv⟩
        · rintro (h | h)
          · exact h.1
          · exact h.2
      have hdisj : Disjoint (T.filter (fun x => x ∉ valid)) c.toFinset := by
        rw [Finset.disjoint_left]
        intro x hx hx'
        exact (Finset.mem_filter.mp hx).2 ((hcmem x).mp (List.mem_toFinset.mp hx')).1
      have hcardT : T.card = (T.filter (fun x => x ∉ valid)).card + c.length := by
        conv_lhs => rw [hsplit]
        rw [Finset.card_union_of_disjoint hdisj, List.toFinset_card_of_nodup cnd]
      have hlen3 : c.length ≤ rem + 1 := by omega
      have hcomb : c ∈ combinationsFrom c.length valid [] :=
        ((combinationsFrom_spec c.length valid v1).2.1 c).mpr ⟨csub, rfl⟩
      obtain ⟨tail', ht', hmem'⟩ := ih c (Validate env G parents u visited).2
        (rem + 1 - c.length) (T.filter (fun x => x ∉ valid)) (by omega) (by omega)
        (by
          intro t ht
          obtain ⟨ht1, ht2⟩ := Finset.mem_filter.mp ht
          rw [v4]
          intro hc
          rcases List.mem_append.mp hc with h | h
          · exact hvis t ht1 h
          · exact ht2 (v5.mem_iff.mpr h))
        (fun t ht => henum t (Finset.mem_filter.mp ht).1)
        (by
          intro t ht
          obtain ⟨ht1, ht2⟩ := Finset.mem_filter.mp ht
          rcases ReachVia_restrict hvalid hcmem (hreach t ht1) with h | h
          · exact absurd h ht2
          · exact h)
      refine ⟨c :: tail', ?_, ?_⟩
      · apply mem_levelTails_succ.mpr
        rw [hval]
        exact ⟨c.length, c, tail', hlen1, hlen2, hlen3, hcomb,
          by rw [levelOf_of_nodup c cnd]; exact ht', by rw [levelOf_of_nodup c cnd]⟩
      · intro x
        rw [List.flatten_cons, List.mem_append, hmem', hcmem, Finset.mem_filter]
        constructor
        · rintro (h | h)
          · exact h.2
          · exact h.1
        · intro hx
          by_cases hxv : x ∈ valid
          · exact Or.inl ⟨hxv, hx⟩
          · exact Or.inr ⟨hx, hxv⟩

theorem flatten_map_iter_perm (it : IterOrder) (tail : List (List Int)) :
    List.Perm (tail.map it.iter).flatten tail.flatten := by
  induction tail with
  | nil => simp
  | cons l tail ih =>
    simp only [List.map_cons, List.flatten_cons]
    exact List.Perm.append (it.perm l) ih

/-- A property that passes from a vertex to its admissible neighbours inside
the subgraph holds on every level of a chain once it holds on the parents. -/
theorem LevelChain_forall {env : Env} {G : Graph} {u : Int} (Hs Q : Int → Prop)
    (hstep : ∀ v w, Q v → w ∈ G.neighbors v → Admissible env G u v w → Hs w → Q w) :
    ∀ (tail : List (List Int)) (parents : List Int), LevelChain env G u parents tail →
      (∀ p ∈ parents, Q p) → (∀ x ∈ tail.flatten, Hs x) → ∀ x ∈ tail.flatten, Q x := by
  intro tail
  induction tail with
  | nil => intro _ _ _ _ x hx; simp at hx
  | cons level rest ih =>
    intro parents hchain hpar hHs x hx
    obtain ⟨_, hlev, hrest⟩ := hchain
    have hQ : ∀ w ∈ level, Q w := by
      intro w hw
      obtain ⟨v, hv, hn, hadm⟩ := hlev w hw
      exact hstep v w (hpar v hv) hn hadm
        (hHs w (by rw [List.flatten_cons]; exact List.mem_append_left _ hw))
    rw [List.flatten_cons] at hx
    rcases List.mem_append.mp hx with h | h
    · exact hQ x h
    · exact ih level hrest hQ
        (fun y hy => hHs y (by rw [List.flatten_cons]; exact List.mem_append_right _ hy)) x h

/-- The shape of every emitted subgraph: the root level followed by a tail of
`levelTails`, each level in the order the numbering loop walks it. -/
theorem emitted_shape {env : Env} {G : Graph} {k : Nat} {u : Int} {st : EnumState}
    (h : EnumerateSubgraphsFromNode env G k u = some st) {levels : List (List Int)}
    (hl : levels ∈ st.emitted) :
    1 ≤ k ∧ ∃ tail ∈ levelTails env G u (k - 1) [u] [u] (k - 1),
      levels = [u] :: tail.map env.it.iter ∧
      (∀ x, x ∈ levels.flatten ↔ x = u ∨ x ∈ tail.flatten) ∧
      tail.flatten.Nodup ∧ u ∉ tail.flatten ∧ tail.flatten.length = k - 1 ∧
      LevelChain env G u [u] tail := by
  obtain ⟨_, hn1, _, _⟩ := (EnumerateSubgraphsFromNode_eq_some_iff env G k u st).mp h
  have hk : 1 ≤ k := by
    unfold nautyVertices at hn1
    split at hn1
    · rcases Nat.eq_zero_or_pos k with h0 | h0
      · rw [h0] at hn1; simp at hn1
      · exact h0
    · exact hn1
  obtain ⟨he, _, _⟩ := EnumerateSubgraphsFromNode_emitted h
  rw [he] at hl
  obtain ⟨tail, ht, rfl⟩ := List.mem_map.mp hl
  obtain ⟨s1, s2, s3, s4⟩ := levelTails_sound env G u (k - 1) [u] [u] (k - 1) tail ht
  refine ⟨hk, tail, ht, rfl, ?_, s1, ?_, s3, s4⟩
  · intro x
    rw [List.flatten_cons, List.mem_append, (flatten_map_iter_perm env.it tail).mem_iff]
    simp
  · intro hu
    exact s2 u hu (by simp)

theorem ReachVia_trans {env : Env} {G : Graph} {T : Finset Int} {parents level : List Int}
    (hlev : ∀ p ∈ level, ReachVia env G T parents p) {x : Int}
    (h : ReachVia env G T level x) : ReachVia env G T parents x := by
  induction h with
  | base hp ht hn => exact ReachVia.step (hlev _ hp) ht hn
  | step _ ht hn ih => exact ReachVia.step ih ht hn

/-- The vertices of a chain of levels are reached from its parents inside any
set that holds them all (for any environment with the same community flag). -/
theorem LevelChain_reach {env env' : Env} {G : Graph} {u : Int}
    (hflag : env'.flags.COMMUNITY_BASED = env.flags.COMMUNITY_BASED) (T : Finset Int) :
    ∀ (tail : List (List Int)) (parents : List Int), LevelChain env G u parents tail →
      (∀ x ∈ tail.flatten, x ∈ T) → ∀ x ∈ tail.flatten, ReachVia env' G T parents x := by
  intro tail
  induction tail with
  | nil => intro _ _ _ x hx; simp at hx
  | cons level rest ih =>
    intro parents hchain hT x hx
    obtain ⟨_, hlev, hrest⟩ := hchain
    have hbase : ∀ w ∈ level, ReachVia env' G T parents w := by
      intro w hw
      obtain ⟨v, hv, hn, hadm⟩ := hlev w hw
      exact ReachVia.base hv
        (hT w (by rw [List.flatten_cons]; exact List.mem_append_left _ hw))
        ⟨hn, fun hc => hadm.1 (hflag ▸ hc)⟩
    rw [List.flatten_cons] at hx
    rcases List.mem_append.mp hx with h | h
    · exact hbase x h
    · exact ReachVia_trans hbase (ih level hrest
        (fun y hy => hT y (by rw [List.flatten_cons]; exact List.mem_append_right _ hy)) x h)

theorem LevelChain_enum {env : Env} {G : Graph} {u : Int} (tail : List (List Int))
    (parents : List Int) (h : LevelChain env G u parents tail) :
    ∀ x ∈ tail.flatten, G.enumeration_index u ≤ G.enumeration_index x := by
  induction tail generalizing parents with
  | nil => intro x hx; simp at hx
  | cons level rest ih =>
    obtain ⟨_, hlev, hrest⟩ := h
    intro x hx
    rw [List.flatten_cons] at hx
    rcases List.mem_append.mp hx with h | h
    · obtain ⟨v, _, _, hadm⟩ := hlev x h
      exact hadm.2
    · exact ih level hrest x h

/-- The vertex sets `levelTails` produces do not depend on the iteration
order of the unordered sets nor on the other parts of the environment, the
community flag apart. -/
theorem levelTails_env_indep {env env' : Env} {G : Graph} {u : Int}
    (hflag : env'.flags.COMMUNITY_BASED = env.flags.COMMUNITY_BASED)
    (parents visited : List Int) (rem : Nat) (tail : List (List Int))
    (h : tail ∈ levelTails env G u rem parents visited rem) :
    ∃ tail' ∈ levelTails env' G u rem parents visited rem,
      ∀ x, x ∈ tail'.flatten ↔ x ∈ tail.flatten := by
  obtain ⟨s1, s2, s3, s4⟩ := levelTails_sound env G u rem parents visited rem tail h
  obtain ⟨tail', h1, h2⟩ := levelTails_complete env' G u rem parents visited rem
    tail.flatten.toFinset (le_refl rem)
    (by rw [List.toFinset_card_of_nodup s1, s3])
    (fun t ht => s2 t (List.mem_toFinset.mp ht))
    (fun t ht => LevelChain_enum tail parents s4 t (List.mem_toFinset.mp ht))
    (fun t ht => LevelChain_reach hflag _ tail parents s4
      (fun x hx => List.mem_toFinset.mpr hx) t (List.mem_toFinset.mp ht))
  exact ⟨tail', h1, fun x => by rw [h2, List.mem_toFinset]⟩

theorem subgraphVertices_emitted {it : IterOrder} (u : Int) (tail : List (List Int)) :
    subgraphVertices ([u] :: tail.map it.iter) = insert u tail.flatten.toFinset := by
  ext x
  simp only [subgraphVertices, List.flatten_cons, List.mem_toFinset, List.mem_append,
    List.mem_singleton, Finset.mem_insert, (flatten_map_iter_perm it tail).mem_iff]

/-- No vertex set is emitted twice from one root. -/
theorem emitted_sets_nodup {env : Env} {G : Graph} {k : Nat} {u : Int} {st : EnumState}
    (h : EnumerateSubgraphsFromNode env G k u = some st) :
    (st.emitted.map subgraphVertices).Nodup := by
  obtain ⟨he, _, _⟩ := EnumerateSubgraphsFromNode_emitted h
  rw [he, List.map_map]
  apply List.Nodup.map_on _ (levelTails_nodup env G u (k - 1) [u] [u] (k - 1))
  intro t1 h1 t2 h2 e
  simp only [Function.comp, subgraphVertices_emitted] at e
  obtain ⟨_, a2, _, _⟩ := levelTails_sound env G u (k - 1) [u] [u] (k - 1) t1 h1
  obtain ⟨_, b2, _, _⟩ := levelTails_sound env G u (k - 1) [u] [u] (k - 1) t2 h2
  apply levelTails_inj env G u (k - 1) [u] [u] (k - 1) t1 t2 h1 h2
  intro x
  have hx := Finset.ext_iff.mp e x
  simp only [Finset.mem_insert, List.mem_toFinset] at hx
  constructor
  · intro hx1
    rcases hx.mp (Or.inr hx1) with h | h
    · subst h; exact absurd (List.mem_singleton.mpr rfl) (a2 x hx1)
    · exact h
  · intro hx2
    rcases hx.mpr (Or.inr hx2) with h | h
    · subst h; exact absurd (List.mem_singleton.mpr rfl) (b2 x hx2)
    · exact h

/-- The vertex sets emitted from a root are the same for any two environments
with the same community flag. -/
theorem emitted_sets_env_indep {env env' : Env} {G : Graph} {k : Nat} {u : Int}
    {st st' : EnumState}
    (hflag : env'.flags.COMMUNITY_BASED = env.flags.COMMUNITY_BASED)
    (h : EnumerateSubgraphsFromNode env G k u = some st)
    (h' : EnumerateSubgraphsFromNode env' G k u = some st') (H : Finset Int) :
    H ∈ st.emitted.map subgraphVertices → H ∈ st'.emitted.map subgraphVertices := by
  obtain ⟨he, _, _⟩ := EnumerateSubgraphsFromNode_emitted h
  obtain ⟨he', _, _⟩ := EnumerateSubgraphsFromNode_emitted h'
  rw [he, he', List.map_map, List.map_map]
  intro hH
  obtain ⟨tail, ht, rfl⟩ := List.mem_map.mp hH
  obtain ⟨tail', ht', hmem⟩ := levelTails_env_indep hflag [u] [u] (k - 1) tail ht
  refine List.mem_map.mpr ⟨tail', ht', ?_⟩
  simp only [Function.comp, subgraphVertices_emitted]
  congr 1
  ext x
  simp only [List.mem_toFinset, hmem]

/-- The number of subgraphs emitted from a root is the same for any two
environments with the same community flag. -/
theorem emitted_length_env_indep {env env' : Env} {G : Graph} {k : Nat} {u : Int}
    {st st' : EnumState}
    (hflag : env'.flags.COMMUNITY_BASED = env.flags.COMMUNITY_BASED)
    (h : EnumerateSubgraphsFromNode env G k u = some st)
    (h' : EnumerateSubgraphsFromNode env' G k u = some st') :
    st.emitted.length = st'.emitted.length := by
  have n1 := emitted_sets_nodup h
  have n2 := emitted_sets_nodup h'
  have e : (st.emitted.map subgraphVertices).toFinset =
      (st'.emitted.map subgraphVertices).toFinset := by
    ext H
    simp only [List.mem_toFinset]
    exact ⟨emitted_sets_env_indep hflag h h' H, emitted_sets_env_indep hflag.symm h' h H⟩
  have := congrArg Finset.card e
  rw [List.toFinset_card_of_nodup n1, List.toFinset_card_of_nodup n2] at this
  simpa using this

theorem graphOf_Built (directed : Bool) (ops : List GraphOp)
    (h : ((Graph.new directed false false 0).build ops).isSome = true) :
    (graphOf directed ops).Built := by
  obtain ⟨G, hG⟩ := Option.isSome_iff_exists.mp h
  have : graphOf directed ops = G := by simp [graphOf, hG]
  rw [this]
  exact Built_of_build (Graph.Built.new directed false false 0) ops hG

theorem EnumerateSubgraphsFromNode_rootState {env : Env} {G : Graph} {k : Nat} {u : Int}
    (hu : G.hasVertex u = true) (h1 : 1 ≤ nautyVertices env.flags G k)
    (h2 : nautyVertices env.flags G k ≤ 64) :
    EnumerateSubgraphsFromNode env G k u = some (rootState env G k u) :=
  (EnumerateSubgraphsFromNode_eq_some_iff env G k u _).mpr ⟨hu, h1, h2, rfl⟩

/-- `EnumerateSubgraphsFromNode` aborts exactly when one of its assertions
fails: the root is no vertex of the graph, or the nauty graph does not have
between 1 and 64 vertices. -/
theorem EnumerateSubgraphsFromNode_eq_none_iff (env : Env) (G : Graph) (k : Nat) (u : Int) :
    EnumerateSubgraphsFromNode env G k u = none ↔
      ¬ (G.hasVertex u = true ∧ 1 ≤ nautyVertices env.flags G k ∧
        nautyVertices env.flags G k ≤ 64) := by
  constructor
  · intro h hc
    rw [EnumerateSubgraphsFromNode_rootState hc.1 hc.2.1 hc.2.2] at h
    exact absurd h (by simp)
  · intro h
    cases hE : EnumerateSubgraphsFromNode env G k u with
    | none => rfl
    | some st =>
      obtain ⟨a, b, c, _⟩ := (EnumerateSubgraphsFromNode_eq_some_iff env G k u st).mp hE
      exact absurd ⟨a, b, c⟩ h

theorem triangle_Built : (graphOf false triangleOps).Built :=
  graphOf_Built false triangleOps (by decide!)

theorem cycle_Built : (graphOf true cycleOps).Built :=
  graphOf_Built true cycleOps (by decide!)

theorem complete_Built : (graphOf false completeOps).Built :=
  graphOf_Built false completeOps (by decide!)

theorem path_Built : (graphOf false pathOps).Built :=
  graphOf_Built false pathOps (by decide!)

theorem neighbor_hasVertex {G : Graph} (hwf : G.WellFormed) {v w : Int}
    (h : w ∈ G.neighbors v) : G.hasVertex w = true := by
  rcases (hwf.neighbors_iff v w).mp h with h | h
  · exact (hwf.edge_vertices v w h).2
  · exact (hwf.edge_vertices w v h).1

/-- The vertices of an emitted subgraph, listed level by level, are `k`
pairwise distinct vertices of the graph, the root among them. -/
theorem emitted_vertices {env : Env} {G : Graph} {k : Nat} {u : Int}
    {st : EnumState} {levels : List (List Int)} (hG : G.Built)
    (h : EnumerateSubgraphsFromNode env G k u = some st) (hl : levels ∈ st.emitted) :
    levels.flatten.Nodup ∧ levels.flatten.length = k ∧ u ∈ levels.flatten ∧
    (∀ x ∈ levels.flatten, G.hasVertex x = true) := by
  have hwf := WellFormed_of_Built hG
  obtain ⟨hu, _, _, _⟩ := (EnumerateSubgraphsFromNode_eq_some_iff env G k u st).mp h
  obtain ⟨hk, tail, _, rfl, hmem, hnd, hut, hlen, hchain⟩ := emitted_shape h hl
  have hperm := flatten_map_iter_perm env.it tail
  have hnodup : ([u] :: tail.map env.it.iter).flatten.Nodup := by
    rw [List.flatten_cons]
    refine List.Nodup.append (List.nodup_singleton u) (hperm.nodup_iff.mpr hnd) ?_
    intro x hx hx'
    rw [List.mem_singleton] at hx
    subst hx
    exact hut (hperm.mem_iff.mp hx')
  refine ⟨hnodup, ?_, (hmem u).mpr (Or.inl rfl), ?_⟩
  · rw [List.flatten_cons, List.length_append, hperm.length_eq, hlen]
    simp only [List.length_singleton]
    omega
  · intro x hx
    rcases (hmem x).mp hx with hx | hx
    · rw [hx]; exact hu
    · exact LevelChain_forall (fun _ => True) (fun x => G.hasVertex x = true)
        (fun v w _ hn _ _ => neighbor_hasVertex hwf hn) tail [u] hchain
        (by intro p hp; rw [List.mem_singleton] at hp; rw [hp]; exact hu)
        (fun _ _ => trivial) x hx

/-- C3. Every subgraph emitted by `EnumerateSubgraphsFromNode(G, k, u)` (the
union of the level sets `S[0..i-1]` at the `rem == 0` branch) consists of
exactly `k` pairwise distinct vertices of `G` and contains `u`; the level sets
are pairwise disjoint. -/
theorem emitted_subgraph_has_k_distinct_vertices (env : Env) (G : Graph) (k : Nat) (u : Int)
    (st : EnumState) (levels : List (List Int)) (hG : G.Built)
    (h : EnumerateSubgraphsFromNode env G k u = some st) (hl : levels ∈ st.emitted) :
    levels.flatten.Nodup ∧ levels.flatten.length = k ∧ u ∈ levels.flatten ∧
    (∀ x ∈ levels.flatten, G.hasVertex x = true) ∧ levels.Pairwise List.Disjoint := by
  obtain ⟨hnodup, hlen, hu, hvert⟩ := emitted_vertices hG h hl
  have hdisj : levels.Pairwise List.Disjoint := (List.nodup_flatten.mp hnodup).2
  exact ⟨hnodup, hlen, hu, hvert, hdisj⟩

/-- The undirected triangle, root 0, `k = 3`: the emitted subgraph with level
sets `{0}`, `{1, 2}` has three distinct vertices. -/
theorem emitted_subgraph_has_k_distinct_vertices_witness :
    (graphOf false triangleOps).Built ∧
    EnumerateSubgraphsFromNode (plainEnv false) (graphOf false triangleOps) 3 0 =
      some (rootState (plainEnv false) (graphOf false triangleOps) 3 0) ∧
    [[0], [1, 2]] ∈ (rootState (plainEnv false) (graphOf false triangleOps) 3 0).emitted ∧
    (([[0], [1, 2]] : List (List Int)).flatten.Nodup ∧
      ([[0], [1, 2]] : List (List Int)).flatten.length = 3 ∧
      (0 : Int) ∈ ([[0], [1, 2]] : List (List Int)).flatten ∧
      (∀ x ∈ ([[0], [1, 2]] : List (List Int)).flatten,
        (graphOf false triangleOps).hasVertex x = true) ∧
      ([[0], [1, 2]] : List (List Int)).Pairwise List.Disjoint) :=
  ⟨triangle_Built,
   EnumerateSubgraphsFromNode_rootState (by decide!) (by decide!) (by decide!),
   by decide!,
   emitted_subgraph_has_k_distinct_vertices (plainEnv false) (graphOf false triangleOps) 3 0
     (rootState (plainEnv false) (graphOf false triangleOps) 3 0) [[0], [1, 2]] triangle_Built
     (EnumerateSubgraphsFromNode_rootState (by decide!) (by decide!) (by decide!))
     (by decide!)⟩

theorem adjacent_symm (G : Graph) {a b : Int} (h : G.adjacent a b) : G.adjacent b a :=
  Or.symm h

/-- Inside an emitted subgraph every vertex is joined to the root by a walk. -/
theorem emitted_walk_from_root {env : Env} {G : Graph} {k : Nat} {u : Int}
    {st : EnumState} {levels : List (List Int)} (hG : G.Built)
    (h : EnumerateSubgraphsFromNode env G k u = some st) (hl : levels ∈ st.emitted) :
    u ∈ subgraphVertices levels ∧
    ∀ x ∈ subgraphVertices levels,
      Relation.ReflTransGen
        (fun x y => x ∈ subgraphVertices levels ∧ y ∈ subgraphVertices levels ∧ G.adjacent x y)
        u x := by
  have hwf := WellFormed_of_Built hG
  obtain ⟨_, tail, _, rfl, hmem, _, _, _, hchain⟩ := emitted_shape h hl
  generalize hH : subgraphVertices ([u] :: tail.map env.it.iter) = H
  have hHmem : ∀ x, x ∈ H ↔ x = u ∨ x ∈ tail.flatten := by
    intro x
    rw [← hH, subgraphVertices, List.mem_toFinset]
    exact hmem x
  have huH : u ∈ H := (hHmem u).mpr (Or.inl rfl)
  refine ⟨huH, ?_⟩
  intro x hx
  rcases (hHmem x).mp hx with hx | hx
  · rw [hx]
  · exact (LevelChain_forall (fun x => x ∈ H)
      (fun x => x ∈ H ∧
        Relation.ReflTransGen (fun x y => x ∈ H ∧ y ∈ H ∧ G.adjacent x y) u x)
      (fun v w hv hn _ hw =>
        ⟨hw, Relation.ReflTransGen.tail hv.2 ⟨hv.1, hw, (hwf.neighbors_iff v w).mp hn⟩⟩)
      tail [u] hchain
      (by
        intro p hp
        rw [List.mem_singleton] at hp
        rw [hp]
        exact ⟨huH, Relation.ReflTransGen.refl⟩)
      (fun y hy => (hHmem y).mpr (Or.inr hy)) x hx).2

/-- A vertex set in which every vertex is joined to one of them by a walk
induces a connected subgraph. -/
theorem inducedConnected_of_walks (G : Graph) (H : Finset Int) (u : Int)
    (hroot : ∀ x ∈ H,
      Relation.ReflTransGen (fun x y => x ∈ H ∧ y ∈ H ∧ G.adjacent x y) u x) :
    G.InducedConnected H := by
  have hsymm : Symmetric (fun x y => x ∈ H ∧ y ∈ H ∧ G.adjacent x y) :=
    fun x y hxy => ⟨hxy.2.1, hxy.1, adjacent_symm G hxy.2.2⟩
  intro a ha b hb
  exact Relation.ReflTransGen.trans
    (Relation.ReflTransGen.symmetric hsymm (hroot a ha)) (hroot b hb)

/-- C4. Every subgraph emitted by `EnumerateSubgraphsFromNode(G, k, u)` is
connected in the induced subgraph of `G`, an edge of either direction joining
its two ends. -/
theorem emitted_subgraph_connected (env : Env) (G : Graph) (k : Nat) (u : Int)
    (st : EnumState) (levels : List (List Int)) (hG : G.Built)
    (h : EnumerateSubgraphsFromNode env G k u = some st) (hl : levels ∈ st.emitted) :
    G.InducedConnected (subgraphVertices levels) := by
  obtain ⟨_, hwalk⟩ := emitted_walk_from_root hG h hl
  intro a ha b hb
  exact inducedConnected_of_walks G (subgraphVertices levels) u hwalk a ha b hb

/-- The directed 3-cycle 0→1→2→0 with `k = 3`: root 0 emits the one subgraph
with level sets `{0}`, `{1, 2}`, which is connected; roots 1 and 2 emit
nothing. -/
theorem emitted_subgraph_connected_witness :
    (graphOf true cycleOps).Built ∧
    EnumerateSubgraphsFromNode (plainEnv false) (graphOf true cycleOps) 3 0 =
      some (rootState (plainEnv false) (graphOf true cycleOps) 3 0) ∧
    [[0], [1, 2]] ∈ (rootState (plainEnv false) (graphOf true cycleOps) 3 0).emitted ∧
    (graphOf true cycleOps).InducedConnected (subgraphVertices [[0], [1, 2]]) ∧
    (rootState (plainEnv false) (graphOf true cycleOps) 3 0).emitted = [[[0], [1, 2]]] ∧
    (rootState (plainEnv false) (graphOf true cycleOps) 3 1).emitted = [] ∧
    (rootState (plainEnv false) (graphOf true cycleOps) 3 2).emitted = [] :=
  ⟨cycle_Built,
   EnumerateSubgraphsFromNode_rootState (by decide!) (by decide!) (by decide!),
   by decide!,
   emitted_subgraph_connected (plainEnv false) (graphOf true cycleOps) 3 0
     (rootState (plainEnv false) (graphOf true cycleOps) 3 0) [[0], [1, 2]] cycle_Built
     (EnumerateSubgraphsFromNode_rootState (by decide!) (by decide!) (by decide!))
     (by decide!),
   by decide!, by decide!, by decide!⟩

/-- No vertex of an emitted subgraph has an enumeration index below that of
the root. -/
theorem emitted_enumeration_le {env : Env} {G : Graph} {k : Nat} {u : Int}
    {st : EnumState} {levels : List (List Int)}
    (h : EnumerateSubgraphsFromNode env G k u = some st) (hl : levels ∈ st.emitted)
    {v : Int} (hv : v ∈ levels.flatten) :
    G.enumeration_index u ≤ G.enumeration_index v := by
  obtain ⟨_, tail, _, rfl, hmem, _, _, _, hchain⟩ := emitted_shape h hl
  rcases (hmem v).mp hv with hv | hv
  · rw [hv]
  · exact LevelChain_enum tail [u] hchain v hv

/-- C5. Every vertex `v` of every subgraph emitted by
`EnumerateSubgraphsFromNode(G, k, u)` satisfies
`enum_index[u] <= enum_index[v]`. -/
theorem emitted_subgraph_enumeration_index (env : Env) (G : Graph) (k : Nat) (u : Int)
    (st : EnumState) (levels : List (List Int))
    (h : EnumerateSubgraphsFromNode env G k u = some st) (hl : levels ∈ st.emitted) :
    ∀ v ∈ levels.flatten, G.enumeration_index u ≤ G.enumeration_index v := by
  intro v hv
  have hle := emitted_enumeration_le h hl hv
  exact hle

/-- The undirected path 0-1-2-3, root 1, `k = 3`: the emitted subgraph with
level sets `{1}`, `{2}`, `{3}` has no vertex of enumeration index below 1. -/
theorem emitted_subgraph_enumeration_index_witness :
    EnumerateSubgraphsFromNode (plainEnv false) (graphOf false pathOps) 3 1 =
      some (rootState (plainEnv false) (graphOf false pathOps) 3 1) ∧
    [[1], [2], [3]] ∈ (rootState (plainEnv false) (graphOf false pathOps) 3 1).emitted ∧
    (∀ v ∈ ([[1], [2], [3]] : List (List Int)).flatten,
      (graphOf false pathOps).enumeration_index 1 ≤ (graphOf false pathOps).enumeration_index v) :=
  ⟨EnumerateSubgraphsFromNode_rootState (by decide!) (by decide!) (by decide!),
   by decide!,
   emitted_subgraph_enumeration_index (plainEnv false) (graphOf false pathOps) 3 1
     (rootState (plainEnv false) (graphOf false pathOps) 3 1) [[1], [2], [3]]
     (EnumerateSubgraphsFromNode_rootState (by decide!) (by decide!) (by decide!))
     (by decide!)⟩

/-- C6. With `COMMUNITY_BASED` set, all vertices of every subgraph emitted by
`EnumerateSubgraphsFromNode(G, k, u)` have the community value of `u`,
although `Validate` compares a candidate only with the parent through which
it is reached. -/
theorem emitted_subgraph_one_community (env : Env) (G : Graph) (k : Nat) (u : Int)
    (st : EnumState) (levels : List (List Int))
    (hcb : env.flags.COMMUNITY_BASED = true)
    (h : EnumerateSubgraphsFromNode env G k u = some st) (hl : levels ∈ st.emitted) :
    ∀ v ∈ levels.flatten, G.community v = G.community u := by
  obtain ⟨_, tail, _, rfl, hmem, _, _, _, hchain⟩ := emitted_shape h hl
  intro v hv
  rcases (hmem v).mp hv with hv | hv
  · rw [hv]
  · exact LevelChain_forall (fun _ => True) (fun x => G.community x = G.community u)
      (fun v w hv _ hadm _ => (hadm.1 hcb).symm.trans hv) tail [u] hchain
      (by intro p hp; rw [List.mem_singleton] at hp; rw [hp])
      (fun _ _ => trivial) v hv

/-- The complete graph on 0, 1, 2, 3 with communities 0, 0, 1, 1 in community
mode: with `k = 2` root 0 emits the subgraph with level sets `{0}`, `{1}`,
both of community 0; with `k = 3` no root emits anything. -/
theorem emitted_subgraph_one_community_witness :
    (plainEnv true).flags.COMMUNITY_BASED = true ∧
    EnumerateSubgraphsFromNode (plainEnv true) (graphOf false completeOps) 2 0 =
      some (rootState (plainEnv true) (graphOf false completeOps) 2 0) ∧
    [[0], [1]] ∈ (rootState (plainEnv true) (graphOf false completeOps) 2 0).emitted ∧
    (∀ v ∈ ([[0], [1]] : List (List Int)).flatten,
      (graphOf false completeOps).community v = (graphOf false completeOps).community 0) ∧
    (rootState (plainEnv true) (graphOf false completeOps) 3 0).emitted = [] ∧
    (rootState (plainEnv true) (graphOf false completeOps) 3 1).emitted = [] ∧
    (rootState (plainEnv true) (graphOf false completeOps) 3 2).emitted = [] ∧
    (rootState (plainEnv true) (graphOf false completeOps) 3 3).emitted = [] :=
  ⟨rfl,
   EnumerateSubgraphsFromNode_rootState (by decide!) (by decide!) (by decide!),
   by decide!,
   emitted_subgraph_one_community (plainEnv true) (graphOf false completeOps) 2 0
     (rootState (plainEnv true) (graphOf false completeOps) 2 0) [[0], [1]] rfl
     (EnumerateSubgraphsFromNode_rootState (by decide!) (by decide!) (by decide!))
     (by decide!),
   by decide!, by decide!, by decide!, by decide!⟩

/-- A walk from `u` inside `H` reaches its end by steps of the enumeration
(community mode off) that stay in `H` without `u`. -/
theorem reach_of_walk {env : Env} {G : Graph} (hwf : G.WellFormed)
    (hcb : env.flags.COMMUNITY_BASED = false) {H : Finset Int} {u x : Int}
    (h : Relation.ReflTransGen (fun x y => x ∈ H ∧ y ∈ H ∧ G.adjacent x y) u x) :
    x = u ∨ ReachVia env G (H.erase u) [u] x := by
  induction h with
  | refl => exact Or.inl rfl
  | @tail b c _ hbc ih =>
    by_cases hcu : c = u
    · exact Or.inl hcu
    · right
      have hcT : c ∈ H.erase u := Finset.mem_erase.mpr ⟨hcu, hbc.2.1⟩
      have hexp : Expands env G b c :=
        ⟨(hwf.neighbors_iff b c).mpr hbc.2.2, fun hc => by simp [hcb] at hc⟩
      rcases ih with hb | hb
      · subst hb
        exact ReachVia.base (List.mem_singleton.mpr rfl) hcT hexp
      · exact ReachVia.step hb hcT hexp

/-- With community mode off, a connected set `H` of `k` vertices that holds
the root `u` and no vertex of smaller enumeration index is the vertex set of
one of the emitted subgraphs. -/
theorem connected_set_emitted {env : Env} {G : Graph} {k : Nat} {u : Int} {st : EnumState}
    {H : Finset Int} (hG : G.Built) (hcb : env.flags.COMMUNITY_BASED = false)
    (h : EnumerateSubgraphsFromNode env G k u = some st)
    (hcard : H.card = k) (huH : u ∈ H) (hconn : G.InducedConnected H)
    (henum : ∀ v ∈ H, G.enumeration_index u ≤ G.enumeration_index v) :
    H ∈ st.emitted.map subgraphVertices := by
  have hwf := WellFormed_of_Built hG
  obtain ⟨he, _, _⟩ := EnumerateSubgraphsFromNode_emitted h
  obtain ⟨tail, ht, hmem⟩ := levelTails_complete env G u (k - 1) [u] [u] (k - 1) (H.erase u)
    (le_refl _) (by rw [Finset.card_erase_of_mem huH, hcard])
    (by
      intro t ht
      rw [List.mem_singleton]
      exact (Finset.mem_erase.mp ht).1)
    (fun t ht => henum t (Finset.mem_erase.mp ht).2)
    (by
      intro t ht
      obtain ⟨htu, htH⟩ := Finset.mem_erase.mp ht
      rcases reach_of_walk hwf hcb (hconn u huH t htH) with h | h
      · exact absurd h htu
      · exact h)
  rw [he, List.map_map]
  refine List.mem_map.mpr ⟨tail, ht, ?_⟩
  simp only [Function.comp, subgraphVertices_emitted]
  ext x
  simp only [Finset.mem_insert, List.mem_toFinset, hmem, Finset.mem_erase]
  constructor
  · rintro (hx | hx)
    · rw [hx]; exact huH
    · exact hx.2
  · intro hx
    by_cases hxu : x = u
    · exact Or.inl hxu
    · exact Or.inr ⟨hxu, hx⟩

/-- C1 (amended). For every graph built by `AddVertex` and `AddEdge`, every
root `u` of the graph and every motif size `k` for which the word-size
assertion of `EnumerateSubgraphsFromNode` passes (the nauty graph has between
1 and 64 vertices), with community mode off: each set `H` of exactly `k`
vertices that contains `u`, is connected in the induced subgraph (edges taken
in either direction) and has `enum_index[u] <= enum_index[v]` for all its
vertices `v` reaches the `rem == 0` branch exactly once. -/
theorem connected_set_emitted_exactly_once (env : Env) (G : Graph) (k : Nat) (u : Int)
    (H : Finset Int) (hG : G.Built) (hcb : env.flags.COMMUNITY_BASED = false)
    (hu : G.hasVertex u = true) (h1 : 1 ≤ nautyVertices env.flags G k)
    (h2 : nautyVertices env.flags G k ≤ 64)
    (hcard : H.card = k) (huH : u ∈ H) (hconn : G.InducedConnected H)
    (henum : ∀ v ∈ H, G.enumeration_index u ≤ G.enumeration_index v) :
    ∃ st, EnumerateSubgraphsFromNode env G k u = some st ∧
      (st.emitted.map subgraphVertices).count H = 1 := by
  have h : EnumerateSubgraphsFromNode env G k u = some (rootState env G k u) :=
    EnumerateSubgraphsFromNode_rootState hu h1 h2
  exact ⟨_, h, List.count_eq_one_of_mem (emitted_sets_nodup h)
    (connected_set_emitted hG hcb h hcard huH hconn henum)⟩

theorem triangle_connected :
    (graphOf false triangleOps).InducedConnected ({0, 1, 2} : Finset Int) := by
  intro a ha b hb
  by_cases hab : a = b
  · rw [hab]
  · apply Relation.ReflTransGen.single
    refine ⟨ha, hb, ?_⟩
    have : ∀ a ∈ ({0, 1, 2} : Finset Int), ∀ b ∈ ({0, 1, 2} : Finset Int), a ≠ b →
        ((graphOf false triangleOps).hasEdge a b = true ∨
          (graphOf false triangleOps).hasEdge b a = true) := by decide!
    exact this a ha b hb hab

/-- The undirected triangle, root 0, `k = 3`: the set `{0, 1, 2}` is emitted
exactly once. -/
theorem connected_set_emitted_exactly_once_witness :
    (graphOf false triangleOps).Built ∧
    (plainEnv false).flags.COMMUNITY_BASED = false ∧
    (graphOf false triangleOps).hasVertex 0 = true ∧
    1 ≤ nautyVertices (plainEnv false).flags (graphOf false triangleOps) 3 ∧
    nautyVertices (plainEnv false).flags (graphOf false triangleOps) 3 ≤ 64 ∧
    ({0, 1, 2} : Finset Int).card = 3 ∧ (0 : Int) ∈ ({0, 1, 2} : Finset Int) ∧
    (graphOf false triangleOps).InducedConnected ({0, 1, 2} : Finset Int) ∧
    (∀ v ∈ ({0, 1, 2} : Finset Int),
      (graphOf false triangleOps).enumeration_index 0 ≤
        (graphOf false triangleOps).enumeration_index v) ∧
    (∃ st, EnumerateSubgraphsFromNode (plainEnv false) (graphOf false triangleOps) 3 0 = some st ∧
      (st.emitted.map subgraphVertices).count ({0, 1, 2} : Finset Int) = 1) :=
  ⟨triangle_Built, rfl, by decide!, by decide!, by decide!, by decide!, by decide!,
   triangle_connected, by decide!,
   connected_set_emitted_exactly_once (plainEnv false) (graphOf false triangleOps) 3 0 {0, 1, 2}
     triangle_Built rfl (by decide!) (by decide!) (by decide!) (by decide!) (by decide!)
     triangle_connected (by decide!)⟩

theorem star_Built : (graphOf false (starOps 64)).Built :=
  graphOf_Built false _ (by decide!)

theorem star_connected :
    (graphOf false (starOps 64)).InducedConnected (starVertices 64) := by
  have hedge : ∀ a ∈ starVertices 64, a ≠ 0 →
      (graphOf false (starOps 64)).hasEdge 0 a = true := by decide!
  have h0 : (0 : Int) ∈ starVertices 64 := by decide!
  have hfrom : ∀ a ∈ starVertices 64,
      Relation.ReflTransGen
        (fun x y => x ∈ starVertices 64 ∧ y ∈ starVertices 64 ∧
          (graphOf false (starOps 64)).adjacent x y) 0 a := by
    intro a ha
    by_cases ha0 : a = 0
    · rw [ha0]
    · exact Relation.ReflTransGen.single ⟨h0, ha, Or.inl (hedge a ha ha0)⟩
  have hto : ∀ a ∈ starVertices 64,
      Relation.ReflTransGen
        (fun x y => x ∈ starVertices 64 ∧ y ∈ starVertices 64 ∧
          (graphOf false (starOps 64)).adjacent x y) a 0 := by
    intro a ha
    by_cases ha0 : a = 0
    · rw [ha0]
    · exact Relation.ReflTransGen.single ⟨ha, h0, Or.inr (hedge a ha ha0)⟩
  intro a ha b hb
  exact Relation.ReflTransGen.trans (hto a ha) (hfrom b hb)

/-- C1 fails as stated for `k = 65`: in the star with centre 0 and 64 leaves
(unique enumeration indices, community mode off) the set of all 65 vertices
contains the root 0, is connected and has no enumeration index below that of
the root, yet `EnumerateSubgraphsFromNode(G, 65, 0)` aborts on its word-size
assertion, so the set never reaches the `rem == 0` branch. -/
theorem connected_set_not_emitted_when_aborted :
    (graphOf false (starOps 64)).Built ∧
    (graphOf false (starOps 64)).UniqueEnumeration ∧
    (plainEnv false).flags.COMMUNITY_BASED = false ∧
    (graphOf false (starOps 64)).hasVertex 0 = true ∧
    (starVertices 64).card = 65 ∧ (0 : Int) ∈ starVertices 64 ∧
    (graphOf false (starOps 64)).InducedConnected (starVertices 64) ∧
    (∀ v ∈ starVertices 64,
      (graphOf false (starOps 64)).enumeration_index 0 ≤
        (graphOf false (starOps 64)).enumeration_index v) ∧
    EnumerateSubgraphsFromNode (plainEnv false) (graphOf false (starOps 64)) 65 0 = none :=
  ⟨star_Built, by decide!, rfl, by decide!, by decide!, by decide!, star_connected, by decide!,
   (EnumerateSubgraphsFromNode_eq_none_iff _ _ _ _).mpr (by decide!)⟩

theorem vertexIds_perm (G : Graph) : List.Perm G.vertexIds (G.vertices.map Prod.fst) :=
  List.perm_insertionSort _ _

theorem mem_vertexIds (G : Graph) (u : Int) : u ∈ G.vertexIds ↔ G.hasVertex u = true := by
  rw [(vertexIds_perm G).mem_iff, hasVertex_iff]

theorem mem_vertexSet (G : Graph) (u : Int) : u ∈ G.vertexSet ↔ G.hasVertex u = true := by
  rw [Graph.vertexSet, List.mem_toFinset, hasVertex_iff]

theorem enumerateRoots_eq_some (env : Env) (G : Graph) (k : Nat)
    (h1 : 1 ≤ nautyVertices env.flags G k) (h2 : nautyVertices env.flags G k ≤ 64)
    (roots : List Int) (hroots : ∀ u ∈ roots, G.hasVertex u = true) :
    enumerateRoots env G k roots = some (roots.map (rootState env G k)) := by
  induction roots with
  | nil => rfl
  | cons u rest ih =>
    simp only [enumerateRoots,
      EnumerateSubgraphsFromNode_rootState (hroots u (List.mem_cons_self u rest)) h1 h2,
      ih (fun v hv => hroots v (List.mem_cons_of_mem u hv)), List.map_cons]

open Classical in
/-- With community mode off, the subgraphs emitted from the root `u` are as
many as the connected `k`-sets of vertices that hold `u` and no vertex of
smaller enumeration index. -/
theorem emitted_length_eq_card {env : Env} {G : Graph} {k : Nat} {u : Int} {st : EnumState}
    (hG : G.Built) (hcb : env.flags.COMMUNITY_BASED = false)
    (h : EnumerateSubgraphsFromNode env G k u = some st) :
    st.emitted.length =
      ((G.vertexSet.powersetCard k).filter (fun H => u ∈ H ∧ G.InducedConnected H ∧
        ∀ v ∈ H, G.enumeration_index u ≤ G.enumeration_index v)).card := by
  have hnd := emitted_sets_nodup h
  have e : (st.emitted.map subgraphVertices).toFinset =
      (G.vertexSet.powersetCard k).filter (fun H => u ∈ H ∧ G.InducedConnected H ∧
        ∀ v ∈ H, G.enumeration_index u ≤ G.enumeration_index v) := by
    ext H
    simp only [List.mem_toFinset, Finset.mem_filter, Finset.mem_powersetCard]
    constructor
    · intro hH
      obtain ⟨levels, hl, rfl⟩ := List.mem_map.mp hH
      obtain ⟨c1, c2, c3, c4⟩ := emitted_vertices hG h hl
      refine ⟨⟨?_, ?_⟩, ?_,
        inducedConnected_of_walks G _ u (emitted_walk_from_root hG h hl).2, ?_⟩
      · intro x hx
        exact (mem_vertexSet G x).mpr (c4 x (List.mem_toFinset.mp hx))
      · rw [subgraphVertices, List.toFinset_card_of_nodup c1, c2]
      · exact List.mem_toFinset.mpr c3
      · intro v hv
        exact emitted_enumeration_le h hl (List.mem_toFinset.mp hv)
    · rintro ⟨⟨_, hcard⟩, huH, hconn, henum⟩
      exact connected_set_emitted hG hcb h hcard huH hconn henum
  rw [← e, List.toFinset_card_of_nodup hnd, List.length_map]

open Classical in
/-- C2 (amended). For every graph whose enumeration indices are pairwise
distinct and every motif size `k` for which the word-size assertion passes
(the nauty graph has between 1 and 64 vertices), with community mode off: the
loop over all roots runs to its end, the numbers of subgraphs counted for the
roots add up to the number of `k`-element vertex sets whose induced subgraph
is connected, and every emitted subgraph has its root as its vertex of
minimum enumeration index. -/
theorem total_count_eq_connected_sets (env : Env) (G : Graph) (k : Nat) (hG : G.Built)
    (huniq : G.UniqueEnumeration) (hcb : env.flags.COMMUNITY_BASED = false)
    (h1 : 1 ≤ nautyVertices env.flags G k) (h2 : nautyVertices env.flags G k ≤ 64) :
    ∃ states, EnumerateSubgraphsSequentially env G k = some states ∧
      (states.map (fun st => st.enumerated_subgraphs)).sum =
        ((G.vertexSet.powersetCard k).filter (fun H => G.InducedConnected H)).card ∧
      List.Forall₂
        (fun u st => ∀ levels ∈ st.emitted, ∀ v ∈ levels.flatten,
          G.enumeration_index u ≤ G.enumeration_index v)
        G.vertexIds states := by
  have hwf := WellFormed_of_Built hG
  have hroots : ∀ u ∈ G.vertexIds, G.hasVertex u = true := fun u hu => (mem_vertexIds G u).mp hu
  have hsome := enumerateRoots_eq_some env G k h1 h2 G.vertexIds hroots
  have hroot : ∀ u ∈ G.vertexIds,
      EnumerateSubgraphsFromNode env G k u = some (rootState env G k u) :=
    fun u hu => EnumerateSubgraphsFromNode_rootState (hroots u hu) h1 h2
  have hk : 1 ≤ k := by
    unfold nautyVertices at h1
    split at h1
    · rcases Nat.eq_zero_or_pos k with h0 | h0
      · rw [h0] at h1; simp at h1
      · exact h0
    · exact h1
  refine ⟨_, hsome, ?_, ?_⟩
  · have hcount : ∀ u ∈ G.vertexIds, (rootState env G k u).enumerated_subgraphs =
        ((G.vertexSet.powersetCard k).filter (fun H => u ∈ H ∧ G.InducedConnected H ∧
          ∀ v ∈ H, G.enumeration_index u ≤ G.enumeration_index v)).card := by
      intro u hu
      rw [(EnumerateSubgraphsFromNode_emitted (hroot u hu)).2.2]
      exact emitted_length_eq_card hG hcb (hroot u hu)
    rw [List.map_map]
    have hmap : G.vertexIds.map ((fun st => st.enumerated_subgraphs) ∘ rootState env G k) =
        G.vertexIds.map (fun u =>
          ((G.vertexSet.powersetCard k).filter (fun H => u ∈ H ∧ G.InducedConnected H ∧
            ∀ v ∈ H, G.enumeration_index u ≤ G.enumeration_index v)).card) :=
      List.map_congr_left (fun u hu => hcount u hu)
    have hnd : G.vertexIds.Nodup := (vertexIds_perm G).nodup_iff.mpr hwf.keys_nodup
    have hset : G.vertexIds.toFinset = G.vertexSet :=
      List.toFinset_eq_of_perm _ _ (vertexIds_perm G)
    rw [hmap, ← List.sum_toFinset _ hnd, hset, ← Finset.card_biUnion]
    · congr 1
      ext H
      simp only [Finset.mem_biUnion, Finset.mem_filter, Finset.mem_powersetCard]
      constructor
      · rintro ⟨u, _, hH, _, hconn, _⟩
        exact ⟨hH, hconn⟩
      · rintro ⟨hH, hconn⟩
        have hne : H.Nonempty := Finset.card_pos.mp (by omega)
        obtain ⟨u, huH, hmin⟩ := Finset.exists_min_image H G.enumeration_index hne
        exact ⟨u, hH.1 huH, hH, huH, hconn, hmin⟩
    · intro x hx y hy hxy
      rw [Finset.disjoint_left]
      intro H hHx hHy
      obtain ⟨_, hxH, _, hminx⟩ := Finset.mem_filter.mp hHx
      obtain ⟨_, hyH, _, hminy⟩ := Finset.mem_filter.mp hHy
      exact hxy (huniq x hx y hy (le_antisymm (hminx y hyH) (hminy x hxH)))
  · rw [List.forall₂_map_right_iff, List.forall₂_same]
    intro u hu levels hl v hv
    exact emitted_enumeration_le (hroot u hu) hl hv

open Classical in
/-- The undirected path 0-1-2-3 with `k = 3`: roots 0 and 1 emit one subgraph
each, roots 2 and 3 none, a total of 2. -/
theorem total_count_eq_connected_sets_witness :
    (graphOf false pathOps).Built ∧ (graphOf false pathOps).UniqueEnumeration ∧
    (plainEnv false).flags.COMMUNITY_BASED = false ∧
    1 ≤ nautyVertices (plainEnv false).flags (graphOf false pathOps) 3 ∧
    nautyVertices (plainEnv false).flags (graphOf false pathOps) 3 ≤ 64 ∧
    (∃ states, EnumerateSubgraphsSequentially (plainEnv false) (graphOf false pathOps) 3
        = some states ∧
      (states.map (fun st => st.enumerated_subgraphs)).sum =
        (((graphOf false pathOps).vertexSet.powersetCard 3).filter
          (fun H => (graphOf false pathOps).InducedConnected H)).card ∧
      List.Forall₂
        (fun u st => ∀ levels ∈ st.emitted, ∀ v ∈ levels.flatten,
          (graphOf false pathOps).enumeration_index u ≤
            (graphOf false pathOps).enumeration_index v)
        (graphOf false pathOps).vertexIds states) ∧
    (EnumerateSubgraphsSequentially (plainEnv false) (graphOf false pathOps) 3).map
        (fun states => states.map (fun st => st.enumerated_subgraphs)) = some [1, 1, 0, 0] :=
  ⟨path_Built, by decide!, rfl, by decide!, by decide!,
   total_count_eq_connected_sets (plainEnv false) (graphOf false pathOps) 3 path_Built
     (by decide!) rfl (by decide!) (by decide!),
   by decide!⟩

/-- C2 fails as stated for `k = 65`: the star with centre 0 and 64 leaves has
a connected set of 65 vertices, but the loop over the roots aborts on the
word-size assertion of the first root and counts nothing. -/
theorem total_count_aborted :
    (graphOf false (starOps 64)).Built ∧
    (graphOf false (starOps 64)).UniqueEnumeration ∧
    (plainEnv false).flags.COMMUNITY_BASED = false ∧
    starVertices 64 ∈ (graphOf false (starOps 64)).vertexSet.powersetCard 65 ∧
    (graphOf false (starOps 64)).InducedConnected (starVertices 64) ∧
    (EnumerateSubgraphsSequentially (plainEnv false) (graphOf false (starOps 64)) 65).isNone
      = true :=
  ⟨star_Built, by decide!, rfl,
   Finset.mem_powersetCard.mpr ⟨by decide!, by decide!⟩, star_connected, by decide!⟩

theorem nautyVertices_of_not_edge_colored {flags : Flags} (he : flags.EDGE_COLORED = false)
    (G : Graph) (k : Nat) : nautyVertices flags G k = k := by
  simp [nautyVertices, he]

/-- C8 (amended). For the undirected triangle on 0, 1, 2 with
`enum_index = index` and `k = 3`, edge-colour mode off (in particular with no
colours): root 0 emits exactly one subgraph, the set `{0, 1, 2}`, and roots 1
and 2 emit none, so the emitted subgraphs number 1 over the three roots. -/
theorem triangle_emitted_per_root (env : Env) (he : env.flags.EDGE_COLORED = false) :
    ∃ st0 st1 st2,
      EnumerateSubgraphsFromNode env (graphOf false triangleOps) 3 0 = some st0 ∧
      EnumerateSubgraphsFromNode env (graphOf false triangleOps) 3 1 = some st1 ∧
      EnumerateSubgraphsFromNode env (graphOf false triangleOps) 3 2 = some st2 ∧
      st0.emitted.map subgraphVertices = [{0, 1, 2}] ∧
      st0.enumerated_subgraphs = 1 ∧ st1.enumerated_subgraphs = 0 ∧
      st2.enumerated_subgraphs = 0 ∧
      st0.enumerated_subgraphs + st1.enumerated_subgraphs + st2.enumerated_subgraphs = 1 := by
  have hn : nautyVertices env.flags (graphOf false triangleOps) 3 = 3 :=
    nautyVertices_of_not_edge_colored he _ _
  have hroot : ∀ u : Int, (graphOf false triangleOps).hasVertex u = true →
      EnumerateSubgraphsFromNode env (graphOf false triangleOps) 3 u =
        some (rootState env (graphOf false triangleOps) 3 u) :=
    fun u hu => EnumerateSubgraphsFromNode_rootState hu (by rw [hn]; decide) (by rw [hn]; decide)
  have hplain : ∀ (cb : Bool) (u : Int), (graphOf false triangleOps).hasVertex u = true →
      EnumerateSubgraphsFromNode (plainEnv cb) (graphOf false triangleOps) 3 u =
        some (rootState (plainEnv cb) (graphOf false triangleOps) 3 u) :=
    fun cb u hu => EnumerateSubgraphsFromNode_rootState hu
      (by rw [nautyVertices_of_not_edge_colored rfl]; decide)
      (by rw [nautyVertices_of_not_edge_colored rfl]; decide)
  have hlen : ∀ u : Int, (graphOf false triangleOps).hasVertex u = true →
      (rootState env (graphOf false triangleOps) 3 u).emitted.length =
        (rootState (plainEnv env.flags.COMMUNITY_BASED)
          (graphOf false triangleOps) 3 u).emitted.length :=
    fun u hu => @emitted_length_env_indep env (plainEnv env.flags.COMMUNITY_BASED) _ _ _ _ _
      rfl (hroot u hu) (hplain _ u hu)
  have hcount : ∀ u : Int, (graphOf false triangleOps).hasVertex u = true →
      (rootState env (graphOf false triangleOps) 3 u).enumerated_subgraphs =
        (rootState (plainEnv env.flags.COMMUNITY_BASED)
          (graphOf false triangleOps) 3 u).emitted.length :=
    fun u hu => by rw [(EnumerateSubgraphsFromNode_emitted (hroot u hu)).2.2, hlen u hu]
  have e0 : ∀ cb : Bool,
      (rootState (plainEnv cb) (graphOf false triangleOps) 3 0).emitted.map subgraphVertices
        = [{0, 1, 2}] := by decide!
  have e1 : ∀ cb : Bool,
      (rootState (plainEnv cb) (graphOf false triangleOps) 3 1).emitted.length = 0 := by decide!
  have e2 : ∀ cb : Bool,
      (rootState (plainEnv cb) (graphOf false triangleOps) 3 2).emitted.length = 0 := by decide!
  have hv0 : (graphOf false triangleOps).hasVertex 0 = true := by decide!
  have hv1 : (graphOf false triangleOps).hasVertex 1 = true := by decide!
  have hv2 : (graphOf false triangleOps).hasVertex 2 = true := by decide!
  have c0 : (rootState env (graphOf false triangleOps) 3 0).enumerated_subgraphs = 1 := by
    rw [hcount 0 hv0, ← List.length_map _ subgraphVertices, e0]; rfl
  have c1 : (rootState env (graphOf false triangleOps) 3 1).enumerated_subgraphs = 0 := by
    rw [hcount 1 hv1, e1]
  have c2 : (rootState env (graphOf false triangleOps) 3 2).enumerated_subgraphs = 0 := by
    rw [hcount 2 hv2, e2]
  refine ⟨_, _, _, hroot 0 hv0, hroot 1 hv1, hroot 2 hv2, ?_, c0, c1, c2, by rw [c0, c1, c2]⟩
  have hl1 : ((rootState env (graphOf false triangleOps) 3 0).emitted.map
      subgraphVertices).length = 1 := by
    rw [List.length_map, hlen 0 hv0, ← List.length_map _ subgraphVertices, e0]; rfl
  obtain ⟨H, hH⟩ := List.length_eq_one.mp hl1
  have hmem := @emitted_sets_env_indep env (plainEnv env.flags.COMMUNITY_BASED) _ _ _ _ _ rfl
    (hroot 0 hv0) (hplain _ 0 hv0) H (by rw [hH]; exact List.mem_singleton.mpr rfl)
  rw [e0, List.mem_singleton] at hmem
  rw [hH, hmem]

/-- The triangle with no colours, sets walked in insertion order. -/
theorem triangle_emitted_per_root_witness :
    (plainEnv false).flags.EDGE_COLORED = false ∧
    (∃ st0 st1 st2,
      EnumerateSubgraphsFromNode (plainEnv false) (graphOf false triangleOps) 3 0 = some st0 ∧
      EnumerateSubgraphsFromNode (plainEnv false) (graphOf false triangleOps) 3 1 = some st1 ∧
      EnumerateSubgraphsFromNode (plainEnv false) (graphOf false triangleOps) 3 2 = some st2 ∧
      st0.emitted.map subgraphVertices = [{0, 1, 2}] ∧
      st0.enumerated_subgraphs = 1 ∧ st1.enumerated_subgraphs = 0 ∧
      st2.enumerated_subgraphs = 0 ∧
      st0.enumerated_subgraphs + st1.enumerated_subgraphs + st2.enumerated_subgraphs = 1) :=
  ⟨rfl, triangle_emitted_per_root (plainEnv false) rfl⟩

/-- C8 fails as stated: on the triangle with `enum_index = index` and `k = 3`
the three roots 0, 1, 2 emit 1, 0 and 0 subgraphs, not one each. -/
theorem triangle_roots_one_and_two_emit_nothing :
    (EnumerateSubgraphsSequentially (plainEnv false) (graphOf false triangleOps) 3).map
      (fun states => states.map (fun st => st.enumerated_subgraphs)) = some [1, 0, 0] := by
  decide!

theorem length_flatMap_of_length_one {α β : Type} (l : List α) (f : α → List β)
    (h : ∀ x ∈ l, (f x).length = 1) : (l.flatMap f).length = l.length := by
  induction l with
  | nil => rfl
  | cons a l ih =>
    rw [List.flatMap_cons, List.length_append, h a (List.mem_cons_self a l),
      ih (fun x hx => h x (List.mem_cons_of_mem a hx)), List.length_cons]
    omega

theorem levelTails_one_length (env : Env) (G : Graph) (u : Int) (parents visited : List Int) :
    (levelTails env G u 1 parents visited 1).length =
      (Validate env G parents u visited).1.length := by
  obtain ⟨v1, _, _, _⟩ := Validate_spec env G parents u visited
  simp only [levelTails]
  generalize (Validate env G parents u visited).1 = valid at v1
  generalize (Validate env G parents u visited).2 = visited'
  cases hval : valid with
  | nil => simp
  | cons a rest =>
    have hmin : min (a :: rest).length (0 + 1) = 1 := by simp
    rw [hmin]
    simp only [List.range', List.flatMap_cons, List.flatMap_nil, List.append_nil]
    rw [length_flatMap_of_length_one]
    · rw [← hval, (combinationsFrom_spec 1 valid v1).2.2, Nat.choose_one_right]
    · intro c _
      simp [levelTails]

/-- C9 (amended). For every graph and root `u` with `k = 2`, community mode
off and the word-size assertion passing (as it always does when edge-colour
mode is off), the number of subgraphs emitted by
`EnumerateSubgraphsFromNode(G, 2, u)` is the number of vertices `v` in
`neighbors(u)` with `enum_index[u] <= enum_index[v]`; a root with no
neighbours emits nothing. -/
theorem emitted_count_for_pairs (env : Env) (G : Graph) (u : Int) (hG : G.Built)
    (hcb : env.flags.COMMUNITY_BASED = false) (hu : G.hasVertex u = true)
    (h1 : 1 ≤ nautyVertices env.flags G 2) (h2 : nautyVertices env.flags G 2 ≤ 64) :
    ∃ st, EnumerateSubgraphsFromNode env G 2 u = some st ∧
      st.enumerated_subgraphs = ((G.neighbors u).filter
        (fun v => decide (G.enumeration_index u ≤ G.enumeration_index v))).length ∧
      (G.neighbors u = [] → st.enumerated_subgraphs = 0) := by
  have hwf := WellFormed_of_Built hG
  have h : EnumerateSubgraphsFromNode env G 2 u = some (rootState env G 2 u) :=
    EnumerateSubgraphsFromNode_rootState hu h1 h2
  obtain ⟨he, _, hc⟩ := EnumerateSubgraphsFromNode_emitted h
  obtain ⟨v1, _, v3, _⟩ := Validate_spec env G [u] u [u]
  have hperm : List.Perm (Validate env G [u] u [u]).1 ((G.neighbors u).filter
      (fun v => decide (G.enumeration_index u ≤ G.enumeration_index v))) := by
    apply (List.perm_ext_iff_of_nodup v1 ((hwf.neighbors_nodup u).filter _)).mpr
    intro x
    rw [v3 x]
    simp only [List.mem_singleton, exists_eq_left, List.mem_filter, decide_eq_true_eq,
      Admissible, hcb, Bool.false_eq_true, false_imp_iff, true_and]
    constructor
    · rintro ⟨_, hn, hle⟩
      exact ⟨hn, hle⟩
    · rintro ⟨hn, hle⟩
      refine ⟨?_, hn, hle⟩
      intro hxu
      rw [hxu] at hn
      rcases (hwf.neighbors_iff u u).mp hn with h | h <;> simp [hwf.no_loop u] at h
  have hcount : (rootState env G 2 u).enumerated_subgraphs = ((G.neighbors u).filter
      (fun v => decide (G.enumeration_index u ≤ G.enumeration_index v))).length := by
    rw [hc, he, List.length_map, levelTails_one_length, hperm.length_eq]
  refine ⟨_, h, hcount, ?_⟩
  intro hnil
  rw [hcount, hnil]
  rfl

/-- The undirected triangle, root 1, `k = 2`: of the neighbours 0 and 2 of
root 1 only 2 has an enumeration index not below that of the root, and one
subgraph is emitted. -/
theorem emitted_count_for_pairs_witness :
    (graphOf false triangleOps).Built ∧ (plainEnv false).flags.COMMUNITY_BASED = false ∧
    (graphOf false triangleOps).hasVertex 1 = true ∧
    1 ≤ nautyVertices (plainEnv false).flags (graphOf false triangleOps) 2 ∧
    nautyVertices (plainEnv false).flags (graphOf false triangleOps) 2 ≤ 64 ∧
    (∃ st, EnumerateSubgraphsFromNode (plainEnv false) (graphOf false triangleOps) 2 1 = some st ∧
      st.enumerated_subgraphs = (((graphOf false triangleOps).neighbors 1).filter
        (fun v => decide ((graphOf false triangleOps).enumeration_index 1 ≤
          (graphOf false triangleOps).enumeration_index v))).length ∧
      ((graphOf false triangleOps).neighbors 1 = [] → st.enumerated_subgraphs = 0)) ∧
    (((graphOf false triangleOps).neighbors 1).filter
        (fun v => decide ((graphOf false triangleOps).enumeration_index 1 ≤
          (graphOf false triangleOps).enumeration_index v))).length = 1 :=
  ⟨triangle_Built, rfl, by decide!, by decide!, by decide!,
   emitted_count_for_pairs (plainEnv false) (graphOf false triangleOps) 1 triangle_Built rfl
     (by decide!) (by decide!) (by decide!),
   by decide!⟩

/-- C9 fails as stated when edge-colour mode is on and the graph has no edge
types: for the single edge 0-1 the root 0 has one neighbour of larger
enumeration index, but `EnumerateSubgraphsFromNode(G, 2, 0)` aborts on its
word-size assertion (the layer count is 0) and emits nothing. -/
theorem pairs_not_emitted_when_aborted :
    (graphOf false edgeOps).Built ∧ edgeColoredEnv.flags.COMMUNITY_BASED = false ∧
    (graphOf false edgeOps).hasVertex 0 = true ∧
    (((graphOf false edgeOps).neighbors 0).filter
        (fun v => decide ((graphOf false edgeOps).enumeration_index 0 ≤
          (graphOf false edgeOps).enumeration_index v))).length = 1 ∧
    EnumerateSubgraphsFromNode edgeColoredEnv (graphOf false edgeOps) 2 0 = none :=
  ⟨graphOf_Built false edgeOps (by decide!), rfl, by decide!, by decide!,
   (EnumerateSubgraphsFromNode_eq_none_iff _ _ _ _).mpr (by decide!)⟩

/-- C10 (amended). For every graph, every root `u` of the graph and every
setting of the mode flags for which the word-size assertion passes (always
when edge-colour mode is off; with a layer count between 1 and 64 when it is
on), `EnumerateSubgraphsFromNode(G, 1, u)` consists of one pass through the
`rem == 0` branch from the initial state: it emits exactly one subgraph, with
the single level set `{u}`, and `Validate` is not called. -/
theorem single_vertex_motif (env : Env) (G : Graph) (u : Int) (hu : G.hasVertex u = true)
    (h1 : 1 ≤ nautyVertices env.flags G 1) (h2 : nautyVertices env.flags G 1 ≤ 64) :
    EnumerateSubgraphsFromNode env G 1 u =
      some (emitSubgraph env G (initialState env.flags G 1 u) 1) ∧
    (emitSubgraph env G (initialState env.flags G 1 u) 1).emitted = [[[u]]] ∧
    (emitSubgraph env G (initialState env.flags G 1 u) 1).enumerated_subgraphs = 1 ∧
    (emitSubgraph env G (initialState env.flags G 1 u) 1).visited = [u] := by
  have h : EnumerateSubgraphsFromNode env G 1 u = some (rootState env G 1 u) :=
    EnumerateSubgraphsFromNode_rootState hu h1 h2
  have hr : rootState env G 1 u = emitSubgraph env G (initialState env.flags G 1 u) 1 := by
    simp [rootState, EnumerateVertex]
  rw [hr] at h
  obtain ⟨e1, _, e3, e4⟩ := emitSubgraph_fields env G (initialState env.flags G 1 u) 1
  refine ⟨h, ?_, ?_, ?_⟩
  · rw [e3]
    simp [initialState, levelSets, List.range_succ, setInsert, iter_singleton]
  · rw [e4]
    simp [initialState]
  · rw [e1]
    simp [initialState, setInsert]

/-- The single vertex 0 with no colours. -/
theorem single_vertex_motif_witness :
    (graphOf false pointOps).hasVertex 0 = true ∧
    1 ≤ nautyVertices (plainEnv false).flags (graphOf false pointOps) 1 ∧
    nautyVertices (plainEnv false).flags (graphOf false pointOps) 1 ≤ 64 ∧
    (EnumerateSubgraphsFromNode (plainEnv false) (graphOf false pointOps) 1 0 =
      some (emitSubgraph (plainEnv false) (graphOf false pointOps)
        (initialState (plainEnv false).flags (graphOf false pointOps) 1 0) 1) ∧
    (emitSubgraph (plainEnv false) (graphOf false pointOps)
        (initialState (plainEnv false).flags (graphOf false pointOps) 1 0) 1).emitted = [[[0]]] ∧
    (emitSubgraph (plainEnv false) (graphOf false pointOps)
        (initialState (plainEnv false).flags (graphOf false pointOps) 1 0) 1).enumerated_subgraphs
      = 1 ∧
    (emitSubgraph (plainEnv false) (graphOf false pointOps)
        (initialState (plainEnv false).flags (graphOf false pointOps) 1 0) 1).visited = [0]) :=
  ⟨by decide!, by decide!, by decide!,
   single_vertex_motif (plainEnv false) (graphOf false pointOps) 0 (by decide!) (by decide!)
     (by decide!)⟩

/-- C10 fails as stated when edge-colour mode is on and the graph has no edge
types: the layer count is 0, the nauty graph has no vertices and
`EnumerateSubgraphsFromNode(G, 1, 0)` aborts on its word-size assertion
without emitting the root. -/
theorem single_vertex_not_emitted_when_aborted :
    (graphOf false pointOps).Built ∧ (graphOf false pointOps).hasVertex 0 = true ∧
    edgeColoredEnv.flags.EDGE_COLORED = true ∧
    nautyVertices edgeColoredEnv.flags (graphOf false pointOps) 1 = 0 ∧
    EnumerateSubgraphsFromNode edgeColoredEnv (graphOf false pointOps) 1 0 = none :=
  ⟨graphOf_Built false pointOps (by decide!), by decide!, rfl, by decide!,
   (EnumerateSubgraphsFromNode_eq_none_iff _ _ _ _).mpr (by decide!)⟩

theorem matrixBit_eq (M : List Nat) (x y : Nat) (hy : y < 64) :
    matrixBit M x y = Nat.testBit (M.getD x 0) (63 - y) := by
  have h1 : y / 64 = 0 := Nat.div_eq_of_lt hy
  have h2 : y % 64 = y := Nat.mod_eq_of_lt hy
  simp [matrixBit, ISELEMENT, WORDSIZE, h1, h2]

theorem matrixBit_EMPTYGRAPH (n x y : Nat) : matrixBit (EMPTYGRAPH 1 n) x y = false := by
  simp only [matrixBit, ISELEMENT, EMPTYGRAPH, List.getD_eq_getElem?_getD,
    List.getElem?_replicate]
  split <;> simp

theorem ADDELEMENT_length (M : List Nat) (m v pos : Nat) :
    (ADDELEMENT M m v pos).length = M.length := by
  simp [ADDELEMENT]

theorem getD_modify (f : Nat → Nat) (n : Nat) (l : List Nat) (m : Nat) :
    (List.modify f n l).getD m 0 =
      if n = m ∧ m < l.length then f (l.getD m 0) else l.getD m 0 := by
  simp only [List.getD_eq_getElem?_getD, List.getElem?_modify]
  by_cases hm : m < l.length
  · rw [List.getElem?_eq_getElem hm]
    by_cases hn : n = m <;> simp [hn, hm]
  · have : l[m]? = none := List.getElem?_eq_none (Nat.le_of_not_lt hm)
    simp [this, hm]

theorem BitsAdded_ADDELEMENT (M : List Nat) (v pos : Nat) (hv : v < M.length)
    (hpos : pos < 64) :
    BitsAdded M (ADDELEMENT M 1 v pos) (fun x y => x = v ∧ y = pos) := by
  refine ⟨ADDELEMENT_length M 1 v pos, ?_⟩
  intro x y hy
  rw [matrixBit_eq _ _ _ hy, matrixBit_eq _ _ _ hy]
  have h1 : pos / 64 = 0 := Nat.div_eq_of_lt hpos
  have h2 : pos % 64 = pos := Nat.mod_eq_of_lt hpos
  simp only [ADDELEMENT, WORDSIZE, h1, h2, Nat.one_mul, Nat.add_zero, bit, getD_modify]
  by_cases hxv : v = x
  · subst hxv
    simp only [hv, and_self, if_true, Nat.testBit_lor, Nat.testBit_two_pow, Bool.or_eq_true,
      decide_eq_true_eq, true_and]
    constructor
    · rintro (h | h)
      · exact Or.inl h
      · right; omega
    · rintro (h | h)
      · exact Or.inl h
      · right; omega
  · have hxv' : ¬ x = v := fun e => hxv e.symm
    simp [hxv, hxv']

theorem BitsAdded_refl (M : List Nat) : BitsAdded M M (fun _ _ => False) :=
  ⟨rfl, fun _ _ _ => by simp⟩

theorem BitsAdded_trans {M M' M'' : List Nat} {P Q : Nat → Nat → Prop}
    (h1 : BitsAdded M M' P) (h2 : BitsAdded M' M'' Q) :
    BitsAdded M M'' (fun x y => P x y ∨ Q x y) := by
  refine ⟨h2.1.trans h1.1, ?_⟩
  intro x y hy
  rw [h2.2 x y hy, h1.2 x y hy, or_assoc]

theorem BitsAdded_congr {M M' : List Nat} {P Q : Nat → Nat → Prop}
    (h : BitsAdded M M' P) (hPQ : ∀ x y, P x y ↔ Q x y) : BitsAdded M M' Q :=
  ⟨h.1, fun x y hy => by rw [h.2 x y hy, hPQ x y]⟩

/-- A loop over `0, ..., n - 1` whose passes add the arcs `P i` adds the
arcs of all passes. -/
theorem BitsAdded_foldl_range (f : List Nat → Nat → List Nat) (P : Nat → Nat → Nat → Prop)
    (len n : Nat)
    (hf : ∀ i, i < n → ∀ M : List Nat, M.length = len → BitsAdded M (f M i) (P i))
    (M : List Nat) (hM : M.length = len) :
    BitsAdded M ((List.range n).foldl f M) (fun x y => ∃ i, i < n ∧ P i x y) := by
  induction n with
  | zero =>
    simp only [List.range_zero, List.foldl_nil]
    exact BitsAdded_congr (BitsAdded_refl M) (fun x y => by simp)
  | succ n ih =>
    have h1 := ih (fun i hi => hf i (Nat.lt_succ_of_lt hi))
    have h2 := hf n (Nat.lt_succ_self n) _ (h1.1.trans hM)
    rw [List.range_succ, List.foldl_append, List.foldl_cons, List.foldl_nil]
    refine BitsAdded_congr (BitsAdded_trans h1 h2) ?_
    intro x y
    constructor
    · rintro (⟨i, hi, h⟩ | h)
      · exact ⟨i, Nat.lt_succ_of_lt hi, h⟩
      · exact ⟨n, Nat.lt_succ_self n, h⟩
    · rintro ⟨i, hi, h⟩
      rcases Nat.lt_succ_iff_lt_or_eq.mp hi with hlt | heq
      · exact Or.inl ⟨i, hlt, h⟩
      · subst heq; exact Or.inr h

theorem layer_index_lt {iv il k L : Nat} (hiv : iv < k) (hil : il < L) : iv + il * k < L * k := by
  have h1 : (il + 1) * k ≤ L * k := Nat.mul_le_mul_right k hil
  rw [Nat.succ_mul] at h1
  omega

/-- The arcs of the cycle that links the layers. -/
theorem addLayerCycle_bits (ng : NyGraph) (L k : Nat) (hm : ng.no_setwords = 1)
    (hlen : ng.matrix.length = L * k) (hn : L * k ≤ 64) :
    BitsAdded ng.matrix (addLayerCycle ng L k)
      (fun x y => ∃ il, il < L ∧ ∃ iv, iv < k ∧ x = iv + il * k ∧
        y = (if il = L - 1 then iv else iv + (il + 1) * k)) := by
  unfold addLayerCycle
  rw [hm]
  apply BitsAdded_foldl_range _ _ (L * k) L _ _ hlen
  intro il hil M hM
  apply BitsAdded_foldl_range _ _ (L * k) k _ _ hM
  intro iv hiv M' hM'
  have hrow : iv + il * k < L * k := layer_index_lt hiv hil
  apply BitsAdded_ADDELEMENT
  · rw [hM']; exact hrow
  · split
    · omega
    · rename_i hne
      have : iv + (il + 1) * k < L * k := layer_index_lt hiv (by omega)
      omega

theorem addColoredEdge_bits (k out_index in_index : Nat) (fuel : Nat) :
    ∀ (color : Int) (current_layer : Nat) (M : List Nat),
      (∀ p ∈ coloredLayers fuel color current_layer,
        out_index + p * k < M.length ∧ in_index + p * k < 64) →
      BitsAdded M (addColoredEdge 1 k out_index in_index fuel color current_layer M)
        (fun x y => ∃ p ∈ coloredLayers fuel color current_layer,
          x = out_index + p * k ∧ y = in_index + p * k) := by
  induction fuel with
  | zero =>
    intro color current_layer M _
    simp only [addColoredEdge, coloredLayers]
    exact BitsAdded_congr (BitsAdded_refl M) (fun x y => by simp)
  | succ fuel ih =>
    intro color current_layer M hrange
    simp only [addColoredEdge, coloredLayers]
    by_cases hc : color = 0
    · simp only [hc, if_true]
      exact BitsAdded_congr (BitsAdded_refl M) (fun x y => by simp)
    · simp only [hc, if_false]
      rw [coloredLayers, if_neg hc] at hrange
      by_cases hodd : Int.tmod color 2 ≠ 0
      · simp only [if_pos hodd] at hrange ⊢
        have hr0 := hrange current_layer (by simp)
        have h1 := BitsAdded_ADDELEMENT M (out_index + current_layer * k)
          (in_index + current_layer * k) hr0.1 hr0.2
        have h2 := ih (Int.tdiv color 2) (current_layer + 1)
          (ADDELEMENT M 1 (out_index + current_layer * k) (in_index + current_layer * k))
          (by
            intro p hp
            rw [ADDELEMENT_length]
            exact hrange p (by simp [hp]))
        refine BitsAdded_congr (BitsAdded_trans h1 h2) ?_
        intro x y
        simp only [ne_eq, not_false_eq_true, List.singleton_append, List.mem_cons]
        constructor
        · rintro (h | ⟨p, hp, h⟩)
          · exact ⟨current_layer, Or.inl rfl, h⟩
          · exact ⟨p, Or.inr hp, h⟩
        · rintro ⟨p, hp | hp, h⟩
          · subst hp; exact Or.inl h
          · exact Or.inr ⟨p, hp, h⟩
      · simp only [if_neg hodd, List.nil_append] at hrange ⊢
        exact ih (Int.tdiv color 2) (current_layer + 1) M hrange

/-- The layers on which a colour between 0 and 127 puts its edge are the
positions of the bits set in the colour plus one. -/
theorem coloredLayers_of_color :
    ∀ c : Nat, c < 128 →
      coloredLayers 8 (toInt8 ((c : Int) + 1)) 0 =
        (List.range 8).filter (fun p => Nat.testBit (c + 1) p) := by
  decide!

theorem mem_coloredLayers {c : Int} (h0 : 0 ≤ c) (h1 : c ≤ 127) (p : Nat) :
    p ∈ coloredLayers 8 (toInt8 (c + 1)) 0 ↔ p < 8 ∧ Nat.testBit (c.toNat + 1) p = true := by
  obtain ⟨n, rfl⟩ : ∃ n : Nat, c = (n : Int) := ⟨c.toNat, (Int.toNat_of_nonneg h0).symm⟩
  have hlt : n < 128 := by omega
  rw [coloredLayers_of_color n hlt]
  simp

theorem coloredLayers_nonempty {c : Int} (h0 : 0 ≤ c) (h1 : c ≤ 127) :
    ∃ p, p ∈ coloredLayers 8 (toInt8 (c + 1)) 0 := by
  have hlt : c.toNat < 128 := by omega
  have : ∀ c : Nat, c < 128 → ∃ p, p < 8 ∧ Nat.testBit (c + 1) p = true := by decide!
  obtain ⟨p, hp⟩ := this c.toNat hlt
  exact ⟨p, (mem_coloredLayers h0 h1 p).mpr hp⟩

/-- A colour below `nedge_types` puts its edge on layers below the layer
count. -/
theorem coloredLayers_lt_layerCount {c nedge_types : Int} (h0 : 0 ≤ c) (h1 : c ≤ 127)
    (h2 : c < nedge_types) {p : Nat} (hp : p ∈ coloredLayers 8 (toInt8 (c + 1)) 0) :
    p < layerCount nedge_types := by
  obtain ⟨_, hbit⟩ := (mem_coloredLayers h0 h1 p).mp hp
  have hge : 2 ^ p ≤ c.toNat + 1 := Nat.testBit_implies_ge hbit
  have hle : (nedge_types + 1).toNat ≤ 2 ^ layerCount nedge_types :=
    Nat.le_pow_clog (by decide) _
  have hlt : c.toNat + 1 < (nedge_types + 1).toNat := by omega
  have : 2 ^ p < 2 ^ layerCount nedge_types := by omega
  exact (Nat.pow_lt_pow_iff_right (by decide)).mp this

/-- The arcs the double loop over `out_index` and `in_index` adds. -/
theorem addInducedEdges_bits (flags : Flags) (G : Graph) (A : List Int) (L k len : Nat)
    (M : List Nat) (hM : M.length = len) (hk : k ≤ len) (hk64 : k ≤ 64)
    (hlayers : (flags.EDGE_COLORED && decide (L > 1)) = true →
      ∀ o, o < k → ∀ i, i < k → lookupVertex A i ∈ G.outgoing_neighbors (lookupVertex A o) →
        ∀ p ∈ coloredLayers 8 (toInt8 (G.edgeColor (lookupVertex A o) (lookupVertex A i) + 1)) 0,
          o + p * k < len ∧ i + p * k < 64) :
    BitsAdded M (addInducedEdges flags G A 1 L k M)
      (fun x y => ∃ o, o < k ∧ ∃ i, i < k ∧
        lookupVertex A i ∈ G.outgoing_neighbors (lookupVertex A o) ∧
        (if (flags.EDGE_COLORED && decide (L > 1)) = true then
          ∃ p ∈ coloredLayers 8
              (toInt8 (G.edgeColor (lookupVertex A o) (lookupVertex A i) + 1)) 0,
            x = o + p * k ∧ y = i + p * k
         else x = o ∧ y = i)) := by
  unfold addInducedEdges
  apply BitsAdded_foldl_range _ _ len k _ _ hM
  intro o ho M1 hM1
  apply BitsAdded_foldl_range _ _ len k _ _ hM1
  intro i hi M2 hM2
  by_cases hedge : lookupVertex A i ∈ G.outgoing_neighbors (lookupVertex A o)
  · simp only [if_pos hedge]
    by_cases hmode : (flags.EDGE_COLORED && decide (L > 1)) = true
    · simp only [if_pos hmode]
      have h := addColoredEdge_bits k o i 8
        (toInt8 (G.edgeColor (lookupVertex A o) (lookupVertex A i) + 1)) 0 M2
        (by
          intro p hp
          rw [hM2]
          exact hlayers hmode o ho i hi hedge p hp)
      exact BitsAdded_congr h (fun x y => by simp [hedge])
    · simp only [if_neg hmode]
      have h := BitsAdded_ADDELEMENT M2 o i (by omega) (by omega)
      exact BitsAdded_congr h (fun x y => by simp [hedge])
  · simp only [if_neg hedge]
    exact BitsAdded_congr (BitsAdded_refl M2) (fun x y => by simp [hedge])

theorem prepareNauty_fields (flags : Flags) (G : Graph) (A : List Int) (L : Nat) (ng : NyGraph) :
    (prepareNauty flags G A L ng).no_vertices = ng.no_vertices ∧
    (prepareNauty flags G A L ng).no_setwords = ng.no_setwords ∧
    (prepareNauty flags G A L ng).colored = ng.colored := by
  simp [prepareNauty]

/-- Without edge colours the matrix handed to the canonicalizer has the arc
`(x, y)` exactly when the graph has an arc from vertex number `x` to vertex
number `y` of the subgraph. -/
theorem prepareNauty_bits_plain (flags : Flags) (G : Graph) (A : List Int) (L : Nat)
    (ng : NyGraph) (he : flags.EDGE_COLORED = false) (hws : EntryWorkspace flags L A.length ng)
    (x y : Nat) (hy : y < 64) :
    matrixBit (prepareNauty flags G A L ng).matrix x y = true ↔
      x < A.length ∧ y < A.length ∧
        lookupVertex A y ∈ G.outgoing_neighbors (lookupVertex A x) := by
  obtain ⟨hn, hm, _, hmat, _, _, _, hn64⟩ := hws
  simp only [he, Bool.false_eq_true, if_false] at hn
  have hlen : ng.matrix.length = A.length := by
    rw [hmat, hn]; simp [EMPTYGRAPH]
  have h := addInducedEdges_bits flags G A L A.length A.length ng.matrix hlen (le_refl _)
    (by omega) (by simp [he])
  have hbit := h.2 x y hy
  simp only [prepareNauty, he, Bool.false_eq_true, if_false, hm]
  rw [hbit]
  have h0 : matrixBit ng.matrix x y = false := by rw [hmat]; exact matrixBit_EMPTYGRAPH _ _ _
  have hmode : ¬ (flags.EDGE_COLORED && decide (L > 1)) = true := by simp [he]
  simp only [h0, Bool.false_eq_true, false_or, if_neg hmode]
  constructor
  · rintro ⟨o, ho, i, hi, hedge, rfl, rfl⟩
    exact ⟨ho, hi, hedge⟩
  · rintro ⟨hx, hy', hedge⟩
    exact ⟨x, hx, y, hy', hedge, rfl, rfl⟩

/-- With edge colours the matrix handed to the canonicalizer has exactly the
arcs of the layer-linking cycle and those of the coloured edges. -/
theorem prepareNauty_bits_layered (flags : Flags) (G : Graph) (A : List Int) (L : Nat)
    (ng : NyGraph) (he : flags.EDGE_COLORED = true) (hws : EntryWorkspace flags L A.length ng)
    (hlayers : 1 < L → ∀ o, o < A.length → ∀ i, i < A.length →
      lookupVertex A i ∈ G.outgoing_neighbors (lookupVertex A o) →
        ∀ p ∈ coloredLayers 8 (toInt8 (G.edgeColor (lookupVertex A o) (lookupVertex A i) + 1)) 0,
          p < L)
    (x y : Nat) (hy : y < 64) :
    matrixBit (prepareNauty flags G A L ng).matrix x y = true ↔
      ((∃ il, il < L ∧ ∃ iv, iv < A.length ∧ x = iv + il * A.length ∧
          y = (if il = L - 1 then iv else iv + (il + 1) * A.length)) ∨
       (∃ o, o < A.length ∧ ∃ i, i < A.length ∧
          lookupVertex A i ∈ G.outgoing_neighbors (lookupVertex A o) ∧
          (if 1 < L then
            ∃ p ∈ coloredLayers 8
                (toInt8 (G.edgeColor (lookupVertex A o) (lookupVertex A i) + 1)) 0,
              x = o + p * A.length ∧ y = i + p * A.length
           else x = o ∧ y = i))) := by
  obtain ⟨hn, hm, _, hmat, _, _, hn1, hn64⟩ := hws
  simp only [he, if_true] at hn
  have hlen : ng.matrix.length = L * A.length := by
    rw [hmat, hn]; simp [EMPTYGRAPH]
  have hL : 1 ≤ L := by
    rcases Nat.eq_zero_or_pos L with h0 | h0
    · rw [hn, h0] at hn1; simp at hn1
    · exact h0
  have hkn : A.length ≤ L * A.length := Nat.le_mul_of_pos_left _ hL
  have h1 := addLayerCycle_bits ng L A.length hm hlen (by omega)
  have h2 := addInducedEdges_bits flags G A L A.length (L * A.length)
    (addLayerCycle ng L A.length) (h1.1.trans hlen) hkn (by omega)
    (by
      intro hmode o ho i hi hedge p hp
      simp only [he, Bool.true_and, decide_eq_true_eq] at hmode
      have hp' := hlayers hmode o ho i hi hedge p hp
      have ha := layer_index_lt ho hp'
      have hb := layer_index_lt hi hp'
      omega)
  have hbit := (BitsAdded_trans h1 h2).2 x y hy
  simp only [prepareNauty, he, if_true, hm]
  rw [hbit]
  have h0 : matrixBit ng.matrix x y = false := by rw [hmat]; exact matrixBit_EMPTYGRAPH _ _ _
  simp only [h0, Bool.false_eq_true, false_or, he, Bool.true_and, decide_eq_true_eq]

/-- An injective map of `0, ..., n - 1` into itself reaches every number
below `n`. -/
theorem surjective_of_injective_below (n : Nat) (f : Nat → Nat)
    (hlt : ∀ x, x < n → f x < n) (hinj : ∀ x y, x < n → y < n → f x = f y → x = y)
    (y : Nat) (hy : y < n) : ∃ x, x < n ∧ f x = y := by
  have himg : (Finset.range n).image f = Finset.range n := by
    apply Finset.eq_of_subset_of_card_le
    · intro z hz
      obtain ⟨x, hx, rfl⟩ := Finset.mem_image.mp hz
      exact Finset.mem_range.mpr (hlt x (Finset.mem_range.mp hx))
    · rw [Finset.card_image_of_injOn]
      intro a ha b hb hab
      exact hinj a b (Finset.mem_range.mp ha) (Finset.mem_range.mp hb) hab
  have : y ∈ (Finset.range n).image f := by rw [himg]; exact Finset.mem_range.mpr hy
  obtain ⟨x, hx, rfl⟩ := Finset.mem_image.mp this
  exact ⟨x, Finset.mem_range.mp hx, rfl⟩

theorem lookupVertex_mem {A : List Int} {i : Nat} (h : i < A.length) : lookupVertex A i ∈ A := by
  unfold lookupVertex
  rw [List.getD_eq_getElem _ _ h]
  exact List.getElem_mem _

theorem lookupVertex_indexOf {B : List Int} {b : Int} (h : b ∈ B) :
    lookupVertex B (B.indexOf b) = b := by
  unfold lookupVertex
  have hlt : B.indexOf b < B.length := List.indexOf_lt_length.mpr h
  rw [List.getD_eq_getElem _ _ hlt]
  exact List.getElem_indexOf hlt

theorem lookupVertex_inj {A : List Int} (hA : A.Nodup) {i j : Nat} (hi : i < A.length)
    (hj : j < A.length) (h : lookupVertex A i = lookupVertex A j) : i = j := by
  unfold lookupVertex at h
  rw [List.getD_eq_getElem _ _ hi, List.getD_eq_getElem _ _ hj] at h
  exact (hA.getElem_inj_iff).mp h

/-- A colour-preserving isomorphism of the vertices gives a renumbering of the
subgraph indices. -/
theorem exists_indexIso {flags : Flags} {G : Graph} {A B : List Int} {φ : Int → Int}
    (hA : A.Nodup) (hlen : A.length = B.length) (hφ : ColorIso flags G A B φ) :
    IndexIso flags G A B (fun i => B.indexOf (φ (lookupVertex A i))) := by
  obtain ⟨hmem, hinj, hedge, hcolor, hvertex⟩ := hφ
  have hb : ∀ i, i < A.length →
      lookupVertex B (B.indexOf (φ (lookupVertex A i))) = φ (lookupVertex A i) :=
    fun i hi => lookupVertex_indexOf (hmem _ (lookupVertex_mem hi))
  refine ⟨?_, ?_, ?_, ?_, ?_⟩
  · intro i hi
    rw [hlen]
    exact List.indexOf_lt_length.mpr (hmem _ (lookupVertex_mem hi))
  · intro i j hi hj h
    have h1 : φ (lookupVertex A i) = φ (lookupVertex A j) := by
      have := congrArg (lookupVertex B) h
      simpa only [hb i hi, hb j hj] using this
    exact lookupVertex_inj hA hi hj
      (hinj _ (lookupVertex_mem hi) _ (lookupVertex_mem hj) h1)
  · intro i j hi hj
    simp only [hb i hi, hb j hj]
    exact hedge _ (lookupVertex_mem hi) _ (lookupVertex_mem hj)
  · intro he i j hi hj h
    simp only [hb i hi, hb j hj]
    exact hcolor he _ (lookupVertex_mem hi) _ (lookupVertex_mem hj) h
  · intro he hv i hi
    simp only [hb i hi]
    exact hvertex he hv _ (lookupVertex_mem hi)

/-- Without colours, the certificates of two subgraphs related by a
renumbering that keeps the arcs are the same. -/
theorem certificate_eq_plain {env : Env} {G : Graph} {A B : List Int} {π : Nat → Nat} {L : Nat}
    {ngA ngB : NyGraph} (hG : G.WellFormed) (hlen : A.length = B.length)
    (he : env.flags.EDGE_COLORED = false) (hv : env.flags.VERTEX_COLORED = false)
    (hwsA : EntryWorkspace env.flags L A.length ngA)
    (hwsB : EntryWorkspace env.flags L B.length ngB)
    (hπ : IndexIso env.flags G A B π)
    (hnauty : MeetsContractAt env (prepareNauty env.flags G A L ngA)
      (prepareNauty env.flags G B L ngB)) :
    subgraphCertificate env G A L ngA = subgraphCertificate env G B L ngB := by
  obtain ⟨hlt, hinj, hedge, _, _⟩ := hπ
  have hnA : ngA.no_vertices = A.length := by
    have := hwsA.1; simpa only [he, Bool.false_eq_true, if_false] using this
  have hnB : ngB.no_vertices = B.length := by
    have := hwsB.1; simpa only [he, Bool.false_eq_true, if_false] using this
  have hk64 : A.length ≤ 64 := by
    have := hwsA.2.2.2.2.2.2.2; omega
  have hiso : IsomorphicInputs (prepareNauty env.flags G A L ngA)
      (prepareNauty env.flags G B L ngB) := by
    refine ⟨π, ?_, ?_, ?_, ?_⟩
    · intro v h
      rw [(prepareNauty_fields _ _ _ _ _).1, hnA] at h ⊢
      exact hlt v h
    · intro v w h1 h2
      rw [(prepareNauty_fields _ _ _ _ _).1, hnA] at h1 h2
      exact hinj v w h1 h2
    · intro v w h1 h2
      rw [(prepareNauty_fields _ _ _ _ _).1, hnA] at h1 h2
      have hw := hlt w h2
      have hv' := hlt v h1
      rw [Bool.eq_iff_iff, prepareNauty_bits_plain _ G B L ngB he hwsB _ _ (by omega),
        prepareNauty_bits_plain _ G A L ngA he hwsA _ _ (by omega)]
      rw [hG.outgoing_iff, hG.outgoing_iff, hedge v w h1 h2, ← hlen]
      simp [h1, h2, hv', hw]
    · intro hc
      rw [(prepareNauty_fields _ _ _ _ _).2.2, hwsA.2.2.1, he, hv] at hc
      simp at hc
  have hcm := hnauty.2.2 hiso
  unfold subgraphCertificate buildCertificate
  simp only [he, hv, Bool.false_eq_true, if_false]
  rw [hcm]
  simp only [callNauty, prepareNauty, hnA, hnB, hlen, hwsA.2.1, hwsB.2.1]

theorem setColorPartition_eq (coloring : List (Int × List Nat)) (lab ptn : List Nat) :
    setColorPartition coloring lab ptn =
      ((writeCells ((mapEntries coloring).map (fun e => e.2)) (0, lab, ptn)).2.1,
       (writeCells ((mapEntries coloring).map (fun e => e.2)) (0, lab, ptn)).2.2) := by
  unfold setColorPartition writeCells
  rw [List.foldl_map]

theorem setLayerPartition_eq (L k : Nat) (lab ptn : List Nat) :
    setLayerPartition L k lab ptn =
      ((writeCells ((List.range L).map (fun il => (List.range k).map (fun iv => iv + il * k)))
          (0, lab, ptn)).2.1,
       (writeCells ((List.range L).map (fun il => (List.range k).map (fun iv => iv + il * k)))
          (0, lab, ptn)).2.2) := by
  unfold setLayerPartition writeCells
  rw [List.foldl_map]
  simp only [List.foldl_map]

/-- Writing one cell replaces the entries of `lab` from the running index on,
and marks them 1 in `ptn`. -/
theorem writeCell_inner (cell : List Nat) :
    ∀ (pre mid post pre' mid' post' : List Nat), mid.length = cell.length →
      mid'.length = cell.length → pre'.length = pre.length →
      cell.foldl
        (fun (acc : Nat × List Nat × List Nat) vertex_index =>
          (acc.1 + 1, acc.2.1.set acc.1 vertex_index, acc.2.2.set acc.1 1))
        (pre.length, pre ++ mid ++ post, pre' ++ mid' ++ post') =
      (pre.length + cell.length, pre ++ cell ++ post,
        pre' ++ List.replicate cell.length 1 ++ post') := by
  induction cell with
  | nil =>
    intro pre mid post pre' mid' post' h1 h2 _
    have e1 : mid = [] := List.length_eq_zero.mp h1
    have e2 : mid' = [] := List.length_eq_zero.mp h2
    subst e1; subst e2
    simp
  | cons v cell ih =>
    intro pre mid post pre' mid' post' h1 h2 h3
    obtain ⟨m, mid, rfl⟩ := List.exists_cons_of_length_eq_add_one h1
    obtain ⟨m', mid', rfl⟩ := List.exists_cons_of_length_eq_add_one h2
    simp only [List.length_cons, Nat.add_right_cancel_iff] at h1 h2
    simp only [List.foldl_cons]
    have e1 : (pre ++ m :: mid ++ post).set pre.length v = (pre ++ [v]) ++ mid ++ post := by
      rw [List.append_assoc, List.set_append_right _ _ (le_refl _)]
      simp
    have e2 : (pre' ++ m' :: mid' ++ post').set pre.length 1 = (pre' ++ [1]) ++ mid' ++ post' := by
      rw [List.append_assoc, ← h3, List.set_append_right _ _ (le_refl _)]
      simp
    have e3 : pre.length + 1 = (pre ++ [v]).length := by simp
    rw [e1, e2, e3, ih (pre ++ [v]) mid post (pre' ++ [1]) mid' post' h1 h2 (by simp [h3])]
    simp [List.replicate_succ]
    omega

theorem set_last_mark (pre' post' : List Nat) (n idx : Nat) (hn : 1 ≤ n)
    (hidx : idx = pre'.length + n) :
    (pre' ++ List.replicate n 1 ++ post').set (idx - 1) 0 = pre' ++ cellMarks n ++ post' := by
  subst hidx
  obtain ⟨n, rfl⟩ : ∃ j, n = j + 1 := ⟨n - 1, by omega⟩
  have e : pre'.length + (n + 1) - 1 = pre'.length + n := by omega
  rw [e, List.append_assoc, List.set_append_right _ _ (by omega), cellMarks]
  simp only [Nat.add_sub_cancel_left, Nat.add_sub_cancel]
  rw [List.replicate_succ', List.append_assoc, List.append_assoc,
    List.set_append_right _ _ (by simp)]
  simp

/-- Writing a list of nonempty cells replaces `lab` by the cells laid end to
end, and `ptn` by their marks. -/
theorem writeCells_spec (cells : List (List Nat)) (hne : ∀ cell ∈ cells, cell ≠ []) :
    ∀ (pre mid post pre' mid' post' : List Nat), mid.length = cells.flatten.length →
      mid'.length = cells.flatten.length → pre'.length = pre.length →
      writeCells cells (pre.length, pre ++ mid ++ post, pre' ++ mid' ++ post') =
      (pre.length + cells.flatten.length, pre ++ cells.flatten ++ post,
        pre' ++ cells.flatMap (fun cell => cellMarks cell.length) ++ post') := by
  induction cells with
  | nil =>
    intro pre mid post pre' mid' post' h1 h2 _
    have e1 : mid = [] := List.length_eq_zero.mp h1
    have e2 : mid' = [] := List.length_eq_zero.mp h2
    subst e1; subst e2
    simp [writeCells]
  | cons cell cells ih =>
    intro pre mid post pre' mid' post' h1 h2 h3
    have hcell : cell ≠ [] := hne cell (List.mem_cons_self _ _)
    have hpos : 1 ≤ cell.length := Nat.pos_of_ne_zero (fun h => hcell (List.length_eq_zero.mp h))
    simp only [List.flatten_cons, List.length_append] at h1 h2
    have hm : mid = mid.take cell.length ++ mid.drop cell.length := (List.take_append_drop _ _).symm
    have hm' : mid' = mid'.take cell.length ++ mid'.drop cell.length :=
      (List.take_append_drop _ _).symm
    have l1 : (mid.take cell.length).length = cell.length := by rw [List.length_take]; omega
    have l2 : (mid'.take cell.length).length = cell.length := by rw [List.length_take]; omega
    have l3 : (mid.drop cell.length).length = cells.flatten.length := by
      rw [List.length_drop]; omega
    have l4 : (mid'.drop cell.length).length = cells.flatten.length := by
      rw [List.length_drop]; omega
    unfold writeCells
    simp only [List.foldl_cons]
    have e0 : pre ++ mid ++ post
        = pre ++ mid.take cell.length ++ (mid.drop cell.length ++ post) := by
      rw [List.append_assoc pre, List.append_assoc pre, ← List.append_assoc (mid.take _),
        List.take_append_drop]
    have e0' : pre' ++ mid' ++ post'
        = pre' ++ mid'.take cell.length ++ (mid'.drop cell.length ++ post') := by
      rw [List.append_assoc pre', List.append_assoc pre', ← List.append_assoc (mid'.take _),
        List.take_append_drop]
    rw [e0, e0', writeCell_inner cell pre _ _ pre' _ _ l1 l2 h3]
    simp only []
    rw [set_last_mark pre' _ cell.length _ hpos (by rw [h3])]
    have e4 : pre.length + cell.length = (pre ++ cell).length := by simp
    have e5 : pre ++ cell ++ (mid.drop cell.length ++ post)
        = (pre ++ cell) ++ mid.drop cell.length ++ post := by simp
    have e6 : pre' ++ cellMarks cell.length ++ (mid'.drop cell.length ++ post')
        = (pre' ++ cellMarks cell.length) ++ mid'.drop cell.length ++ post' := by simp
    have hih := ih (fun c hc => hne c (List.mem_cons_of_mem _ hc)) (pre ++ cell)
      (mid.drop cell.length) post (pre' ++ cellMarks cell.length) (mid'.drop cell.length) post'
      l3 l4 (by simp [cellMarks, h3]; omega)
    unfold writeCells at hih
    rw [e4, e5, e6, hih]
    simp [List.flatMap_cons]
    omega

/-- Started on arrays of the total length of the cells, the loop leaves the
cells laid end to end in `lab` and their marks in `ptn`. -/
theorem writeCells_full (cells : List (List Nat)) (hne : ∀ cell ∈ cells, cell ≠ [])
    (lab ptn : List Nat) (h1 : lab.length = cells.flatten.length)
    (h2 : ptn.length = cells.flatten.length) :
    (writeCells cells (0, lab, ptn)).2 =
      (cells.flatten, cells.flatMap (fun cell => cellMarks cell.length)) := by
  have h := writeCells_spec cells hne [] lab [] [] ptn [] h1 h2 rfl
  simp only [List.length_nil, List.nil_append, List.append_nil, Nat.zero_add] at h
  rw [h]

theorem cellMarks_length {n : Nat} (hn : 1 ≤ n) : (cellMarks n).length = n := by
  simp [cellMarks]; omega

theorem cellAt_append_lt {n p : Nat} (rest : List Nat) (hp : p < n) :
    cellAt (cellMarks n ++ rest) p = 0 := by
  unfold cellAt cellMarks
  have h1 : p ≤ (List.replicate (n - 1) 1).length := by simp; omega
  rw [List.append_assoc, List.take_append_of_le_length h1, List.take_replicate]
  simp

theorem cellAt_append_ge {n p : Nat} (rest : List Nat) (hn : 1 ≤ n) (hp : n ≤ p) :
    cellAt (cellMarks n ++ rest) p = cellAt rest (p - n) + 1 := by
  unfold cellAt
  have h1 : (cellMarks n).length = n := cellMarks_length hn
  obtain ⟨d, rfl⟩ : ∃ d, p = (cellMarks n).length + d := ⟨p - n, by omega⟩
  rw [List.take_append, h1, Nat.add_sub_cancel_left, List.filter_append, List.length_append]
  simp [cellMarks]
  omega

/-- Position `p` of the cells laid end to end lies in the cell whose number
the marks give. -/
theorem cell_of_position (cells : List (List Nat)) (hne : ∀ cell ∈ cells, cell ≠ []) :
    ∀ p, p < cells.flatten.length →
      cellAt (cells.flatMap (fun cell => cellMarks cell.length)) p < cells.length ∧
      cells.flatten.getD p 0 ∈
        cells.getD (cellAt (cells.flatMap (fun cell => cellMarks cell.length)) p) [] := by
  induction cells with
  | nil => intro p hp; simp at hp
  | cons cell cells ih =>
    intro p hp
    have hcell : cell ≠ [] := hne cell (List.mem_cons_self _ _)
    have hpos : 1 ≤ cell.length := Nat.pos_of_ne_zero (fun h => hcell (List.length_eq_zero.mp h))
    simp only [List.flatten_cons, List.length_append] at hp
    simp only [List.flatMap_cons, List.flatten_cons]
    by_cases hlt : p < cell.length
    · rw [cellAt_append_lt _ hlt]
      refine ⟨by simp, ?_⟩
      rw [List.getD_append _ _ _ _ hlt, List.getD_eq_getElem _ _ hlt]
      simp
    · have hge : cell.length ≤ p := by omega
      rw [cellAt_append_ge _ hpos hge]
      have h := ih (fun c hc => hne c (List.mem_cons_of_mem _ hc)) (p - cell.length) (by omega)
      refine ⟨by simp; exact h.1, ?_⟩
      rw [List.getD_append_right _ _ _ _ hge]
      simpa using h.2

theorem cellAt_flatMap_lt {cell : List Nat} {cells : List (List Nat)} {p : Nat}
    (hp : p < cell.length) :
    cellAt ((cell :: cells).flatMap (fun cell => cellMarks cell.length)) p = 0 := by
  rw [List.flatMap_cons]
  exact cellAt_append_lt _ hp

theorem mapFind_of_mem {κ β : Type} [DecidableEq κ] (m : List (κ × β))
    (hnd : (m.map Prod.fst).Nodup) (e : κ × β) (he : e ∈ m) : mapFind m e.1 = some e.2 := by
  induction m with
  | nil => simp at he
  | cons p rest ih =>
    obtain ⟨k0, v0⟩ := p
    simp only [List.map_cons, List.nodup_cons] at hnd
    rcases List.mem_cons.mp he with h | h
    · subst h; simp [mapFind]
    · have hne : k0 ≠ e.1 := by
        intro h0
        apply hnd.1
        rw [h0]
        exact List.mem_map_of_mem _ h
      simp only [mapFind, if_neg hne]
      exact ih hnd.2 h

theorem mem_of_mapFind {κ β : Type} [DecidableEq κ] (m : List (κ × β)) (k : κ) (v : β)
    (h : mapFind m k = some v) : (k, v) ∈ m := by
  induction m with
  | nil => simp [mapFind] at h
  | cons p rest ih =>
    obtain ⟨k0, v0⟩ := p
    by_cases h0 : k0 = k
    · subst h0
      simp only [mapFind, if_true, Option.some.injEq] at h
      subst h
      exact List.mem_cons_self _ _
    · simp only [mapFind, if_neg h0] at h
      exact List.mem_cons_of_mem _ (ih h)

/-- The map `coloring` after the first `n` subgraph indices: under each colour
met so far, the indices of that colour in increasing order. -/
theorem coloring_fold (col : Nat → Int) (n : Nat) :
    (((List.range n).foldl
        (fun (coloring : List (Int × List Nat)) index =>
          match mapFind coloring (col index) with
          | none => mapSet coloring (col index) [index]
          | some vec => mapSet coloring (col index) (vec ++ [index]))
        []).map Prod.fst).Nodup ∧
    ∀ c, mapFind ((List.range n).foldl
        (fun (coloring : List (Int × List Nat)) index =>
          match mapFind coloring (col index) with
          | none => mapSet coloring (col index) [index]
          | some vec => mapSet coloring (col index) (vec ++ [index]))
        []) c =
      if c ∈ (List.range n).map col then
        some ((List.range n).filter (fun i => decide (col i = c)))
      else none := by
  induction n with
  | zero => simp [mapFind]
  | succ n ih =>
    obtain ⟨hnd, hfind⟩ := ih
    rw [List.range_succ, List.foldl_append]
    simp only [List.foldl_cons, List.foldl_nil]
    generalize (List.range n).foldl
        (fun (coloring : List (Int × List Nat)) index =>
          match mapFind coloring (col index) with
          | none => mapSet coloring (col index) [index]
          | some vec => mapSet coloring (col index) (vec ++ [index]))
        [] = m at hnd hfind
    have hstep : (match mapFind m (col n) with
          | none => mapSet m (col n) [n]
          | some vec => mapSet m (col n) (vec ++ [n])) =
        mapSet m (col n) ((List.range n).filter (fun i => decide (col i = col n)) ++ [n]) := by
      rw [hfind (col n)]
      by_cases hc : col n ∈ (List.range n).map col
      · simp only [if_pos hc]
      · simp only [if_neg hc]
        have : (List.range n).filter (fun i => decide (col i = col n)) = [] := by
          rw [List.filter_eq_nil_iff]
          intro i hi hci
          apply hc
          simp only [decide_eq_true_eq] at hci
          rw [← hci]
          exact List.mem_map_of_mem _ hi
        rw [this]; rfl
    rw [hstep]
    refine ⟨keys_nodup_mapSet _ _ _ hnd, ?_⟩
    intro c
    rw [mapFind_mapSet, hfind c]
    by_cases h0 : col n = c
    · subst h0
      simp [List.filter_append]
    · have h1 : ¬ c = col n := fun h => h0 h.symm
      simp only [if_neg h0, List.map_append, List.mem_append, List.map_cons, List.map_nil,
        List.mem_singleton, h1, or_false, List.filter_append]
      simp [h0]

theorem range_map_lookupVertex (A : List Int) :
    (List.range A.length).map (lookupVertex A) = A := by
  apply List.ext_getElem
  · simp
  · intro i h1 h2
    rw [List.getElem_map, List.getElem_range]
    unfold lookupVertex
    exact List.getD_eq_getElem _ _ h2

theorem range_map_color (G : Graph) (A : List Int) :
    (List.range A.length).map (fun i => G.color (lookupVertex A i)) = A.map G.color := by
  conv_rhs => rw [← range_map_lookupVertex A]
  simp

/-- The map `coloring`: its keys are the colours of the subgraph vertices, and
under each key stand the indices of that colour in increasing order. -/
theorem buildColoring_spec (G : Graph) (A : List Int) :
    ((buildColoring G A).map Prod.fst).Nodup ∧
    (∀ c, c ∈ (buildColoring G A).map Prod.fst ↔ c ∈ A.map G.color) ∧
    (∀ e ∈ buildColoring G A,
      e.2 = (List.range A.length).filter (fun i => decide (G.color (lookupVertex A i) = e.1))) := by
  have h := coloring_fold (fun i => G.color (lookupVertex A i)) A.length
  have hb : buildColoring G A = (List.range A.length).foldl
        (fun (coloring : List (Int × List Nat)) index =>
          match mapFind coloring (G.color (lookupVertex A index)) with
          | none => mapSet coloring (G.color (lookupVertex A index)) [index]
          | some vec => mapSet coloring (G.color (lookupVertex A index)) (vec ++ [index]))
        [] := rfl
  rw [← hb] at h
  obtain ⟨hnd, hfind⟩ := h
  rw [range_map_color] at hfind
  refine ⟨hnd, ?_, ?_⟩
  · intro c
    rw [← mapFind_isSome_iff, hfind c]
    by_cases hc : c ∈ A.map G.color <;> simp [hc]
  · intro e he
    have h1 := mapFind_of_mem _ hnd e he
    rw [hfind e.1] at h1
    by_cases hc : e.1 ∈ A.map G.color
    · simp only [if_pos hc, Option.some.injEq] at h1
      exact h1.symm
    · rw [if_neg hc] at h1
      exact absurd h1 (by simp)

theorem mapEntries_perm {β : Type} (m : List (Int × β)) : (mapEntries m).Perm m :=
  List.perm_insertionSort _ _

theorem mapEntries_sorted {β : Type} (m : List (Int × β)) :
    (mapEntries m).Pairwise (fun a b => a.1 ≤ b.1) := by
  haveI : IsTotal (Int × β) (fun a b => a.1 ≤ b.1) := ⟨fun a b => le_total a.1 b.1⟩
  haveI : IsTrans (Int × β) (fun a b => a.1 ≤ b.1) := ⟨fun _ _ _ h1 h2 => le_trans h1 h2⟩
  exact List.sorted_insertionSort _ m

/-- The colours the loop over `coloring` walks: the colours of the subgraph
vertices, each once, in ascending order. -/
theorem colorKeys_spec (G : Graph) (A : List Int) :
    (colorKeys G A).Sorted (fun a b => a ≤ b) ∧ (colorKeys G A).Nodup ∧
    ∀ c, c ∈ colorKeys G A ↔ c ∈ A.map G.color := by
  obtain ⟨hnd, hmem, _⟩ := buildColoring_spec G A
  have hp : (colorKeys G A).Perm ((buildColoring G A).map Prod.fst) :=
    (mapEntries_perm _).map _
  refine ⟨?_, hp.nodup_iff.mpr hnd, fun c => (hp.mem_iff).trans (hmem c)⟩
  unfold colorKeys List.Sorted
  rw [List.pairwise_map]
  exact mapEntries_sorted _

theorem colorKeys_congr (G : Graph) (A B : List Int) (h : (A.map G.color).Perm (B.map G.color)) :
    colorKeys G A = colorKeys G B := by
  obtain ⟨hsA, hnA, hmA⟩ := colorKeys_spec G A
  obtain ⟨hsB, hnB, hmB⟩ := colorKeys_spec G B
  apply List.eq_of_perm_of_sorted _ hsA hsB
  rw [List.perm_ext_iff_of_nodup hnA hnB]
  intro c
  rw [hmA, hmB]
  exact h.mem_iff

theorem mapEntries_cells (G : Graph) (A : List Int) :
    ∀ e ∈ mapEntries (buildColoring G A),
      e.2 = (List.range A.length).filter (fun i => decide (G.color (lookupVertex A i) = e.1)) ∧
      e.2 ≠ [] := by
  intro e he
  obtain ⟨_, hmem, hcell⟩ := buildColoring_spec G A
  have he' : e ∈ buildColoring G A := (mapEntries_perm _).mem_iff.mp he
  have h1 := hcell e he'
  refine ⟨h1, ?_⟩
  have hk : e.1 ∈ A.map G.color := (hmem e.1).mp (List.mem_map_of_mem _ he')
  rw [← range_map_color] at hk
  obtain ⟨i, hi, hci⟩ := List.mem_map.mp hk
  intro h0
  have : i ∈ e.2 := by
    rw [h1]
    exact List.mem_filter.mpr ⟨hi, by simpa using hci⟩
  rw [h0] at this
  simp at this

theorem length_color_cell (G : Graph) (A : List Int) (c : Int) :
    ((List.range A.length).filter (fun i => decide (G.color (lookupVertex A i) = c))).length =
      (A.map G.color).count c := by
  rw [← range_map_color, List.count_eq_countP, List.countP_map, List.countP_eq_length_filter]
  congr 2

/-- The marks `ptn` gets from the loop over `coloring`, cell by cell. -/
theorem coloring_marks (G : Graph) (A : List Int) :
    ((mapEntries (buildColoring G A)).map (fun e => e.2)).flatMap
        (fun cell => cellMarks cell.length) =
      (colorKeys G A).flatMap (fun c => cellMarks ((A.map G.color).count c)) := by
  unfold colorKeys
  have h := mapEntries_cells G A
  generalize mapEntries (buildColoring G A) = es at h
  induction es with
  | nil => rfl
  | cons e es ih =>
    simp only [List.map_cons, List.flatMap_cons]
    rw [ih (fun e' he' => h e' (List.mem_cons_of_mem _ he'))]
    congr 2
    rw [(h e (List.mem_cons_self _ _)).1]
    exact length_color_cell G A e.1

/-- The cells the loop over `coloring` writes into `lab` hold every subgraph
index once. -/
theorem coloring_cells_perm (G : Graph) (A : List Int) :
    (((mapEntries (buildColoring G A)).map (fun e => e.2)).flatten).Perm
      (List.range A.length) := by
  have hcells := mapEntries_cells G A
  obtain ⟨_, hnd, hmem⟩ := colorKeys_spec G A
  rw [List.perm_ext_iff_of_nodup _ (List.nodup_range _)]
  · intro i
    rw [List.mem_flatten, List.mem_range]
    constructor
    · rintro ⟨cell, hcell, hi⟩
      obtain ⟨e, he, rfl⟩ := List.mem_map.mp hcell
      rw [(hcells e he).1] at hi
      exact List.mem_range.mp (List.mem_filter.mp hi).1
    · intro hi
      have hc : G.color (lookupVertex A i) ∈ colorKeys G A := by
        rw [hmem]
        exact List.mem_map_of_mem _ (lookupVertex_mem hi)
      obtain ⟨e, he, hek⟩ := List.mem_map.mp hc
      refine ⟨e.2, List.mem_map_of_mem _ he, ?_⟩
      rw [(hcells e he).1]
      exact List.mem_filter.mpr ⟨List.mem_range.mpr hi, by simpa using hek.symm⟩
  · rw [List.nodup_flatten]
    constructor
    · intro cell hcell
      obtain ⟨e, he, rfl⟩ := List.mem_map.mp hcell
      rw [(hcells e he).1]
      exact (List.nodup_range _).filter _
    · rw [List.pairwise_map]
      have hk : (mapEntries (buildColoring G A)).Pairwise (fun a b => a.1 ≠ b.1) := by
        have := hnd
        unfold colorKeys List.Nodup at this
        rwa [List.pairwise_map] at this
      refine List.Pairwise.imp_of_mem ?_ hk
      intro a b ha hb hab
      rw [(hcells a ha).1, (hcells b hb).1]
      intro i hia hib
      have h1 := (List.mem_filter.mp hia).2
      have h2 := (List.mem_filter.mp hib).2
      simp only [decide_eq_true_eq] at h1 h2
      exact hab (h1.symm.trans h2)

theorem flatMap_congr_mem {α β : Type} (l : List α) (f g : α → List β)
    (h : ∀ x ∈ l, f x = g x) : l.flatMap f = l.flatMap g := by
  induction l with
  | nil => rfl
  | cons a l ih =>
    simp only [List.flatMap_cons]
    rw [h a (List.mem_cons_self _ _), ih (fun x hx => h x (List.mem_cons_of_mem _ hx))]

/-- What the `VERTEX_COLORED` setting of `lab` and `ptn` leaves: the marks of
the colour cells in ascending colour order, in `lab` every subgraph index
once, and at each position an index of the colour of its cell. -/
theorem colorPartition_spec (G : Graph) (A : List Int) (lab ptn : List Nat)
    (hlab : lab.length = A.length) (hptn : ptn.length = A.length) :
    (setColorPartition (buildColoring G A) lab ptn).2 =
      (colorKeys G A).flatMap (fun c => cellMarks ((A.map G.color).count c)) ∧
    (∀ p, p < A.length →
      (setColorPartition (buildColoring G A) lab ptn).1.getD p 0 < A.length ∧
      cellAt (setColorPartition (buildColoring G A) lab ptn).2 p < (colorKeys G A).length ∧
      G.color (lookupVertex A ((setColorPartition (buildColoring G A) lab ptn).1.getD p 0)) =
        (colorKeys G A).getD (cellAt (setColorPartition (buildColoring G A) lab ptn).2 p) 0) ∧
    (∀ i, i < A.length →
      ∃ q, q < A.length ∧ (setColorPartition (buildColoring G A) lab ptn).1.getD q 0 = i) := by
  have hcells := mapEntries_cells G A
  have hperm := coloring_cells_perm G A
  have hlenf : (((mapEntries (buildColoring G A)).map (fun e => e.2)).flatten).length = A.length := by
    rw [hperm.length_eq, List.length_range]
  have hne : ∀ cell ∈ (mapEntries (buildColoring G A)).map (fun e => e.2), cell ≠ [] := by
    intro cell hcell
    obtain ⟨e, he, rfl⟩ := List.mem_map.mp hcell
    exact (hcells e he).2
  have hw := writeCells_full _ hne lab ptn (hlab.trans hlenf.symm) (hptn.trans hlenf.symm)
  rw [setColorPartition_eq, hw]
  simp only []
  refine ⟨coloring_marks G A, ?_, ?_⟩
  · intro p hp
    obtain ⟨h1, h2⟩ := cell_of_position _ hne p (by rw [hlenf]; exact hp)
    rw [List.length_map] at h1
    have hkl : (colorKeys G A).length = (mapEntries (buildColoring G A)).length := by
      simp [colorKeys]
    rw [List.getD_eq_getElem _ _ (by rw [List.length_map]; exact h1), List.getElem_map] at h2
    have hmem := List.getElem_mem h1
    rw [(hcells _ hmem).1] at h2
    obtain ⟨h3, h4⟩ := List.mem_filter.mp h2
    simp only [decide_eq_true_eq] at h4
    refine ⟨List.mem_range.mp h3, by rw [hkl]; exact h1, ?_⟩
    rw [h4, List.getD_eq_getElem _ _ (by rw [hkl]; exact h1)]
    simp [colorKeys]
  · intro i hi
    have hmem : i ∈ ((mapEntries (buildColoring G A)).map (fun e => e.2)).flatten :=
      hperm.mem_iff.mpr (List.mem_range.mpr hi)
    obtain ⟨q, hq, hqi⟩ := List.getElem_of_mem hmem
    refine ⟨q, by rw [← hlenf]; exact hq, ?_⟩
    rw [List.getD_eq_getElem _ _ hq]
    exact hqi

/-- A renumbering that is a bijection of the subgraph indices, as a
rearrangement of `0, ..., k - 1`. -/
theorem range_map_perm (k : Nat) (π : Nat → Nat) (hlt : ∀ i, i < k → π i < k)
    (hinj : ∀ i j, i < k → j < k → π i = π j → i = j) :
    ((List.range k).map π).Perm (List.range k) := by
  rw [List.perm_ext_iff_of_nodup _ (List.nodup_range _)]
  · intro j
    rw [List.mem_map, List.mem_range]
    constructor
    · rintro ⟨i, hi, rfl⟩
      exact hlt i (List.mem_range.mp hi)
    · intro hj
      obtain ⟨i, hi, hij⟩ := surjective_of_injective_below k π hlt hinj j hj
      exact ⟨i, List.mem_range.mpr hi, hij⟩
  · apply List.Nodup.map_on _ (List.nodup_range _)
    intro i hi j hj hij
    exact hinj i j (List.mem_range.mp hi) (List.mem_range.mp hj) hij

theorem colors_perm {flags : Flags} {G : Graph} {A B : List Int} {π : Nat → Nat}
    (hlen : A.length = B.length) (he : flags.EDGE_COLORED = false)
    (hv : flags.VERTEX_COLORED = true) (hπ : IndexIso flags G A B π) :
    (A.map G.color).Perm (B.map G.color) := by
  obtain ⟨hlt, hinj, _, _, hcolor⟩ := hπ
  have h1 : A.map G.color
      = ((List.range A.length).map π).map (fun j => G.color (lookupVertex B j)) := by
    rw [← range_map_color, List.map_map]
    apply List.map_congr_left
    intro i hi
    exact (hcolor he hv i (List.mem_range.mp hi)).symm
  rw [h1, ← range_map_color G B, ← hlen]
  exact (range_map_perm A.length π hlt hinj).map _

theorem prepareNauty_labptn_vertex (flags : Flags) (G : Graph) (A : List Int) (L : Nat)
    (ng : NyGraph) (he : flags.EDGE_COLORED = false) (hv : flags.VERTEX_COLORED = true) :
    (prepareNauty flags G A L ng).lab = (setColorPartition (buildColoring G A) ng.lab ng.ptn).1 ∧
    (prepareNauty flags G A L ng).ptn = (setColorPartition (buildColoring G A) ng.lab ng.ptn).2 := by
  simp [prepareNauty, he, hv]

/-- In vertex-coloured mode the canonical position `iv` holds a vertex whose
colour is the one of the cell of `iv`. -/
theorem canonical_color {env : Env} {G : Graph} {A : List Int} {L : Nat} {ng : NyGraph}
    (he : env.flags.EDGE_COLORED = false) (hv : env.flags.VERTEX_COLORED = true)
    (hws : EntryWorkspace env.flags L A.length ng)
    (hout : CanonicalOutput (prepareNauty env.flags G A L ng)
      (callNauty env (prepareNauty env.flags G A L ng)))
    (iv : Nat) (hiv : iv < A.length) :
    lookupColoring env.flags G A
        ((callNauty env (prepareNauty env.flags G A L ng)).lab.getD iv 0) =
      (colorKeys G A).getD
        (cellAt ((colorKeys G A).flatMap (fun c => cellMarks ((A.map G.color).count c))) iv) 0 := by
  obtain ⟨hn, _, hcol, _, hlab, hptn, _, _⟩ := hws
  simp only [he, Bool.false_eq_true, if_false] at hn
  rw [hn] at hlab hptn
  obtain ⟨hmarks, hpos, _⟩ := colorPartition_spec G A ng.lab ng.ptn hlab hptn
  obtain ⟨hx1, hx2⟩ := prepareNauty_labptn_vertex env.flags G A L ng he hv
  obtain ⟨h1, _, h3, _⟩ := hout
  rw [(prepareNauty_fields _ _ _ _ _).1, hn] at h1 h3
  have hc : (prepareNauty env.flags G A L ng).colored = true := by
    rw [(prepareNauty_fields _ _ _ _ _).2.2, hcol, hv]; simp
  obtain ⟨q, hq, hq1, hq2⟩ := h3 hc iv hiv
  rw [hx1] at hq1
  rw [hx2, hmarks] at hq2
  obtain ⟨_, _, hcq⟩ := hpos q hq
  rw [hq1, hmarks, hq2] at hcq
  unfold lookupColoring
  simp only [hv, Bool.true_and, h1 iv hiv, decide_True, if_true]
  exact hcq

/-- With vertex colours only, the certificates of two subgraphs related by a
renumbering that keeps the arcs and the vertex colours are the same. -/
theorem certificate_eq_vertex {env : Env} {G : Graph} {A B : List Int} {π : Nat → Nat} {L : Nat}
    {ngA ngB : NyGraph} (hG : G.WellFormed) (hlen : A.length = B.length)
    (he : env.flags.EDGE_COLORED = false) (hv : env.flags.VERTEX_COLORED = true)
    (hwsA : EntryWorkspace env.flags L A.length ngA)
    (hwsB : EntryWorkspace env.flags L B.length ngB)
    (hπ : IndexIso env.flags G A B π)
    (hnauty : MeetsContractAt env (prepareNauty env.flags G A L ngA)
      (prepareNauty env.flags G B L ngB)) :
    subgraphCertificate env G A L ngA = subgraphCertificate env G B L ngB := by
  have hcolors := colors_perm hlen he hv hπ
  have hkeys := colorKeys_congr G A B hcolors
  have hmarksEq : (colorKeys G A).flatMap (fun c => cellMarks ((A.map G.color).count c)) =
      (colorKeys G B).flatMap (fun c => cellMarks ((B.map G.color).count c)) := by
    rw [hkeys]
    apply flatMap_congr_mem
    intro c _
    rw [hcolors.count_eq]
  obtain ⟨hlt, hinj, hedge, _, hcolor⟩ := hπ
  have hnA : ngA.no_vertices = A.length := by
    have := hwsA.1; simpa only [he, Bool.false_eq_true, if_false] using this
  have hnB : ngB.no_vertices = B.length := by
    have := hwsB.1; simpa only [he, Bool.false_eq_true, if_false] using this
  have hk64 : A.length ≤ 64 := by
    have := hwsA.2.2.2.2.2.2.2; omega
  obtain ⟨hmA, hposA, _⟩ := colorPartition_spec G A ngA.lab ngA.ptn
    (by rw [hwsA.2.2.2.2.1, hnA]) (by rw [hwsA.2.2.2.2.2.1, hnA])
  obtain ⟨hmB, hposB, hsurB⟩ := colorPartition_spec G B ngB.lab ngB.ptn
    (by rw [hwsB.2.2.2.2.1, hnB]) (by rw [hwsB.2.2.2.2.2.1, hnB])
  obtain ⟨hxA1, hxA2⟩ := prepareNauty_labptn_vertex env.flags G A L ngA he hv
  obtain ⟨hxB1, hxB2⟩ := prepareNauty_labptn_vertex env.flags G B L ngB he hv
  obtain ⟨_, hkn, _⟩ := colorKeys_spec G B
  have hiso : IsomorphicInputs (prepareNauty env.flags G A L ngA)
      (prepareNauty env.flags G B L ngB) := by
    refine ⟨π, ?_, ?_, ?_, ?_⟩
    · intro v h
      rw [(prepareNauty_fields _ _ _ _ _).1, hnA] at h ⊢
      exact hlt v h
    · intro v w h1 h2
      rw [(prepareNauty_fields _ _ _ _ _).1, hnA] at h1 h2
      exact hinj v w h1 h2
    · intro v w h1 h2
      rw [(prepareNauty_fields _ _ _ _ _).1, hnA] at h1 h2
      have hw := hlt w h2
      have hv' := hlt v h1
      rw [Bool.eq_iff_iff, prepareNauty_bits_plain _ G B L ngB he hwsB _ _ (by omega),
        prepareNauty_bits_plain _ G A L ngA he hwsA _ _ (by omega)]
      rw [hG.outgoing_iff, hG.outgoing_iff, hedge v w h1 h2, ← hlen]
      simp [h1, h2, hv', hw]
    · intro _ p hp
      rw [(prepareNauty_fields _ _ _ _ _).1, hnA] at hp ⊢
      rw [hxA1, hxA2, hxB1, hxB2]
      obtain ⟨hp1, hp2, hp3⟩ := hposA p hp
      obtain ⟨q, hq, hq1⟩ := hsurB (π ((setColorPartition (buildColoring G A) ngA.lab ngA.ptn).1.getD p 0))
        (by rw [← hlen]; exact hlt _ hp1)
      rw [← hlen] at hq
      refine ⟨q, hq, hq1, ?_⟩
      obtain ⟨_, hq2, hq3⟩ := hposB q (by rw [← hlen]; exact hq)
      rw [hq1, hcolor he hv _ hp1, hp3, hkeys] at hq3
      rw [hkeys] at hp2
      rw [List.getD_eq_getElem _ _ hp2, List.getD_eq_getElem _ _ hq2] at hq3
      exact ((hkn.getElem_inj_iff).mp hq3).symm
  have hcm := hnauty.2.2 hiso
  have hcA := canonical_color he hv hwsA hnauty.1
  have hcB := canonical_color he hv hwsB hnauty.2.1
  unfold subgraphCertificate buildCertificate
  simp only [he, hv, Bool.false_eq_true, if_false, if_true]
  rw [hcm]
  congr 1
  · simp only [callNauty, prepareNauty, hnA, hnB, hlen, hwsA.2.1, hwsB.2.1]
  · rw [← hlen]
    apply flatMap_congr_mem
    intro iv hiv
    have hiv' := List.mem_range.mp hiv
    rw [hcA iv hiv', hcB iv (by rw [← hlen]; exact hiv'), hmarksEq, hkeys]

theorem layer_index_inj {a b l m k : Nat} (ha : a < k) (hb : b < k)
    (h : a + l * k = b + m * k) : a = b ∧ l = m := by
  have h1 : (a + l * k) % k = a := by
    rw [Nat.add_mul_mod_self_right]; exact Nat.mod_eq_of_lt ha
  have h2 : (b + m * k) % k = b := by
    rw [Nat.add_mul_mod_self_right]; exact Nat.mod_eq_of_lt hb
  have hab : a = b := by rw [← h1, ← h2, h]
  subst hab
  have hk : 0 < k := by omega
  have h3 : l * k = m * k := by omega
  exact ⟨rfl, Nat.eq_of_mul_eq_mul_right hk h3⟩

theorem layer_index_div {a l k : Nat} (ha : a < k) : (a + l * k) / k = l := by
  have hk : 0 < k := by omega
  rw [Nat.add_mul_div_right _ _ hk, Nat.div_eq_of_lt ha, Nat.zero_add]

theorem layer_index_mod {a l k : Nat} (ha : a < k) : (a + l * k) % k = a := by
  rw [Nat.add_mul_mod_self_right]; exact Nat.mod_eq_of_lt ha

theorem layer_cells_flatten (k : Nat) :
    ∀ L, ((List.range L).map (fun il => (List.range k).map (fun iv => iv + il * k))).flatten =
      List.range (L * k) := by
  intro L
  induction L with
  | zero => simp
  | succ L ih =>
    rw [List.range_succ, List.map_append, List.flatten_append, ih, Nat.succ_mul, List.range_add]
    simp only [List.map_cons, List.map_nil, List.flatten_cons, List.flatten_nil, List.append_nil]
    congr 1
    apply List.map_congr_left
    intro iv _
    omega

/-- What the `EDGE_COLORED` setting of `lab` and `ptn` leaves: `lab` holds the
layered indices in order, and the cell of position `p` is its layer. -/
theorem layerPartition_spec (L k : Nat) (lab ptn : List Nat) (hk : 1 ≤ k)
    (hlab : lab.length = L * k) (hptn : ptn.length = L * k) :
    (setLayerPartition L k lab ptn).1 = List.range (L * k) ∧
    (setLayerPartition L k lab ptn).2 =
      ((List.range L).map (fun il => (List.range k).map (fun iv => iv + il * k))).flatMap
        (fun cell => cellMarks cell.length) ∧
    (∀ p, p < L * k → cellAt (setLayerPartition L k lab ptn).2 p = p / k) := by
  have hflat := layer_cells_flatten k L
  have hne : ∀ cell ∈ (List.range L).map (fun il => (List.range k).map (fun iv => iv + il * k)),
      cell ≠ [] := by
    intro cell hcell
    obtain ⟨il, _, rfl⟩ := List.mem_map.mp hcell
    intro h0
    have := congrArg List.length h0
    simp at this
    omega
  have hw := writeCells_full _ hne lab ptn (by rw [hflat]; simpa using hlab)
    (by rw [hflat]; simpa using hptn)
  rw [setLayerPartition_eq, hw]
  simp only []
  refine ⟨hflat, ?_, ?_⟩
  · first | rfl | trivial
  intro p hp
  obtain ⟨h1, h2⟩ := cell_of_position _ hne p (by rw [hflat]; simpa using hp)
  rw [List.length_map, List.length_range] at h1
  have e1 : (List.range (L * k)).getD p 0 = p := by
    rw [List.getD_eq_getElem _ _ (by simpa using hp), List.getElem_range]
  rw [hflat, e1, List.getD_eq_getElem _ _ (by simpa using h1), List.getElem_map,
    List.getElem_range] at h2
  obtain ⟨iv, hiv, hp'⟩ := List.mem_map.mp h2
  have hiv' := List.mem_range.mp hiv
  have e2 := @layer_index_div iv (cellAt
      (((List.range L).map (fun il => (List.range k).map (fun iv => iv + il * k))).flatMap
        (fun cell => cellMarks cell.length)) p) k hiv'
  rw [hp'] at e2
  exact e2.symm

theorem entry_layers {flags : Flags} {L k : Nat} {ng : NyGraph}
    (he : flags.EDGE_COLORED = true) (hws : EntryWorkspace flags L k ng) :
    ng.no_vertices = L * k ∧ 1 ≤ L ∧ 1 ≤ k ∧ L * k ≤ 64 := by
  obtain ⟨hn, _, _, _, _, _, hn1, hn64⟩ := hws
  simp only [he, if_true] at hn
  rw [hn] at hn1 hn64
  refine ⟨hn, ?_, ?_, hn64⟩
  · rcases Nat.eq_zero_or_pos L with h0 | h0
    · rw [h0] at hn1; simp at hn1
    · exact h0
  · rcases Nat.eq_zero_or_pos k with h0 | h0
    · rw [h0] at hn1; simp at hn1
    · exact h0

/-- The arcs of the matrix handed to the canonicalizer in edge-coloured mode,
by layer and subgraph index. -/
theorem layered_bit {flags : Flags} {G : Graph} {A : List Int} {L : Nat} {ng : NyGraph}
    (hG : G.WellFormed) (he : flags.EDGE_COLORED = true) (hL : L = layerCount G.nedge_types)
    (hcol : ColorsInRange G A) (hws : EntryWorkspace flags L A.length ng)
    {a b l m : Nat} (ha : a < A.length) (hb : b < A.length) (hl : l < L) (hm : m < L) :
    matrixBit (prepareNauty flags G A L ng).matrix (a + l * A.length) (b + m * A.length) = true ↔
      layeredArc G A L a b l m := by
  obtain ⟨hn, hL1, hk1, hn64⟩ := entry_layers he hws
  have hy : b + m * A.length < 64 := by
    have := layer_index_lt hb hm; omega
  rw [prepareNauty_bits_layered flags G A L ng he hws ?_ _ _ hy]
  · unfold layeredArc
    constructor
    · rintro (⟨il, hil, iv, hiv, hx, hy'⟩ | ⟨o, ho, i, hi, hedge, hrest⟩)
      · obtain ⟨rfl, rfl⟩ := layer_index_inj ha hiv hx
        left
        by_cases hlast : l = L - 1
        · rw [if_pos hlast] at hy' ⊢
          have h0 : b + m * A.length = a + 0 * A.length := by omega
          obtain ⟨rfl, rfl⟩ := layer_index_inj hb ha h0
          exact ⟨rfl, rfl⟩
        · rw [if_neg hlast] at hy' ⊢
          obtain ⟨rfl, rfl⟩ := layer_index_inj hb ha hy'
          exact ⟨rfl, rfl⟩
      · right
        rw [hG.outgoing_iff] at hedge
        by_cases h1 : 1 < L
        · rw [if_pos h1] at hrest
          obtain ⟨p, hp, hx, hy'⟩ := hrest
          obtain ⟨rfl, rfl⟩ := layer_index_inj ha ho hx
          obtain ⟨rfl, rfl⟩ := layer_index_inj hb hi hy'
          exact ⟨hedge, rfl, fun _ => hp⟩
        · rw [if_neg h1] at hrest
          have hl0 : l = 0 := by omega
          have hm0 : m = 0 := by omega
          subst hl0; subst hm0
          obtain ⟨hx, hy'⟩ := hrest
          simp only [Nat.zero_mul, Nat.add_zero] at hx hy'
          subst hx; subst hy'
          exact ⟨hedge, rfl, fun h => absurd h h1⟩
    · rintro (⟨rfl, hm'⟩ | ⟨hedge, rfl, hlay⟩)
      · left
        refine ⟨l, hl, a, ha, rfl, ?_⟩
        by_cases hlast : l = L - 1
        · rw [if_pos hlast] at hm' ⊢
          subst hm'; simp
        · rw [if_neg hlast] at hm' ⊢
          subst hm'; rfl
      · right
        refine ⟨a, ha, b, hb, (hG.outgoing_iff _ _).mpr hedge, ?_⟩
        by_cases h1 : 1 < L
        · rw [if_pos h1]
          exact ⟨l, hlay h1, rfl, rfl⟩
        · rw [if_neg h1]
          have hl0 : l = 0 := by omega
          subst hl0
          simp
  · intro _ o ho i hi hedge p hp
    rw [hG.outgoing_iff] at hedge
    obtain ⟨h0, hlt, h127⟩ := hcol _ (lookupVertex_mem ho) _ (lookupVertex_mem hi) hedge
    rw [hL]
    exact coloredLayers_lt_layerCount h0 h127 hlt hp

/-- A renumbering that keeps the arcs and the edge colours keeps the arcs of
the layered digraph. -/
theorem layeredArc_iso {flags : Flags} {G : Graph} {A B : List Int} {π : Nat → Nat} {L : Nat}
    (he : flags.EDGE_COLORED = true) (hπ : IndexIso flags G A B π)
    {a b : Nat} (ha : a < A.length) (hb : b < A.length) (l m : Nat) :
    layeredArc G B L (π a) (π b) l m ↔ layeredArc G A L a b l m := by
  obtain ⟨_, hinj, hedge, hcolor, _⟩ := hπ
  unfold layeredArc
  have h1 : π a = π b ↔ a = b := ⟨hinj a b ha hb, fun h => by rw [h]⟩
  rw [h1, hedge a b ha hb]
  by_cases h : G.hasEdge (lookupVertex A a) (lookupVertex A b) = true
  · rw [hcolor he a b ha hb h]
  · simp [h]

theorem prepareNauty_labptn_layered (flags : Flags) (G : Graph) (A : List Int) (L : Nat)
    (ng : NyGraph) (he : flags.EDGE_COLORED = true) :
    (prepareNauty flags G A L ng).lab = (setLayerPartition L A.length ng.lab ng.ptn).1 ∧
    (prepareNauty flags G A L ng).ptn = (setLayerPartition L A.length ng.lab ng.ptn).2 := by
  simp [prepareNauty, he]

/-- In edge-coloured mode `lab` enters the canonicalizer holding the layered
indices in order, with one cell per layer. -/
theorem prepared_layers {flags : Flags} {G : Graph} {A : List Int} {L : Nat} {ng : NyGraph}
    (he : flags.EDGE_COLORED = true) (hws : EntryWorkspace flags L A.length ng) :
    (prepareNauty flags G A L ng).no_vertices = L * A.length ∧
    (prepareNauty flags G A L ng).colored = true ∧
    (∀ p, p < L * A.length → (prepareNauty flags G A L ng).lab.getD p 0 = p) ∧
    (∀ p, p < L * A.length →
      cellAt (prepareNauty flags G A L ng).ptn p = p / A.length) := by
  obtain ⟨hn, _, hk1, _⟩ := entry_layers he hws
  obtain ⟨_, _, hcol, _, hlab, hptn, _, _⟩ := hws
  rw [hn] at hlab hptn
  obtain ⟨h1, _, h3⟩ := layerPartition_spec L A.length ng.lab ng.ptn hk1 hlab hptn
  obtain ⟨e1, e2⟩ := prepareNauty_labptn_layered flags G A L ng he
  refine ⟨by rw [(prepareNauty_fields _ _ _ _ _).1, hn],
    by rw [(prepareNauty_fields _ _ _ _ _).2.2, hcol, he]; rfl, ?_, ?_⟩
  · intro p hp
    rw [e1, h1, List.getD_eq_getElem _ _ (by simpa using hp), List.getElem_range]
  · intro p hp
    rw [e2]
    exact h3 p hp

/-- In edge-coloured mode, two subgraphs related by a renumbering that keeps
the arcs and the edge colours give the canonicalizer isomorphic inputs. -/
theorem isomorphicInputs_layered {flags : Flags} {G : Graph} {A B : List Int} {π : Nat → Nat}
    {L : Nat} {ngA ngB : NyGraph} (hG : G.WellFormed) (hlen : A.length = B.length)
    (he : flags.EDGE_COLORED = true) (hL : L = layerCount G.nedge_types)
    (hcolA : ColorsInRange G A) (hcolB : ColorsInRange G B)
    (hwsA : EntryWorkspace flags L A.length ngA) (hwsB : EntryWorkspace flags L B.length ngB)
    (hπ : IndexIso flags G A B π) :
    IsomorphicInputs (prepareNauty flags G A L ngA) (prepareNauty flags G B L ngB) := by
  obtain ⟨hnA, hcA, hlabA, hcellA⟩ := @prepared_layers flags G A L ngA he hwsA
  obtain ⟨hnB, _, hlabB, hcellB⟩ := @prepared_layers flags G B L ngB he hwsB
  obtain ⟨_, hL1, hk1, hn64⟩ := entry_layers he hwsA
  have hlt := hπ.1
  have hinj := hπ.2.1
  have hmod : ∀ v, v % A.length < A.length := fun v => Nat.mod_lt _ (by omega)
  have hdiv : ∀ v, v < L * A.length → v / A.length < L := fun v hv =>
    Nat.div_lt_of_lt_mul (by rw [Nat.mul_comm]; exact hv)
  have hdec : ∀ v, v % A.length + v / A.length * A.length = v := fun v => Nat.mod_add_div' v _
  refine ⟨fun v => π (v % A.length) + v / A.length * A.length, ?_, ?_, ?_, ?_⟩
  · intro v hv
    rw [hnA] at hv ⊢
    exact layer_index_lt (hlt _ (hmod v)) (hdiv v hv)
  · intro v w hv hw h
    rw [hnA] at hv hw
    obtain ⟨h1, h2⟩ := layer_index_inj (hlt _ (hmod v)) (hlt _ (hmod w)) h
    have h3 := hinj _ _ (hmod v) (hmod w) h1
    rw [← hdec v, ← hdec w, h2, h3]
  · intro v w hv hw
    rw [hnA] at hv hw
    rw [Bool.eq_iff_iff]
    have hB := @layered_bit flags G B L ngB hG he hL hcolB hwsB (π (v % A.length))
      (π (w % A.length)) (v / A.length) (w / A.length) (by rw [← hlen]; exact hlt _ (hmod v))
      (by rw [← hlen]; exact hlt _ (hmod w)) (hdiv v hv) (hdiv w hw)
    have hA := @layered_bit flags G A L ngA hG he hL hcolA hwsA (v % A.length)
      (w % A.length) (v / A.length) (w / A.length) (hmod v) (hmod w) (hdiv v hv) (hdiv w hw)
    rw [hdec v, hdec w] at hA
    rw [← hlen] at hB
    rw [hB, hA]
    exact layeredArc_iso he hπ (hmod v) (hmod w) _ _
  · intro _ p hp
    rw [hnA] at hp ⊢
    have hq : π (p % A.length) + p / A.length * A.length < L * A.length :=
      layer_index_lt (hlt _ (hmod p)) (hdiv p hp)
    refine ⟨_, hq, ?_, ?_⟩
    · rw [hlabA p hp]
      rw [← hlen] at hlabB
      exact hlabB _ hq
    · rw [← hlen] at hcellB
      rw [hcellA p hp, hcellB _ hq, layer_index_div (hlt _ (hmod p))]

/-- In edge-coloured mode the canonical labelling keeps every layer in its
block of positions. -/
theorem canonical_layer {env : Env} {G : Graph} {A : List Int} {L : Nat} {ng : NyGraph}
    (he : env.flags.EDGE_COLORED = true) (hws : EntryWorkspace env.flags L A.length ng)
    (hout : CanonicalOutput (prepareNauty env.flags G A L ng)
      (callNauty env (prepareNauty env.flags G A L ng)))
    (p : Nat) (hp : p < L * A.length) :
    (callNauty env (prepareNauty env.flags G A L ng)).lab.getD p 0 < L * A.length ∧
    (callNauty env (prepareNauty env.flags G A L ng)).lab.getD p 0 / A.length = p / A.length := by
  obtain ⟨hn, hc, hlab, hcell⟩ := @prepared_layers env.flags G A L ng he hws
  obtain ⟨h1, _, h3, _⟩ := hout
  rw [hn] at h1 h3
  obtain ⟨q, hq, hq1, hq2⟩ := h3 hc p hp
  rw [hlab q hq] at hq1
  rw [hcell q hq, hcell p hp] at hq2
  exact ⟨h1 p hp, by rw [← hq1]; exact hq2⟩

/-- In edge-coloured mode the canonical matrix has the arcs of the layered
digraph, read through the canonical labelling. -/
theorem canonical_arc {env : Env} {G : Graph} {A : List Int} {L : Nat} {ng : NyGraph}
    (hG : G.WellFormed) (he : env.flags.EDGE_COLORED = true)
    (hL : L = layerCount G.nedge_types) (hcol : ColorsInRange G A)
    (hws : EntryWorkspace env.flags L A.length ng)
    (hout : CanonicalOutput (prepareNauty env.flags G A L ng)
      (callNauty env (prepareNauty env.flags G A L ng)))
    (p q : Nat) (hp : p < L * A.length) (hq : q < L * A.length) :
    matrixBit (callNauty env (prepareNauty env.flags G A L ng)).cmatrix p q = true ↔
      layeredArc G A L
        ((callNauty env (prepareNauty env.flags G A L ng)).lab.getD p 0 % A.length)
        ((callNauty env (prepareNauty env.flags G A L ng)).lab.getD q 0 % A.length)
        (p / A.length) (q / A.length) := by
  obtain ⟨hn, _, hk1, _⟩ := entry_layers he hws
  obtain ⟨_, hp2⟩ := canonical_layer he hws hout p hp
  obtain ⟨_, hq2⟩ := canonical_layer he hws hout q hq
  have h4 := hout.2.2.2 p q
  rw [(prepareNauty_fields _ _ _ _ _).1, hn] at h4
  rw [h4 hp hq]
  have hmod : ∀ v, v % A.length < A.length := fun v => Nat.mod_lt _ (by omega)
  have hdiv : ∀ v, v < L * A.length → v / A.length < L := fun v hv =>
    Nat.div_lt_of_lt_mul (by rw [Nat.mul_comm]; exact hv)
  have h := @layered_bit env.flags G A L ng hG he hL hcol hws _ _ _ _
    (hmod ((callNauty env (prepareNauty env.flags G A L ng)).lab.getD p 0))
    (hmod ((callNauty env (prepareNauty env.flags G A L ng)).lab.getD q 0))
    (hdiv p hp) (hdiv q hq)
  rw [← h]
  conv_lhs => rw [← Nat.mod_add_div'
      ((callNauty env (prepareNauty env.flags G A L ng)).lab.getD p 0) A.length,
    ← Nat.mod_add_div'
      ((callNauty env (prepareNauty env.flags G A L ng)).lab.getD q 0) A.length, hp2, hq2]

/-- In edge-coloured mode the copies of one subgraph vertex on the layers
stand, for two subgraphs with the same canonical matrix, at the same canonical
positions. -/
theorem canonical_copy {env : Env} {G : Graph} {A B : List Int} {L : Nat} {ngA ngB : NyGraph}
    (hG : G.WellFormed) (hlen : A.length = B.length) (he : env.flags.EDGE_COLORED = true)
    (hL : L = layerCount G.nedge_types)
    (hcolA : ColorsInRange G A) (hcolB : ColorsInRange G B)
    (hwsA : EntryWorkspace env.flags L A.length ngA)
    (hwsB : EntryWorkspace env.flags L B.length ngB)
    (houtA : CanonicalOutput (prepareNauty env.flags G A L ngA)
      (callNauty env (prepareNauty env.flags G A L ngA)))
    (houtB : CanonicalOutput (prepareNauty env.flags G B L ngB)
      (callNauty env (prepareNauty env.flags G B L ngB)))
    (hcm : (callNauty env (prepareNauty env.flags G A L ngA)).cmatrix =
      (callNauty env (prepareNauty env.flags G B L ngB)).cmatrix)
    (p : Nat) (hp : p < A.length) :
    ∀ l, l < L → ∀ pa pb, pa < L * A.length → pb < L * A.length →
      (callNauty env (prepareNauty env.flags G A L ngA)).lab.getD pa 0 =
        (callNauty env (prepareNauty env.flags G A L ngA)).lab.getD p 0 + l * A.length →
      (callNauty env (prepareNauty env.flags G B L ngB)).lab.getD pb 0 =
        (callNauty env (prepareNauty env.flags G B L ngB)).lab.getD p 0 + l * A.length →
      pa = pb := by
  obtain ⟨hnA, hcA, _, _⟩ := @prepared_layers env.flags G A L ngA he hwsA
  obtain ⟨hnB, hcB, _, _⟩ := @prepared_layers env.flags G B L ngB he hwsB
  obtain ⟨_, hL1, hk1, _⟩ := entry_layers he hwsA
  have hpn : p < L * A.length := lt_of_lt_of_le hp (Nat.le_mul_of_pos_left _ hL1)
  have hA1 := houtA.1
  have hA2 := houtA.2.1
  have hB1 := houtB.1
  have hB2 := houtB.2.1
  rw [hnA] at hA1 hA2
  rw [hnB, ← hlen] at hB1 hB2
  have hwsB' : EntryWorkspace env.flags L A.length ngB := by rw [hlen]; exact hwsB
  have hlayA := fun v hv => (canonical_layer he hwsA houtA v hv).2
  have hlayB : ∀ v, v < L * A.length →
      (callNauty env (prepareNauty env.flags G B L ngB)).lab.getD v 0 / A.length =
        v / A.length := by
    intro v hv
    have h := (canonical_layer he hwsB houtB v (by rw [← hlen]; exact hv)).2
    rwa [← hlen] at h
  have hp0 : p / A.length = 0 := Nat.div_eq_of_lt hp
  have ha : (callNauty env (prepareNauty env.flags G A L ngA)).lab.getD p 0 < A.length := by
    have h := hlayA p hpn
    rw [hp0] at h
    exact (Nat.div_eq_zero_iff (by omega)).mp h
  have hb : (callNauty env (prepareNauty env.flags G B L ngB)).lab.getD p 0 < A.length := by
    have h := hlayB p hpn
    rw [hp0] at h
    exact (Nat.div_eq_zero_iff (by omega)).mp h
  intro l
  induction l with
  | zero =>
    intro _ pa pb hpa hpb h1 h2
    rw [Nat.zero_mul, Nat.add_zero] at h1 h2
    rw [hA2 pa p hpa hpn h1, hB2 pb p hpb hpn h2]
  | succ l ih =>
    intro hl pa pb hpa hpb h1 h2
    have hl' : l < L := by omega
    obtain ⟨r, hr, hr1⟩ := surjective_of_injective_below _ _ hA1 hA2 _ (layer_index_lt ha hl')
    obtain ⟨r', hr', hr2⟩ := surjective_of_injective_below _ _ hB1 hB2 _ (layer_index_lt hb hl')
    have hrr := ih hl' r r' hr hr' hr1 hr2
    subst hrr
    have harcA := canonical_arc hG he hL hcolA hwsA houtA r pa hr hpa
    have harcB := canonical_arc hG he hL hcolB hwsB houtB r pa
      (by rw [← hlen]; exact hr) (by rw [← hlen]; exact hpa)
    rw [← hlen] at harcB
    have hr_div : r / A.length = l := by
      rw [← hlayA r hr, hr1, layer_index_div ha]
    have hpa_div : pa / A.length = l + 1 := by
      rw [← hlayA pa hpa, h1, layer_index_div ha]
    rw [hr_div, hpa_div, hr1, h1, layer_index_mod ha, layer_index_mod ha] at harcA
    rw [hr_div, hpa_div, hr2, layer_index_mod hb, ← hcm] at harcB
    have htrue : layeredArc G A L
        ((callNauty env (prepareNauty env.flags G A L ngA)).lab.getD p 0)
        ((callNauty env (prepareNauty env.flags G A L ngA)).lab.getD p 0) l (l + 1) := by
      left
      refine ⟨rfl, ?_⟩
      rw [if_neg (by omega)]
    rcases harcB.mp (harcA.mpr htrue) with ⟨h3, _⟩ | ⟨_, h3, _⟩
    · have h4 := hlayB pa hpa
      rw [hpa_div] at h4
      have h5 := Nat.mod_add_div'
        ((callNauty env (prepareNauty env.flags G B L ngB)).lab.getD pa 0) A.length
      rw [← h3, h4] at h5
      exact hB2 pa pb hpa hpb (h5.symm.trans h2.symm)
    · omega

/-- The layers an edge is put on determine its colour. -/
theorem color_eq_of_layers {c d : Int} (hc0 : 0 ≤ c) (hc : c ≤ 127) (hd0 : 0 ≤ d) (hd : d ≤ 127)
    (h : ∀ l, l ∈ coloredLayers 8 (toInt8 (c + 1)) 0 ↔ l ∈ coloredLayers 8 (toInt8 (d + 1)) 0) :
    c = d := by
  have hbits : c.toNat + 1 = d.toNat + 1 := by
    apply Nat.eq_of_testBit_eq
    intro i
    by_cases hi : i < 8
    · have h1 := mem_coloredLayers hc0 hc i
      have h2 := mem_coloredLayers hd0 hd i
      rw [Bool.eq_iff_iff]
      constructor
      · intro hb
        exact ((h2.mp ((h i).mp (h1.mpr ⟨hi, hb⟩)))).2
      · intro hb
        exact ((h1.mp ((h i).mpr (h2.mpr ⟨hi, hb⟩)))).2
    · have hpow : 2 ^ 8 ≤ 2 ^ i := Nat.pow_le_pow_right (by decide) (by omega)
      rw [Nat.testBit_lt_two_pow (by omega), Nat.testBit_lt_two_pow (by omega)]
  omega

theorem color_zero_of_one_layer {nedge_types c : Int} (h : layerCount nedge_types = 1)
    (h0 : 0 ≤ c) (hlt : c < nedge_types) : c = 0 := by
  have hle : (nedge_types + 1).toNat ≤ 2 ^ layerCount nedge_types :=
    Nat.le_pow_clog (by decide) _
  rw [h] at hle
  omega

/-- In edge-coloured mode, two subgraphs with the same canonical matrix have
the same edges, with the same colours, between the vertices at any two
canonical positions. -/
theorem canonical_edges {env : Env} {G : Graph} {A B : List Int} {L : Nat} {ngA ngB : NyGraph}
    (hG : G.WellFormed) (hlen : A.length = B.length) (he : env.flags.EDGE_COLORED = true)
    (hL : L = layerCount G.nedge_types)
    (hcolA : ColorsInRange G A) (hcolB : ColorsInRange G B)
    (hwsA : EntryWorkspace env.flags L A.length ngA)
    (hwsB : EntryWorkspace env.flags L B.length ngB)
    (houtA : CanonicalOutput (prepareNauty env.flags G A L ngA)
      (callNauty env (prepareNauty env.flags G A L ngA)))
    (houtB : CanonicalOutput (prepareNauty env.flags G B L ngB)
      (callNauty env (prepareNauty env.flags G B L ngB)))
    (hcm : (callNauty env (prepareNauty env.flags G A L ngA)).cmatrix =
      (callNauty env (prepareNauty env.flags G B L ngB)).cmatrix)
    (p q : Nat) (hp : p < A.length) (hq : q < A.length) :
    G.hasEdge
        (lookupVertex A ((callNauty env (prepareNauty env.flags G A L ngA)).lab.getD p 0))
        (lookupVertex A ((callNauty env (prepareNauty env.flags G A L ngA)).lab.getD q 0)) =
      G.hasEdge
        (lookupVertex B ((callNauty env (prepareNauty env.flags G B L ngB)).lab.getD p 0))
        (lookupVertex B ((callNauty env (prepareNauty env.flags G B L ngB)).lab.getD q 0)) ∧
    (G.hasEdge
        (lookupVertex A ((callNauty env (prepareNauty env.flags G A L ngA)).lab.getD p 0))
        (lookupVertex A ((callNauty env (prepareNauty env.flags G A L ngA)).lab.getD q 0)) = true →
      G.edgeColor
        (lookupVertex A ((callNauty env (prepareNauty env.flags G A L ngA)).lab.getD p 0))
        (lookupVertex A ((callNauty env (prepareNauty env.flags G A L ngA)).lab.getD q 0)) =
      G.edgeColor
        (lookupVertex B ((callNauty env (prepareNauty env.flags G B L ngB)).lab.getD p 0))
        (lookupVertex B ((callNauty env (prepareNauty env.flags G B L ngB)).lab.getD q 0))) := by
  obtain ⟨hnA, _, _, _⟩ := @prepared_layers env.flags G A L ngA he hwsA
  obtain ⟨hnB, _, _, _⟩ := @prepared_layers env.flags G B L ngB he hwsB
  obtain ⟨_, hL1, hk1, _⟩ := entry_layers he hwsA
  have hkn : A.length ≤ L * A.length := Nat.le_mul_of_pos_left _ hL1
  have hpn : p < L * A.length := lt_of_lt_of_le hp hkn
  have hqn : q < L * A.length := lt_of_lt_of_le hq hkn
  have hA1 := houtA.1
  have hA2 := houtA.2.1
  have hB1 := houtB.1
  have hB2 := houtB.2.1
  rw [hnA] at hA1 hA2
  rw [hnB, ← hlen] at hB1 hB2
  have hlayA := fun v hv => (canonical_layer he hwsA houtA v hv).2
  have hlayB : ∀ v, v < L * A.length →
      (callNauty env (prepareNauty env.flags G B L ngB)).lab.getD v 0 / A.length =
        v / A.length := by
    intro v hv
    have h := (canonical_layer he hwsB houtB v (by rw [← hlen]; exact hv)).2
    rwa [← hlen] at h
  have hlow : ∀ v, v < A.length →
      (callNauty env (prepareNauty env.flags G A L ngA)).lab.getD v 0 < A.length ∧
      (callNauty env (prepareNauty env.flags G B L ngB)).lab.getD v 0 < A.length := by
    intro v hv
    have hvn : v < L * A.length := lt_of_lt_of_le hv hkn
    have h1 := hlayA v hvn
    have h2 := hlayB v hvn
    rw [Nat.div_eq_of_lt hv] at h1 h2
    exact ⟨(Nat.div_eq_zero_iff (by omega)).mp h1, (Nat.div_eq_zero_iff (by omega)).mp h2⟩
  obtain ⟨hap, hbp⟩ := hlow p hp
  obtain ⟨haq, hbq⟩ := hlow q hq
  generalize hlabA : (callNauty env (prepareNauty env.flags G A L ngA)).lab = labA at *
  generalize hlabB : (callNauty env (prepareNauty env.flags G B L ngB)).lab = labB at *
  -- the arcs between the copies on one layer are the same
  have harc : ∀ l, l < L →
      (layeredArc G A L (labA.getD p 0) (labA.getD q 0) l l ↔
        layeredArc G B L (labB.getD p 0) (labB.getD q 0) l l) := by
    intro l hl
    obtain ⟨pa, hpa, hpa1⟩ := surjective_of_injective_below _ _ hA1 hA2 _ (layer_index_lt hap hl)
    obtain ⟨pb, hpb, hpb1⟩ := surjective_of_injective_below _ _ hB1 hB2 _ (layer_index_lt hbp hl)
    obtain ⟨qa, hqa, hqa1⟩ := surjective_of_injective_below _ _ hA1 hA2 _ (layer_index_lt haq hl)
    obtain ⟨qb, hqb, hqb1⟩ := surjective_of_injective_below _ _ hB1 hB2 _ (layer_index_lt hbq hl)
    have e1 : pa = pb := by
      have := canonical_copy hG hlen he hL hcolA hcolB hwsA hwsB houtA houtB hcm p hp l hl
        pa pb hpa hpb
      rw [hlabA, hlabB] at this
      exact this hpa1 hpb1
    have e2 : qa = qb := by
      have := canonical_copy hG hlen he hL hcolA hcolB hwsA hwsB houtA houtB hcm q hq l hl
        qa qb hqa hqb
      rw [hlabA, hlabB] at this
      exact this hqa1 hqb1
    subst e1; subst e2
    have harcA := canonical_arc hG he hL hcolA hwsA houtA pa qa hpa hqa
    have harcB := canonical_arc hG he hL hcolB hwsB houtB pa qa
      (by rw [← hlen]; exact hpa) (by rw [← hlen]; exact hqa)
    rw [← hlen, hlabB, ← hcm] at harcB
    rw [hlabA] at harcA
    have d1 : pa / A.length = l := by
      have := hlayA pa hpa
      rw [hpa1, layer_index_div hap] at this
      exact this.symm
    have d2 : qa / A.length = l := by
      have := hlayA qa hqa
      rw [hqa1, layer_index_div haq] at this
      exact this.symm
    rw [d1, d2, hpa1, hqa1, layer_index_mod hap, layer_index_mod haq] at harcA
    rw [d1, d2, hpb1, hqb1, layer_index_mod hbp, layer_index_mod hbq] at harcB
    exact harcA.symm.trans harcB
  have hmemA1 := lookupVertex_mem hap
  have hmemA2 := lookupVertex_mem haq
  have hmemB1 : lookupVertex B (labB.getD p 0) ∈ B := lookupVertex_mem (by rw [← hlen]; exact hbp)
  have hmemB2 : lookupVertex B (labB.getD q 0) ∈ B := lookupVertex_mem (by rw [← hlen]; exact hbq)
  by_cases hpq : p = q
  · subst hpq
    rw [hG.no_loop, hG.no_loop]
    exact ⟨rfl, fun h => absurd h (by simp)⟩
  · have hneA : labA.getD p 0 ≠ labA.getD q 0 := fun h => hpq (hA2 p q hpn hqn h)
    have hneB : labB.getD p 0 ≠ labB.getD q 0 := fun h => hpq (hB2 p q hpn hqn h)
    have harc' : ∀ l, l < L →
        ((G.hasEdge (lookupVertex A (labA.getD p 0)) (lookupVertex A (labA.getD q 0)) = true ∧
            (1 < L → l ∈ coloredLayers 8 (toInt8 (G.edgeColor (lookupVertex A (labA.getD p 0))
              (lookupVertex A (labA.getD q 0)) + 1)) 0)) ↔
          (G.hasEdge (lookupVertex B (labB.getD p 0)) (lookupVertex B (labB.getD q 0)) = true ∧
            (1 < L → l ∈ coloredLayers 8 (toInt8 (G.edgeColor (lookupVertex B (labB.getD p 0))
              (lookupVertex B (labB.getD q 0)) + 1)) 0))) := by
      intro l hl
      have h := harc l hl
      unfold layeredArc at h
      rw [or_iff_right (fun hh => hneA hh.1), or_iff_right (fun hh => hneB hh.1)] at h
      simp only [true_and] at h
      exact h
    by_cases h1 : 1 < L
    · have hedgeAB : G.hasEdge (lookupVertex A (labA.getD p 0)) (lookupVertex A (labA.getD q 0)) = true →
          G.hasEdge (lookupVertex B (labB.getD p 0)) (lookupVertex B (labB.getD q 0)) = true := by
        intro hedge
        obtain ⟨c0, clt, c127⟩ := hcolA _ hmemA1 _ hmemA2 hedge
        obtain ⟨l, hl⟩ := coloredLayers_nonempty c0 c127
        have hlL : l < L := by rw [hL]; exact coloredLayers_lt_layerCount c0 c127 clt hl
        exact ((harc' l hlL).mp ⟨hedge, fun _ => hl⟩).1
      have hedgeBA : G.hasEdge (lookupVertex B (labB.getD p 0)) (lookupVertex B (labB.getD q 0)) = true →
          G.hasEdge (lookupVertex A (labA.getD p 0)) (lookupVertex A (labA.getD q 0)) = true := by
        intro hedge
        obtain ⟨c0, clt, c127⟩ := hcolB _ hmemB1 _ hmemB2 hedge
        obtain ⟨l, hl⟩ := coloredLayers_nonempty c0 c127
        have hlL : l < L := by rw [hL]; exact coloredLayers_lt_layerCount c0 c127 clt hl
        exact ((harc' l hlL).mpr ⟨hedge, fun _ => hl⟩).1
      refine ⟨?_, ?_⟩
      · rw [Bool.eq_iff_iff]
        exact ⟨hedgeAB, hedgeBA⟩
      · intro hedge
        have hedgeB := hedgeAB hedge
        obtain ⟨c0, clt, c127⟩ := hcolA _ hmemA1 _ hmemA2 hedge
        obtain ⟨d0, dlt, d127⟩ := hcolB _ hmemB1 _ hmemB2 hedgeB
        apply color_eq_of_layers c0 c127 d0 d127
        intro l
        constructor
        · intro hl
          have hlL : l < L := by rw [hL]; exact coloredLayers_lt_layerCount c0 c127 clt hl
          exact ((harc' l hlL).mp ⟨hedge, fun _ => hl⟩).2 h1
        · intro hl
          have hlL : l < L := by rw [hL]; exact coloredLayers_lt_layerCount d0 d127 dlt hl
          exact ((harc' l hlL).mpr ⟨hedgeB, fun _ => hl⟩).2 h1
    · have hL1' : L = 1 := by omega
      have h0 := harc' 0 (by omega)
      have hiff : G.hasEdge (lookupVertex A (labA.getD p 0)) (lookupVertex A (labA.getD q 0)) = true ↔
          G.hasEdge (lookupVertex B (labB.getD p 0)) (lookupVertex B (labB.getD q 0)) = true := by
        constructor
        · intro hedge; exact (h0.mp ⟨hedge, fun h => absurd h h1⟩).1
        · intro hedge; exact (h0.mpr ⟨hedge, fun h => absurd h h1⟩).1
      refine ⟨by rw [Bool.eq_iff_iff]; exact hiff, ?_⟩
      intro hedge
      have hedgeB := hiff.mp hedge
      obtain ⟨c0, clt, _⟩ := hcolA _ hmemA1 _ hmemA2 hedge
      obtain ⟨d0, dlt, _⟩ := hcolB _ hmemB1 _ hmemB2 hedgeB
      have hlc : layerCount G.nedge_types = 1 := by rw [← hL]; exact hL1'
      rw [color_zero_of_one_layer hlc c0 clt, color_zero_of_one_layer hlc d0 dlt]

theorem lookupVertex_range_map (k : Nat) (f : Nat → Int) {iv : Nat} (h : iv < k) :
    lookupVertex ((List.range k).map f) iv = f iv := by
  unfold lookupVertex
  rw [List.getD_eq_getElem _ _ (by simpa using h), List.getElem_map, List.getElem_range]

/-- The condensed graph and the colour trail depend only on the edges and
edge colours between the vertices of the ordering. -/
theorem condense_congr (G : Graph) (vo vo' : List Int) (k : Nat) (cg : NyGraph)
    (h : ∀ iv1 iv2, iv1 < k → iv2 < k →
      G.hasEdge (lookupVertex vo iv1) (lookupVertex vo iv2) =
        G.hasEdge (lookupVertex vo' iv1) (lookupVertex vo' iv2) ∧
      (G.hasEdge (lookupVertex vo iv1) (lookupVertex vo iv2) = true →
        G.edgeColor (lookupVertex vo iv1) (lookupVertex vo iv2) =
          G.edgeColor (lookupVertex vo' iv1) (lookupVertex vo' iv2))) :
    condense G vo k cg = condense G vo' k cg := by
  unfold condense
  apply List.foldl_ext
  intro acc iv1 h1
  apply List.foldl_ext
  intro acc2 iv2 h2
  obtain ⟨e1, e2⟩ := h iv1 iv2 (List.mem_range.mp h1) (List.mem_range.mp h2)
  simp only []
  rw [← e1]
  by_cases hedge : G.hasEdge (lookupVertex vo iv1) (lookupVertex vo iv2) = true
  · rw [e2 hedge]
  · simp [hedge]

/-- With edge colours, the certificates of two subgraphs related by a
renumbering that keeps the arcs and the edge colours are the same. -/
theorem certificate_eq_edge {env : Env} {G : Graph} {A B : List Int} {π : Nat → Nat} {L : Nat}
    {ngA ngB : NyGraph} (hG : G.WellFormed) (hlen : A.length = B.length)
    (he : env.flags.EDGE_COLORED = true) (hL : L = layerCount G.nedge_types)
    (hcolA : ColorsInRange G A) (hcolB : ColorsInRange G B)
    (hwsA : EntryWorkspace env.flags L A.length ngA)
    (hwsB : EntryWorkspace env.flags L B.length ngB)
    (hπ : IndexIso env.flags G A B π)
    (hnauty : MeetsContractAt env (prepareNauty env.flags G A L ngA)
      (prepareNauty env.flags G B L ngB)) :
    subgraphCertificate env G A L ngA = subgraphCertificate env G B L ngB := by
  have hiso := isomorphicInputs_layered hG hlen he hL hcolA hcolB hwsA hwsB hπ
  have hcm := hnauty.2.2 hiso
  have hedges := canonical_edges hG hlen he hL hcolA hcolB hwsA hwsB hnauty.1 hnauty.2.1 hcm
  unfold subgraphCertificate buildCertificate
  simp only [he, if_true]
  rw [← hlen]
  have hc := condense_congr G
    ((List.range A.length).map (fun iv => lookupVertex A
      ((callNauty env (prepareNauty env.flags G A L ngA)).lab.getD iv 0)))
    ((List.range A.length).map (fun iv => lookupVertex B
      ((callNauty env (prepareNauty env.flags G B L ngB)).lab.getD iv 0)))
    A.length (NyGraph.new A.length false)
    (by
      intro iv1 iv2 h1 h2
      rw [lookupVertex_range_map _ _ h1, lookupVertex_range_map _ _ h2,
        lookupVertex_range_map _ _ h1, lookupVertex_range_map _ _ h2]
      exact hedges iv1 iv2 h1 h2)
  rw [hc]

/-- The `rem == 0` branch counts the subgraph under its certificate. -/
theorem emitSubgraph_certificates (env : Env) (G : Graph) (st : EnumState) (i : Nat) :
    (emitSubgraph env G st i).certificates =
      (match mapFind st.certificates
          (subgraphCertificate env G (levelSets env st.S i).flatten st.nvertex_layers
            st.nauty_graph) with
        | none => mapSet st.certificates
            (subgraphCertificate env G (levelSets env st.S i).flatten st.nvertex_layers
              st.nauty_graph) 1
        | some n => mapSet st.certificates
            (subgraphCertificate env G (levelSets env st.S i).flatten st.nvertex_layers
              st.nauty_graph) (n + 1)) := rfl

theorem NyGraph_new_entry (n : Nat) (b : Bool) (h1 : 1 ≤ n) (h64 : n ≤ 64) :
    (NyGraph.new n b).no_vertices = n ∧ (NyGraph.new n b).no_setwords = 1 ∧
    (NyGraph.new n b).colored = b ∧
    (NyGraph.new n b).matrix = EMPTYGRAPH 1 (NyGraph.new n b).no_vertices ∧
    (NyGraph.new n b).lab.length = (NyGraph.new n b).no_vertices ∧
    (NyGraph.new n b).ptn.length = (NyGraph.new n b).no_vertices ∧
    1 ≤ (NyGraph.new n b).no_vertices ∧ (NyGraph.new n b).no_vertices ≤ 64 := by
  have hs := (NyGraph_new_no_setwords n b).mpr ⟨h1, h64⟩
  refine ⟨rfl, hs, rfl, ?_, by simp [NyGraph.new], by simp [NyGraph.new], h1, h64⟩
  show EMPTYGRAPH (NyGraph.new n b).no_setwords n = EMPTYGRAPH 1 n
  rw [hs]

/-- The workspace `EnumerateSubgraphsFromNode` allocates is as the
`rem == 0` branch expects it, once the word-size assertion has passed. -/
theorem initialState_entryWorkspace (flags : Flags) (G : Graph) (k : Nat) (u : Int)
    (h1 : 1 ≤ nautyVertices flags G k) (h64 : nautyVertices flags G k ≤ 64) :
    EntryWorkspace flags (initialState flags G k u).nvertex_layers k
      (initialState flags G k u).nauty_graph := by
  obtain ⟨v, e, c, w⟩ := flags
  cases e <;> cases v
  · exact NyGraph_new_entry k false h1 h64
  · exact NyGraph_new_entry k true h1 h64
  · exact NyGraph_new_entry (layerCount G.nedge_types * k) true h1 h64
  · exact NyGraph_new_entry (layerCount G.nedge_types * k) true h1 h64

/-- The stand-in canonicalizer fits its input when no partition is given, or
when `lab` comes in holding the vertices in order. -/
theorem identityNauty_output (env : Env) (x : NyGraph) (hd : env.densenauty = identityNauty)
    (hc : x.colored = true → ∀ p, p < x.no_vertices → x.lab.getD p 0 = p) :
    CanonicalOutput x (callNauty env x) := by
  have hlab : (callNauty env x).lab = List.range x.no_vertices := by
    simp [callNauty, hd, identityNauty]
  have hcm : (callNauty env x).cmatrix = x.matrix := by
    simp [callNauty, hd, identityNauty]
  have hget : ∀ p, p < x.no_vertices → (List.range x.no_vertices).getD p 0 = p := by
    intro p hp
    rw [List.getD_eq_getElem _ _ (by simpa using hp), List.getElem_range]
  refine ⟨?_, ?_, ?_, ?_⟩
  · intro p hp
    rw [hlab, hget p hp]; exact hp
  · intro p q hp hq h
    rw [hlab, hget p hp, hget q hq] at h
    exact h
  · intro h p hp
    exact ⟨p, hp, by rw [hlab, hget p hp]; exact hc h p hp, rfl⟩
  · intro p q hp hq
    rw [hlab, hcm, hget p hp, hget q hq]

theorem coloredPath_Built : (graphOf false coloredPathOps).Built :=
  graphOf_Built false coloredPathOps (by decide!)

theorem coloredTriangles_Built : coloredTriangles.Built := by
  have h : ((Graph.new true false true 2).build coloredTrianglesOps).isSome = true := by decide!
  obtain ⟨G, hG⟩ := Option.isSome_iff_exists.mp h
  have : coloredTriangles = G := by simp [coloredTriangles, hG]
  rw [this]
  exact Built_of_build (Graph.Built.new true false true 2) coloredTrianglesOps hG

/-- C7. Assuming the canonicalizer meets its contract at the two calls (its
outputs fit their inputs, and isomorphic partitioned digraphs get the same
canonical matrix), in each of the three modes (no colours, vertex colours,
edge colours with colours in `0, ..., nedge_types - 1`) the `rem == 0` branch
of `EnumerateVertex` computes byte-identical certificates for any two
`k`-vertex induced subgraphs related by a colour-preserving isomorphism `φ`,
whatever the orders `A` and `B` in which `index_to_vertex` numbers their
vertices. -/
theorem isomorphic_subgraphs_same_certificate (env : Env) (G : Graph) (A B : List Int)
    (φ : Int → Int) (L : Nat) (ngA ngB : NyGraph)
    (hG : G.Built) (hA : A.Nodup) (hlen : A.length = B.length)
    (hL : env.flags.EDGE_COLORED = true → L = layerCount G.nedge_types)
    (hcolA : env.flags.EDGE_COLORED = true → ColorsInRange G A)
    (hcolB : env.flags.EDGE_COLORED = true → ColorsInRange G B)
    (hwsA : EntryWorkspace env.flags L A.length ngA)
    (hwsB : EntryWorkspace env.flags L B.length ngB)
    (hφ : ColorIso env.flags G A B φ)
    (hnauty : MeetsContractAt env (prepareNauty env.flags G A L ngA)
      (prepareNauty env.flags G B L ngB)) :
    subgraphCertificate env G A L ngA = subgraphCertificate env G B L ngB := by
  have hwf := WellFormed_of_Built hG
  have hπ := exists_indexIso hA hlen hφ
  by_cases he : env.flags.EDGE_COLORED = true
  · exact certificate_eq_edge hwf hlen he (hL he) (hcolA he) (hcolB he) hwsA hwsB hπ hnauty
  · have he' : env.flags.EDGE_COLORED = false := by simpa using he
    by_cases hv : env.flags.VERTEX_COLORED = true
    · exact certificate_eq_vertex hwf hlen he' hv hwsA hwsB hπ hnauty
    · have hv' : env.flags.VERTEX_COLORED = false := by simpa using hv
      exact certificate_eq_plain hwf hlen he' hv' hwsA hwsB hπ hnauty

/-- Three runs with the stand-in canonicalizer, which meets the contract at
the calls made.  Without colours, on the path 0-1-2-3: the induced paths
numbered `[0, 1, 2]` and `[3, 2, 1]`, related by `a ↦ 3 - a`, get the same
certificate.  With vertex colours 1, 2, 2, 1 on that path: the same two
paths, again related by `a ↦ 3 - a`, get the same certificate.  With edge
colours, on two directed 3-cycles coloured 0, 1, 0 and 1, 0, 0 along the
cycle: the cycles numbered `[0, 1, 2]` and `[5, 3, 4]` get the same
certificate. -/
theorem isomorphic_subgraphs_same_certificate_witness :
    ((graphOf false pathOps).Built ∧
      ColorIso (plainEnv false).flags (graphOf false pathOps) [0, 1, 2] [3, 2, 1]
        (fun a => 3 - a) ∧
      MeetsContractAt (plainEnv false)
        (prepareNauty (plainEnv false).flags (graphOf false pathOps) [0, 1, 2] 1
          (NyGraph.new 3 false))
        (prepareNauty (plainEnv false).flags (graphOf false pathOps) [3, 2, 1] 1
          (NyGraph.new 3 false)) ∧
      subgraphCertificate (plainEnv false) (graphOf false pathOps) [0, 1, 2] 1
          (NyGraph.new 3 false) =
        subgraphCertificate (plainEnv false) (graphOf false pathOps) [3, 2, 1] 1
          (NyGraph.new 3 false) ∧
      subgraphCertificate (plainEnv false) (graphOf false pathOps) [0, 1, 2] 1
          (NyGraph.new 3 false) = [64, 160, 64]) ∧
    ((graphOf false coloredPathOps).Built ∧
      ColorIso vertexColoredEnv.flags (graphOf false coloredPathOps) [0, 1, 2] [3, 2, 1]
        (fun a => 3 - a) ∧
      MeetsContractAt vertexColoredEnv
        (prepareNauty vertexColoredEnv.flags (graphOf false coloredPathOps) [0, 1, 2] 1
          (NyGraph.new 3 true))
        (prepareNauty vertexColoredEnv.flags (graphOf false coloredPathOps) [3, 2, 1] 1
          (NyGraph.new 3 true)) ∧
      subgraphCertificate vertexColoredEnv (graphOf false coloredPathOps) [0, 1, 2] 1
          (NyGraph.new 3 true) =
        subgraphCertificate vertexColoredEnv (graphOf false coloredPathOps) [3, 2, 1] 1
          (NyGraph.new 3 true) ∧
      subgraphCertificate vertexColoredEnv (graphOf false coloredPathOps) [0, 1, 2] 1
          (NyGraph.new 3 true) = [64, 160, 64, 0, 1, 0, 2, 0, 2]) ∧
    (coloredTriangles.Built ∧
      ColorsInRange coloredTriangles [0, 1, 2] ∧ ColorsInRange coloredTriangles [5, 3, 4] ∧
      ColorIso edgeColoredEnv.flags coloredTriangles [0, 1, 2] [5, 3, 4]
        (fun a => if a = 0 then 5 else a + 2) ∧
      MeetsContractAt edgeColoredEnv
        (prepareNauty edgeColoredEnv.flags coloredTriangles [0, 1, 2] 2 (NyGraph.new 6 true))
        (prepareNauty edgeColoredEnv.flags coloredTriangles [5, 3, 4] 2 (NyGraph.new 6 true)) ∧
      subgraphCertificate edgeColoredEnv coloredTriangles [0, 1, 2] 2 (NyGraph.new 6 true) =
        subgraphCertificate edgeColoredEnv coloredTriangles [5, 3, 4] 2 (NyGraph.new 6 true) ∧
      subgraphCertificate edgeColoredEnv coloredTriangles [0, 1, 2] 2 (NyGraph.new 6 true) =
        [64, 32, 128, 0, 1, 0]) :=
  ⟨⟨path_Built, by decide!,
    ⟨identityNauty_output _ _ rfl (fun h => absurd h (by decide!)),
     identityNauty_output _ _ rfl (fun h => absurd h (by decide!)), fun _ => by decide!⟩,
    isomorphic_subgraphs_same_certificate (plainEnv false) (graphOf false pathOps) [0, 1, 2]
      [3, 2, 1] (fun a => 3 - a) 1 (NyGraph.new 3 false) (NyGraph.new 3 false) path_Built
      (by decide) rfl (fun h => absurd h (by decide)) (fun h => absurd h (by decide))
      (fun h => absurd h (by decide)) (NyGraph_new_entry 3 false (by decide) (by decide))
      (NyGraph_new_entry 3 false (by decide) (by decide)) (by decide!)
      ⟨identityNauty_output _ _ rfl (fun h => absurd h (by decide!)),
       identityNauty_output _ _ rfl (fun h => absurd h (by decide!)), fun _ => by decide!⟩,
    by decide!⟩,
   ⟨coloredPath_Built, by decide!,
    ⟨identityNauty_output _ _ rfl (fun _ => by decide!),
     identityNauty_output _ _ rfl (fun _ => by decide!), fun _ => by decide!⟩,
    isomorphic_subgraphs_same_certificate vertexColoredEnv (graphOf false coloredPathOps)
      [0, 1, 2] [3, 2, 1] (fun a => 3 - a) 1 (NyGraph.new 3 true) (NyGraph.new 3 true)
      coloredPath_Built
      (by decide) rfl (fun h => absurd h (by decide)) (fun h => absurd h (by decide))
      (fun h => absurd h (by decide)) (NyGraph_new_entry 3 true (by decide) (by decide))
      (NyGraph_new_entry 3 true (by decide) (by decide)) (by decide!)
      ⟨identityNauty_output _ _ rfl (fun _ => by decide!),
       identityNauty_output _ _ rfl (fun _ => by decide!), fun _ => by decide!⟩,
    by decide!⟩,
   ⟨coloredTriangles_Built, by decide!, by decide!, by decide!,
    ⟨identityNauty_output _ _ rfl (fun _ => by decide!),
     identityNauty_output _ _ rfl (fun _ => by decide!), fun _ => by decide!⟩,
    isomorphic_subgraphs_same_certificate edgeColoredEnv coloredTriangles
      [0, 1, 2] [5, 3, 4] (fun a => if a = 0 then 5 else a + 2) 2 (NyGraph.new 6 true)
      (NyGraph.new 6 true) coloredTriangles_Built
      (by decide) rfl (fun _ => by decide!) (fun _ => by decide!)
      (fun _ => by decide!) (NyGraph_new_entry 6 true (by decide) (by decide))
      (NyGraph_new_entry 6 true (by decide) (by decide)) (by decide!)
      ⟨identityNauty_output _ _ rfl (fun _ => by decide!),
       identityNauty_output _ _ rfl (fun _ => by decide!), fun _ => by decide!⟩,
    by decide!⟩⟩

theorem vertexIds_nodup {G : Graph} (hwf : G.WellFormed) : G.vertexIds.Nodup :=
  (vertexIds_perm G).nodup_iff.mpr hwf.keys_nodup

theorem sum_map_indicator {α : Type} (l : List α) (p : α → Prop) [DecidablePred p] :
    (l.map (fun x => if p x then 1 else 0)).sum = (l.filter (fun x => decide (p x))).length := by
  induction l with
  | nil => rfl
  | cons a l ih =>
    by_cases h : p a
    · simp [h, ih, List.filter_cons]; omega
    · simp [h, ih, List.filter_cons]

/-- With community mode off and the word-size assertion passing, a connected
`k`-set is emitted once from each of its vertices of minimal enumeration
index, and from no other root. -/
theorem emissionCount_eq {env : Env} {G : Graph} {k : Nat} {H : Finset Int}
    (hG : G.Built) (hcb : env.flags.COMMUNITY_BASED = false)
    (h1 : 1 ≤ nautyVertices env.flags G k) (h2 : nautyVertices env.flags G k ≤ 64)
    (hH : H ⊆ G.vertexSet) (hcard : H.card = k) (hconn : G.InducedConnected H) (u : Int) :
    emissionCount env G k u H = if u ∈ minimalVertices G H then 1 else 0 := by
  unfold emissionCount
  by_cases hu : u ∈ minimalVertices G H
  · rw [if_pos hu]
    obtain ⟨huH, hmin⟩ := Finset.mem_filter.mp hu
    have huG : G.hasVertex u = true := (mem_vertexSet G u).mp (hH huH)
    have h := @EnumerateSubgraphsFromNode_rootState env G k u huG h1 h2
    rw [h]
    exact List.count_eq_one_of_mem (emitted_sets_nodup h)
      (connected_set_emitted hG hcb h hcard huH hconn hmin)
  · rw [if_neg hu]
    cases h : EnumerateSubgraphsFromNode env G k u with
    | none => rfl
    | some st =>
      simp only []
      rw [List.count_eq_zero]
      intro hmem
      obtain ⟨levels, hl, hlH⟩ := List.mem_map.mp hmem
      apply hu
      obtain ⟨_, _, hul, _⟩ := emitted_vertices hG h hl
      have hmemH : ∀ x, x ∈ H ↔ x ∈ levels.flatten := by
        intro x
        rw [← hlH, subgraphVertices, List.mem_toFinset]
      refine Finset.mem_filter.mpr ⟨(hmemH u).mpr hul, ?_⟩
      intro w hw
      exact emitted_enumeration_le h hl ((hmemH w).mp hw)

/-- C11 (amended). For every graph built by `AddVertex` and `AddEdge`
(enumeration indices unique or not), every `k` for which the word-size
assertion of `EnumerateSubgraphsFromNode` passes (the nauty graph has between
1 and 64 vertices) and every set `H` of `k` vertices of the graph whose
induced subgraph is connected, community mode off: a root emits `H` once if
it is a vertex of `H` of minimal enumeration index over `H`, and not at all
otherwise; so the number of roots that emit `H`, and the number of times `H`
is emitted in total, equal the number of vertices of `H` that attain the
minimum, and `H` is emitted more than once in total exactly when several
vertices attain it. -/
theorem emitted_once_per_minimal_root (env : Env) (G : Graph) (k : Nat) (H : Finset Int)
    (hG : G.Built) (hcb : env.flags.COMMUNITY_BASED = false)
    (h1 : 1 ≤ nautyVertices env.flags G k) (h2 : nautyVertices env.flags G k ≤ 64)
    (hH : H ⊆ G.vertexSet) (hcard : H.card = k) (hconn : G.InducedConnected H) :
    (∀ u, emissionCount env G k u H = if u ∈ minimalVertices G H then 1 else 0) ∧
    (G.vertexIds.filter (fun u => decide (0 < emissionCount env G k u H))).length =
      (minimalVertices G H).card ∧
    (G.vertexIds.map (fun u => emissionCount env G k u H)).sum = (minimalVertices G H).card ∧
    (1 < (G.vertexIds.map (fun u => emissionCount env G k u H)).sum ↔
      1 < (minimalVertices G H).card) := by
  have hwf := WellFormed_of_Built hG
  have hcount := emissionCount_eq hG hcb h1 h2 hH hcard hconn
  have hfilter : (G.vertexIds.filter (fun u => decide (u ∈ minimalVertices G H))).length =
      (minimalVertices G H).card := by
    rw [← List.toFinset_card_of_nodup ((vertexIds_nodup hwf).filter _)]
    congr 1
    ext u
    simp only [List.mem_toFinset, List.mem_filter, decide_eq_true_eq, mem_vertexIds]
    constructor
    · exact fun h => h.2
    · intro h
      exact ⟨(mem_vertexSet G u).mp (hH (Finset.mem_filter.mp h).1), h⟩
  have hsum : (G.vertexIds.map (fun u => emissionCount env G k u H)).sum =
      (minimalVertices G H).card := by
    rw [← hfilter, ← sum_map_indicator]
    congr 1
    apply List.map_congr_left
    intro u _
    exact hcount u
  refine ⟨hcount, ?_, hsum, by rw [hsum]⟩
  rw [← hfilter]
  congr 1
  apply List.filter_congr
  intro u _
  rw [hcount u]
  by_cases hu : u ∈ minimalVertices G H <;> simp [hu]

theorem tiedTriangle_Built : (graphOf false tiedTriangleOps).Built :=
  graphOf_Built false tiedTriangleOps (by decide!)

theorem tiedTriangle_connected :
    (graphOf false tiedTriangleOps).InducedConnected ({0, 1, 2} : Finset Int) := by
  intro a ha b hb
  by_cases hab : a = b
  · rw [hab]
  · apply Relation.ReflTransGen.single
    refine ⟨ha, hb, ?_⟩
    have : ∀ a ∈ ({0, 1, 2} : Finset Int), ∀ b ∈ ({0, 1, 2} : Finset Int), a ≠ b →
        ((graphOf false tiedTriangleOps).hasEdge a b = true ∨
          (graphOf false tiedTriangleOps).hasEdge b a = true) := by decide!
    exact this a ha b hb hab

/-- The undirected triangle with enumeration indices 0, 0, 1 and `k = 3`: the
vertices 0 and 1 attain the minimum, the roots 0 and 1 emit `{0, 1, 2}` once
each and root 2 does not emit it, so the set is emitted twice in total. -/
theorem emitted_once_per_minimal_root_witness :
    (graphOf false tiedTriangleOps).Built ∧
    ({0, 1, 2} : Finset Int) ⊆ (graphOf false tiedTriangleOps).vertexSet ∧
    (graphOf false tiedTriangleOps).InducedConnected ({0, 1, 2} : Finset Int) ∧
    minimalVertices (graphOf false tiedTriangleOps) {0, 1, 2} = {0, 1} ∧
    emissionCount (plainEnv false) (graphOf false tiedTriangleOps) 3 0 {0, 1, 2} = 1 ∧
    emissionCount (plainEnv false) (graphOf false tiedTriangleOps) 3 1 {0, 1, 2} = 1 ∧
    emissionCount (plainEnv false) (graphOf false tiedTriangleOps) 3 2 {0, 1, 2} = 0 ∧
    ((∀ u, emissionCount (plainEnv false) (graphOf false tiedTriangleOps) 3 u {0, 1, 2} =
        if u ∈ minimalVertices (graphOf false tiedTriangleOps) {0, 1, 2} then 1 else 0) ∧
      ((graphOf false tiedTriangleOps).vertexIds.filter (fun u => decide
        (0 < emissionCount (plainEnv false) (graphOf false tiedTriangleOps) 3 u {0, 1, 2}))).length =
        (minimalVertices (graphOf false tiedTriangleOps) {0, 1, 2}).card ∧
      ((graphOf false tiedTriangleOps).vertexIds.map (fun u =>
        emissionCount (plainEnv false) (graphOf false tiedTriangleOps) 3 u {0, 1, 2})).sum =
        (minimalVertices (graphOf false tiedTriangleOps) {0, 1, 2}).card ∧
      (1 < ((graphOf false tiedTriangleOps).vertexIds.map (fun u =>
        emissionCount (plainEnv false) (graphOf false tiedTriangleOps) 3 u {0, 1, 2})).sum ↔
        1 < (minimalVertices (graphOf false tiedTriangleOps) {0, 1, 2}).card)) :=
  ⟨tiedTriangle_Built, by decide!, tiedTriangle_connected, by decide!, by decide!, by decide!,
   by decide!,
   emitted_once_per_minimal_root (plainEnv false) (graphOf false tiedTriangleOps) 3 {0, 1, 2}
     tiedTriangle_Built rfl (by decide!) (by decide!) (by decide!) (by decide!)
     tiedTriangle_connected⟩

/-- C11 fails as stated for `k = 65`: in the star with centre 0 and 64 leaves
(community mode off) the set of all 65 vertices is connected and its vertex 0
has the minimal enumeration index, yet no root emits the set, because
`EnumerateSubgraphsFromNode(G, 65, u)` aborts on its word-size assertion for
every root `u`. -/
theorem minimal_root_emits_nothing_when_aborted :
    (graphOf false (starOps 64)).Built ∧
    (plainEnv false).flags.COMMUNITY_BASED = false ∧
    starVertices 64 ⊆ (graphOf false (starOps 64)).vertexSet ∧
    (starVertices 64).card = 65 ∧
    (graphOf false (starOps 64)).InducedConnected (starVertices 64) ∧
    (0 : Int) ∈ minimalVertices (graphOf false (starOps 64)) (starVertices 64) ∧
    (∀ u, emissionCount (plainEnv false) (graphOf false (starOps 64)) 65 u (starVertices 64) = 0) :=
  ⟨star_Built, rfl, by decide!, by decide!, star_connected,
   Finset.mem_filter.mpr ⟨by decide!, by decide!⟩,
   fun u => by
     have h : EnumerateSubgraphsFromNode (plainEnv false) (graphOf false (starOps 64)) 65 u =
         none :=
       (EnumerateSubgraphsFromNode_eq_none_iff _ _ _ _).mpr (fun hc => absurd hc.2.2 (by decide!))
     unfold emissionCount
     rw [h]⟩

theorem filterMap_every_eighth {β : Type} (g : Nat → β) (n : Nat) :
    (List.range (n * 8)).filterMap (fun iv => if iv % 8 ≠ 7 then none else some (g iv)) =
      (List.range n).map (fun r => g (r * 8 + 7)) := by
  induction n with
  | zero => rfl
  | succ n ih =>
    have h8 : List.range 8 = [0, 1, 2, 3, 4, 5, 6, 7] := by decide
    have hn : List.range (n + 1) = List.range n ++ [n] := List.range_succ n
    rw [Nat.succ_mul, List.range_add, List.filterMap_append, ih, hn, List.map_append, h8]
    congr 1
    simp [Nat.add_mod]

theorem setwordBytes_length (w : Nat) : (setwordBytes w).length = 8 := by
  simp [setwordBytes]

theorem getD_flatMap_setwordBytes (matrix : List Nat) :
    ∀ r j, j < 8 →
      (matrix.flatMap setwordBytes).getD (r * 8 + j) 0 =
        (setwordBytes (matrix.getD r 0)).getD j 0 := by
  induction matrix with
  | nil =>
    intro r j hj
    have h8 : List.range 8 = [0, 1, 2, 3, 4, 5, 6, 7] := by decide
    simp only [List.flatMap_nil, List.getD_nil, setwordBytes, h8]
    interval_cases j <;> simp
  | cons w matrix ih =>
    intro r j hj
    rw [List.flatMap_cons]
    cases r with
    | zero =>
      rw [Nat.zero_mul, Nat.zero_add, List.getD_append _ _ _ _ (by rw [setwordBytes_length]; exact hj)]
      simp
    | succ r =>
      rw [List.getD_append_right _ _ _ _ (by rw [setwordBytes_length]; omega), setwordBytes_length]
      have e : (r + 1) * 8 + j - 8 = r * 8 + j := by omega
      rw [e, ih r j hj]
      simp

/-- The loop over the bytes of a matrix of `n` rows keeps byte 7 of each row
word. -/
theorem keptBytes_eq (matrix : List Nat) (n : Nat) :
    keptBytes matrix (n * 8) = (List.range n).map (fun r => lastByte (matrix.getD r 0)) := by
  unfold keptBytes
  simp only []
  rw [filterMap_every_eighth]
  apply List.map_congr_left
  intro r hr
  have hr' := List.mem_range.mp hr
  rw [List.getD_eq_getElem?_getD, List.getElem?_take_of_lt (by omega),
    ← List.getD_eq_getElem?_getD, getD_flatMap_setwordBytes _ r 7 (by decide)]
  rfl

theorem keptBytes_length (matrix : List Nat) (n : Nat) : (keptBytes matrix (n * 8)).length = n := by
  rw [keptBytes_eq]; simp

theorem lastByte_eq (w : Nat) : lastByte w = w / 2 ^ 56 % 256 := by
  have h8 : List.range 8 = [0, 1, 2, 3, 4, 5, 6, 7] := by decide
  simp [lastByte, setwordBytes, h8]

/-- Bit `7 - j` of the kept byte is column `j` of the row, for `j < 8`. -/
theorem testBit_lastByte (w j : Nat) (hj : j < 8) :
    Nat.testBit (lastByte w) (7 - j) = Nat.testBit w (63 - j) := by
  rw [lastByte_eq]
  have h256 : (256 : Nat) = 2 ^ 8 := by decide
  rw [h256, Nat.testBit_mod_two_pow, ← Nat.shiftRight_eq_div_pow, Nat.testBit_shiftRight]
  have e : 56 + (7 - j) = 63 - j := by omega
  rw [e]
  simp
  omega

/-- C18. For every `k ≤ 8`, keeping only byte 7 of each 8-byte row word loses
nothing: bit `7 - j` of the byte kept for row `r` is entry `(r, j)` of the
matrix for `j < 8`, and two `k`-by-`k` adjacency matrices with the same kept
bytes are the same. -/
theorem kept_bytes_lossless (k : Nat) (M : List Nat) (hk : k ≤ 8) :
    (∀ r j, r < k → j < 8 →
      Nat.testBit ((keptBytes M (k * 8)).getD r 0) (7 - j) = matrixBit M r j) ∧
    (∀ M', IsAdjacencyMatrix k M → IsAdjacencyMatrix k M' →
      keptBytes M (k * 8) = keptBytes M' (k * 8) → M = M') := by
  have hbyte : ∀ (N : List Nat) r, r < k →
      (keptBytes N (k * 8)).getD r 0 = lastByte (N.getD r 0) := by
    intro N r hr
    rw [keptBytes_eq, List.getD_eq_getElem _ _ (by simpa using hr), List.getElem_map,
      List.getElem_range]
  constructor
  · intro r j hr hj
    rw [hbyte M r hr, testBit_lastByte _ _ hj, matrixBit_eq _ _ _ (by omega)]
  · intro M' hM hM' hkept
    apply List.ext_getElem (hM.1.trans hM'.1.symm)
    intro r h1 h2
    have hr : r < k := by rw [← hM.1]; exact h1
    obtain ⟨hw, hcol⟩ := hM.2 _ (List.getElem_mem h1)
    obtain ⟨hw', hcol'⟩ := hM'.2 _ (List.getElem_mem h2)
    have hb : lastByte M[r] = lastByte M'[r] := by
      have := congrArg (fun l => l.getD r 0) hkept
      simp only [hbyte M r hr, hbyte M' r hr, List.getD_eq_getElem _ _ h1,
        List.getD_eq_getElem _ _ h2] at this
      exact this
    apply Nat.eq_of_testBit_eq
    intro i
    by_cases hi : i < 64
    · obtain ⟨j, rfl⟩ : ∃ j, i = 63 - j := ⟨63 - i, by omega⟩
      by_cases hjk : k ≤ 63 - (63 - j)
      · have e : 63 - (63 - (63 - j)) = 63 - j := by omega
        have a1 := hcol (63 - (63 - j)) (by omega) hjk
        have a2 := hcol' (63 - (63 - j)) (by omega) hjk
        rw [e] at a1 a2
        rw [a1, a2]
      · have hj8 : 63 - (63 - j) < 8 := by omega
        have e : 63 - (63 - (63 - j)) = 63 - j := by omega
        have a1 := testBit_lastByte M[r] _ hj8
        have a2 := testBit_lastByte M'[r] _ hj8
        rw [e] at a1 a2
        rw [← a1, ← a2, hb]
    · have hpow : 2 ^ 64 ≤ 2 ^ i := Nat.pow_le_pow_right (by decide) (by omega)
      rw [Nat.testBit_lt_two_pow (by omega), Nat.testBit_lt_two_pow (by omega)]

/-- The matrix of the path 0-1-2 (`k = 3`): the kept bytes are 0x40, 0xa0,
0x40, they hold the entries of the matrix, and no other 3-by-3 adjacency
matrix has these kept bytes. -/
theorem kept_bytes_lossless_witness :
    3 ≤ 8 ∧ IsAdjacencyMatrix 3 [2 ^ 62, 2 ^ 63 + 2 ^ 61, 2 ^ 62] ∧
    keptBytes [2 ^ 62, 2 ^ 63 + 2 ^ 61, 2 ^ 62] (3 * 8) = [64, 160, 64] ∧
    ((∀ r j, r < 3 → j < 8 →
        Nat.testBit ((keptBytes [2 ^ 62, 2 ^ 63 + 2 ^ 61, 2 ^ 62] (3 * 8)).getD r 0) (7 - j) =
          matrixBit [2 ^ 62, 2 ^ 63 + 2 ^ 61, 2 ^ 62] r j) ∧
      (∀ M', IsAdjacencyMatrix 3 [2 ^ 62, 2 ^ 63 + 2 ^ 61, 2 ^ 62] → IsAdjacencyMatrix 3 M' →
        keptBytes [2 ^ 62, 2 ^ 63 + 2 ^ 61, 2 ^ 62] (3 * 8) = keptBytes M' (3 * 8) →
        [2 ^ 62, 2 ^ 63 + 2 ^ 61, 2 ^ 62] = M')) :=
  ⟨by decide, by decide!, by decide!,
   kept_bytes_lossless 3 [2 ^ 62, 2 ^ 63 + 2 ^ 61, 2 ^ 62] (by decide)⟩

/-- The certificate is its base part followed by its colour appendix. -/
theorem buildCertificate_eq (flags : Flags) (G : Graph) (itv : List Int) (k : Nat)
    (ng : NyGraph) :
    buildCertificate flags G itv k ng =
      certificateBase flags G itv k ng ++ colorAppendix flags G itv k ng := by
  unfold buildCertificate certificateBase colorAppendix vertexOrdering
  by_cases he : flags.EDGE_COLORED = true
  · simp only [he, if_true]
  · have he' : flags.EDGE_COLORED = false := by simpa using he
    by_cases hv : flags.VERTEX_COLORED = true
    · simp only [he', hv, Bool.false_eq_true, if_true, if_false]
    · have hv' : flags.VERTEX_COLORED = false := by simpa using hv
      simp only [he', hv', Bool.false_eq_true, if_false, List.append_nil]

theorem callNauty_fields (env : Env) (ng : NyGraph) :
    (callNauty env ng).no_vertices = ng.no_vertices ∧
    (callNauty env ng).no_setwords = ng.no_setwords ∧
    (callNauty env ng).colored = ng.colored ∧
    (callNauty env ng).matrix = ng.matrix := by
  simp [callNauty]

theorem NyGraph_new_fields (n : Nat) (b : Bool) :
    (NyGraph.new n b).no_vertices = n ∧
    (NyGraph.new n b).no_setwords = (n + WORDSIZE - 1) / WORDSIZE ∧
    (NyGraph.new n b).matrix = EMPTYGRAPH ((n + WORDSIZE - 1) / WORDSIZE) n := by
  simp [NyGraph.new]

/-- Without edge colours the base part is byte 7 of each row word of the
canonical matrix. -/
theorem certificateBase_plain (flags : Flags) (G : Graph) (itv : List Int) (k : Nat)
    (ng : NyGraph) (he : flags.EDGE_COLORED = false) (hm : ng.no_setwords = 1) :
    certificateBase flags G itv k ng =
      (List.range ng.no_vertices).map (fun r => lastByte (ng.cmatrix.getD r 0)) := by
  unfold certificateBase
  simp only [he, Bool.false_eq_true, if_false, hm, Nat.mul_one]
  exact keptBytes_eq _ _

/-- With edge colours the base part is byte 7 of each row word of the
condensed matrix on `k` vertices. -/
theorem certificateBase_edge (flags : Flags) (G : Graph) (itv : List Int) (k : Nat)
    (ng : NyGraph) (he : flags.EDGE_COLORED = true) (h1 : 1 ≤ k) (h64 : k ≤ 64) :
    certificateBase flags G itv k ng =
      (List.range k).map (fun r => lastByte
        ((condense G (vertexOrdering itv k ng) k (NyGraph.new k false)).2.getD r 0)) := by
  unfold certificateBase
  have hs := (NyGraph_new_no_setwords k false).mpr ⟨h1, h64⟩
  simp only [he, if_true, hs, Nat.mul_one, (NyGraph_new_fields k false).1]
  exact keptBytes_eq _ _

theorem condense_inner (G : Graph) (vo : List Int) (m iv1 : Nat) (l : List Nat) :
    ∀ acc : List Int × List Nat,
      l.foldl
        (fun (acc : List Int × List Nat) iv2 =>
          if (!G.hasEdge (lookupVertex vo iv1) (lookupVertex vo iv2)) = true then acc
          else (acc.1 ++ [G.edgeColor (lookupVertex vo iv1) (lookupVertex vo iv2)],
                ADDELEMENT acc.2 m iv1 iv2)) acc =
      (acc.1 ++ l.filterMap (fun iv2 =>
          if G.hasEdge (lookupVertex vo iv1) (lookupVertex vo iv2) = true then
            some (G.edgeColor (lookupVertex vo iv1) (lookupVertex vo iv2))
          else none),
       l.foldl (fun M iv2 =>
          if G.hasEdge (lookupVertex vo iv1) (lookupVertex vo iv2) = true then
            ADDELEMENT M m iv1 iv2
          else M) acc.2) := by
  induction l with
  | nil => intro acc; simp
  | cons iv2 l ih =>
    intro acc
    simp only [List.foldl_cons]
    rw [ih]
    by_cases h : G.hasEdge (lookupVertex vo iv1) (lookupVertex vo iv2) = true
    · simp [h, List.filterMap_cons]
    · simp [h, List.filterMap_cons]

theorem condense_outer (G : Graph) (vo : List Int) (m k : Nat) (l : List Nat) :
    ∀ acc : List Int × List Nat,
      l.foldl
        (fun (acc : List Int × List Nat) iv1 =>
          (List.range k).foldl
            (fun (acc : List Int × List Nat) iv2 =>
              if (!G.hasEdge (lookupVertex vo iv1) (lookupVertex vo iv2)) = true then acc
              else (acc.1 ++ [G.edgeColor (lookupVertex vo iv1) (lookupVertex vo iv2)],
                    ADDELEMENT acc.2 m iv1 iv2)) acc) acc =
      (acc.1 ++ l.flatMap (fun iv1 => (List.range k).filterMap (fun iv2 =>
          if G.hasEdge (lookupVertex vo iv1) (lookupVertex vo iv2) = true then
            some (G.edgeColor (lookupVertex vo iv1) (lookupVertex vo iv2))
          else none)),
       l.foldl (fun M iv1 => (List.range k).foldl (fun M iv2 =>
          if G.hasEdge (lookupVertex vo iv1) (lookupVertex vo iv2) = true then
            ADDELEMENT M m iv1 iv2
          else M) M) acc.2) := by
  induction l with
  | nil => intro acc; simp
  | cons iv1 l ih =>
    intro acc
    simp only [List.foldl_cons, List.flatMap_cons]
    rw [condense_inner, ih]
    simp only [List.append_assoc]

/-- The two results of the walk over the ordered pairs: the colour trail and
the condensed matrix, each by its own loop. -/
theorem condense_eq (G : Graph) (vo : List Int) (k : Nat) (cg : NyGraph) :
    condense G vo k cg =
      ((List.range k).flatMap (fun iv1 => (List.range k).filterMap (fun iv2 =>
          if G.hasEdge (lookupVertex vo iv1) (lookupVertex vo iv2) = true then
            some (G.edgeColor (lookupVertex vo iv1) (lookupVertex vo iv2))
          else none)),
       (List.range k).foldl (fun M iv1 => (List.range k).foldl (fun M iv2 =>
          if G.hasEdge (lookupVertex vo iv1) (lookupVertex vo iv2) = true then
            ADDELEMENT M cg.no_setwords iv1 iv2
          else M) M) cg.matrix) := by
  unfold condense
  simp only []
  rw [condense_outer]
  simp

/-- The condensed matrix has the arc `(x, y)` exactly when the edge index
holds the pair of the vertices at the canonical positions `x` and `y`. -/
theorem condense_bits (G : Graph) (vo : List Int) (k : Nat) (h1 : 1 ≤ k) (h64 : k ≤ 64)
    (x y : Nat) (hy : y < 64) :
    matrixBit (condense G vo k (NyGraph.new k false)).2 x y = true ↔
      x < k ∧ y < k ∧ G.hasEdge (lookupVertex vo x) (lookupVertex vo y) = true := by
  rw [condense_eq]
  simp only []
  have hs := (NyGraph_new_no_setwords k false).mpr ⟨h1, h64⟩
  have hmat : (NyGraph.new k false).matrix = EMPTYGRAPH 1 k := by
    rw [(NyGraph_new_fields k false).2.2]
    have := (NyGraph_new_fields k false).2.1
    rw [hs] at this
    rw [← this]
  rw [hs, hmat]
  have hlen : (EMPTYGRAPH 1 k).length = k := by simp [EMPTYGRAPH]
  have h := BitsAdded_foldl_range
    (fun M iv1 => (List.range k).foldl (fun M iv2 =>
      if G.hasEdge (lookupVertex vo iv1) (lookupVertex vo iv2) = true then
        ADDELEMENT M 1 iv1 iv2
      else M) M)
    (fun iv1 x y => ∃ iv2, iv2 < k ∧
      (G.hasEdge (lookupVertex vo iv1) (lookupVertex vo iv2) = true ∧ x = iv1 ∧ y = iv2))
    k k
    (by
      intro iv1 hiv1 M hM
      apply BitsAdded_foldl_range _ _ k k _ _ hM
      intro iv2 hiv2 M2 hM2
      by_cases hedge : G.hasEdge (lookupVertex vo iv1) (lookupVertex vo iv2) = true
      · simp only [if_pos hedge]
        exact BitsAdded_congr (BitsAdded_ADDELEMENT M2 iv1 iv2 (by omega) (by omega))
          (fun x y => by simp [hedge])
      · simp only [if_neg hedge]
        exact BitsAdded_congr (BitsAdded_refl M2) (fun x y => by simp [hedge]))
    (EMPTYGRAPH 1 k) hlen
  rw [h.2 x y hy, matrixBit_EMPTYGRAPH]
  simp only [Bool.false_eq_true, false_or]
  constructor
  · rintro ⟨iv1, h1', iv2, h2', hedge, rfl, rfl⟩
    exact ⟨h1', h2', hedge⟩
  · rintro ⟨hx, hy', hedge⟩
    exact ⟨x, hx, y, hy', hedge, rfl, rfl⟩

theorem length_filterMap_ite {α β : Type} (p : α → Bool) (v : α → β) (l : List α) :
    (l.filterMap (fun x => if p x = true then some (v x) else none)).length =
      (l.filter p).length := by
  induction l with
  | nil => rfl
  | cons x l ih =>
    by_cases h : p x = true
    · simp [List.filterMap_cons, List.filter_cons, h, ih]
    · simp [List.filterMap_cons, List.filter_cons, h, ih]

theorem length_flatMap_congr {α β γ : Type} (l : List α) (f : α → List β) (g : α → List γ)
    (h : ∀ x ∈ l, (f x).length = (g x).length) :
    (l.flatMap f).length = (l.flatMap g).length := by
  induction l with
  | nil => rfl
  | cons a l ih =>
    simp only [List.flatMap_cons, List.length_append]
    rw [h a (List.mem_cons_self _ _), ih (fun x hx => h x (List.mem_cons_of_mem _ hx))]

theorem lookupVertex_vertexOrdering (itv : List Int) (k : Nat) (ng : NyGraph) {i : Nat}
    (hi : i < k) :
    lookupVertex (vertexOrdering itv k ng) i = lookupVertex itv (ng.lab.getD i 0) :=
  lookupVertex_range_map k _ hi

/-- The colour appendix in edge-coloured mode: the colour bytes of the pairs
of the edge index, in row-major order of the canonical positions. -/
theorem colorAppendix_edge (flags : Flags) (G : Graph) (itv : List Int) (k : Nat)
    (ng : NyGraph) (he : flags.EDGE_COLORED = true) :
    colorAppendix flags G itv k ng =
      (List.range k).flatMap (fun i => (List.range k).filterMap (fun j =>
        if G.hasEdge (lookupVertex itv (ng.lab.getD i 0))
            (lookupVertex itv (ng.lab.getD j 0)) = true then
          some (toByte (G.edgeColor (lookupVertex itv (ng.lab.getD i 0))
            (lookupVertex itv (ng.lab.getD j 0))))
        else none)) := by
  unfold colorAppendix
  simp only [he, if_true]
  rw [condense_eq]
  simp only []
  rw [List.map_flatMap]
  apply flatMap_congr_mem
  intro i hi
  rw [List.map_filterMap]
  apply List.filterMap_congr
  intro j hj
  rw [lookupVertex_vertexOrdering itv k ng (List.mem_range.mp hi),
    lookupVertex_vertexOrdering itv k ng (List.mem_range.mp hj)]
  by_cases h : G.hasEdge (lookupVertex itv (ng.lab.getD i 0))
      (lookupVertex itv (ng.lab.getD j 0)) = true
  · simp [h]
  · simp [h]

/-- C20. In edge-coloured mode, with `v_i = index_to_vertex[lab[i]]` the
subgraph vertices in canonical order, the colour appendix of the certificate
is the sequence of the raw colour bytes of the pairs `(v_i, v_j)` present in
the edge index of `G`, in row-major order (`i` outer, `j` inner); its length
is the number of set entries of the condensed `k`-by-`k` matrix, and in an
undirected graph every such pair is present in both orders. -/
theorem edge_color_appendix (flags : Flags) (G : Graph) (itv : List Int) (k : Nat)
    (ng : NyGraph) (hG : G.Built) (he : flags.EDGE_COLORED = true)
    (h1 : 1 ≤ k) (h64 : k ≤ 64) :
    buildCertificate flags G itv k ng =
      certificateBase flags G itv k ng ++ colorAppendix flags G itv k ng ∧
    colorAppendix flags G itv k ng =
      (List.range k).flatMap (fun i => (List.range k).filterMap (fun j =>
        if G.hasEdge (lookupVertex itv (ng.lab.getD i 0))
            (lookupVertex itv (ng.lab.getD j 0)) = true then
          some (toByte (G.edgeColor (lookupVertex itv (ng.lab.getD i 0))
            (lookupVertex itv (ng.lab.getD j 0))))
        else none)) ∧
    (colorAppendix flags G itv k ng).length =
      setBitCount (condense G (vertexOrdering itv k ng) k (NyGraph.new k false)).2 k ∧
    (G.directed = false → ∀ i j,
      G.hasEdge (lookupVertex itv (ng.lab.getD i 0)) (lookupVertex itv (ng.lab.getD j 0)) = true →
      G.hasEdge (lookupVertex itv (ng.lab.getD j 0)) (lookupVertex itv (ng.lab.getD i 0)) = true) := by
  refine ⟨buildCertificate_eq _ _ _ _ _, colorAppendix_edge flags G itv k ng he, ?_, ?_⟩
  · rw [colorAppendix_edge flags G itv k ng he]
    unfold setBitCount
    apply length_flatMap_congr
    intro i hi
    rw [length_filterMap_ite]
    congr 1
    apply List.filter_congr
    intro j hj
    have hj' := List.mem_range.mp hj
    have hb := condense_bits G (vertexOrdering itv k ng) k h1 h64 i j (by omega)
    rw [lookupVertex_vertexOrdering itv k ng (List.mem_range.mp hi),
      lookupVertex_vertexOrdering itv k ng hj'] at hb
    rw [Bool.eq_iff_iff, hb]
    simp [List.mem_range.mp hi, hj']
  · intro hd i j h
    exact (WellFormed_of_Built hG).undirected_symm hd _ _ h

theorem edgePath_Built : edgePath.Built := by
  have h : ((Graph.new false false true 2).build edgePathOps).isSome = true := by decide!
  obtain ⟨G, hG⟩ := Option.isSome_iff_exists.mp h
  have : edgePath = G := by simp [edgePath, hG]
  rw [this]
  exact Built_of_build (Graph.Built.new false false true 2) edgePathOps hG

/-- The undirected path 0-1-2 with edge colours 0 and 1, numbered `[0, 1, 2]`
(`k = 3`, two layers), with the stand-in canonicalizer: the appendix is
00 00 01 01, each edge giving two entries, and the condensed matrix has four
entries set. -/
theorem edge_color_appendix_witness :
    edgePath.Built ∧ edgeColoredEnv.flags.EDGE_COLORED = true ∧
    colorAppendix edgeColoredEnv.flags edgePath [0, 1, 2] 3
      edgePathOutput =
      [0, 0, 1, 1] ∧
    setBitCount (condense edgePath (vertexOrdering [0, 1, 2] 3
      edgePathOutput) 3
      (NyGraph.new 3 false)).2 3 = 4 ∧
    (buildCertificate edgeColoredEnv.flags edgePath [0, 1, 2] 3
        edgePathOutput =
      certificateBase edgeColoredEnv.flags edgePath [0, 1, 2] 3
          edgePathOutput ++
        colorAppendix edgeColoredEnv.flags edgePath [0, 1, 2] 3
          edgePathOutput ∧
      colorAppendix edgeColoredEnv.flags edgePath [0, 1, 2] 3
          edgePathOutput =
        (List.range 3).flatMap (fun i => (List.range 3).filterMap (fun j =>
          if edgePath.hasEdge
              (lookupVertex [0, 1, 2] (edgePathOutput.lab.getD i 0))
              (lookupVertex [0, 1, 2] (edgePathOutput.lab.getD j 0)) =
              true then
            some (toByte (edgePath.edgeColor
              (lookupVertex [0, 1, 2] (edgePathOutput.lab.getD i 0))
              (lookupVertex [0, 1, 2] (edgePathOutput.lab.getD j 0))))
          else none)) ∧
      (colorAppendix edgeColoredEnv.flags edgePath [0, 1, 2] 3
          edgePathOutput).length =
        setBitCount (condense edgePath (vertexOrdering [0, 1, 2] 3
          edgePathOutput) 3
          (NyGraph.new 3 false)).2 3 ∧
      (edgePath.directed = false → ∀ i j,
        edgePath.hasEdge
          (lookupVertex [0, 1, 2] (edgePathOutput.lab.getD i 0))
          (lookupVertex [0, 1, 2] (edgePathOutput.lab.getD j 0)) = true →
        edgePath.hasEdge
          (lookupVertex [0, 1, 2] (edgePathOutput.lab.getD j 0))
          (lookupVertex [0, 1, 2] (edgePathOutput.lab.getD i 0)) =
          true)) :=
  ⟨edgePath_Built, rfl, by decide!, by decide!,
   edge_color_appendix edgeColoredEnv.flags edgePath [0, 1, 2] 3
     edgePathOutput
     edgePath_Built rfl (by decide) (by decide)⟩

theorem colorBytes_eq (c : Int) : colorBytes c = [toByte (c / 256), toByte c] := by
  have h2 : List.range 2 = [0, 1] := by decide
  unfold colorBytes
  rw [h2]
  simp only [List.map_cons, List.map_nil]
  have e1 : c * 2 ^ (8 * 0) / 2 ^ 8 = c / 256 := by norm_num
  have e2 : c * 2 ^ (8 * 1) / 2 ^ 8 = c := by
    norm_num
  rw [e1, e2]

theorem toByte_cast (x : Int) : ((toByte x : Nat) : Int) = x % 256 := by
  unfold toByte
  exact Int.toNat_of_nonneg (Int.emod_nonneg _ (by decide))

/-- A 16-bit signed colour is recovered from its two bytes. -/
theorem decodeColor_colorBytes (c : Int) (h1 : -32768 ≤ c) (h2 : c ≤ 32767) :
    decodeColor (toByte (c / 256)) (toByte c) = c := by
  unfold decodeColor
  rw [toByte_cast, toByte_cast]
  omega

theorem colorBytes_injective {c d : Int} (hc1 : -32768 ≤ c) (hc2 : c ≤ 32767)
    (hd1 : -32768 ≤ d) (hd2 : d ≤ 32767) (h : colorBytes c = colorBytes d) : c = d := by
  rw [colorBytes_eq, colorBytes_eq] at h
  simp only [List.cons.injEq, and_true] at h
  rw [← decodeColor_colorBytes c hc1 hc2, ← decodeColor_colorBytes d hd1 hd2, h.1, h.2]

theorem getD_flatMap_pairs {α : Type} (f : α → List Nat) (hf : ∀ x, (f x).length = 2)
    (l : List α) : ∀ i (hi : i < l.length) j, j < 2 →
      (l.flatMap f).getD (2 * i + j) 0 = (f (l.get ⟨i, hi⟩)).getD j 0 := by
  induction l with
  | nil => intro i hi; simp at hi
  | cons a l ih =>
    intro i hi j hj
    rw [List.flatMap_cons]
    cases i with
    | zero =>
      rw [Nat.mul_zero, Nat.zero_add, List.getD_append _ _ _ _ (by rw [hf]; exact hj)]
      rfl
    | succ i =>
      rw [List.getD_append_right _ _ _ _ (by rw [hf]; omega), hf]
      have e : 2 * (i + 1) + j - 2 = 2 * i + j := by omega
      rw [e, ih i (by simpa using hi) j hj]
      rfl

theorem length_flatMap_pairs {α : Type} (f : α → List Nat) (hf : ∀ x, (f x).length = 2)
    (l : List α) : (l.flatMap f).length = 2 * l.length := by
  induction l with
  | nil => rfl
  | cons a l ih =>
    rw [List.flatMap_cons, List.length_append, hf, ih, List.length_cons]
    omega

theorem colorBytes_length (c : Int) : (colorBytes c).length = 2 := by
  rw [colorBytes_eq]; rfl

theorem colorAppendix_vertex (flags : Flags) (G : Graph) (itv : List Int) (k : Nat)
    (ng : NyGraph) (he : flags.EDGE_COLORED = false) (hv : flags.VERTEX_COLORED = true) :
    colorAppendix flags G itv k ng =
      (List.range k).flatMap
        (fun iv => colorBytes (lookupColoring flags G itv (ng.lab.getD iv 0))) := by
  unfold colorAppendix
  simp only [he, hv, Bool.false_eq_true, if_false, if_true]

theorem lookupColoring_eq (flags : Flags) (G : Graph) (itv : List Int) {x : Nat}
    (hv : flags.VERTEX_COLORED = true) (hx : x < itv.length) :
    lookupColoring flags G itv x = G.color (lookupVertex itv x) := by
  unfold lookupColoring
  simp [hv, hx]

/-- C19. In vertex-coloured mode (no edge colours) the colour appendix of the
certificate has exactly `2k` bytes: for each canonical slot `iv`, with `c` the
16-bit signed colour of the subgraph index `lab[iv]`, the high byte
`floor(c / 256) mod 256` followed by the low byte `c mod 256`; `c` is
recovered from the two bytes. -/
theorem vertex_color_appendix (flags : Flags) (G : Graph) (itv : List Int) (ng : NyGraph)
    (he : flags.EDGE_COLORED = false) (hv : flags.VERTEX_COLORED = true)
    (hlab : ∀ iv, iv < itv.length → ng.lab.getD iv 0 < itv.length)
    (hrange : ∀ v ∈ itv, -32768 ≤ G.color v ∧ G.color v ≤ 32767) :
    buildCertificate flags G itv itv.length ng =
      certificateBase flags G itv itv.length ng ++ colorAppendix flags G itv itv.length ng ∧
    (colorAppendix flags G itv itv.length ng).length = 2 * itv.length ∧
    ∀ iv, iv < itv.length →
      (((colorAppendix flags G itv itv.length ng).getD (2 * iv) 0 : Nat) : Int) =
        G.color (lookupVertex itv (ng.lab.getD iv 0)) / 256 % 256 ∧
      (((colorAppendix flags G itv itv.length ng).getD (2 * iv + 1) 0 : Nat) : Int) =
        G.color (lookupVertex itv (ng.lab.getD iv 0)) % 256 ∧
      decodeColor ((colorAppendix flags G itv itv.length ng).getD (2 * iv) 0)
          ((colorAppendix flags G itv itv.length ng).getD (2 * iv + 1) 0) =
        G.color (lookupVertex itv (ng.lab.getD iv 0)) := by
  refine ⟨buildCertificate_eq _ _ _ _ _, ?_, ?_⟩
  · rw [colorAppendix_vertex flags G itv _ ng he hv,
      length_flatMap_pairs _ (fun iv => colorBytes_length _), List.length_range]
  · intro iv hiv
    have hr : iv < (List.range itv.length).length := by simpa using hiv
    have h0 := getD_flatMap_pairs
      (fun iv => colorBytes (lookupColoring flags G itv (ng.lab.getD iv 0)))
      (fun iv => colorBytes_length _) (List.range itv.length) iv hr 0 (by decide)
    have h1 := getD_flatMap_pairs
      (fun iv => colorBytes (lookupColoring flags G itv (ng.lab.getD iv 0)))
      (fun iv => colorBytes_length _) (List.range itv.length) iv hr 1 (by decide)
    rw [Nat.add_zero] at h0
    simp only [List.get_eq_getElem, List.getElem_range] at h0 h1
    rw [lookupColoring_eq flags G itv hv (hlab iv hiv), colorBytes_eq] at h0 h1
    rw [colorAppendix_vertex flags G itv _ ng he hv, h0, h1]
    simp only [List.getD_cons_zero, List.getD_cons_succ]
    obtain ⟨r1, r2⟩ := hrange _ (lookupVertex_mem (hlab iv hiv))
    exact ⟨toByte_cast _, toByte_cast _, decodeColor_colorBytes _ r1 r2⟩

/-- The path 0-1-2 with vertex colours -1, 258, 2, numbered `[0, 1, 2]`, with
the stand-in canonicalizer: the appendix is ff ff 01 02 00 02. -/
theorem vertex_color_appendix_witness :
    vertexColoredEnv.flags.EDGE_COLORED = false ∧ vertexColoredEnv.flags.VERTEX_COLORED = true ∧
    (∀ iv, iv < ([0, 1, 2] : List Int).length →
      mixedColorOutput.lab.getD iv 0 < ([0, 1, 2] : List Int).length) ∧
    (∀ v ∈ ([0, 1, 2] : List Int), -32768 ≤ (graphOf false mixedColorOps).color v ∧
      (graphOf false mixedColorOps).color v ≤ 32767) ∧
    colorAppendix vertexColoredEnv.flags (graphOf false mixedColorOps) [0, 1, 2] 3
      mixedColorOutput = [255, 255, 1, 2, 0, 2] ∧
    colorBytes (-1) = [255, 255] ∧
    (buildCertificate vertexColoredEnv.flags (graphOf false mixedColorOps) [0, 1, 2]
        ([0, 1, 2] : List Int).length mixedColorOutput =
      certificateBase vertexColoredEnv.flags (graphOf false mixedColorOps) [0, 1, 2]
          ([0, 1, 2] : List Int).length mixedColorOutput ++
        colorAppendix vertexColoredEnv.flags (graphOf false mixedColorOps) [0, 1, 2]
          ([0, 1, 2] : List Int).length mixedColorOutput ∧
      (colorAppendix vertexColoredEnv.flags (graphOf false mixedColorOps) [0, 1, 2]
        ([0, 1, 2] : List Int).length mixedColorOutput).length =
        2 * ([0, 1, 2] : List Int).length ∧
      ∀ iv, iv < ([0, 1, 2] : List Int).length →
        (((colorAppendix vertexColoredEnv.flags (graphOf false mixedColorOps) [0, 1, 2]
          ([0, 1, 2] : List Int).length mixedColorOutput).getD (2 * iv) 0 : Nat) : Int) =
          (graphOf false mixedColorOps).color
            (lookupVertex [0, 1, 2] (mixedColorOutput.lab.getD iv 0)) / 256 % 256 ∧
        (((colorAppendix vertexColoredEnv.flags (graphOf false mixedColorOps) [0, 1, 2]
          ([0, 1, 2] : List Int).length mixedColorOutput).getD (2 * iv + 1) 0 : Nat) : Int) =
          (graphOf false mixedColorOps).color
            (lookupVertex [0, 1, 2] (mixedColorOutput.lab.getD iv 0)) % 256 ∧
        decodeColor
            ((colorAppendix vertexColoredEnv.flags (graphOf false mixedColorOps) [0, 1, 2]
              ([0, 1, 2] : List Int).length mixedColorOutput).getD (2 * iv) 0)
            ((colorAppendix vertexColoredEnv.flags (graphOf false mixedColorOps) [0, 1, 2]
              ([0, 1, 2] : List Int).length mixedColorOutput).getD (2 * iv + 1) 0) =
          (graphOf false mixedColorOps).color
            (lookupVertex [0, 1, 2] (mixedColorOutput.lab.getD iv 0))) :=
  ⟨rfl, rfl, by decide!, by decide!, by decide!, by decide!,
   vertex_color_appendix vertexColoredEnv.flags (graphOf false mixedColorOps) [0, 1, 2]
     mixedColorOutput rfl rfl (by decide!) (by decide!)⟩

theorem subgraphCertificate_eq (env : Env) (G : Graph) (itv : List Int) (L : Nat)
    (ng : NyGraph) :
    subgraphCertificate env G itv L ng =
      certificateBase env.flags G itv itv.length
          (callNauty env (prepareNauty env.flags G itv L ng)) ++
        colorAppendix env.flags G itv itv.length
          (callNauty env (prepareNauty env.flags G itv L ng)) :=
  buildCertificate_eq _ _ _ _ _

/-- C17 (amended). The certificate is a base part followed by the colour
appendix.  Without edge colours the base part is one byte per row of the
canonical matrix returned by the canonicalizer (byte 7 of each row word), `k`
bytes in all.  With edge colours the base part is not taken from the
canonical matrix on `L * k` vertices: it is one byte per row of the condensed
matrix on `k` vertices, which has entry `(x, y)` exactly when the edge index
holds the pair of the vertices at the canonical positions `x` and `y`; it has
`k` bytes. -/
theorem certificate_base_rows (env : Env) (G : Graph) (itv : List Int) (L : Nat)
    (ng : NyGraph) (hws : EntryWorkspace env.flags L itv.length ng) :
    subgraphCertificate env G itv L ng =
      certificateBase env.flags G itv itv.length
          (callNauty env (prepareNauty env.flags G itv L ng)) ++
        colorAppendix env.flags G itv itv.length
          (callNauty env (prepareNauty env.flags G itv L ng)) ∧
    (certificateBase env.flags G itv itv.length
      (callNauty env (prepareNauty env.flags G itv L ng))).length = itv.length ∧
    (env.flags.EDGE_COLORED = false →
      certificateBase env.flags G itv itv.length
          (callNauty env (prepareNauty env.flags G itv L ng)) =
        (List.range itv.length).map (fun r => lastByte
          ((callNauty env (prepareNauty env.flags G itv L ng)).cmatrix.getD r 0))) ∧
    (env.flags.EDGE_COLORED = true →
      certificateBase env.flags G itv itv.length
          (callNauty env (prepareNauty env.flags G itv L ng)) =
        (List.range itv.length).map (fun r => lastByte
          ((condense G (vertexOrdering itv itv.length
            (callNauty env (prepareNauty env.flags G itv L ng))) itv.length
            (NyGraph.new itv.length false)).2.getD r 0)) ∧
      ∀ x y, y < 64 →
        (matrixBit (condense G (vertexOrdering itv itv.length
            (callNauty env (prepareNauty env.flags G itv L ng))) itv.length
            (NyGraph.new itv.length false)).2 x y = true ↔
          x < itv.length ∧ y < itv.length ∧
          G.hasEdge
            (lookupVertex itv ((callNauty env (prepareNauty env.flags G itv L ng)).lab.getD x 0))
            (lookupVertex itv ((callNauty env (prepareNauty env.flags G itv L ng)).lab.getD y 0)) =
            true)) := by
  have hnv : (callNauty env (prepareNauty env.flags G itv L ng)).no_vertices = ng.no_vertices := by
    rw [(callNauty_fields _ _).1, (prepareNauty_fields _ _ _ _ _).1]
  have hns : (callNauty env (prepareNauty env.flags G itv L ng)).no_setwords = 1 := by
    rw [(callNauty_fields _ _).2.1, (prepareNauty_fields _ _ _ _ _).2.1, hws.2.1]
  have hplain : env.flags.EDGE_COLORED = false →
      certificateBase env.flags G itv itv.length
          (callNauty env (prepareNauty env.flags G itv L ng)) =
        (List.range itv.length).map (fun r => lastByte
          ((callNauty env (prepareNauty env.flags G itv L ng)).cmatrix.getD r 0)) := by
    intro he
    rw [certificateBase_plain _ _ _ _ _ he hns, hnv, hws.1]
    simp only [he, Bool.false_eq_true, if_false]
  have hedge : env.flags.EDGE_COLORED = true → 1 ≤ itv.length ∧ itv.length ≤ 64 := by
    intro he
    obtain ⟨_, hL1, hk1, hn64⟩ := entry_layers he hws
    have : itv.length ≤ L * itv.length := Nat.le_mul_of_pos_left _ hL1
    exact ⟨hk1, by omega⟩
  refine ⟨subgraphCertificate_eq _ _ _ _ _, ?_, hplain, ?_⟩
  · by_cases he : env.flags.EDGE_COLORED = true
    · rw [certificateBase_edge _ _ _ _ _ he (hedge he).1 (hedge he).2]
      simp
    · have he' : env.flags.EDGE_COLORED = false := by simpa using he
      rw [hplain he']
      simp
  · intro he
    refine ⟨certificateBase_edge _ _ _ _ _ he (hedge he).1 (hedge he).2, ?_⟩
    intro x y hy
    rw [condense_bits G _ _ (hedge he).1 (hedge he).2 x y hy]
    constructor
    · rintro ⟨hx, hy', h⟩
      rw [lookupVertex_vertexOrdering _ _ _ hx, lookupVertex_vertexOrdering _ _ _ hy'] at h
      exact ⟨hx, hy', h⟩
    · rintro ⟨hx, hy', h⟩
      rw [← lookupVertex_vertexOrdering itv itv.length _ hx,
        ← lookupVertex_vertexOrdering itv itv.length _ hy'] at h
      exact ⟨hx, hy', h⟩

/-- Two runs with the stand-in canonicalizer.  The path 0-1-2-3 without
colours, subgraph numbered `[0, 1, 2]`: the base part 40 a0 40 is the whole
certificate.  The first 3-cycle of `coloredTriangles` on two layers: the
certificate 40 20 80 00 01 00 has the base part 40 20 80 of three bytes. -/
theorem certificate_base_rows_witness :
    EntryWorkspace (plainEnv false).flags 1 ([0, 1, 2] : List Int).length (NyGraph.new 3 false) ∧
    EntryWorkspace edgeColoredEnv.flags 2 ([0, 1, 2] : List Int).length (NyGraph.new 6 true) ∧
    certificateBase (plainEnv false).flags (graphOf false pathOps) [0, 1, 2] 3
      (callNauty (plainEnv false) (prepareNauty (plainEnv false).flags (graphOf false pathOps)
        [0, 1, 2] 1 (NyGraph.new 3 false))) = [64, 160, 64] ∧
    certificateBase edgeColoredEnv.flags coloredTriangles [0, 1, 2] 3 coloredTrianglesOutput =
      [64, 32, 128] ∧
    (subgraphCertificate (plainEnv false) (graphOf false pathOps) [0, 1, 2] 1
        (NyGraph.new 3 false) =
      certificateBase (plainEnv false).flags (graphOf false pathOps) [0, 1, 2]
          ([0, 1, 2] : List Int).length
          (callNauty (plainEnv false) (prepareNauty (plainEnv false).flags
            (graphOf false pathOps) [0, 1, 2] 1 (NyGraph.new 3 false))) ++
        colorAppendix (plainEnv false).flags (graphOf false pathOps) [0, 1, 2]
          ([0, 1, 2] : List Int).length
          (callNauty (plainEnv false) (prepareNauty (plainEnv false).flags
            (graphOf false pathOps) [0, 1, 2] 1 (NyGraph.new 3 false)))) ∧
    (subgraphCertificate edgeColoredEnv coloredTriangles [0, 1, 2] 2 (NyGraph.new 6 true) =
      certificateBase edgeColoredEnv.flags coloredTriangles [0, 1, 2]
          ([0, 1, 2] : List Int).length
          (callNauty edgeColoredEnv (prepareNauty edgeColoredEnv.flags coloredTriangles
            [0, 1, 2] 2 (NyGraph.new 6 true))) ++
        colorAppendix edgeColoredEnv.flags coloredTriangles [0, 1, 2]
          ([0, 1, 2] : List Int).length
          (callNauty edgeColoredEnv (prepareNauty edgeColoredEnv.flags coloredTriangles
            [0, 1, 2] 2 (NyGraph.new 6 true)))) :=
  ⟨NyGraph_new_entry 3 false (by decide) (by decide),
   NyGraph_new_entry 6 true (by decide) (by decide), by decide!, by decide!,
   (certificate_base_rows (plainEnv false) (graphOf false pathOps) [0, 1, 2] 1
     (NyGraph.new 3 false) (NyGraph_new_entry 3 false (by decide) (by decide))).1,
   (certificate_base_rows edgeColoredEnv coloredTriangles [0, 1, 2] 2
     (NyGraph.new 6 true) (NyGraph_new_entry 6 true (by decide) (by decide))).1⟩

/-- C17 fails as stated in edge-coloured mode: for the first 3-cycle of
`coloredTriangles` (`k = 3`, `L = 2`) the canonical matrix on 6 vertices has
the row bytes 50 08 84 80 44 20, but the certificate 40 20 80 00 01 00 has a
base part of three bytes, 40 20 80, followed by the three colour bytes. -/
theorem base_part_not_from_canonical_matrix :
    edgeColoredEnv.flags.EDGE_COLORED = true ∧
    coloredTrianglesOutput.no_vertices = 2 * 3 ∧
    keptBytes coloredTrianglesOutput.cmatrix (coloredTrianglesOutput.no_vertices *
      coloredTrianglesOutput.no_setwords * 8) = [80, 8, 132, 128, 68, 32] ∧
    subgraphCertificate edgeColoredEnv coloredTriangles [0, 1, 2] 2 (NyGraph.new 6 true) =
      [64, 32, 128, 0, 1, 0] ∧
    certificateBase edgeColoredEnv.flags coloredTriangles [0, 1, 2] 3 coloredTrianglesOutput =
      [64, 32, 128] ∧
    colorAppendix edgeColoredEnv.flags coloredTriangles [0, 1, 2] 3 coloredTrianglesOutput =
      [0, 1, 0] ∧
    (certificateBase edgeColoredEnv.flags coloredTriangles [0, 1, 2] 3
      coloredTrianglesOutput).length ≠ 2 * 3 := by
  refine ⟨rfl, by decide!, by decide!, by decide!, by decide!, by decide!, by decide!⟩

theorem flatMap_pairs_inj {α : Type} (f g : α → List Nat) (hf : ∀ x, (f x).length = 2)
    (hg : ∀ x, (g x).length = 2) (l : List α) (h : l.flatMap f = l.flatMap g) :
    ∀ x ∈ l, f x = g x := by
  induction l with
  | nil => intro x hx; simp at hx
  | cons a l ih =>
    rw [List.flatMap_cons, List.flatMap_cons] at h
    obtain ⟨h1, h2⟩ := List.append_inj h (by rw [hf, hg])
    intro x hx
    rcases List.mem_cons.mp hx with rfl | hx
    · exact h1
    · exact ih h2 x hx

/-- The colours of the subgraph vertices, read along a `lab` that is a
rearrangement of the subgraph indices, are a rearrangement of the colours of
the vertices. -/
theorem colors_along_lab_perm (G : Graph) (itv : List Int) (lab : List Nat)
    (hlt : ∀ p, p < itv.length → lab.getD p 0 < itv.length)
    (hinj : ∀ p q, p < itv.length → q < itv.length → lab.getD p 0 = lab.getD q 0 → p = q) :
    ((List.range itv.length).map (fun iv => G.color (lookupVertex itv (lab.getD iv 0)))).Perm
      (itv.map G.color) := by
  have h := range_map_perm itv.length (fun p => lab.getD p 0) hlt hinj
  have h2 := h.map (fun x => G.color (lookupVertex itv x))
  rw [List.map_map, range_map_color] at h2
  exact h2

/-- C12. In vertex-coloured mode (no edge colours), assuming only that the
`lab` returned by the canonicalizer is a rearrangement of `0, ..., k - 1`, two
`k`-vertex subgraphs whose multisets of vertex colours differ get different
certificates. -/
theorem different_colors_different_certificates (env : Env) (G G' : Graph) (A B : List Int)
    (L : Nat) (ngA ngB : NyGraph)
    (he : env.flags.EDGE_COLORED = false) (hv : env.flags.VERTEX_COLORED = true)
    (hlen : A.length = B.length)
    (hwsA : EntryWorkspace env.flags L A.length ngA)
    (hwsB : EntryWorkspace env.flags L B.length ngB)
    (hltA : ∀ p, p < A.length →
      (callNauty env (prepareNauty env.flags G A L ngA)).lab.getD p 0 < A.length)
    (hinjA : ∀ p q, p < A.length → q < A.length →
      (callNauty env (prepareNauty env.flags G A L ngA)).lab.getD p 0 =
        (callNauty env (prepareNauty env.flags G A L ngA)).lab.getD q 0 → p = q)
    (hltB : ∀ p, p < B.length →
      (callNauty env (prepareNauty env.flags G' B L ngB)).lab.getD p 0 < B.length)
    (hinjB : ∀ p q, p < B.length → q < B.length →
      (callNauty env (prepareNauty env.flags G' B L ngB)).lab.getD p 0 =
        (callNauty env (prepareNauty env.flags G' B L ngB)).lab.getD q 0 → p = q)
    (hrangeA : ∀ v ∈ A, -32768 ≤ G.color v ∧ G.color v ≤ 32767)
    (hrangeB : ∀ v ∈ B, -32768 ≤ G'.color v ∧ G'.color v ≤ 32767)
    (hne : ¬ (A.map G.color).Perm (B.map G'.color)) :
    subgraphCertificate env G A L ngA ≠ subgraphCertificate env G' B L ngB := by
  intro heq
  apply hne
  rw [subgraphCertificate_eq, subgraphCertificate_eq] at heq
  have hns : ∀ (H : Graph) (C : List Int) (ng : NyGraph), EntryWorkspace env.flags L C.length ng →
      (certificateBase env.flags H C C.length
        (callNauty env (prepareNauty env.flags H C L ng))).length = C.length := by
    intro H C ng hws
    have hs : (callNauty env (prepareNauty env.flags H C L ng)).no_setwords = 1 := by
      rw [(callNauty_fields _ _).2.1, (prepareNauty_fields _ _ _ _ _).2.1, hws.2.1]
    rw [certificateBase_plain _ _ _ _ _ he hs, List.length_map, List.length_range,
      (callNauty_fields _ _).1, (prepareNauty_fields _ _ _ _ _).1, hws.1]
    simp only [he, Bool.false_eq_true, if_false]
  obtain ⟨_, happ⟩ := List.append_inj heq (by rw [hns G A ngA hwsA, hns G' B ngB hwsB, hlen])
  rw [colorAppendix_vertex _ _ _ _ _ he hv, colorAppendix_vertex _ _ _ _ _ he hv, ← hlen] at happ
  have hpt := flatMap_pairs_inj _ _ (fun _ => colorBytes_length _) (fun _ => colorBytes_length _)
    _ happ
  have hcol : (List.range A.length).map (fun iv => G.color (lookupVertex A
        ((callNauty env (prepareNauty env.flags G A L ngA)).lab.getD iv 0))) =
      (List.range A.length).map (fun iv => G'.color (lookupVertex B
        ((callNauty env (prepareNauty env.flags G' B L ngB)).lab.getD iv 0))) := by
    apply List.map_congr_left
    intro iv hiv
    have hiv' := List.mem_range.mp hiv
    have h := hpt iv hiv
    have hb : iv < B.length := by rw [← hlen]; exact hiv'
    simp only [] at h
    rw [lookupColoring_eq _ _ _ hv (hltA iv hiv'), lookupColoring_eq _ _ _ hv (hltB iv hb)] at h
    obtain ⟨a1, a2⟩ := hrangeA _ (lookupVertex_mem (hltA iv hiv'))
    obtain ⟨b1, b2⟩ := hrangeB _ (lookupVertex_mem (hltB iv hb))
    exact colorBytes_injective a1 a2 b1 b2 h
  have pA := colors_along_lab_perm G A _ hltA hinjA
  have pB := colors_along_lab_perm G' B _ hltB hinjB
  rw [← hlen] at pB
  rw [hcol] at pA
  exact pA.symm.trans pB

/-- The `lab` of the stand-in canonicalizer is a rearrangement of every
initial stretch of the vertices. -/
theorem identityNauty_lab (env : Env) (x : NyGraph) (hd : env.densenauty = identityNauty)
    (k : Nat) (hk : k ≤ x.no_vertices) :
    (∀ p, p < k → (callNauty env x).lab.getD p 0 < k) ∧
    (∀ p q, p < k → q < k →
      (callNauty env x).lab.getD p 0 = (callNauty env x).lab.getD q 0 → p = q) := by
  have hlab : (callNauty env x).lab = List.range x.no_vertices := by
    simp [callNauty, hd, identityNauty]
  have hget : ∀ p, p < k → (List.range x.no_vertices).getD p 0 = p := by
    intro p hp
    rw [List.getD_eq_getElem _ _ (by simp; omega), List.getElem_range]
  rw [hlab]
  constructor
  · intro p hp
    rw [hget p hp]; exact hp
  · intro p q hp hq h
    rw [hget p hp, hget q hq] at h
    exact h

theorem redRedBlue_Built : (graphOf false redRedBlueOps).Built :=
  graphOf_Built false redRedBlueOps (by decide!)

theorem redBlueBlue_Built : (graphOf false redBlueBlueOps).Built :=
  graphOf_Built false redBlueBlueOps (by decide!)

/-- The triangle coloured red, red, blue (1, 1, 2) and the triangle coloured
red, blue, blue (1, 2, 2), both numbered `[0, 1, 2]`, with the stand-in
canonicalizer: the certificates 60 a0 c0 followed by 00 01 00 01 00 02 and by
00 01 00 02 00 02 differ. -/
theorem different_colors_different_certificates_witness :
    ¬ (([0, 1, 2] : List Int).map (graphOf false redRedBlueOps).color).Perm
      (([0, 1, 2] : List Int).map (graphOf false redBlueBlueOps).color) ∧
    subgraphCertificate vertexColoredEnv (graphOf false redRedBlueOps) [0, 1, 2] 1
      (NyGraph.new 3 true) = [96, 160, 192, 0, 1, 0, 1, 0, 2] ∧
    subgraphCertificate vertexColoredEnv (graphOf false redBlueBlueOps) [0, 1, 2] 1
      (NyGraph.new 3 true) = [96, 160, 192, 0, 1, 0, 2, 0, 2] ∧
    subgraphCertificate vertexColoredEnv (graphOf false redRedBlueOps) [0, 1, 2] 1
        (NyGraph.new 3 true) ≠
      subgraphCertificate vertexColoredEnv (graphOf false redBlueBlueOps) [0, 1, 2] 1
        (NyGraph.new 3 true) :=
  ⟨by decide!, by decide!, by decide!,
   different_colors_different_certificates vertexColoredEnv (graphOf false redRedBlueOps)
     (graphOf false redBlueBlueOps) [0, 1, 2] [0, 1, 2] 1 (NyGraph.new 3 true)
     (NyGraph.new 3 true) rfl rfl rfl
     (NyGraph_new_entry 3 true (by decide) (by decide))
     (NyGraph_new_entry 3 true (by decide) (by decide))
     (identityNauty_lab vertexColoredEnv _ rfl 3 (by decide!)).1
     (identityNauty_lab vertexColoredEnv _ rfl 3 (by decide!)).2
     (identityNauty_lab vertexColoredEnv _ rfl 3 (by decide!)).1
     (identityNauty_lab vertexColoredEnv _ rfl 3 (by decide!)).2
     (by decide!) (by decide!) (by decide!)⟩

theorem countP_lt_of_imp {α : Type} (p q : α → Bool) (l : List α)
    (himp : ∀ x ∈ l, q x = true → p x = true)
    (hex : ∃ x ∈ l, p x = true ∧ ¬ q x = true) :
    l.countP q < l.countP p := by
  induction l with
  | nil =>
    obtain ⟨x, hx, _⟩ := hex
    simp at hx
  | cons a l ih =>
    have himp' : ∀ x ∈ l, q x = true → p x = true :=
      fun x hx => himp x (List.mem_cons_of_mem _ hx)
    have hle : l.countP q ≤ l.countP p := List.countP_mono_left himp'
    obtain ⟨x, hx, hpx, hqx⟩ := hex
    rcases List.mem_cons.mp hx with rfl | hx'
    · rw [List.countP_cons_of_pos _ _ hpx, List.countP_cons_of_neg _ _ hqx]
      omega
    · have hlt := ih himp' ⟨x, hx', hpx, hqx⟩
      by_cases hqa : q a = true
      · rw [List.countP_cons_of_pos _ _ hqa,
          List.countP_cons_of_pos _ _ (himp a (List.mem_cons_self _ _) hqa)]
        omega
      · rw [List.countP_cons_of_neg _ _ hqa]
        by_cases hpa : p a = true
        · rw [List.countP_cons_of_pos _ _ hpa]; omega
        · rw [List.countP_cons_of_neg _ _ hpa]; exact hlt

theorem toByte_injective {c d : Int} (hc1 : -128 ≤ c) (hc2 : c ≤ 127) (hd1 : -128 ≤ d)
    (hd2 : d ≤ 127) (h : toByte c = toByte d) : c = d := by
  have h1 := toByte_cast c
  have h2 := toByte_cast d
  rw [h] at h1
  omega

theorem edgeColorBytes_eq (G : Graph) (A : List Int) :
    edgeColorBytes G A =
      (A.flatMap (fun x => A.map (fun y => (x, y)))).filterMap (fun p =>
        if G.hasEdge p.1 p.2 = true then some (toByte (G.edgeColor p.1 p.2)) else none) := by
  unfold edgeColorBytes
  rw [List.filterMap_flatMap]
  apply flatMap_congr_mem
  intro x _
  rw [List.filterMap_map]
  rfl

/-- In edge-coloured mode the colour appendix is a rearrangement of the colour
bytes of the edges among the subgraph vertices, when the first `k` entries of
`lab` are a rearrangement of `0, ..., k - 1`. -/
theorem colorAppendix_perm (flags : Flags) (G : Graph) (A : List Int) (ng : NyGraph)
    (he : flags.EDGE_COLORED = true)
    (hlt : ∀ p, p < A.length → ng.lab.getD p 0 < A.length)
    (hinj : ∀ p q, p < A.length → q < A.length → ng.lab.getD p 0 = ng.lab.getD q 0 → p = q) :
    (colorAppendix flags G A A.length ng).Perm (edgeColorBytes G A) := by
  rw [colorAppendix_edge flags G A A.length ng he]
  have hvo : ((List.range A.length).map (fun i => lookupVertex A (ng.lab.getD i 0))).Perm A := by
    have h := (range_map_perm A.length (fun p => ng.lab.getD p 0) hlt hinj).map (lookupVertex A)
    rw [List.map_map, range_map_lookupVertex] at h
    exact h
  have e : (List.range A.length).flatMap (fun i => (List.range A.length).filterMap (fun j =>
        if G.hasEdge (lookupVertex A (ng.lab.getD i 0))
            (lookupVertex A (ng.lab.getD j 0)) = true then
          some (toByte (G.edgeColor (lookupVertex A (ng.lab.getD i 0))
            (lookupVertex A (ng.lab.getD j 0))))
        else none)) =
      ((List.range A.length).map (fun i => lookupVertex A (ng.lab.getD i 0))).flatMap (fun x =>
        ((List.range A.length).map (fun i => lookupVertex A (ng.lab.getD i 0))).filterMap
          (fun y => if G.hasEdge x y = true then some (toByte (G.edgeColor x y)) else none)) := by
    rw [List.flatMap_map]
    apply flatMap_congr_mem
    intro i _
    rw [List.filterMap_map]
    rfl
  rw [e]
  unfold edgeColorBytes
  refine (List.Perm.flatMap_right _ hvo).trans ?_
  apply List.Perm.flatMap_left
  intro x _
  exact hvo.filterMap _

/-- Changing the colour of one edge changes the multiset of the colour bytes
of the edges among the subgraph vertices. -/
theorem edgeColorBytes_recolored (G G' : Graph) (A : List Int) (a b : Int)
    (hre : RecoloredEdge G G' A a b)
    (hrange : ∀ x ∈ A, ∀ y ∈ A, -128 ≤ G.edgeColor x y ∧ G.edgeColor x y ≤ 127)
    (hrange' : ∀ x ∈ A, ∀ y ∈ A, -128 ≤ G'.edgeColor x y ∧ G'.edgeColor x y ≤ 127) :
    (edgeColorBytes G' A).count (toByte (G.edgeColor a b)) <
      (edgeColorBytes G A).count (toByte (G.edgeColor a b)) := by
  obtain ⟨ha, hb, hedge, hne, hsame, hother, hback⟩ := hre
  rw [edgeColorBytes_eq, edgeColorBytes_eq, List.count_filterMap, List.count_filterMap]
  have hpairs : ∀ p ∈ A.flatMap (fun x => A.map (fun y => (x, y))), p.1 ∈ A ∧ p.2 ∈ A := by
    intro p hp
    obtain ⟨x, hx, hp'⟩ := List.mem_flatMap.mp hp
    obtain ⟨y, hy, rfl⟩ := List.mem_map.mp hp'
    exact ⟨hx, hy⟩
  apply countP_lt_of_imp
  · intro p hp hq
    obtain ⟨hp1, hp2⟩ := hpairs p hp
    have hE := hsame p.1 hp1 p.2 hp2
    by_cases hedgep : G.hasEdge p.1 p.2 = true
    · rw [hE] at hq
      simp only [hedgep, if_true, beq_iff_eq, Option.some.injEq] at hq ⊢
      have hcol : G'.edgeColor p.1 p.2 = G.edgeColor a b :=
        toByte_injective (hrange' _ hp1 _ hp2).1 (hrange' _ hp1 _ hp2).2
          (hrange _ ha _ hb).1 (hrange _ ha _ hb).2 hq
      by_cases h1 : (p.1, p.2) = (a, b)
      · obtain ⟨e1, e2⟩ := Prod.mk.inj h1
        rw [e1, e2] at hcol
        exact absurd hcol hne
      · by_cases h2 : (p.1, p.2) = (b, a)
        · obtain ⟨e1, e2⟩ := Prod.mk.inj h2
          rw [e1, e2] at hcol ⊢
          rcases hback with hu | ⟨ht1, ht2⟩
          · rw [← hu, hcol]
          · rw [ht2] at hcol
            exact absurd hcol hne
        · rw [← hother p.1 hp1 p.2 hp2 h1 h2, hcol]
    · rw [hE] at hq
      simp [hedgep] at hq
  · refine ⟨(a, b), ?_, ?_, ?_⟩
    · exact List.mem_flatMap.mpr ⟨a, ha, List.mem_map.mpr ⟨b, hb, rfl⟩⟩
    · simp [hedge]
    · rw [hsame a ha b hb]
      simp only [hedge, if_true, beq_iff_eq, Option.some.injEq]
      intro h
      exact hne (toByte_injective (hrange' _ ha _ hb).1 (hrange' _ ha _ hb).2
        (hrange _ ha _ hb).1 (hrange _ ha _ hb).2 h)

/-- C13. In edge-coloured mode, assuming the first `k` entries of the `lab`
returned by the canonicalizer are a rearrangement of `0, ..., k - 1` (for the
subgraph before and after the change), changing the colour of one edge of a
`k`-vertex subgraph to a different colour changes the certificate computed
for that subgraph. -/
theorem recolored_edge_changes_certificate (env : Env) (G G' : Graph) (A : List Int)
    (a b : Int) (L : Nat) (ng ng' : NyGraph)
    (he : env.flags.EDGE_COLORED = true)
    (hre : RecoloredEdge G G' A a b)
    (hrange : ∀ x ∈ A, ∀ y ∈ A, -128 ≤ G.edgeColor x y ∧ G.edgeColor x y ≤ 127)
    (hrange' : ∀ x ∈ A, ∀ y ∈ A, -128 ≤ G'.edgeColor x y ∧ G'.edgeColor x y ≤ 127)
    (hlt : ∀ p, p < A.length →
      (callNauty env (prepareNauty env.flags G A L ng)).lab.getD p 0 < A.length)
    (hinj : ∀ p q, p < A.length → q < A.length →
      (callNauty env (prepareNauty env.flags G A L ng)).lab.getD p 0 =
        (callNauty env (prepareNauty env.flags G A L ng)).lab.getD q 0 → p = q)
    (hlt' : ∀ p, p < A.length →
      (callNauty env (prepareNauty env.flags G' A L ng')).lab.getD p 0 < A.length)
    (hinj' : ∀ p q, p < A.length → q < A.length →
      (callNauty env (prepareNauty env.flags G' A L ng')).lab.getD p 0 =
        (callNauty env (prepareNauty env.flags G' A L ng')).lab.getD q 0 → p = q) :
    subgraphCertificate env G A L ng ≠ subgraphCertificate env G' A L ng' := by
  intro heq
  rw [subgraphCertificate_eq, subgraphCertificate_eq] at heq
  have hbase : ∀ (H : Graph) (x : NyGraph),
      (certificateBase env.flags H A A.length x).length =
        A.length * ((A.length + WORDSIZE - 1) / WORDSIZE) := by
    intro H x
    unfold certificateBase
    simp only [he, if_true, (NyGraph_new_fields A.length false).1,
      (NyGraph_new_fields A.length false).2.1]
    exact keptBytes_length _ _
  obtain ⟨_, happ⟩ := List.append_inj heq (by rw [hbase, hbase])
  have p1 := colorAppendix_perm env.flags G A _ he hlt hinj
  have p2 := colorAppendix_perm env.flags G' A _ he hlt' hinj'
  rw [happ] at p1
  have hcount := (p1.symm.trans p2).count_eq (toByte (G.edgeColor a b))
  have hlt := edgeColorBytes_recolored G G' A a b hre hrange hrange'
  omega

/-- The undirected path 0-1-2 with edge colours 0, 1 and the same path with
the colour of the edge 0-1 changed to 1, both numbered `[0, 1, 2]` on two
layers, with the stand-in canonicalizer: the certificates
40 a0 40 00 00 01 01 and 40 a0 40 01 01 01 01 differ. -/
theorem recolored_edge_changes_certificate_witness :
    RecoloredEdge edgePath edgePathRecolored [0, 1, 2] 0 1 ∧
    subgraphCertificate edgeColoredEnv edgePath [0, 1, 2] 2 (NyGraph.new 6 true) =
      [64, 160, 64, 0, 0, 1, 1] ∧
    subgraphCertificate edgeColoredEnv edgePathRecolored [0, 1, 2] 2 (NyGraph.new 6 true) =
      [64, 160, 64, 1, 1, 1, 1] ∧
    subgraphCertificate edgeColoredEnv edgePath [0, 1, 2] 2 (NyGraph.new 6 true) ≠
      subgraphCertificate edgeColoredEnv edgePathRecolored [0, 1, 2] 2 (NyGraph.new 6 true) :=
  ⟨by decide!, by decide!, by decide!,
   recolored_edge_changes_certificate edgeColoredEnv edgePath edgePathRecolored [0, 1, 2] 0 1 2
     (NyGraph.new 6 true) (NyGraph.new 6 true) rfl (by decide!) (by decide!) (by decide!)
     (identityNauty_lab edgeColoredEnv _ rfl 3 (by decide!)).1
     (identityNauty_lab edgeColoredEnv _ rfl 3 (by decide!)).2
     (identityNauty_lab edgeColoredEnv _ rfl 3 (by decide!)).1
     (identityNauty_lab edgeColoredEnv _ rfl 3 (by decide!)).2⟩

theorem succ_mod_layers {l L : Nat} (hl : l < L) :
    (l + 1) % L = if l = L - 1 then 0 else l + 1 := by
  by_cases h : l = L - 1
  · rw [if_pos h]
    have : l + 1 = L := by omega
    rw [this, Nat.mod_self]
  · rw [if_neg h]
    exact Nat.mod_eq_of_lt (by omega)

/-- In edge-coloured mode, with the layer count of `nedge_types` and the
colours of the induced edges in `0, ..., nedge_types - 1`, the prepared matrix
has exactly the arcs of the cycle linking the layers and, for each induced
edge of colour `c`, one arc on the layer of each bit set in `c + 1`. -/
theorem prepared_layered_bits (flags : Flags) (G : Graph) (A : List Int) (L : Nat) (ng : NyGraph)
    (hG : G.Built) (he : flags.EDGE_COLORED = true) (hL : L = layerCount G.nedge_types)
    (hcol : ColorsInRange G A) (hws : EntryWorkspace flags L A.length ng)
    (x y : Nat) (hy : y < 64) :
    matrixBit (prepareNauty flags G A L ng).matrix x y = true ↔
      ((∃ iv, iv < A.length ∧ ∃ l, l < L ∧ x = iv + l * A.length ∧
          y = iv + ((l + 1) % L) * A.length) ∨
       (∃ a, a < A.length ∧ ∃ b, b < A.length ∧
          G.hasEdge (lookupVertex A a) (lookupVertex A b) = true ∧
          ∃ p, Nat.testBit ((G.edgeColor (lookupVertex A a) (lookupVertex A b)).toNat + 1) p =
              true ∧
            x = a + p * A.length ∧ y = b + p * A.length)) := by
  have hwf := WellFormed_of_Built hG
  obtain ⟨_, hL1, _, _⟩ := entry_layers he hws
  have hlayers : 1 < L → ∀ o, o < A.length → ∀ i, i < A.length →
      lookupVertex A i ∈ G.outgoing_neighbors (lookupVertex A o) →
        ∀ p ∈ coloredLayers 8 (toInt8 (G.edgeColor (lookupVertex A o) (lookupVertex A i) + 1)) 0,
          p < L := by
    intro _ o ho i hi hedge p hp
    rw [hwf.outgoing_iff] at hedge
    obtain ⟨h0, hlt, h127⟩ := hcol _ (lookupVertex_mem ho) _ (lookupVertex_mem hi) hedge
    rw [hL]
    exact coloredLayers_lt_layerCount h0 h127 hlt hp
  rw [prepareNauty_bits_layered flags G A L ng he hws hlayers x y hy]
  apply or_congr
  · constructor
    · rintro ⟨il, hil, iv, hiv, hx, hy'⟩
      refine ⟨iv, hiv, il, hil, hx, ?_⟩
      rw [hy', succ_mod_layers hil]
      by_cases h : il = L - 1
      · simp [h]
      · simp [h]
    · rintro ⟨iv, hiv, l, hl, hx, hy'⟩
      refine ⟨l, hl, iv, hiv, hx, ?_⟩
      rw [hy', succ_mod_layers hl]
      by_cases h : l = L - 1
      · simp [h]
      · simp [h]
  · constructor
    · rintro ⟨o, ho, i, hi, hedge, hrest⟩
      rw [hwf.outgoing_iff] at hedge
      obtain ⟨h0, hlt, h127⟩ := hcol _ (lookupVertex_mem ho) _ (lookupVertex_mem hi) hedge
      refine ⟨o, ho, i, hi, hedge, ?_⟩
      by_cases h1 : 1 < L
      · rw [if_pos h1] at hrest
        obtain ⟨p, hp, hx, hy'⟩ := hrest
        exact ⟨p, ((mem_coloredLayers h0 h127 p).mp hp).2, hx, hy'⟩
      · rw [if_neg h1] at hrest
        have hlc : layerCount G.nedge_types = 1 := by rw [← hL]; omega
        have hc0 := color_zero_of_one_layer hlc h0 hlt
        refine ⟨0, ?_, by simpa using hrest.1, by simpa using hrest.2⟩
        rw [hc0]
        decide
    · rintro ⟨a, ha, b, hb, hedge, p, hp, hx, hy'⟩
      obtain ⟨h0, hlt, h127⟩ := hcol _ (lookupVertex_mem ha) _ (lookupVertex_mem hb) hedge
      refine ⟨a, ha, b, hb, (hwf.outgoing_iff _ _).mpr hedge, ?_⟩
      have hp8 : p < 8 := by
        have hge : 2 ^ p ≤ (G.edgeColor (lookupVertex A a) (lookupVertex A b)).toNat + 1 :=
          Nat.testBit_implies_ge hp
        have hle128 : (G.edgeColor (lookupVertex A a) (lookupVertex A b)).toNat + 1 ≤ 128 := by
          omega
        by_contra hcon
        have hpow : 2 ^ 8 ≤ 2 ^ p := Nat.pow_le_pow_right (by decide) (by omega)
        omega
      by_cases h1 : 1 < L
      · rw [if_pos h1]
        exact ⟨p, (mem_coloredLayers h0 h127 p).mpr ⟨hp8, hp⟩, hx, hy'⟩
      · rw [if_neg h1]
        have hlc : layerCount G.nedge_types = 1 := by rw [← hL]; omega
        have hc0 := color_zero_of_one_layer hlc h0 hlt
        rw [hc0] at hp
        have hp0 : p = 0 := by
          by_contra hne
          have : Nat.testBit (1 : Nat) p = false := by
            have hpow : 2 ^ 1 ≤ 2 ^ p := Nat.pow_le_pow_right (by decide) (by omega)
            exact Nat.testBit_lt_two_pow (by omega)
          have e : (0 : Int).toNat + 1 = 1 := by decide
          rw [e, this] at hp
          exact absurd hp (by decide)
        subst hp0
        simp only [Nat.zero_mul, Nat.add_zero] at hx hy'
        exact ⟨hx, hy'⟩

theorem foldl_preserves {α β : Type} (P : α → Prop) (f : α → β → α) (l : List β)
    (h : ∀ acc x, x ∈ l → P acc → P (f acc x)) : ∀ a, P a → P (l.foldl f a) := by
  induction l with
  | nil => intro a ha; exact ha
  | cons x l ih =>
    intro a ha
    rw [List.foldl_cons]
    exact ih (fun acc y hy => h acc y (List.mem_cons_of_mem _ hy)) _
      (h a x (List.mem_cons_self _ _) ha)

/-- A property of the state that the `rem == 0` branch keeps, and that does
not depend on `S` and `visited`, is kept by `EnumerateVertex`. -/
theorem EnumerateVertex_preserves (env : Env) (G : Graph) (u : Int) (P : EnumState → Prop)
    (hS : ∀ (st : EnumState) (S' : Nat → List Int), P st → P { st with S := S' })
    (hV : ∀ (st : EnumState) (v' : List Int), P st → P { st with visited := v' })
    (hE : ∀ (st : EnumState) (i : Nat), P st → P (emitSubgraph env G st i)) (fuel : Nat) :
    ∀ (st : EnumState) (rem i : Nat), P st → P (EnumerateVertex env G u fuel st rem i) := by
  induction fuel with
  | zero =>
    intro st rem i hP
    cases rem with
    | zero => simp only [EnumerateVertex]; exact hE st i hP
    | succ rem => simp only [EnumerateVertex]; exact hP
  | succ fuel ih =>
    intro st rem i hP
    cases rem with
    | zero => simp only [EnumerateVertex]; exact hE st i hP
    | succ rem =>
      simp only [EnumerateVertex]
      apply hV
      apply foldl_preserves P
      · intro acc k_i _ hacc
        unfold Combinations
        rw [Combination_eq_foldl]
        apply foldl_preserves P
        · intro acc' c _ hacc'
          exact ih _ _ _ (hS _ _ hacc')
        · exact hacc
      · exact hV _ _ hP

theorem Forall₂_snoc {α β : Type} {R : α → β → Prop} {l₁ : List α} {l₂ : List β} {a : α} {b : β}
    (h : List.Forall₂ R l₁ l₂) (hab : R a b) : List.Forall₂ R (l₁ ++ [a]) (l₂ ++ [b]) :=
  List.rel_append h (List.Forall₂.cons hab List.Forall₂.nil)

theorem Forall₂_imp_mem {α β : Type} {R T : α → β → Prop} {l₁ : List α} {l₂ : List β}
    (h : List.Forall₂ R l₁ l₂) (himp : ∀ a b, a ∈ l₁ → b ∈ l₂ → R a b → T a b) :
    List.Forall₂ T l₁ l₂ := by
  induction h with
  | nil => exact List.Forall₂.nil
  | cons hab _ ih =>
    exact List.Forall₂.cons (himp _ _ (List.mem_cons_self _ _) (List.mem_cons_self _ _) hab)
      (ih (fun a b ha hb => himp a b (List.mem_cons_of_mem _ ha) (List.mem_cons_of_mem _ hb)))

/-- If every pass through the `rem == 0` branch leaves the workspace in a
state `Q` when it found it in one, all the calls of the canonicalizer that
`EnumerateSubgraphsFromNode` makes are made on a workspace prepared from a `Q`
state. -/
theorem calls_from (Q : NyGraph → Prop) (env : Env) (G : Graph) (k : Nat) (u : Int)
    (st : EnumState) (h : EnumerateSubgraphsFromNode env G k u = some st)
    (hQ0 : Q (initialState env.flags G k u).nauty_graph)
    (hQ : ∀ (ng : NyGraph) (itv : List Int), Q ng →
      Q { callNauty env (prepareNauty env.flags G itv
            (initialState env.flags G k u).nvertex_layers ng) with
          matrix := EMPTYGRAPH
            (callNauty env (prepareNauty env.flags G itv
              (initialState env.flags G k u).nvertex_layers ng)).no_setwords
            (callNauty env (prepareNauty env.flags G itv
              (initialState env.flags G k u).nvertex_layers ng)).no_vertices }) :
    CallsFrom Q env G (initialState env.flags G k u).nvertex_layers st := by
  obtain ⟨_, _, _, rfl⟩ := (EnumerateSubgraphsFromNode_eq_some_iff env G k u st).mp h
  apply EnumerateVertex_preserves env G u
    (CallsFrom Q env G (initialState env.flags G k u).nvertex_layers)
  · intro st S' hP; exact hP
  · intro st v' hP; exact hP
  · intro st i hP
    obtain ⟨h1, h2, h3⟩ := hP
    refine ⟨h1, ?_, ?_⟩
    · have := hQ st.nauty_graph (levelSets env st.S i).flatten h2
      rw [← h1] at this
      exact this
    · have hem : (emitSubgraph env G st i).emitted = st.emitted ++ [levelSets env st.S i] := rfl
      have hca : (emitSubgraph env G st i).calls = st.calls ++
          [prepareNauty env.flags G (levelSets env st.S i).flatten st.nvertex_layers
            st.nauty_graph] := rfl
      rw [hem, hca]
      exact Forall₂_snoc h3 ⟨st.nauty_graph, h2, by rw [h1]⟩
  · exact ⟨rfl, hQ0, List.Forall₂.nil⟩

/-- The matrix is empty at every entry to the `rem == 0` branch. -/
theorem calls_from_empty (env : Env) (G : Graph) (k : Nat) (u : Int) (st : EnumState)
    (h : EnumerateSubgraphsFromNode env G k u = some st) :
    CallsFrom (MatrixEmpty (nautyVertices env.flags G k)) env G
      (initialState env.flags G k u).nvertex_layers st := by
  obtain ⟨_, h1, h64, _⟩ := (EnumerateSubgraphsFromNode_eq_some_iff env G k u st).mp h
  have hw := initialState_entryWorkspace env.flags G k u h1 h64
  apply calls_from _ env G k u st h
  · refine ⟨?_, hw.2.1, ?_⟩
    · rw [hw.1]
      unfold nautyVertices initialState
      by_cases he : env.flags.EDGE_COLORED = true <;> simp [he]
    · have := hw.2.2.2.1
      rw [this, hw.1]
      unfold nautyVertices initialState
      by_cases he : env.flags.EDGE_COLORED = true <;> simp [he]
  · intro ng itv hq
    obtain ⟨q1, q2, _⟩ := hq
    have e1 := (callNauty_fields env (prepareNauty env.flags G itv
      (initialState env.flags G k u).nvertex_layers ng)).1
    have e2 := (callNauty_fields env (prepareNauty env.flags G itv
      (initialState env.flags G k u).nvertex_layers ng)).2.1
    rw [(prepareNauty_fields _ _ _ _ _).1, q1] at e1
    rw [(prepareNauty_fields _ _ _ _ _).2.1, q2] at e2
    refine ⟨e1, e2, ?_⟩
    show EMPTYGRAPH _ _ = _
    rw [e1, e2]

/-- Without edge colours, a workspace prepared from an empty matrix has the
arc `(x, y)` exactly when the graph has an arc from vertex number `x` to
vertex number `y` of the subgraph. -/
theorem prepareNauty_bits_empty (flags : Flags) (G : Graph) (A : List Int) (L : Nat)
    (ng : NyGraph) (he : flags.EDGE_COLORED = false) (hq : MatrixEmpty A.length ng)
    (h64 : A.length ≤ 64) (x y : Nat) (hy : y < 64) :
    matrixBit (prepareNauty flags G A L ng).matrix x y = true ↔
      x < A.length ∧ y < A.length ∧
        lookupVertex A y ∈ G.outgoing_neighbors (lookupVertex A x) := by
  obtain ⟨hn, hm, hmat⟩ := hq
  have hlen : ng.matrix.length = A.length := by
    rw [hmat]; simp [EMPTYGRAPH]
  have h := addInducedEdges_bits flags G A L A.length A.length ng.matrix hlen (le_refl _)
    h64 (by simp [he])
  have hbit := h.2 x y hy
  simp only [prepareNauty, he, Bool.false_eq_true, if_false, hm]
  rw [hbit]
  have h0 : matrixBit ng.matrix x y = false := by rw [hmat]; exact matrixBit_EMPTYGRAPH _ _ _
  have hmode : ¬ (flags.EDGE_COLORED && decide (L > 1)) = true := by simp [he]
  simp only [h0, Bool.false_eq_true, false_or, if_neg hmode]
  constructor
  · rintro ⟨o, ho, i, hi, hedge, rfl, rfl⟩
    exact ⟨ho, hi, hedge⟩
  · rintro ⟨hx, hy', hedge⟩
    exact ⟨x, hx, y, hy', hedge, rfl, rfl⟩

/-- C16. In the uncoloured and vertex-coloured modes, at every call of the
canonicalizer during `EnumerateSubgraphsFromNode` (the log `calls` lists the
workspaces handed over, one for each emitted subgraph, in order), the
`k`-by-`k` matrix has entry `(a, b)` set if and only if the graph has an edge
from `index_to_vertex[a]` to `index_to_vertex[b]`, which for an undirected
graph means an edge between them; nothing set for an earlier subgraph is
left, and no entry outside the `k`-by-`k` block is set. -/
theorem canonicalizer_matrix_at_every_call (env : Env) (G : Graph) (k : Nat) (u : Int)
    (st : EnumState) (hG : G.Built) (he : env.flags.EDGE_COLORED = false)
    (h : EnumerateSubgraphsFromNode env G k u = some st) :
    List.Forall₂
      (fun levels x =>
        levels.flatten.length = k ∧
        (∀ a b, b < 64 → matrixBit x.matrix a b = true → a < k ∧ b < k) ∧
        (∀ a b, a < k → b < k →
          (matrixBit x.matrix a b = true ↔
            G.hasEdge (lookupVertex levels.flatten a) (lookupVertex levels.flatten b) = true)) ∧
        (G.directed = false → ∀ a b, a < k → b < k →
          (matrixBit x.matrix a b = true ↔
            G.adjacent (lookupVertex levels.flatten a) (lookupVertex levels.flatten b))))
      st.emitted st.calls := by
  have hwf := WellFormed_of_Built hG
  obtain ⟨_, _, h64, _⟩ := (EnumerateSubgraphsFromNode_eq_some_iff env G k u st).mp h
  have hnv : nautyVertices env.flags G k = k := by
    unfold nautyVertices
    simp [he]
  rw [hnv] at h64
  obtain ⟨_, _, hcalls⟩ := calls_from_empty env G k u st h
  rw [hnv] at hcalls
  apply Forall₂_imp_mem hcalls
  rintro levels x hl _ ⟨ng, hq, rfl⟩
  obtain ⟨_, hlen, _, _⟩ := emitted_vertices hG h hl
  rw [← hlen] at hq h64
  have hbits := prepareNauty_bits_empty env.flags G levels.flatten
    (initialState env.flags G k u).nvertex_layers ng he hq h64
  have hiff : ∀ a b, a < k → b < k →
      (matrixBit (prepareNauty env.flags G levels.flatten
          (initialState env.flags G k u).nvertex_layers ng).matrix a b = true ↔
        G.hasEdge (lookupVertex levels.flatten a) (lookupVertex levels.flatten b) = true) := by
    intro a b ha hb
    rw [hbits a b (by omega), hwf.outgoing_iff, hlen]
    simp [ha, hb]
  refine ⟨hlen, ?_, hiff, ?_⟩
  · intro a b hb hbit
    have := (hbits a b hb).mp hbit
    rw [hlen] at this
    exact ⟨this.1, this.2.1⟩
  · intro hd a b ha hb
    rw [hiff a b ha hb]
    constructor
    · exact fun h' => Or.inl h'
    · rintro (h' | h')
      · exact h'
      · exact hwf.undirected_symm hd _ _ h'

theorem star3_Built : (graphOf false (starOps 3)).Built :=
  graphOf_Built false _ (by decide!)

/-- The star with centre 0 and leaves 1, 2, 3, root 0, `k = 2`, without
colours: three subgraphs are emitted, and each of the three calls of the
canonicalizer gets the matrix with the entries `(0, 1)` and `(1, 0)` only. -/
theorem canonicalizer_matrix_at_every_call_witness :
    (graphOf false (starOps 3)).Built ∧ (plainEnv false).flags.EDGE_COLORED = false ∧
    EnumerateSubgraphsFromNode (plainEnv false) (graphOf false (starOps 3)) 2 0 =
      some (rootState (plainEnv false) (graphOf false (starOps 3)) 2 0) ∧
    (rootState (plainEnv false) (graphOf false (starOps 3)) 2 0).emitted =
      [[[0], [1]], [[0], [2]], [[0], [3]]] ∧
    (rootState (plainEnv false) (graphOf false (starOps 3)) 2 0).calls.map (fun x => x.matrix) =
      [[2 ^ 62, 2 ^ 63], [2 ^ 62, 2 ^ 63], [2 ^ 62, 2 ^ 63]] ∧
    List.Forall₂
      (fun levels x =>
        levels.flatten.length = 2 ∧
        (∀ a b, b < 64 → matrixBit x.matrix a b = true → a < 2 ∧ b < 2) ∧
        (∀ a b, a < 2 → b < 2 →
          (matrixBit x.matrix a b = true ↔
            (graphOf false (starOps 3)).hasEdge (lookupVertex levels.flatten a)
              (lookupVertex levels.flatten b) = true)) ∧
        ((graphOf false (starOps 3)).directed = false → ∀ a b, a < 2 → b < 2 →
          (matrixBit x.matrix a b = true ↔
            (graphOf false (starOps 3)).adjacent (lookupVertex levels.flatten a)
              (lookupVertex levels.flatten b))))
      (rootState (plainEnv false) (graphOf false (starOps 3)) 2 0).emitted
      (rootState (plainEnv false) (graphOf false (starOps 3)) 2 0).calls :=
  ⟨star3_Built, rfl,
   EnumerateSubgraphsFromNode_rootState (by decide!) (by decide!) (by decide!),
   by decide!, by decide!,
   canonicalizer_matrix_at_every_call (plainEnv false) (graphOf false (starOps 3)) 2 0
     (rootState (plainEnv false) (graphOf false (starOps 3)) 2 0) star3_Built rfl
     (EnumerateSubgraphsFromNode_rootState (by decide!) (by decide!) (by decide!))⟩

theorem writeCell_lengths (cell : List Nat) :
    ∀ acc : Nat × List Nat × List Nat,
      (cell.foldl
        (fun (acc : Nat × List Nat × List Nat) vertex_index =>
          (acc.1 + 1, acc.2.1.set acc.1 vertex_index, acc.2.2.set acc.1 1)) acc).2.1.length =
        acc.2.1.length ∧
      (cell.foldl
        (fun (acc : Nat × List Nat × List Nat) vertex_index =>
          (acc.1 + 1, acc.2.1.set acc.1 vertex_index, acc.2.2.set acc.1 1)) acc).2.2.length =
        acc.2.2.length := by
  induction cell with
  | nil => intro acc; exact ⟨rfl, rfl⟩
  | cons v cell ih =>
    intro acc
    rw [List.foldl_cons]
    obtain ⟨h1, h2⟩ := ih (acc.1 + 1, acc.2.1.set acc.1 v, acc.2.2.set acc.1 1)
    rw [h1, h2]
    simp

/-- Writing cells keeps the lengths of `lab` and `ptn`. -/
theorem writeCells_lengths (cells : List (List Nat)) :
    ∀ acc : Nat × List Nat × List Nat,
      (writeCells cells acc).2.1.length = acc.2.1.length ∧
      (writeCells cells acc).2.2.length = acc.2.2.length := by
  induction cells with
  | nil => intro acc; exact ⟨rfl, rfl⟩
  | cons cell cells ih =>
    intro acc
    unfold writeCells
    rw [List.foldl_cons]
    have h := ih
    unfold writeCells at h
    obtain ⟨h1, h2⟩ := h
      ((cell.foldl
          (fun (acc : Nat × List Nat × List Nat) vertex_index =>
            (acc.1 + 1, acc.2.1.set acc.1 vertex_index, acc.2.2.set acc.1 1)) acc).1,
        (cell.foldl
          (fun (acc : Nat × List Nat × List Nat) vertex_index =>
            (acc.1 + 1, acc.2.1.set acc.1 vertex_index, acc.2.2.set acc.1 1)) acc).2.1,
        (cell.foldl
          (fun (acc : Nat × List Nat × List Nat) vertex_index =>
            (acc.1 + 1, acc.2.1.set acc.1 vertex_index, acc.2.2.set acc.1 1)) acc).2.2.set
          ((cell.foldl
            (fun (acc : Nat × List Nat × List Nat) vertex_index =>
              (acc.1 + 1, acc.2.1.set acc.1 vertex_index, acc.2.2.set acc.1 1)) acc).1 - 1) 0)
    obtain ⟨g1, g2⟩ := writeCell_lengths cell acc
    simp only [] at h1 h2 ⊢
    rw [h1, h2, List.length_set, g1, g2]
    exact ⟨rfl, rfl⟩

/-- Preparing the workspace keeps the lengths of `lab` and `ptn`. -/
theorem prepareNauty_lengths (flags : Flags) (G : Graph) (itv : List Int) (L : Nat)
    (ng : NyGraph) :
    (prepareNauty flags G itv L ng).lab.length = ng.lab.length ∧
    (prepareNauty flags G itv L ng).ptn.length = ng.ptn.length := by
  by_cases he : flags.EDGE_COLORED = true
  · obtain ⟨e1, e2⟩ := prepareNauty_labptn_layered flags G itv L ng he
    rw [e1, e2, setLayerPartition_eq]
    exact writeCells_lengths _ _
  · have he' : flags.EDGE_COLORED = false := by simpa using he
    by_cases hv : flags.VERTEX_COLORED = true
    · obtain ⟨e1, e2⟩ := prepareNauty_labptn_vertex flags G itv L ng he' hv
      rw [e1, e2, setColorPartition_eq]
      exact writeCells_lengths _ _
    · have hv' : flags.VERTEX_COLORED = false := by simpa using hv
      simp [prepareNauty, he', hv']

/-- With a canonicalizer that writes `lab` and `ptn` in place, a pass through
the `rem == 0` branch leaves the workspace as it found it. -/
theorem entryWorkspace_preserved (env : Env) (G : Graph) (itv : List Int) (L L' k : Nat)
    (ng : NyGraph) (hkeep : KeepsArrays env.densenauty) (hws : EntryWorkspace env.flags L k ng) :
    EntryWorkspace env.flags L k
      { callNauty env (prepareNauty env.flags G itv L' ng) with
        matrix := EMPTYGRAPH (callNauty env (prepareNauty env.flags G itv L' ng)).no_setwords
          (callNauty env (prepareNauty env.flags G itv L' ng)).no_vertices } := by
  obtain ⟨a1, a2, a3, a4, a5, a6, a7, a8⟩ := hws
  obtain ⟨c1, c2, c3, _⟩ := callNauty_fields env (prepareNauty env.flags G itv L' ng)
  obtain ⟨p1, p2, p3⟩ := prepareNauty_fields env.flags G itv L' ng
  obtain ⟨l1, l2⟩ := prepareNauty_lengths env.flags G itv L' ng
  have k1 := hkeep (prepareNauty env.flags G itv L' ng).matrix
    (prepareNauty env.flags G itv L' ng).lab (prepareNauty env.flags G itv L' ng).ptn
    (!(prepareNauty env.flags G itv L' ng).colored)
    (prepareNauty env.flags G itv L' ng).no_setwords
    (prepareNauty env.flags G itv L' ng).no_vertices
    (by rw [l1, a5, p1]) (by rw [l2, a6, p1])
  have hlab : (callNauty env (prepareNauty env.flags G itv L' ng)).lab.length = ng.lab.length := by
    rw [a5, ← p1]; exact k1.1
  have hptn : (callNauty env (prepareNauty env.flags G itv L' ng)).ptn.length = ng.ptn.length := by
    rw [a6, ← p1]; exact k1.2
  rw [p1] at c1
  rw [p2] at c2
  rw [p3] at c3
  refine ⟨c1.trans a1, c2.trans a2, c3.trans a3, ?_, ?_, ?_, ?_, ?_⟩
  · show EMPTYGRAPH _ _ = EMPTYGRAPH 1 _
    rw [c2, a2]
  · show _ = (callNauty env (prepareNauty env.flags G itv L' ng)).no_vertices
    rw [hlab, a5, c1]
  · show _ = (callNauty env (prepareNauty env.flags G itv L' ng)).no_vertices
    rw [hptn, a6, c1]
  · show 1 ≤ (callNauty env (prepareNauty env.flags G itv L' ng)).no_vertices
    rw [c1]; exact a7
  · show (callNauty env (prepareNauty env.flags G itv L' ng)).no_vertices ≤ 64
    rw [c1]; exact a8

/-- With a canonicalizer that writes `lab` and `ptn` in place, every call of
the canonicalizer during `EnumerateSubgraphsFromNode` is made on a workspace
prepared from the state in which it was allocated. -/
theorem calls_from_entry (env : Env) (G : Graph) (k : Nat) (u : Int) (st : EnumState)
    (hkeep : KeepsArrays env.densenauty)
    (h : EnumerateSubgraphsFromNode env G k u = some st) :
    CallsFrom (EntryWorkspace env.flags (initialState env.flags G k u).nvertex_layers k) env G
      (initialState env.flags G k u).nvertex_layers st := by
  obtain ⟨_, h1, h64, _⟩ := (EnumerateSubgraphsFromNode_eq_some_iff env G k u st).mp h
  apply calls_from _ env G k u st h (initialState_entryWorkspace env.flags G k u h1 h64)
  intro ng itv hq
  exact entryWorkspace_preserved env G itv _ _ k ng hkeep hq

theorem cellAt_succ (P : List Nat) (p : Nat) (hp : p < P.length) :
    cellAt P (p + 1) = cellAt P p + (if P.getD p 0 = 0 then 1 else 0) := by
  unfold cellAt
  rw [List.take_succ, List.getElem?_eq_getElem hp, List.filter_append, List.length_append,
    List.getD_eq_getElem _ _ hp]
  by_cases h : P[p] = 0
  · simp [h]
  · simp [h]

theorem cellAt_le_succ (P : List Nat) (p : Nat) : cellAt P p ≤ cellAt P (p + 1) := by
  unfold cellAt
  rw [List.take_succ, List.filter_append, List.length_append]
  omega

theorem cellAt_mono (P : List Nat) {p q : Nat} (h : p ≤ q) : cellAt P p ≤ cellAt P q := by
  induction q with
  | zero =>
    have : p = 0 := by omega
    rw [this]
  | succ q ih =>
    rcases Nat.lt_or_ge p (q + 1) with hlt | hge
    · exact le_trans (ih (by omega)) (cellAt_le_succ P q)
    · have : p = q + 1 := by omega
      rw [this]

theorem cellMarks_zero_one (n x : Nat) (hx : x ∈ cellMarks n) : x = 0 ∨ x = 1 := by
  unfold cellMarks at hx
  rcases List.mem_append.mp hx with h | h
  · exact Or.inr (List.eq_of_mem_replicate h)
  · exact Or.inl (List.mem_singleton.mp h)

theorem cellMarks_zeros (n : Nat) :
    ((cellMarks n).filter (fun x => decide (x = 0))).length = 1 := by
  unfold cellMarks
  rw [List.filter_append, List.filter_replicate]
  simp

theorem marks_zeros {α : Type} (K : List α) (n : α → Nat) :
    ((K.flatMap (fun c => cellMarks (n c))).filter (fun x => decide (x = 0))).length =
      K.length := by
  induction K with
  | nil => rfl
  | cons c K ih =>
    rw [List.flatMap_cons, List.filter_append, List.length_append, cellMarks_zeros, ih,
      List.length_cons]
    omega

theorem colorPartition_lab_perm (G : Graph) (A : List Int) (lab ptn : List Nat)
    (hlab : lab.length = A.length) (hptn : ptn.length = A.length) :
    (setColorPartition (buildColoring G A) lab ptn).1.Perm (List.range A.length) := by
  have hcells := mapEntries_cells G A
  have hperm := coloring_cells_perm G A
  have hlenf : (((mapEntries (buildColoring G A)).map (fun e => e.2)).flatten).length = A.length := by
    rw [hperm.length_eq, List.length_range]
  have hne : ∀ cell ∈ (mapEntries (buildColoring G A)).map (fun e => e.2), cell ≠ [] := by
    intro cell hcell
    obtain ⟨e, he, rfl⟩ := List.mem_map.mp hcell
    exact (hcells e he).2
  have hw := writeCells_full _ hne lab ptn (hlab.trans hlenf.symm) (hptn.trans hlenf.symm)
  rw [setColorPartition_eq, hw]
  exact hperm

/-- What the `VERTEX_COLORED` setting of `lab` and `ptn` leaves is the
partition of the subgraph indices by vertex colour. -/
theorem colorPartitioned (G : Graph) (A : List Int) (lab ptn : List Nat)
    (hlab : lab.length = A.length) (hptn : ptn.length = A.length) :
    ColorPartitioned G A (setColorPartition (buildColoring G A) lab ptn).1
      (setColorPartition (buildColoring G A) lab ptn).2 := by
  obtain ⟨hmarks, hpos, _⟩ := colorPartition_spec G A lab ptn hlab hptn
  obtain ⟨hKs, hKn, hKm⟩ := colorKeys_spec G A
  have hperm := colorPartition_lab_perm G A lab ptn hlab hptn
  have hlabl : (setColorPartition (buildColoring G A) lab ptn).1.length = A.length := by
    rw [hperm.length_eq, List.length_range]
  have hptnl : (setColorPartition (buildColoring G A) lab ptn).2.length = A.length := by
    rw [setColorPartition_eq]
    exact (writeCells_lengths _ _).2.trans hptn
  generalize hL : (setColorPartition (buildColoring G A) lab ptn).1 = lab' at *
  generalize hP : (setColorPartition (buildColoring G A) lab ptn).2 = P at *
  have hzeros : (P.filter (fun x => decide (x = 0))).length = (colorKeys G A).length := by
    rw [hmarks]; exact marks_zeros _ _
  have hcellk : cellAt P A.length = (colorKeys G A).length := by
    unfold cellAt
    rw [← hptnl, List.take_length]
    exact hzeros
  have hKle : ∀ a b, a ≤ b → b < (colorKeys G A).length →
      (colorKeys G A).getD a 0 ≤ (colorKeys G A).getD b 0 := by
    intro a b hab hb
    rw [List.getD_eq_getElem _ _ (by omega), List.getD_eq_getElem _ _ hb]
    rcases Nat.lt_or_ge a b with hlt | hge
    · exact (List.pairwise_iff_getElem.mp hKs) a b (by omega) hb hlt
    · have : a = b := by omega
      subst this
      exact le_refl _
  have hP01 : ∀ p, p < A.length → P.getD p 0 = 0 ∨ P.getD p 0 = 1 := by
    intro p hp
    have hp' : p < P.length := by rw [hptnl]; exact hp
    rw [List.getD_eq_getElem _ _ hp']
    have hmem : P[p] ∈ (colorKeys G A).flatMap
        (fun c => cellMarks ((A.map G.color).count c)) := by
      rw [← hmarks]; exact List.getElem_mem hp'
    obtain ⟨c, _, hc⟩ := List.mem_flatMap.mp hmem
    exact cellMarks_zero_one _ _ hc
  have hlast : ∀ p, p + 1 = A.length → P.getD p 0 = 0 := by
    intro p hp
    have hp' : p < P.length := by rw [hptnl]; omega
    have h1 := cellAt_succ P p hp'
    rw [hp, hcellk] at h1
    have h2 := (hpos p (by omega)).2.1
    by_contra hne
    rw [if_neg hne] at h1
    omega
  refine ⟨hperm, ?_, ?_, ?_, ?_⟩
  · unfold List.Sorted
    rw [List.pairwise_iff_getElem]
    intro i j hi hj hij
    rw [List.length_map, hlabl] at hi hj
    rw [List.getElem_map, List.getElem_map]
    have hi' : i < lab'.length := by rw [hlabl]; exact hi
    have hj' : j < lab'.length := by rw [hlabl]; exact hj
    have ei := (hpos i hi).2.2
    have ej := (hpos j hj).2.2
    rw [List.getD_eq_getElem _ _ hi'] at ei
    rw [List.getD_eq_getElem _ _ hj'] at ej
    rw [ei, ej]
    exact hKle _ _ (cellAt_mono P (by omega)) (hpos j hj).2.1
  · intro p hp
    have hp' : p < P.length := by rw [hptnl]; exact hp
    by_cases hend : p + 1 = A.length
    · rw [if_pos (Or.inl hend)]
      exact hlast p hend
    · have hp1 : p + 1 < A.length := by omega
      have e0 := (hpos p hp).2.2
      have e1 := (hpos (p + 1) hp1).2.2
      have b0 := (hpos p hp).2.1
      have b1 := (hpos (p + 1) hp1).2.1
      have hstep := cellAt_succ P p hp'
      have hcolne : G.color (lookupVertex A (lab'.getD p 0)) ≠
            G.color (lookupVertex A (lab'.getD (p + 1) 0)) ↔ P.getD p 0 = 0 := by
        rw [e0, e1, List.getD_eq_getElem _ _ b0, List.getD_eq_getElem _ _ b1]
        constructor
        · intro hne
          by_contra h0
          rw [if_neg h0, Nat.add_zero] at hstep
          apply hne
          congr 1
          exact hstep.symm
        · intro h0 heq
          rw [if_pos h0] at hstep
          have := (hKn.getElem_inj_iff).mp heq
          omega
      by_cases hz : P.getD p 0 = 0
      · rw [if_pos (Or.inr (hcolne.mpr hz))]
        exact hz
      · have hnot : ¬ (p + 1 = A.length ∨ G.color (lookupVertex A (lab'.getD p 0)) ≠
            G.color (lookupVertex A (lab'.getD (p + 1) 0))) := by
          rintro (h | h)
          · exact hend h
          · exact hz (hcolne.mp h)
        rw [if_neg hnot]
        rcases hP01 p hp with h | h
        · exact absurd h hz
        · exact h
  · rw [hzeros]
    apply List.Perm.length_eq
    rw [List.perm_ext_iff_of_nodup hKn (List.nodup_dedup _)]
    intro c
    rw [hKm, List.mem_dedup]
  · intro hk
    exact hlast (A.length - 1) (by omega)

theorem identityNauty_keepsArrays : KeepsArrays identityNauty := by
  intro matrix lab ptn d m n _ _
  simp [identityNauty]

/-- C15. In vertex-coloured mode (no edge colours), for every emitted
`k`-vertex subgraph the arrays handed to the canonicalizer (the log `calls`
lists the workspaces, one for each emitted subgraph, in order) are such that
`lab` is a rearrangement of the subgraph indices `0, ..., k - 1` listing them
grouped by vertex colour in ascending colour order, and `ptn[p]` is 0 exactly
when `p` is the last position of its colour group and 1 otherwise, so that
the zeros are as many as the distinct colours and `ptn[k - 1] = 0`.  The
canonicalizer is taken to write `lab` and `ptn` in place. -/
theorem vertex_partition_at_every_call (env : Env) (G : Graph) (k : Nat) (u : Int)
    (st : EnumState) (hG : G.Built) (he : env.flags.EDGE_COLORED = false)
    (hv : env.flags.VERTEX_COLORED = true) (hkeep : KeepsArrays env.densenauty)
    (h : EnumerateSubgraphsFromNode env G k u = some st) :
    List.Forall₂
      (fun levels x => levels.flatten.length = k ∧
        ColorPartitioned G levels.flatten x.lab x.ptn)
      st.emitted st.calls := by
  obtain ⟨_, _, hcalls⟩ := calls_from_entry env G k u st hkeep h
  apply Forall₂_imp_mem hcalls
  rintro levels x hl _ ⟨ng, hq, rfl⟩
  obtain ⟨_, hlen, _, _⟩ := emitted_vertices hG h hl
  refine ⟨hlen, ?_⟩
  obtain ⟨e1, e2⟩ := prepareNauty_labptn_vertex env.flags G levels.flatten
    (initialState env.flags G k u).nvertex_layers ng he hv
  rw [e1, e2]
  have hn := hq.1
  simp only [he, Bool.false_eq_true, if_false] at hn
  apply colorPartitioned
  · rw [hq.2.2.2.2.1, hn, hlen]
  · rw [hq.2.2.2.2.2.1, hn, hlen]

theorem coloredStar_Built : (graphOf false coloredStarOps).Built :=
  graphOf_Built false _ (by decide!)

/-- The star with centre 0 of colour 5 and leaves of colours 1, 5, 7, root 0,
`k = 2`, in vertex-coloured mode with the stand-in canonicalizer: the three
calls get `lab = [1, 0]`, `ptn = [0, 0]` (leaf of the lower colour 1 first),
then `lab = [0, 1]`, `ptn = [1, 0]` (one colour group), then `lab = [0, 1]`,
`ptn = [0, 0]`. -/
theorem vertex_partition_at_every_call_witness :
    (graphOf false coloredStarOps).Built ∧ vertexColoredEnv.flags.EDGE_COLORED = false ∧
    vertexColoredEnv.flags.VERTEX_COLORED = true ∧ KeepsArrays vertexColoredEnv.densenauty ∧
    EnumerateSubgraphsFromNode vertexColoredEnv (graphOf false coloredStarOps) 2 0 =
      some (rootState vertexColoredEnv (graphOf false coloredStarOps) 2 0) ∧
    (rootState vertexColoredEnv (graphOf false coloredStarOps) 2 0).emitted =
      [[[0], [1]], [[0], [2]], [[0], [3]]] ∧
    (rootState vertexColoredEnv (graphOf false coloredStarOps) 2 0).calls.map
        (fun x => (x.lab, x.ptn)) =
      [([1, 0], [0, 0]), ([0, 1], [1, 0]), ([0, 1], [0, 0])] ∧
    List.Forall₂
      (fun levels x => levels.flatten.length = 2 ∧
        ColorPartitioned (graphOf false coloredStarOps) levels.flatten x.lab x.ptn)
      (rootState vertexColoredEnv (graphOf false coloredStarOps) 2 0).emitted
      (rootState vertexColoredEnv (graphOf false coloredStarOps) 2 0).calls :=
  ⟨coloredStar_Built, rfl, rfl, identityNauty_keepsArrays,
   EnumerateSubgraphsFromNode_rootState (by decide!) (by decide!) (by decide!),
   by decide!, by decide!,
   vertex_partition_at_every_call vertexColoredEnv (graphOf false coloredStarOps) 2 0
     (rootState vertexColoredEnv (graphOf false coloredStarOps) 2 0) coloredStar_Built rfl rfl
     identityNauty_keepsArrays
     (EnumerateSubgraphsFromNode_rootState (by decide!) (by decide!) (by decide!))⟩

/-- The prepared matrix depends on the workspace only through its matrix and
its number of words per row. -/
theorem prepareNauty_matrix_congr (flags : Flags) (G : Graph) (A : List Int) (L : Nat)
    (ng ng' : NyGraph) (h1 : ng.matrix = ng'.matrix) (h2 : ng.no_setwords = ng'.no_setwords) :
    (prepareNauty flags G A L ng).matrix = (prepareNauty flags G A L ng').matrix := by
  simp only [prepareNauty, addLayerCycle, h1, h2]

/-- C14. In edge-coloured mode, at every call of the canonicalizer during
`EnumerateSubgraphsFromNode` (the log `calls` lists the workspaces handed
over, one for each emitted subgraph, in order), with `L = nvertex_layers` the
layer count of `nedge_types` (at least 1, since the run did not abort) and
every colour `c` of an induced edge satisfying `0 <= c < nedge_types`, the
matrix has entry `(x, y)` set if and only if either `x = iv + l * k` and
`y = iv + ((l + 1) mod L) * k` for some `iv < k` and `l < L` (the cycle
linking the layers), or `x = a + p * k` and `y = b + p * k` for an induced
edge from index `a` to index `b` of colour `c` and a bit position `p` set in
`c + 1` (a coloured edge). -/
theorem layered_matrix_bits (env : Env) (G : Graph) (k : Nat) (u : Int) (st : EnumState)
    (hG : G.Built) (he : env.flags.EDGE_COLORED = true)
    (h : EnumerateSubgraphsFromNode env G k u = some st) :
    1 ≤ layerCount G.nedge_types ∧
    List.Forall₂
      (fun levels M =>
        levels.flatten.length = k ∧
        (ColorsInRange G levels.flatten → ∀ x y, y < 64 →
          (matrixBit M.matrix x y = true ↔
            ((∃ iv, iv < k ∧ ∃ l, l < layerCount G.nedge_types ∧ x = iv + l * k ∧
                y = iv + ((l + 1) % layerCount G.nedge_types) * k) ∨
             (∃ a, a < k ∧ ∃ b, b < k ∧
                G.hasEdge (lookupVertex levels.flatten a) (lookupVertex levels.flatten b) = true ∧
                ∃ p, Nat.testBit ((G.edgeColor (lookupVertex levels.flatten a)
                    (lookupVertex levels.flatten b)).toNat + 1) p = true ∧
                  x = a + p * k ∧ y = b + p * k)))))
      st.emitted st.calls := by
  obtain ⟨_, h1, h64, _⟩ := (EnumerateSubgraphsFromNode_eq_some_iff env G k u st).mp h
  have hL : (initialState env.flags G k u).nvertex_layers = layerCount G.nedge_types := by
    simp [initialState, he]
  have hnv : nautyVertices env.flags G k = layerCount G.nedge_types * k := by
    simp [nautyVertices, he]
  rw [hnv] at h1 h64
  have hL1 : 1 ≤ layerCount G.nedge_types := by
    rcases Nat.eq_zero_or_pos (layerCount G.nedge_types) with h0 | h0
    · rw [h0] at h1; simp at h1
    · exact h0
  refine ⟨hL1, ?_⟩
  obtain ⟨_, _, hcalls⟩ := calls_from_empty env G k u st h
  rw [hnv, hL] at hcalls
  apply Forall₂_imp_mem hcalls
  rintro levels M hl _ ⟨ng, hq, rfl⟩
  obtain ⟨_, hlen, _, _⟩ := emitted_vertices hG h hl
  refine ⟨hlen, ?_⟩
  intro hcol x y hy
  obtain ⟨q1, q2, q3⟩ := hq
  have hws : EntryWorkspace env.flags (layerCount G.nedge_types) levels.flatten.length
      (NyGraph.new (layerCount G.nedge_types * k) true) := by
    have := NyGraph_new_entry (layerCount G.nedge_types * k) true h1 h64
    obtain ⟨a1, a2, a3, a4, a5, a6, a7, a8⟩ := this
    refine ⟨?_, a2, ?_, a4, a5, a6, a7, a8⟩
    · rw [a1, hlen]; simp [he]
    · rw [a3, he]; rfl
  have hm : (prepareNauty env.flags G levels.flatten (layerCount G.nedge_types) ng).matrix =
      (prepareNauty env.flags G levels.flatten (layerCount G.nedge_types)
        (NyGraph.new (layerCount G.nedge_types * k) true)).matrix := by
    apply prepareNauty_matrix_congr
    · rw [q3, hws.2.2.2.1, (NyGraph_new_fields _ _).1]
    · rw [q2, hws.2.1]
  rw [hm]
  have hb := prepared_layered_bits env.flags G levels.flatten (layerCount G.nedge_types)
    (NyGraph.new (layerCount G.nedge_types * k) true) hG he rfl hcol hws x y hy
  rw [hlen] at hb
  exact hb

/-- The graph `coloredTriangles`, root 0, `k = 3`: the one subgraph emitted is
the first 3-cycle, numbered `[0, 1, 2]`; in the matrix handed to the
canonicalizer the edge 1→2 of colour 1 stands on layer 1 only, as entry
`(4, 5)`, and the six row bytes are 50 08 84 80 44 20. -/
theorem layered_matrix_bits_witness :
    coloredTriangles.Built ∧ edgeColoredEnv.flags.EDGE_COLORED = true ∧
    EnumerateSubgraphsFromNode edgeColoredEnv coloredTriangles 3 0 =
      some (rootState edgeColoredEnv coloredTriangles 3 0) ∧
    (rootState edgeColoredEnv coloredTriangles 3 0).emitted = [[[0], [1, 2]]] ∧
    ColorsInRange coloredTriangles [0, 1, 2] ∧
    (rootState edgeColoredEnv coloredTriangles 3 0).calls.map
        (fun M => keptBytes M.matrix (6 * 8)) = [[80, 8, 132, 128, 68, 32]] ∧
    (1 ≤ layerCount coloredTriangles.nedge_types ∧
      List.Forall₂
        (fun levels M =>
          levels.flatten.length = 3 ∧
          (ColorsInRange coloredTriangles levels.flatten → ∀ x y, y < 64 →
            (matrixBit M.matrix x y = true ↔
              ((∃ iv, iv < 3 ∧ ∃ l, l < layerCount coloredTriangles.nedge_types ∧
                  x = iv + l * 3 ∧
                  y = iv + ((l + 1) % layerCount coloredTriangles.nedge_types) * 3) ∨
               (∃ a, a < 3 ∧ ∃ b, b < 3 ∧
                  coloredTriangles.hasEdge (lookupVertex levels.flatten a)
                    (lookupVertex levels.flatten b) = true ∧
                  ∃ p, Nat.testBit ((coloredTriangles.edgeColor (lookupVertex levels.flatten a)
                      (lookupVertex levels.flatten b)).toNat + 1) p = true ∧
                    x = a + p * 3 ∧ y = b + p * 3)))))
        (rootState edgeColoredEnv coloredTriangles 3 0).emitted
        (rootState edgeColoredEnv coloredTriangles 3 0).calls) :=
  ⟨coloredTriangles_Built, rfl,
   EnumerateSubgraphsFromNode_rootState (by decide!) (by decide!) (by decide!),
   by decide!, by decide!, by decide!,
   layered_matrix_bits edgeColoredEnv coloredTriangles 3 0
     (rootState edgeColoredEnv coloredTriangles 3 0) coloredTriangles_Built rfl
     (EnumerateSubgraphsFromNode_rootState (by decide!) (by decide!) (by decide!))⟩

theorem typedPoint_Built (n : Int) : (typedPoint n).Built := by
  have hG : (Graph.new true false true n).build pointOps =
      some { Graph.new true false true n with
        vertices := [(0, Vertex.new 0 0 (-1) (-1))] } := by
    simp only [pointOps, Graph.build, Graph.AddVertex, Graph.new, mapFind, mapSet]
  generalize ({ Graph.new true false true n with
    vertices := [(0, Vertex.new 0 0 (-1) (-1))] } : Graph) = G at hG
  have : typedPoint n = G := by simp [typedPoint, hG]
  rw [this]
  exact Built_of_build (Graph.Built.new true false true n) pointOps hG

theorem typedPoint_fields (n : Int) :
    (typedPoint n).nedge_types = n ∧ (typedPoint n).hasVertex 0 = true := by
  have h : (Graph.new true false true n).build pointOps =
      some { Graph.new true false true n with
        vertices := [(0, Vertex.new 0 0 (-1) (-1))] } := by
    simp only [pointOps, Graph.build, Graph.AddVertex, Graph.new, mapFind, mapSet]
  rw [typedPoint, h]
  simp [Graph.new, Graph.hasVertex, mapFind]

/-- C21. For every `nedge_types` from 1 to 7, the layer count that
`EnumerateSubgraphsFromNode` computes in edge-coloured mode (the value of
`nvertex_layers` in the state it starts from) is the least `L` with
`2 ^ L ≥ nedge_types + 1`, lies between 1 and 3, and takes the values
1, 2, 2, 3, 3, 3, 3. -/
theorem layer_count_of_edge_types (flags : Flags) (G : Graph) (k : Nat) (u : Int)
    (he : flags.EDGE_COLORED = true) (h1 : 1 ≤ G.nedge_types) (h7 : G.nedge_types ≤ 7) :
    G.nedge_types + 1 ≤ 2 ^ (initialState flags G k u).nvertex_layers ∧
    (∀ L : Nat, G.nedge_types + 1 ≤ 2 ^ L → (initialState flags G k u).nvertex_layers ≤ L) ∧
    1 ≤ (initialState flags G k u).nvertex_layers ∧
    (initialState flags G k u).nvertex_layers ≤ 3 ∧
    (initialState flags G k u).nvertex_layers =
      [1, 2, 2, 3, 3, 3, 3].getD (G.nedge_types.toNat - 1) 0 := by
  have hL : (initialState flags G k u).nvertex_layers = layerCount G.nedge_types := by
    simp [initialState, he]
  rw [hL]
  obtain ⟨n, hn⟩ : ∃ n : Nat, G.nedge_types = (n : Int) :=
    ⟨G.nedge_types.toNat, (Int.toNat_of_nonneg (by omega)).symm⟩
  rw [hn] at h1 h7 ⊢
  have hn1 : 1 ≤ n := by omega
  have hn7 : n ≤ 7 := by omega
  have hc : layerCount (n : Int) = Nat.clog 2 (n + 1) := by
    unfold layerCount
    congr 1
  rw [hc]
  refine ⟨?_, ?_, ?_, ?_, ?_⟩
  · have := Nat.le_pow_clog (by decide : 1 < 2) (n + 1)
    exact_mod_cast this
  · intro L h
    apply (Nat.le_pow_iff_clog_le (by decide : 1 < 2)).mp
    exact_mod_cast h
  · exact Nat.clog_pos (by decide) (by omega)
  · exact (Nat.le_pow_iff_clog_le (by decide : 1 < 2)).mp (by omega)
  · rw [Int.toNat_ofNat]
    interval_cases n <;> decide!

/-- Seven edge types give three layers; the values for 1, ..., 7 edge types
are 1, 2, 2, 3, 3, 3, 3. -/
theorem layer_count_of_edge_types_witness :
    edgeColoredEnv.flags.EDGE_COLORED = true ∧
    (1 : Int) ≤ (typedPoint 7).nedge_types ∧ (typedPoint 7).nedge_types ≤ 7 ∧
    (List.range 7).map (fun n =>
      (initialState edgeColoredEnv.flags (typedPoint (n + 1)) 3 0).nvertex_layers) =
      [1, 2, 2, 3, 3, 3, 3] ∧
    ((typedPoint 7).nedge_types + 1 ≤
        2 ^ (initialState edgeColoredEnv.flags (typedPoint 7) 3 0).nvertex_layers ∧
      (∀ L : Nat, (typedPoint 7).nedge_types + 1 ≤ 2 ^ L →
        (initialState edgeColoredEnv.flags (typedPoint 7) 3 0).nvertex_layers ≤ L) ∧
      1 ≤ (initialState edgeColoredEnv.flags (typedPoint 7) 3 0).nvertex_layers ∧
      (initialState edgeColoredEnv.flags (typedPoint 7) 3 0).nvertex_layers ≤ 3 ∧
      (initialState edgeColoredEnv.flags (typedPoint 7) 3 0).nvertex_layers =
        [1, 2, 2, 3, 3, 3, 3].getD ((typedPoint 7).nedge_types.toNat - 1) 0) :=
  ⟨rfl, by decide!, by decide!, by decide!,
   layer_count_of_edge_types edgeColoredEnv.flags (typedPoint 7) 3 0 rfl (by decide!)
     (by decide!)⟩

theorem initialState_layers (flags : Flags) (G : Graph) (k : Nat) (u : Int) :
    (initialState flags G k u).nvertex_layers * k = nautyVertices flags G k ∧
    (initialState flags G k u).nauty_graph.no_vertices = nautyVertices flags G k ∧
    (initialState flags G k u).nauty_graph.no_setwords = (nautyVertices flags G k + 63) / 64 := by
  obtain ⟨v, e, c, w⟩ := flags
  cases e <;> cases v <;> simp [initialState, nautyVertices, NyGraph.new, WORDSIZE]

/-- C22 (amended). For every motif size `k`, with `L` the layer count
(`nvertex_layers`: that of the edge types in edge-coloured mode, 1 otherwise)
and `u` a vertex of the graph: the nauty graph has `L * k` vertices and
`no_setwords = (L * k + 63) / 64`, and the word-size assertion of
`EnumerateSubgraphsFromNode` passes if and only if `1 ≤ L * k ≤ 64`; it aborts
the enumeration when `L * k = 0` and when `L * k > 64`.  With seven edge types
(`L = 3`) it passes exactly for `1 ≤ k ≤ 21`. -/
theorem word_size_assertion (env : Env) (G : Graph) (k : Nat) (u : Int)
    (hu : G.hasVertex u = true) :
    (initialState env.flags G k u).nauty_graph.no_vertices =
      (initialState env.flags G k u).nvertex_layers * k ∧
    (initialState env.flags G k u).nauty_graph.no_setwords =
      ((initialState env.flags G k u).nvertex_layers * k + 63) / 64 ∧
    ((EnumerateSubgraphsFromNode env G k u).isSome = true ↔
      1 ≤ (initialState env.flags G k u).nvertex_layers * k ∧
      (initialState env.flags G k u).nvertex_layers * k ≤ 64) ∧
    (EnumerateSubgraphsFromNode env G k u = none ↔
      (initialState env.flags G k u).nvertex_layers * k = 0 ∨
      64 < (initialState env.flags G k u).nvertex_layers * k) ∧
    (env.flags.EDGE_COLORED = true → G.nedge_types = 7 →
      (initialState env.flags G k u).nvertex_layers = 3 ∧
      ((EnumerateSubgraphsFromNode env G k u).isSome = true ↔ 1 ≤ k ∧ k ≤ 21)) := by
  obtain ⟨e1, e2, e3⟩ := initialState_layers env.flags G k u
  have hsome : (EnumerateSubgraphsFromNode env G k u).isSome = true ↔
      1 ≤ (initialState env.flags G k u).nvertex_layers * k ∧
      (initialState env.flags G k u).nvertex_layers * k ≤ 64 := by
    rw [e1]
    constructor
    · intro h
      obtain ⟨st, hst⟩ := Option.isSome_iff_exists.mp h
      obtain ⟨_, h1, h2, _⟩ := (EnumerateSubgraphsFromNode_eq_some_iff env G k u st).mp hst
      exact ⟨h1, h2⟩
    · rintro ⟨h1, h2⟩
      rw [EnumerateSubgraphsFromNode_rootState hu h1 h2]
      rfl
  refine ⟨by rw [e2, e1], by rw [e3, e1], hsome, ?_, ?_⟩
  · rw [EnumerateSubgraphsFromNode_eq_none_iff, e1]
    constructor
    · intro h
      by_contra hc
      exact h ⟨hu, by omega, by omega⟩
    · rintro h ⟨_, h1, h2⟩
      omega
  · intro he h7
    have hL : (initialState env.flags G k u).nvertex_layers = 3 := by
      simp only [initialState, he, if_true, h7]
      decide!
    refine ⟨hL, ?_⟩
    rw [hsome, hL]
    omega

/-- Seven edge types and `k = 21`, root 0 of the graph holding that vertex
only: three layers, a nauty graph of 63 vertices and one word per row, and
the enumeration runs; with `k = 22` it aborts. -/
theorem word_size_assertion_witness :
    (typedPoint 7).hasVertex 0 = true ∧ edgeColoredEnv.flags.EDGE_COLORED = true ∧
    (typedPoint 7).nedge_types = 7 ∧
    (EnumerateSubgraphsFromNode edgeColoredEnv (typedPoint 7) 21 0).isSome = true ∧
    EnumerateSubgraphsFromNode edgeColoredEnv (typedPoint 7) 22 0 = none ∧
    ((initialState edgeColoredEnv.flags (typedPoint 7) 21 0).nauty_graph.no_vertices =
      (initialState edgeColoredEnv.flags (typedPoint 7) 21 0).nvertex_layers * 21 ∧
    (initialState edgeColoredEnv.flags (typedPoint 7) 21 0).nauty_graph.no_setwords =
      ((initialState edgeColoredEnv.flags (typedPoint 7) 21 0).nvertex_layers * 21 + 63) / 64 ∧
    ((EnumerateSubgraphsFromNode edgeColoredEnv (typedPoint 7) 21 0).isSome = true ↔
      1 ≤ (initialState edgeColoredEnv.flags (typedPoint 7) 21 0).nvertex_layers * 21 ∧
      (initialState edgeColoredEnv.flags (typedPoint 7) 21 0).nvertex_layers * 21 ≤ 64) ∧
    (EnumerateSubgraphsFromNode edgeColoredEnv (typedPoint 7) 21 0 = none ↔
      (initialState edgeColoredEnv.flags (typedPoint 7) 21 0).nvertex_layers * 21 = 0 ∨
      64 < (initialState edgeColoredEnv.flags (typedPoint 7) 21 0).nvertex_layers * 21) ∧
    (edgeColoredEnv.flags.EDGE_COLORED = true → (typedPoint 7).nedge_types = 7 →
      (initialState edgeColoredEnv.flags (typedPoint 7) 21 0).nvertex_layers = 3 ∧
      ((EnumerateSubgraphsFromNode edgeColoredEnv (typedPoint 7) 21 0).isSome = true ↔
        1 ≤ 21 ∧ 21 ≤ 21))) :=
  ⟨by decide!, rfl, by decide!, by decide!,
   (EnumerateSubgraphsFromNode_eq_none_iff _ _ _ _).mpr (by decide!),
   word_size_assertion edgeColoredEnv (typedPoint 7) 21 0 (by decide!)⟩

/-- C22 fails as stated when `L * k = 0`.  In edge-coloured mode on a graph
without edge types the layer count is 0, so `L * k = 0 ≤ 64` for `k = 2`, and
with seven edge types and `k = 0` again `L * k = 0 ≤ 64` and `k ≤ 21`; in both
runs `no_setwords` is 0 and `EnumerateSubgraphsFromNode` aborts on its
word-size assertion although the root is a vertex of the graph. -/
theorem word_size_assertion_fails_at_zero :
    edgeColoredEnv.flags.EDGE_COLORED = true ∧
    (graphOf false edgeOps).hasVertex 0 = true ∧
    (initialState edgeColoredEnv.flags (graphOf false edgeOps) 2 0).nvertex_layers = 0 ∧
    (initialState edgeColoredEnv.flags (graphOf false edgeOps) 2 0).nvertex_layers * 2 ≤ 64 ∧
    (initialState edgeColoredEnv.flags (graphOf false edgeOps) 2 0).nauty_graph.no_setwords = 0 ∧
    EnumerateSubgraphsFromNode edgeColoredEnv (graphOf false edgeOps) 2 0 = none ∧
    (typedPoint 7).nedge_types = 7 ∧ (typedPoint 7).hasVertex 0 = true ∧
    (initialState edgeColoredEnv.flags (typedPoint 7) 0 0).nvertex_layers = 3 ∧
    (initialState edgeColoredEnv.flags (typedPoint 7) 0 0).nvertex_layers * 0 ≤ 64 ∧
    (0 : Nat) ≤ 21 ∧
    (initialState edgeColoredEnv.flags (typedPoint 7) 0 0).nauty_graph.no_setwords = 0 ∧
    EnumerateSubgraphsFromNode edgeColoredEnv (typedPoint 7) 0 0 = none :=
  ⟨rfl, by decide!, by decide!, by decide!, by decide!,
   (EnumerateSubgraphsFromNode_eq_none_iff _ _ _ _).mpr (by decide!),
   by decide!, by decide!, by decide!, by decide!, by decide, by decide!,
   (EnumerateSubgraphsFromNode_eq_none_iff _ _ _ _).mpr (by decide!)⟩

theorem mem_combinationsFrom {r : Nat} {rest combination c : List Int}
    (h : combination.length ≤ r) (hc : c ∈ combinationsFrom r rest combination) :
    ∃ t, c = combination ++ t ∧ t.Sublist rest ∧ t.length = r - combination.length := by
  have := (combinationsFrom_perm r rest combination h).mem_iff.mp hc
  obtain ⟨t, ht, rfl⟩ := List.mem_map.mp this
  obtain ⟨h1, h2⟩ := List.mem_sublistsLen.mp ht
  exact ⟨t, rfl, h1, h2⟩

/-- Along `Combination` the position sequences of the combinations ascend in
lexicographic order: those that include the current element come before those
that exclude it. -/
theorem combinationsFrom_lex (r : Nat) (f : Int → Nat) (rest : List Int) :
    ∀ combination : List Int, combination.length ≤ r →
      (rest.map f).Pairwise (fun a b => a < b) →
      (combinationsFrom r rest combination).Pairwise
        (fun c c' => List.Lex (fun a b => a < b) (c.map f) (c'.map f)) := by
  induction rest with
  | nil =>
    intro combination _ _
    unfold combinationsFrom
    split
    · exact List.pairwise_singleton _ _
    · exact List.Pairwise.nil
  | cons v rest ih =>
    intro combination hlen hf
    unfold combinationsFrom
    split
    · exact List.pairwise_singleton _ _
    · rename_i hne
      have hlt : combination.length < r := lt_of_le_of_ne hlen hne
      rw [List.map_cons, List.pairwise_cons] at hf
      rw [List.pairwise_append]
      refine ⟨ih _ (by simp; omega) hf.2, ih _ hlen hf.2, ?_⟩
      intro c hc c' hc'
      obtain ⟨t, rfl, _, _⟩ := mem_combinationsFrom (by simp; omega) hc
      obtain ⟨t', rfl, hsub, hlen'⟩ := mem_combinationsFrom hlen hc'
      cases t' with
      | nil => simp at hlen'; omega
      | cons w t'' =>
        have hw : w ∈ rest := hsub.subset (List.mem_cons_self _ _)
        have hvw : f v < f w := hf.1 (f w) (List.mem_map_of_mem f hw)
        simp only [List.map_append, List.map_cons, List.map_nil, List.append_assoc,
          List.singleton_append]
        exact List.Lex.append_left _ (List.Lex.rel hvw) _

theorem indexOf_pairwise (l : List Int) (h : l.Nodup) :
    (l.map (fun x => l.indexOf x)).Pairwise (fun a b => a < b) := by
  rw [List.pairwise_map, List.pairwise_iff_getElem]
  intro i j hi hj hij
  rw [List.indexOf_getElem h i hi, List.indexOf_getElem h j hj]
  exact hij

theorem Combination_recordCall (i : Nat) (cs : List (List Int)) :
    ∀ st : EnumState,
      (cs.foldl (fun st c => recordCall i { st with S := Function.update st.S i (levelOf c) })
          st).emitted = st.emitted ++ cs.map (fun c => [levelOf c]) ∧
      (cs.foldl (fun st c => recordCall i { st with S := Function.update st.S i (levelOf c) })
          st).enumerated_subgraphs = st.enumerated_subgraphs + cs.length := by
  induction cs with
  | nil => intro st; simp
  | cons c cs ih =>
    intro st
    rw [List.foldl_cons]
    obtain ⟨h1, h2⟩ := ih (recordCall i { st with S := Function.update st.S i (levelOf c) })
    rw [h1, h2]
    simp [recordCall]
    omega

theorem foldl_congr_mem {α β : Type} (f g : α → β → α) (l : List β)
    (h : ∀ acc x, x ∈ l → f acc x = g acc x) : ∀ a, l.foldl f a = l.foldl g a := by
  induction l with
  | nil => intro a; rfl
  | cons x l ih =>
    intro a
    rw [List.foldl_cons, List.foldl_cons, h a x (List.mem_cons_self _ _)]
    exact ih (fun acc y hy => h acc y (List.mem_cons_of_mem _ hy)) _

theorem levelOf_combination {r : Nat} {vertices c : List Int} (hnd : vertices.Nodup)
    (hc : c ∈ combinationsFrom r vertices []) : levelOf c = c := by
  obtain ⟨_, hmem, _⟩ := combinationsFrom_spec r vertices hnd
  exact levelOf_of_nodup c (((hmem c).mp hc).1.nodup hnd)

/-- C29. For every vector `vertices` of `n` pairwise distinct vertex ids and
every `r ≤ n` (in particular `1 ≤ r ≤ n`), `Combinations(..., vertices, r)`
makes its calls of `EnumerateVertex` (here `next`, any state transformer:
`EnumerateVertex` passes the call with the budget `rem - k_i`, where
`k_i = r`, and depth `i + 1`) one after the other with `S[i]` set to the
combinations listed by `combinationsFrom`: there are `C(n, r)` of them, each
an `r`-element subsequence of the vector, every `r`-element subset of the
vector is the set of exactly one of them, and their position sequences in
`vertices` ascend in lexicographic order.  With the probe `recordCall` for
`next`, the log shows these sets in this order and the counter goes up by
`C(n, r)`. -/
theorem combinations_calls (next : EnumState → EnumState) (i : Nat) (vertices : List Int)
    (r : Nat) (st : EnumState) (hnd : vertices.Nodup) (hr : r ≤ vertices.length) :
    Combinations next i vertices r st =
      (combinationsFrom r vertices []).foldl
        (fun st c => next { st with S := Function.update st.S i c }) st ∧
    (Combinations (recordCall i) i vertices r st).emitted =
      st.emitted ++ (combinationsFrom r vertices []).map (fun c => [c]) ∧
    (Combinations (recordCall i) i vertices r st).enumerated_subgraphs =
      st.enumerated_subgraphs + Nat.choose vertices.length r ∧
    (combinationsFrom r vertices []).length = Nat.choose vertices.length r ∧
    0 < Nat.choose vertices.length r ∧
    (∀ c ∈ combinationsFrom r vertices [], c.Sublist vertices ∧ c.length = r) ∧
    (∀ T : Finset Int, T ⊆ vertices.toFinset → T.card = r →
      ((combinationsFrom r vertices []).map List.toFinset).count T = 1) ∧
    (combinationsFrom r vertices []).Pairwise (fun c c' =>
      List.Lex (fun a b => a < b) (c.map (fun x => vertices.indexOf x))
        (c'.map (fun x => vertices.indexOf x))) := by
  obtain ⟨hnodup, hmem, hlen⟩ := combinationsFrom_spec r vertices hnd
  have hrec := Combination_recordCall i (combinationsFrom r vertices []) st
  have hmap : (combinationsFrom r vertices []).map (fun c => [levelOf c]) =
      (combinationsFrom r vertices []).map (fun c => [c]) := by
    apply List.map_congr_left
    intro c hc
    rw [levelOf_combination hnd hc]
  refine ⟨?_, ?_, ?_, hlen, Nat.choose_pos hr, fun c hc => (hmem c).mp hc, ?_, ?_⟩
  · unfold Combinations
    rw [Combination_eq_foldl]
    apply foldl_congr_mem
    intro acc c hc
    rw [levelOf_combination hnd hc]
  · unfold Combinations
    rw [Combination_eq_foldl, hrec.1, hmap]
  · unfold Combinations
    rw [Combination_eq_foldl, hrec.2, hlen]
  · intro T hT hcard
    apply List.count_eq_one_of_mem
    · apply List.Nodup.map_on _ hnodup
      intro c hc c' hc' heq
      apply sublist_ext_of_nodup hnd ((hmem c).mp hc).1 ((hmem c').mp hc').1
      intro x
      rw [← List.mem_toFinset, heq, List.mem_toFinset]
    · rw [List.mem_map]
      refine ⟨vertices.filter (fun x => decide (x ∈ T)), ?_, ?_⟩
      · rw [hmem]
        have hfin : (vertices.filter (fun x => decide (x ∈ T))).toFinset = T := by
          ext x
          simp only [List.mem_toFinset, List.mem_filter, decide_eq_true_eq]
          constructor
          · exact fun h => h.2
          · exact fun h => ⟨List.mem_toFinset.mp (hT h), h⟩
        refine ⟨List.filter_sublist _, ?_⟩
        rw [← List.toFinset_card_of_nodup (hnd.filter _), hfin, hcard]
      · ext x
        simp only [List.mem_toFinset, List.mem_filter, decide_eq_true_eq]
        constructor
        · exact fun h => h.2
        · exact fun h => ⟨List.mem_toFinset.mp (hT h), h⟩
  · exact combinationsFrom_lex r _ vertices [] (by simp) (indexOf_pairwise vertices hnd)

/-- The vector 10, 20, 30, 40 and `r = 2` at depth 1: six calls, with `S[1]`
set to 10 20, 10 30, 10 40, 20 30, 20 40, 30 40 in this order. -/
theorem combinations_calls_witness :
    ([10, 20, 30, 40] : List Int).Nodup ∧ 2 ≤ ([10, 20, 30, 40] : List Int).length ∧
    combinationsFrom 2 [10, 20, 30, 40] [] =
      [[10, 20], [10, 30], [10, 40], [20, 30], [20, 40], [30, 40]] ∧
    (Combinations (recordCall 1) 1 [10, 20, 30, 40] 2
        (initialState (plainEnv false).flags (graphOf false pathOps) 3 0)).emitted =
      [[[10, 20]], [[10, 30]], [[10, 40]], [[20, 30]], [[20, 40]], [[30, 40]]] ∧
    (Combinations (recordCall 1) 1 [10, 20, 30, 40] 2
        (initialState (plainEnv false).flags (graphOf false pathOps) 3 0)).enumerated_subgraphs =
      6 ∧
    (Combinations (recordCall 1) 1 [10, 20, 30, 40] 2
        (initialState (plainEnv false).flags (graphOf false pathOps) 3 0) =
      (combinationsFrom 2 [10, 20, 30, 40] []).foldl
        (fun st c => recordCall 1 { st with S := Function.update st.S 1 c })
        (initialState (plainEnv false).flags (graphOf false pathOps) 3 0) ∧
    (Combinations (recordCall 1) 1 [10, 20, 30, 40] 2
        (initialState (plainEnv false).flags (graphOf false pathOps) 3 0)).emitted =
      (initialState (plainEnv false).flags (graphOf false pathOps) 3 0).emitted ++
        (combinationsFrom 2 [10, 20, 30, 40] []).map (fun c => [c]) ∧
    (Combinations (recordCall 1) 1 [10, 20, 30, 40] 2
        (initialState (plainEnv false).flags (graphOf false pathOps) 3 0)).enumerated_subgraphs =
      (initialState (plainEnv false).flags (graphOf false pathOps) 3 0).enumerated_subgraphs +
        Nat.choose ([10, 20, 30, 40] : List Int).length 2 ∧
    (combinationsFrom 2 [10, 20, 30, 40] []).length =
      Nat.choose ([10, 20, 30, 40] : List Int).length 2 ∧
    0 < Nat.choose ([10, 20, 30, 40] : List Int).length 2 ∧
    (∀ c ∈ combinationsFrom 2 [10, 20, 30, 40] [],
      c.Sublist [10, 20, 30, 40] ∧ c.length = 2) ∧
    (∀ T : Finset Int, T ⊆ ([10, 20, 30, 40] : List Int).toFinset → T.card = 2 →
      ((combinationsFrom 2 [10, 20, 30, 40] []).map List.toFinset).count T = 1) ∧
    (combinationsFrom 2 [10, 20, 30, 40] []).Pairwise (fun c c' =>
      List.Lex (fun a b => a < b) (c.map (fun x => ([10, 20, 30, 40] : List Int).indexOf x))
        (c'.map (fun x => ([10, 20, 30, 40] : List Int).indexOf x)))) :=
  ⟨by decide, by decide, by decide!, by decide!, by decide!,
   combinations_calls (recordCall 1) 1 [10, 20, 30, 40] 2
     (initialState (plainEnv false).flags (graphOf false pathOps) 3 0)
     (by decide) (by decide)⟩

/-- C30. For every graph, root `u`, parent set `P` and visited set `V`,
`Validate` returns, without repetition, exactly the vertices `w` such that
`w` is not in `V`, `enum_index[u] ≤ enum_index[w]`, and some `v` in `P` has
`w` among its neighbours, with `community[v] = community[w]` for such a `v`
in community mode; on return the visited set is `V` followed by the returned
vertices (in the order they were found), so it holds exactly the elements of
`V` and the returned vertices, and it has no repetition when `V` has none. -/
theorem validate_returns (env : Env) (G : Graph) (P : List Int) (u : Int) (V : List Int) :
    (Validate env G P u V).1.Nodup ∧
    (∀ w, w ∈ (Validate env G P u V).1 ↔
      w ∉ V ∧ G.enumeration_index u ≤ G.enumeration_index w ∧
      ∃ v ∈ P, w ∈ G.neighbors v ∧
        (env.flags.COMMUNITY_BASED = true → G.community v = G.community w)) ∧
    (∃ found, (Validate env G P u V).2 = V ++ found ∧
      List.Perm (Validate env G P u V).1 found) ∧
    (∀ x, x ∈ (Validate env G P u V).2 ↔ x ∈ V ∨ x ∈ (Validate env G P u V).1) ∧
    (V.Nodup → (Validate env G P u V).2.Nodup) := by
  obtain ⟨t1, t2, t3, found, t4, t5⟩ := Validate_spec env G P u V
  refine ⟨t1, ?_, ⟨found, t4, t5⟩, ?_, ?_⟩
  · intro w
    rw [t3 w]
    unfold Admissible
    constructor
    · rintro ⟨h1, v, hv, h2, h3, h4⟩
      exact ⟨h1, h4, v, hv, h2, h3⟩
    · rintro ⟨h1, h4, v, hv, h2, h3⟩
      exact ⟨h1, v, hv, h2, h3, h4⟩
  · intro x
    rw [t4, List.mem_append, t5.mem_iff]
  · intro hV
    rw [t4]
    apply List.Nodup.append hV (t5.nodup_iff.mp t1)
    intro x hx hx'
    exact t2 x (t5.mem_iff.mpr hx') hx

/-- The path 0-1-2-3, root 0: from the parents `{1}` with `{0, 1}` visited
`Validate` returns 2 and leaves `{0, 1, 2}` visited; from the root 1 with
parents `{1}` and `{1}` visited it returns 2 only, the neighbour 0 having a
smaller enumeration index. -/
theorem validate_returns_witness :
    Validate (plainEnv false) (graphOf false pathOps) [1] 0 [0, 1] = ([2], [0, 1, 2]) ∧
    Validate (plainEnv false) (graphOf false pathOps) [1] 1 [1] = ([2], [1, 2]) ∧
    ((Validate (plainEnv false) (graphOf false pathOps) [1] 0 [0, 1]).1.Nodup ∧
    (∀ w, w ∈ (Validate (plainEnv false) (graphOf false pathOps) [1] 0 [0, 1]).1 ↔
      w ∉ ([0, 1] : List Int) ∧
      (graphOf false pathOps).enumeration_index 0 ≤ (graphOf false pathOps).enumeration_index w ∧
      ∃ v ∈ ([1] : List Int), w ∈ (graphOf false pathOps).neighbors v ∧
        ((plainEnv false).flags.COMMUNITY_BASED = true →
          (graphOf false pathOps).community v = (graphOf false pathOps).community w)) ∧
    (∃ found, (Validate (plainEnv false) (graphOf false pathOps) [1] 0 [0, 1]).2 =
        [0, 1] ++ found ∧
      List.Perm (Validate (plainEnv false) (graphOf false pathOps) [1] 0 [0, 1]).1 found) ∧
    (∀ x, x ∈ (Validate (plainEnv false) (graphOf false pathOps) [1] 0 [0, 1]).2 ↔
      x ∈ ([0, 1] : List Int) ∨
        x ∈ (Validate (plainEnv false) (graphOf false pathOps) [1] 0 [0, 1]).1) ∧
    (([0, 1] : List Int).Nodup →
      (Validate (plainEnv false) (graphOf false pathOps) [1] 0 [0, 1]).2.Nodup)) :=
  ⟨by decide!, by decide!,
   validate_returns (plainEnv false) (graphOf false pathOps) [1] 0 [0, 1]⟩

/-- C25. For every graph built from the empty graph by successful `AddVertex`
and `AddEdge` calls and every vertex `v`: `neighbors(v)` is the union of
`incoming_neighbors(v)` and `outgoing_neighbors(v)`; `w` is in
`outgoing_neighbors(v)` iff `v` is in `incoming_neighbors(w)` iff `(v, w)` is
a key of the edge index; `v` is not its own neighbour; every neighbour id is
a vertex of the graph; and in an undirected graph `incoming_neighbors(v)` and
`outgoing_neighbors(v)` have the same elements. -/
theorem neighbor_sets_mirror_edge_index (G : Graph) (hG : G.Built) (v : Int) :
    (∀ w, w ∈ G.neighbors v ↔ w ∈ G.incoming_neighbors v ∨ w ∈ G.outgoing_neighbors v) ∧
    (∀ w, (w ∈ G.outgoing_neighbors v ↔ v ∈ G.incoming_neighbors w) ∧
      (v ∈ G.incoming_neighbors w ↔ (v, w) ∈ G.edges.map Prod.fst)) ∧
    v ∉ G.neighbors v ∧
    (∀ w, w ∈ G.neighbors v → G.hasVertex w = true ∧ w ∈ G.vertices.map Prod.fst) ∧
    (G.directed = false → ∀ w, w ∈ G.incoming_neighbors v ↔ w ∈ G.outgoing_neighbors v) := by
  have wf := WellFormed_of_Built hG
  refine ⟨?_, ?_, ?_, ?_, ?_⟩
  · intro w
    rw [wf.neighbors_iff, wf.incoming_iff, wf.outgoing_iff]
    unfold Graph.adjacent
    exact Or.comm
  · intro w
    rw [wf.outgoing_iff, wf.incoming_iff, hasEdge_iff]
    exact ⟨Iff.rfl, Iff.rfl⟩
  · rw [wf.neighbors_iff]
    unfold Graph.adjacent
    rw [wf.no_loop v]
    simp
  · intro w hw
    have hv : G.hasVertex w = true := by
      rcases (wf.neighbors_iff v w).mp hw with h | h
      · exact (wf.edge_vertices v w h).2
      · exact (wf.edge_vertices w v h).1
    exact ⟨hv, (hasVertex_iff G w).mp hv⟩
  · intro hd w
    rw [wf.incoming_iff, wf.outgoing_iff]
    exact ⟨wf.undirected_symm hd w v, wf.undirected_symm hd v w⟩

/-- The directed 3-cycle 0→1→2→0, vertex 0: the neighbours are 1 and 2, with 1
outgoing and 2 incoming; the undirected triangle, vertex 0: both 1 and 2 are
incoming and outgoing. -/
theorem neighbor_sets_mirror_edge_index_witness :
    (graphOf true cycleOps).Built ∧
    (graphOf true cycleOps).neighbors 0 = [1, 2] ∧
    (graphOf true cycleOps).outgoing_neighbors 0 = [1] ∧
    (graphOf true cycleOps).incoming_neighbors 0 = [2] ∧
    (graphOf true cycleOps).edges.map Prod.fst = [(0, 1), (1, 2), (2, 0)] ∧
    (graphOf false triangleOps).incoming_neighbors 0 = [1, 2] ∧
    (graphOf false triangleOps).outgoing_neighbors 0 = [1, 2] ∧
    ((∀ w, w ∈ (graphOf true cycleOps).neighbors 0 ↔
        w ∈ (graphOf true cycleOps).incoming_neighbors 0 ∨
        w ∈ (graphOf true cycleOps).outgoing_neighbors 0) ∧
    (∀ w, (w ∈ (graphOf true cycleOps).outgoing_neighbors 0 ↔
        0 ∈ (graphOf true cycleOps).incoming_neighbors w) ∧
      (0 ∈ (graphOf true cycleOps).incoming_neighbors w ↔
        (0, w) ∈ (graphOf true cycleOps).edges.map Prod.fst)) ∧
    0 ∉ (graphOf true cycleOps).neighbors 0 ∧
    (∀ w, w ∈ (graphOf true cycleOps).neighbors 0 →
      (graphOf true cycleOps).hasVertex w = true ∧
      w ∈ (graphOf true cycleOps).vertices.map Prod.fst) ∧
    ((graphOf true cycleOps).directed = false →
      ∀ w, w ∈ (graphOf true cycleOps).incoming_neighbors 0 ↔
        w ∈ (graphOf true cycleOps).outgoing_neighbors 0)) :=
  ⟨graphOf_Built true cycleOps (by decide!), by decide!, by decide!, by decide!, by decide!,
   by decide!, by decide!,
   neighbor_sets_mirror_edge_index (graphOf true cycleOps)
     (graphOf_Built true cycleOps (by decide!)) 0⟩

/-- C26. For every undirected graph and every successful
`AddEdge(s, d, weight, color)`, afterwards the edge index maps both `(s, d)`
and `(d, s)` to the same edge, whose source is `min(s, d)`, whose destination
is `max(s, d)` and whose weight and colour are the given ones; all other
entries of the edge index are unchanged. -/
theorem undirected_edge_indexed_twice (G G' : Graph) (s d : Int) (w : Rat) (c : Int)
    (hd : G.directed = false) (h : G.AddEdge s d w c = some G') :
    mapFind G'.edges (s, d) = some ⟨min s d, max s d, w, c⟩ ∧
    mapFind G'.edges (d, s) = some ⟨min s d, max s d, w, c⟩ ∧
    (∀ key, key ≠ (s, d) → key ≠ (d, s) → mapFind G'.edges key = mapFind G.edges key) := by
  obtain ⟨a, b, _, _, _, _, hsd, hlt, hne, _, _, _, _, rfl⟩ := AddEdge_decompose h
  have hab := hlt hd
  have hmin : min s d = a ∧ max s d = b := by
    rcases hsd with ⟨rfl, rfl⟩ | ⟨_, rfl, rfl⟩
    · exact ⟨min_eq_left hab.le, max_eq_right hab.le⟩
    · exact ⟨min_eq_right hab.le, max_eq_left hab.le⟩
  rw [hmin.1, hmin.2]
  simp only [hd, Bool.not_false, if_true]
  have hba : (b, a) ≠ (a, b) := by
    intro e
    exact hne (Prod.mk.inj e).2
  refine ⟨?_, ?_, ?_⟩
  · rw [mapFind_mapSet, mapFind_mapSet]
    rcases hsd with ⟨rfl, rfl⟩ | ⟨_, rfl, rfl⟩
    · rw [if_neg hba, if_pos rfl]
    · rw [if_pos rfl]
  · rw [mapFind_mapSet, mapFind_mapSet]
    rcases hsd with ⟨rfl, rfl⟩ | ⟨_, rfl, rfl⟩
    · rw [if_pos rfl]
    · rw [if_neg hba, if_pos rfl]
  · intro key h1 h2
    rw [mapFind_mapSet, mapFind_mapSet]
    rcases hsd with ⟨rfl, rfl⟩ | ⟨_, rfl, rfl⟩
    · rw [if_neg (fun e => h2 e.symm), if_neg (fun e => h1 e.symm)]
    · rw [if_neg (fun e => h1 e.symm), if_neg (fun e => h2 e.symm)]

theorem eq_some_getD {α : Type} {o : Option α} (d : α) (h : o.isSome = true) :
    o = some (o.getD d) := by
  cases o with
  | none => exact absurd h (by simp)
  | some x => rfl

/-- The undirected graph on 0 and 1 without edges and `AddEdge(1, 0, -1, 3)`:
the edge index gets the two keys `(0, 1)` and `(1, 0)`, both holding the edge
from 0 to 1 of weight -1 and colour 3. -/
theorem undirected_edge_indexed_twice_witness :
    (graphOf false twoPointsOps).directed = false ∧
    (graphOf false twoPointsOps).AddEdge 1 0 (-1) 3 = some joinedPoints ∧
    joinedPoints.edges = [((0, 1), ⟨0, 1, -1, 3⟩), ((1, 0), ⟨0, 1, -1, 3⟩)] ∧
    (mapFind joinedPoints.edges (1, 0) = some ⟨min 1 0, max 1 0, -1, 3⟩ ∧
    mapFind joinedPoints.edges (0, 1) = some ⟨min 1 0, max 1 0, -1, 3⟩ ∧
    (∀ key, key ≠ (1, 0) → key ≠ (0, 1) →
      mapFind joinedPoints.edges key = mapFind (graphOf false twoPointsOps).edges key)) :=
  ⟨by decide!, eq_some_getD _ (by decide!), by decide!,
   undirected_edge_indexed_twice (graphOf false twoPointsOps) joinedPoints 1 0 (-1) 3
     (by decide!) (eq_some_getD _ (by decide!))⟩

theorem Vertex_AddEdge_none_source (dir : Bool) (v : Vertex) (a b : Int) (w : Rat) (c : Int)
    (hi : v.index = a) :
    Vertex.AddEdge dir v ⟨a, b, w, c⟩ = none ↔
      (dir = true ∧ b ∈ v.outgoing_neighbors) ∨
      (dir = false ∧ (b ∈ v.incoming_neighbors ∨ b ∈ v.outgoing_neighbors)) := by
  unfold Vertex.AddEdge
  cases dir
  · simp only [hi, true_or, not_true_eq_false, if_false, Bool.false_eq_true, if_true,
      false_and, false_or, true_and]
    split_ifs <;> simp_all
  · simp only [hi, true_or, not_true_eq_false, if_false, if_true, true_and, Bool.true_eq_false,
      false_and, or_false]
    split_ifs <;> simp_all

theorem Vertex_AddEdge_none_destination (dir : Bool) (v : Vertex) (a b : Int) (w : Rat) (c : Int)
    (hi : v.index = b) (hab : a ≠ b) :
    Vertex.AddEdge dir v ⟨a, b, w, c⟩ = none ↔
      (dir = true ∧ a ∈ v.incoming_neighbors) ∨
      (dir = false ∧ (a ∈ v.incoming_neighbors ∨ a ∈ v.outgoing_neighbors)) := by
  unfold Vertex.AddEdge
  cases dir
  · simp only [hi, or_true, not_true_eq_false, if_false, Bool.false_eq_true, if_neg hab,
      false_and, false_or, true_and]
    split_ifs <;> simp_all
  · simp only [hi, or_true, not_true_eq_false, if_false, if_true, if_neg hab, true_and,
      Bool.true_eq_false, false_and, or_false]
    split_ifs <;> simp_all

theorem vertexAddEdge_twice_none (G : Graph) (E : List ((Int × Int) × Edge)) (a b : Int)
    (e : Edge) (va vb : Vertex) (hab : a ≠ b)
    (ha : mapFind G.vertices a = some va) (hb : mapFind G.vertices b = some vb) :
    (match ({ G with edges := E } : Graph).vertexAddEdge a e with
      | none => none
      | some G2 => G2.vertexAddEdge b e) = none ↔
      Vertex.AddEdge G.directed va e = none ∨ Vertex.AddEdge G.directed vb e = none := by
  unfold Graph.vertexAddEdge
  simp only [ha]
  cases h1 : Vertex.AddEdge G.directed va e with
  | none => simp
  | some va' =>
    simp only [mapFind_mapSet, if_neg hab, hb]
    cases h2 : Vertex.AddEdge G.directed vb e with
    | none => simp
    | some vb' => simp

theorem AddEdge_eq_none_iff (G : Graph) (wf : G.WellFormed) (s d : Int) (w : Rat) (c : Int) :
    G.AddEdge s d w c = none ↔
      G.hasVertex s = false ∨ G.hasVertex d = false ∨ s = d ∨
      (G.directed = true ∧ G.hasEdge s d = true) ∨
      (G.directed = false ∧ (G.hasEdge s d = true ∨ G.hasEdge d s = true)) := by
  by_cases hs : (mapFind G.vertices s).isNone = true
  · have : G.hasVertex s = false := by
      unfold Graph.hasVertex
      cases h : mapFind G.vertices s <;> simp_all
    unfold Graph.AddEdge
    rw [if_pos hs]
    simp [this]
  by_cases hd : (mapFind G.vertices d).isNone = true
  · have : G.hasVertex d = false := by
      unfold Graph.hasVertex
      cases h : mapFind G.vertices d <;> simp_all
    unfold Graph.AddEdge
    rw [if_neg hs, if_pos hd]
    simp [this]
  by_cases hsd : s = d
  · unfold Graph.AddEdge
    rw [if_neg hs, if_neg hd, if_pos hsd]
    simp [hsd]
  have hs' : G.hasVertex s = true := by
    unfold Graph.hasVertex
    cases h : mapFind G.vertices s <;> simp_all
  have hd' : G.hasVertex d = true := by
    unfold Graph.hasVertex
    cases h : mapFind G.vertices d <;> simp_all
  obtain ⟨vs, hvs⟩ := Option.isSome_iff_exists.mp hs'
  obtain ⟨vd, hvd⟩ := Option.isSome_iff_exists.mp hd'
  have hout : ∀ x y vx, mapFind G.vertices x = some vx →
      (y ∈ vx.outgoing_neighbors ↔ G.hasEdge x y = true) := by
    intro x y vx hx
    rw [← wf.outgoing_iff]
    unfold Graph.outgoing_neighbors
    rw [hx]
  have hin : ∀ x y vx, mapFind G.vertices x = some vx →
      (y ∈ vx.incoming_neighbors ↔ G.hasEdge y x = true) := by
    intro x y vx hx
    rw [← wf.incoming_iff]
    unfold Graph.incoming_neighbors
    rw [hx]
  unfold Graph.AddEdge
  rw [if_neg hs, if_neg hd, if_neg hsd]
  simp only [hs', hd', Bool.true_eq_false, false_or, hsd]
  by_cases hsw : ((!G.directed) && decide (d < s)) = true
  · simp only [hsw, if_true]
    rw [vertexAddEdge_twice_none G _ d s _ vd vs (fun e => hsd e.symm) hvd hvs,
      Vertex_AddEdge_none_source _ vd d s w c (wf.index_eq d vd hvd),
      Vertex_AddEdge_none_destination _ vs d s w c (wf.index_eq s vs hvs) (fun e => hsd e.symm),
      hout d s vd hvd, hin d s vd hvd, hout s d vs hvs, hin s d vs hvs]
    simp only [Bool.and_eq_true, Bool.not_eq_true', decide_eq_true_eq] at hsw
    simp only [hsw.1, Bool.false_eq_true, false_and, false_or, true_and]
    tauto
  · simp only [hsw, Bool.false_eq_true, if_false]
    rw [vertexAddEdge_twice_none G _ s d _ vs vd hsd hvs hvd,
      Vertex_AddEdge_none_source _ vs s d w c (wf.index_eq s vs hvs),
      Vertex_AddEdge_none_destination _ vd s d w c (wf.index_eq d vd hvd) hsd,
      hout s d vs hvs, hin s d vs hvs, hout d s vd hvd, hin d s vd hvd]
    cases hdir : G.directed
    · simp only [Bool.false_eq_true, false_and, false_or, true_and]
      tauto
    · simp only [true_and, Bool.true_eq_false, false_and, or_false]
      tauto

/-- C27. On a graph built by successful `AddVertex` and `AddEdge` calls,
`AddEdge(s, d)` fails (an assertion aborts) if and only if `s` or `d` is not
a vertex of the graph, or `s = d`, or the graph is directed and already has
an edge from `s` to `d`, or the graph is undirected and already has an edge
between `s` and `d` in either order; in a directed graph that has the edge
from `s` to `d` but none from `d` to `s`, adding the edge from `d` to `s`
succeeds. -/
theorem add_edge_fails_iff (G : Graph) (hG : G.Built) (s d : Int) (w : Rat) (c : Int) :
    (G.AddEdge s d w c = none ↔
      G.hasVertex s = false ∨ G.hasVertex d = false ∨ s = d ∨
      (G.directed = true ∧ G.hasEdge s d = true) ∨
      (G.directed = false ∧ (G.hasEdge s d = true ∨ G.hasEdge d s = true))) ∧
    (G.directed = true → G.hasEdge s d = true → G.hasEdge d s = false →
      (G.AddEdge d s w c).isSome = true) := by
  have wf := WellFormed_of_Built hG
  refine ⟨AddEdge_eq_none_iff G wf s d w c, ?_⟩
  intro hdir hsd hds
  rw [Option.isSome_iff_ne_none, Ne, AddEdge_eq_none_iff G wf d s w c]
  obtain ⟨h1, h2⟩ := wf.edge_vertices s d hsd
  have hne : d ≠ s := by
    rintro rfl
    rw [wf.no_loop d] at hsd
    exact absurd hsd (by decide)
  simp [h1, h2, hne, hdir, hds]

/-- The directed graph with the one edge 0→1: adding 0→1 again, the loop
0→0 or an edge to the absent vertex 5 fails, adding 1→0 succeeds; in the
undirected graph with the edge 0-1 adding 1-0 fails. -/
theorem add_edge_fails_iff_witness :
    (graphOf true edgeOps).Built ∧ (graphOf true edgeOps).directed = true ∧
    (graphOf true edgeOps).hasEdge 0 1 = true ∧ (graphOf true edgeOps).hasEdge 1 0 = false ∧
    (graphOf true edgeOps).AddEdge 0 1 (-1) (-1) = none ∧
    (graphOf true edgeOps).AddEdge 0 0 (-1) (-1) = none ∧
    (graphOf true edgeOps).AddEdge 0 5 (-1) (-1) = none ∧
    ((graphOf true edgeOps).AddEdge 1 0 (-1) (-1)).isSome = true ∧
    (graphOf false edgeOps).AddEdge 1 0 (-1) (-1) = none ∧
    (((graphOf true edgeOps).AddEdge 0 1 (-1) (-1) = none ↔
      (graphOf true edgeOps).hasVertex 0 = false ∨ (graphOf true edgeOps).hasVertex 1 = false ∨
      (0 : Int) = 1 ∨
      ((graphOf true edgeOps).directed = true ∧ (graphOf true edgeOps).hasEdge 0 1 = true) ∨
      ((graphOf true edgeOps).directed = false ∧
        ((graphOf true edgeOps).hasEdge 0 1 = true ∨
          (graphOf true edgeOps).hasEdge 1 0 = true))) ∧
    ((graphOf true edgeOps).directed = true → (graphOf true edgeOps).hasEdge 0 1 = true →
      (graphOf true edgeOps).hasEdge 1 0 = false →
      ((graphOf true edgeOps).AddEdge 1 0 (-1) (-1)).isSome = true)) :=
  ⟨graphOf_Built true edgeOps (by decide!), by decide!, by decide!, by decide!, by decide!,
   by decide!, by decide!, by decide!, by decide!,
   add_edge_fails_iff (graphOf true edgeOps) (graphOf_Built true edgeOps (by decide!)) 0 1
     (-1) (-1)⟩

theorem length_mapSet_of_not_mem {κ β : Type} [DecidableEq κ] (m : List (κ × β)) (k : κ) (v : β)
    (h : k ∉ m.map Prod.fst) : (mapSet m k v).length = m.length + 1 := by
  have := congrArg List.length (keys_mapSet m k v)
  rw [if_neg h] at this
  simpa using this

theorem AddEdge_edges_length {G G' : Graph} {s d : Int} {w : Rat} {c : Int} (wf : G.WellFormed)
    (h : G.AddEdge s d w c = some G') :
    G'.edges.length = G.edges.length + (if G.directed then 1 else 2) ∧
    G'.directed = G.directed := by
  have hne : ¬ G.AddEdge s d w c = none := by rw [h]; simp
  rw [AddEdge_eq_none_iff G wf s d w c] at hne
  simp only [not_or, not_and] at hne
  obtain ⟨_, _, _, hdirected, hundirected⟩ := hne
  obtain ⟨a, b, _, _, _, _, hsd, _, hab, _, _, _, _, rfl⟩ := AddEdge_decompose h
  refine ⟨?_, rfl⟩
  cases hdir : G.directed
  · have h1 := hundirected hdir
    simp only [not_or, Bool.not_eq_true] at h1
    have hkeys : (a, b) ∉ G.edges.map Prod.fst ∧ (b, a) ∉ G.edges.map Prod.fst := by
      rw [← hasEdge_iff, ← hasEdge_iff]
      rcases hsd with ⟨rfl, rfl⟩ | ⟨_, rfl, rfl⟩
      · simp [h1.1, h1.2]
      · simp [h1.1, h1.2]
    simp only [Bool.not_false, if_true, Bool.false_eq_true, if_false]
    rw [length_mapSet_of_not_mem, length_mapSet_of_not_mem _ _ _ hkeys.1]
    rw [keys_mapSet, if_neg hkeys.1, List.mem_append, List.mem_singleton]
    rintro (h2 | h2)
    · exact hkeys.2 h2
    · exact hab (Prod.mk.inj h2).2
  · have h1 := hdirected hdir
    rcases hsd with ⟨rfl, rfl⟩ | ⟨hf, _, _⟩
    · have hkey : (a, b) ∉ G.edges.map Prod.fst := by
        rw [← hasEdge_iff]
        simpa using h1
      simp only [Bool.not_true, Bool.false_eq_true, if_false, if_true]
      rw [length_mapSet_of_not_mem _ _ _ hkey]
    · rw [hdir] at hf
      exact absurd hf (by decide)

theorem build_edges_length (ops : List GraphOp) :
    ∀ G0 G : Graph, G0.Built → G0.build ops = some G →
      G.NEdges = G0.NEdges + (if G0.directed then 1 else 2) * edgeOpCount ops := by
  induction ops with
  | nil =>
    intro G0 G _ h
    simp only [Graph.build, Option.some.injEq] at h
    subst h
    simp [edgeOpCount]
  | cons op ops ih =>
    intro G0 G hB h
    cases op with
    | vertex i e c col =>
      simp only [Graph.build] at h
      cases h1 : G0.AddVertex i e c col with
      | none => rw [h1] at h; exact absurd h (by simp)
      | some G1 =>
        rw [h1] at h
        have hB1 : G1.Built := Graph.Built.addVertex i e c col hB h1
        rw [ih G1 G hB1 h]
        have hG1 : G1.edges = G0.edges ∧ G1.directed = G0.directed := by
          unfold Graph.AddVertex at h1
          split at h1
          · exact absurd h1 (by simp)
          · simp only [Option.some.injEq] at h1
            subst h1
            exact ⟨rfl, rfl⟩
        simp [Graph.NEdges, hG1.1, hG1.2, edgeOpCount]
    | edge s d w col =>
      simp only [Graph.build] at h
      cases h1 : G0.AddEdge s d w col with
      | none => rw [h1] at h; exact absurd h (by simp)
      | some G1 =>
        rw [h1] at h
        have hB1 : G1.Built := Graph.Built.addEdge s d w col hB h1
        rw [ih G1 G hB1 h]
        obtain ⟨e1, e2⟩ := AddEdge_edges_length (WellFormed_of_Built hB) h1
        simp only [Graph.NEdges, e1, e2, edgeOpCount, List.filter_cons, if_true,
          List.length_cons]
        ring

/-- C28 as the code has it. For a graph built from the empty graph by a
sequence of successful `AddVertex` and `AddEdge` calls, `NEdges` returns the
number of entries of the edge index: the number of `AddEdge` calls when the
graph is directed, twice that number when it is undirected. -/
theorem NEdges_counts_index_entries (directed vertex_colored edge_colored : Bool)
    (nedge_types : Int) (ops : List GraphOp) (G : Graph)
    (h : (Graph.new directed vertex_colored edge_colored nedge_types).build ops = some G) :
    G.NEdges = (if directed then 1 else 2) * edgeOpCount ops := by
  have := build_edges_length ops _ G
    (Graph.Built.new directed vertex_colored edge_colored nedge_types) h
  rw [this]
  simp [Graph.NEdges, Graph.new]

/-- The undirected graph built by `AddVertex(0)`, `AddVertex(1)` and
`AddEdge(0, 1)`: one `AddEdge` call succeeded, and `NEdges` returns 2; for the
undirected triangle, three calls, it returns 6, and for the directed 3-cycle
3. -/
theorem NEdges_counts_index_entries_witness :
    (Graph.new false false false 0).build edgeOps = some (graphOf false edgeOps) ∧
    edgeOpCount edgeOps = 1 ∧
    (graphOf false edgeOps).NEdges = 2 ∧
    edgeOpCount triangleOps = 3 ∧ (graphOf false triangleOps).NEdges = 6 ∧
    edgeOpCount cycleOps = 3 ∧ (graphOf true cycleOps).NEdges = 3 ∧
    (graphOf false edgeOps).NEdges = (if false then 1 else 2) * edgeOpCount edgeOps :=
  ⟨eq_some_getD _ (by decide!), by decide, by decide!, by decide, by decide!, by decide,
   by decide!,
   NEdges_counts_index_entries false false false 0 edgeOps (graphOf false edgeOps)
     (eq_some_getD _ (by decide!))⟩

theorem sum_mapSet_of_none {κ : Type} [DecidableEq κ] (m : List (κ × Nat)) (k : κ) (v : Nat)
    (h : mapFind m k = none) :
    ((mapSet m k v).map Prod.snd).sum = (m.map Prod.snd).sum + v := by
  induction m with
  | nil => simp [mapSet]
  | cons p rest ih =>
    obtain ⟨k0, v0⟩ := p
    by_cases h0 : k0 = k
    · simp [mapFind, h0] at h
    · simp only [mapFind, if_neg h0] at h
      simp only [mapSet, if_neg h0, List.map_cons, List.sum_cons, ih h]
      omega

theorem sum_mapSet_of_some {κ : Type} [DecidableEq κ] (m : List (κ × Nat)) (k : κ) (v n : Nat)
    (h : mapFind m k = some n) :
    ((mapSet m k v).map Prod.snd).sum + n = (m.map Prod.snd).sum + v := by
  induction m with
  | nil => simp [mapFind] at h
  | cons p rest ih =>
    obtain ⟨k0, v0⟩ := p
    by_cases h0 : k0 = k
    · simp only [mapFind, if_pos h0, Option.some.injEq] at h
      subst h
      simp only [mapSet, if_pos h0, List.map_cons, List.sum_cons]
      omega
    · simp only [mapFind, if_neg h0] at h
      simp only [mapSet, if_neg h0, List.map_cons, List.sum_cons]
      have := ih h
      omega

theorem emittedCertificates_emitSubgraph (env : Env) (G : Graph) (st : EnumState) (i : Nat)
    (hlen : st.emitted.length = st.calls.length) :
    emittedCertificates env G (emitSubgraph env G st i) =
      emittedCertificates env G st ++
        [subgraphCertificate env G (levelSets env st.S i).flatten st.nvertex_layers
          st.nauty_graph] := by
  unfold emittedCertificates
  simp only [emitSubgraph]
  rw [List.zipWith_append _ _ _ _ _ hlen]
  rfl

/-- The `rem == 0` branch keeps the certificate map in step with the emitted
subgraphs. -/
theorem CountsCertificates_emitSubgraph (env : Env) (G : Graph) (st : EnumState) (i : Nat)
    (h : CountsCertificates env G st) : CountsCertificates env G (emitSubgraph env G st i) := by
  obtain ⟨hlen, hnd, hfind, hsum⟩ := h
  have hcerts := emittedCertificates_emitSubgraph env G st i hlen
  have hmap := emitSubgraph_certificates env G st i
  generalize subgraphCertificate env G (levelSets env st.S i).flatten st.nvertex_layers
    st.nauty_graph = cert at hcerts hmap
  have hem : (emitSubgraph env G st i).emitted = st.emitted ++ [levelSets env st.S i] :=
    (emitSubgraph_fields env G st i).2.2.1
  have hcalls : (emitSubgraph env G st i).calls.length = st.calls.length + 1 := by
    simp [emitSubgraph]
  have hkeys : ((emitSubgraph env G st i).certificates.map Prod.fst).Nodup := by
    rw [hmap]
    split <;> exact keys_nodup_mapSet _ _ _ hnd
  have hcount : ∀ f, (emittedCertificates env G (emitSubgraph env G st i)).count f =
      (emittedCertificates env G st).count f + (if cert = f then 1 else 0) := by
    intro f
    rw [hcerts, List.count_append]
    by_cases hcf : cert = f
    · simp [hcf]
    · simp [hcf, List.count_cons]
  refine ⟨by rw [hem, hcalls, List.length_append, hlen]; rfl, hkeys, ?_, ?_⟩
  · intro f
    rw [hcount f, hmap]
    have hc := hfind cert
    by_cases hcf : cert = f
    · subst hcf
      rw [if_pos rfl]
      by_cases h0 : (emittedCertificates env G st).count cert = 0
      · rw [if_pos h0] at hc
        rw [hc, h0]
        simp [mapFind_mapSet]
      · rw [if_neg h0] at hc
        rw [hc]
        simp [mapFind_mapSet]
    · rw [if_neg hcf, Nat.add_zero]
      have : mapFind (match mapFind st.certificates cert with
          | none => mapSet st.certificates cert 1
          | some n => mapSet st.certificates cert (n + 1)) f = mapFind st.certificates f := by
        split <;> rw [mapFind_mapSet, if_neg hcf]
      rw [this, hfind f]
  · rw [hmap, hem, List.length_append, List.length_singleton, ← hsum]
    cases hc : mapFind st.certificates cert with
    | none => simp only; exact sum_mapSet_of_none _ _ _ hc
    | some n =>
      simp only
      have := sum_mapSet_of_some st.certificates cert (n + 1) n hc
      omega

theorem counts_certificates (env : Env) (G : Graph) (k : Nat) (u : Int) (st : EnumState)
    (h : EnumerateSubgraphsFromNode env G k u = some st) : CountsCertificates env G st := by
  obtain ⟨_, _, _, rfl⟩ := (EnumerateSubgraphsFromNode_eq_some_iff env G k u st).mp h
  apply EnumerateVertex_preserves env G u (CountsCertificates env G)
  · intro st S' hP; exact hP
  · intro st v' hP; exact hP
  · intro st i hP; exact CountsCertificates_emitSubgraph env G st i hP
  · refine ⟨rfl, ?_, ?_, rfl⟩
    · simp [initialState]
    · intro f
      simp [initialState, emittedCertificates, mapFind]

theorem enumerateRoots_forall₂ (env : Env) (G : Graph) (k : Nat) :
    ∀ (roots : List Int) (sts : List EnumState), enumerateRoots env G k roots = some sts →
      List.Forall₂ (fun u st => EnumerateSubgraphsFromNode env G k u = some st) roots sts := by
  intro roots
  induction roots with
  | nil =>
    intro sts h
    simp only [enumerateRoots, Option.some.injEq] at h
    subst h
    exact List.Forall₂.nil
  | cons u rest ih =>
    intro sts h
    simp only [enumerateRoots] at h
    cases h1 : EnumerateSubgraphsFromNode env G k u with
    | none => rw [h1] at h; exact absurd h (by simp)
    | some st =>
      rw [h1] at h
      cases h2 : enumerateRoots env G k rest with
      | none => rw [h2] at h; exact absurd h (by simp)
      | some sts' =>
        rw [h2] at h
        simp only [Option.some.injEq] at h
        subst h
        exact List.Forall₂.cons h1 (ih sts' h2)

/-- C23. When the loop over the roots has run `EnumerateSubgraphsFromNode(G,
k, u)` for each root in turn, the state each root ends in is such that: there
is one certificate for each subgraph emitted for that root; the certificate
map holds each key once and, for every byte string `f`, holds `f` with count
`n` exactly when `n ≥ 1` and `n` of the subgraphs emitted for that root have
the certificate `f`; and the counts sum to `enumerated_subgraphs`, the total
of the summary line, which is the number of subgraphs emitted for that root.
Nothing counted for a root processed before is included. -/
theorem certificate_map_counts (env : Env) (G : Graph) (k : Nat) (roots : List Int)
    (sts : List EnumState) (h : enumerateRoots env G k roots = some sts) :
    List.Forall₂
      (fun u st =>
        EnumerateSubgraphsFromNode env G k u = some st ∧
        (emittedCertificates env G st).length = st.emitted.length ∧
        (st.certificates.map Prod.fst).Nodup ∧
        (∀ f n, mapFind st.certificates f = some n ↔
          1 ≤ n ∧ (emittedCertificates env G st).count f = n) ∧
        (st.certificates.map Prod.snd).sum = st.enumerated_subgraphs ∧
        st.enumerated_subgraphs = st.emitted.length)
      roots sts := by
  apply Forall₂_imp_mem (enumerateRoots_forall₂ env G k roots sts h)
  intro u st _ _ hst
  obtain ⟨hlen, hnd, hfind, hsum⟩ := counts_certificates env G k u st hst
  obtain ⟨_, _, hes⟩ := EnumerateSubgraphsFromNode_emitted hst
  refine ⟨hst, ?_, hnd, ?_, by rw [hsum, hes], hes⟩
  · unfold emittedCertificates
    rw [List.length_zipWith, ← hlen, Nat.min_self]
  · intro f n
    rw [hfind f]
    by_cases h0 : (emittedCertificates env G st).count f = 0
    · rw [if_pos h0, h0]
      constructor
      · intro hc; exact absurd hc (by simp)
      · rintro ⟨h1, h2⟩; omega
    · rw [if_neg h0, Option.some.injEq]
      constructor
      · intro hc; omega
      · rintro ⟨_, h2⟩; exact h2

/-- The star of `mixedStarOps` in vertex-coloured mode with `k = 2`, the roots
0, 1, 2, 3 in turn: root 0 emits three subgraphs with the certificates
40 80 00 05 00 07, 40 80 00 05 00 07 and 40 80 00 05 00 01, so its map holds
the first with count 2 and the second with count 1; the other roots emit
nothing and their maps are empty. -/
theorem certificate_map_counts_witness :
    enumerateRoots vertexColoredEnv (graphOf false mixedStarOps) 2 [0, 1, 2, 3] =
      some ([0, 1, 2, 3].map (rootState vertexColoredEnv (graphOf false mixedStarOps) 2)) ∧
    ([0, 1, 2, 3].map (rootState vertexColoredEnv (graphOf false mixedStarOps) 2)).map
        (fun st => emittedCertificates vertexColoredEnv (graphOf false mixedStarOps) st) =
      [[[64, 128, 0, 5, 0, 7], [64, 128, 0, 5, 0, 7], [64, 128, 0, 5, 0, 1]], [], [], []] ∧
    ([0, 1, 2, 3].map (rootState vertexColoredEnv (graphOf false mixedStarOps) 2)).map
        (fun st => (st.certificates, st.enumerated_subgraphs)) =
      [([([64, 128, 0, 5, 0, 7], 2), ([64, 128, 0, 5, 0, 1], 1)], 3), ([], 0), ([], 0),
        ([], 0)] ∧
    List.Forall₂
      (fun u st =>
        EnumerateSubgraphsFromNode vertexColoredEnv (graphOf false mixedStarOps) 2 u = some st ∧
        (emittedCertificates vertexColoredEnv (graphOf false mixedStarOps) st).length =
          st.emitted.length ∧
        (st.certificates.map Prod.fst).Nodup ∧
        (∀ f n, mapFind st.certificates f = some n ↔
          1 ≤ n ∧
          (emittedCertificates vertexColoredEnv (graphOf false mixedStarOps) st).count f = n) ∧
        (st.certificates.map Prod.snd).sum = st.enumerated_subgraphs ∧
        st.enumerated_subgraphs = st.emitted.length)
      [0, 1, 2, 3]
      ([0, 1, 2, 3].map (rootState vertexColoredEnv (graphOf false mixedStarOps) 2)) :=
  ⟨enumerateRoots_eq_some _ _ _ (by decide!) (by decide!) _ (by decide!),
   by decide!, by decide!,
   certificate_map_counts vertexColoredEnv (graphOf false mixedStarOps) 2 [0, 1, 2, 3] _
     (enumerateRoots_eq_some _ _ _ (by decide!) (by decide!) _ (by decide!))⟩

theorem getD_lt_of_forall {l : List Nat} {n : Nat} (h : ∀ x ∈ l, x < n) (hn : 0 < n) (i : Nat) :
    l.getD i 0 < n := by
  by_cases hi : i < l.length
  · rw [List.getD_eq_getElem l 0 hi]
    exact h _ (List.getElem_mem hi)
  · rw [List.getD_eq_default l 0 (by omega)]
    exact hn

theorem keptBytes_lt (matrix : List Nat) (nbytes : Nat) : ∀ b ∈ keptBytes matrix nbytes, b < 256 := by
  intro b hb
  unfold keptBytes at hb
  obtain ⟨iv, _, hiv⟩ := List.mem_filterMap.mp hb
  split at hiv
  · exact absurd hiv (by simp)
  · simp only [Option.some.injEq] at hiv
    rw [← hiv]
    apply getD_lt_of_forall _ (by decide)
    intro x hx
    have hx' := List.mem_of_mem_take hx
    obtain ⟨w, _, hw⟩ := List.mem_flatMap.mp hx'
    unfold setwordBytes at hw
    obtain ⟨j, _, rfl⟩ := List.mem_map.mp hw
    exact Nat.mod_lt _ (by decide)

theorem toByte_lt (x : Int) : toByte x < 256 := by
  unfold toByte
  have h1 : 0 ≤ x % 256 := Int.emod_nonneg x (by decide)
  have h2 : x % 256 < 256 := Int.emod_lt_of_pos x (by decide)
  omega

/-- Every entry of a certificate is a byte. -/
theorem buildCertificate_lt (flags : Flags) (G : Graph) (itv : List Int) (k : Nat) (ng : NyGraph) :
    ∀ b ∈ buildCertificate flags G itv k ng, b < 256 := by
  intro b hb
  unfold buildCertificate at hb
  split at hb
  · rcases List.mem_append.mp hb with h | h
    · exact keptBytes_lt _ _ b h
    · obtain ⟨x, _, rfl⟩ := List.mem_map.mp h
      exact toByte_lt x
  · split at hb
    · rcases List.mem_append.mp hb with h | h
      · exact keptBytes_lt _ _ b h
      · obtain ⟨iv, _, hiv⟩ := List.mem_flatMap.mp h
        unfold colorBytes at hiv
        obtain ⟨ib, _, rfl⟩ := List.mem_map.mp hiv
        exact toByte_lt _
    · exact keptBytes_lt _ _ b hb

theorem hexByte_digits (b : Nat) (hb : b < 256) :
    hexByte b = String.mk [hexDigits.getD (b / 16) '0', hexDigits.getD (b % 16) '0'] := by
  have hd : ∀ d, d < 16 → Nat.digitChar d = hexDigits.getD d '0' := by
    intro d hd
    interval_cases d <;> rfl
  unfold hexByte
  rw [Nat.mod_eq_of_lt (by omega : b / 16 < 16), hd (b / 16) (by omega),
    hd (b % 16) (Nat.mod_lt _ (by decide))]

theorem mem_emittedCertificates (env : Env) (G : Graph) (st : EnumState) (f : List Nat)
    (hf : f ∈ emittedCertificates env G st) : ∀ b ∈ f, b < 256 := by
  unfold emittedCertificates at hf
  obtain ⟨i, hi, rfl⟩ := List.mem_iff_getElem.mp hf
  rw [List.getElem_zipWith]
  exact buildCertificate_lt _ _ _ _ _

/-- The keys of the certificate map in the order the loop over the map walks
them: the distinct certificates of the emitted subgraphs, sorted. -/
theorem certificateEntries_keys (env : Env) (G : Graph) (st : EnumState)
    (h : CountsCertificates env G st) :
    (certificateEntries st.certificates).map Prod.fst =
      (emittedCertificates env G st).dedup.insertionSort (fun a b => a ≤ b) := by
  obtain ⟨_, hnd, hfind, _⟩ := h
  have htot : IsTotal (List Nat × Nat) (fun a b => a.1 ≤ b.1) := ⟨fun a b => le_total a.1 b.1⟩
  have htr : IsTrans (List Nat × Nat) (fun a b => a.1 ≤ b.1) :=
    ⟨fun a b c hab hbc => le_trans hab hbc⟩
  apply List.eq_of_perm_of_sorted (r := fun a b => a ≤ b)
  · apply ((List.perm_insertionSort _ st.certificates).map Prod.fst).trans
    apply List.Perm.trans _ (List.perm_insertionSort _ _).symm
    rw [List.perm_ext_iff_of_nodup hnd (List.nodup_dedup _)]
    intro f
    rw [List.mem_dedup, ← mapFind_isSome_iff, hfind f, ← List.count_pos_iff]
    by_cases h0 : (emittedCertificates env G st).count f = 0
    · simp [h0]
    · simp only [h0, if_false, Option.isSome_some, true_iff]
      omega
  · have := List.sorted_insertionSort (fun (a b : List Nat × Nat) => a.1 ≤ b.1) st.certificates
    unfold certificateEntries
    exact List.pairwise_map.mpr this
  · exact List.sorted_insertionSort _ _

theorem certificateEntries_values (env : Env) (G : Graph) (st : EnumState)
    (h : CountsCertificates env G st) :
    ∀ e ∈ certificateEntries st.certificates, e.2 = (emittedCertificates env G st).count e.1 := by
  obtain ⟨_, hnd, hfind, _⟩ := h
  intro e he
  have hmem : e ∈ st.certificates := (List.perm_insertionSort _ st.certificates).mem_iff.mp he
  have := mapFind_of_mem st.certificates hnd e hmem
  rw [hfind e.1] at this
  split at this
  · exact absurd this (by simp)
  · exact (Option.some.inj this).symm

/-- The certificate lines of a root are given by the distinct certificates of
the emitted subgraphs, sorted, each with the number of its occurrences. -/
theorem certificateLines_eq (env : Env) (G : Graph) (st : EnumState)
    (h : CountsCertificates env G st) :
    certificateLines st.certificates =
      ((emittedCertificates env G st).dedup.insertionSort (fun a b => a ≤ b)).map
        (fun f => String.join (f.map hexByte) ++ ": " ++
          toString ((emittedCertificates env G st).count f) ++ "\n") := by
  rw [← certificateEntries_keys env G st h, List.map_map]
  unfold certificateLines
  apply List.map_congr_left
  intro e he
  rw [Function.comp_apply, certificateEntries_values env G st h e he]

theorem sorted_dedup_perm {l l' : List (List Nat)} (hp : l.Perm l') :
    l.dedup.insertionSort (fun a b => a ≤ b) = l'.dedup.insertionSort (fun a b => a ≤ b) := by
  apply List.eq_of_perm_of_sorted (r := fun a b => a ≤ b)
  · exact ((List.perm_insertionSort _ _).trans hp.dedup).trans (List.perm_insertionSort _ _).symm
  · exact List.sorted_insertionSort _ _
  · exact List.sorted_insertionSort _ _

/-- C24. For every root, the certificate lines written by
`EnumerateSubgraphsFromNode` list each distinct certificate of the emitted
subgraphs exactly once, in strictly ascending lexicographic order of its
bytes (values from 0 to 255, a proper prefix first), each as two lowercase
hexadecimal digits per byte followed by `": "`, the decimal count and a
newline; the text depends only on the multiset of the certificates of the
emitted subgraphs and not on the order in which they were enumerated: a run
whose emitted certificates are a rearrangement of those of this run writes
the same lines. -/
theorem certificate_lines_sorted (env : Env) (G : Graph) (k : Nat) (u : Int) (st : EnumState)
    (h : EnumerateSubgraphsFromNode env G k u = some st) :
    ((certificateEntries st.certificates).map Prod.fst).Pairwise
      (List.Lex (fun a b => a < b)) ∧
    (∀ f, f ∈ (certificateEntries st.certificates).map Prod.fst ↔
      f ∈ emittedCertificates env G st) ∧
    certificateLines st.certificates =
      ((certificateEntries st.certificates).map Prod.fst).map
        (fun f => String.join (f.map hexByte) ++ ": " ++
          toString ((emittedCertificates env G st).count f) ++ "\n") ∧
    (∀ f ∈ emittedCertificates env G st, ∀ b ∈ f, b < 256 ∧
      hexByte b = String.mk [hexDigits.getD (b / 16) '0', hexDigits.getD (b % 16) '0']) ∧
    (∀ (env' : Env) (G' : Graph) (k' : Nat) (u' : Int) (st' : EnumState),
      EnumerateSubgraphsFromNode env' G' k' u' = some st' →
      (emittedCertificates env' G' st').Perm (emittedCertificates env G st) →
      certificateLines st'.certificates = certificateLines st.certificates) := by
  have hc := counts_certificates env G k u st h
  have hkeys := certificateEntries_keys env G st hc
  refine ⟨?_, ?_, ?_, ?_, ?_⟩
  · rw [hkeys]
    have hs : ((emittedCertificates env G st).dedup.insertionSort (fun a b => a ≤ b)).Pairwise
        (fun a b => a ≤ b) := List.sorted_insertionSort _ _
    have hn : ((emittedCertificates env G st).dedup.insertionSort (fun a b => a ≤ b)).Nodup :=
      (List.perm_insertionSort _ _).nodup_iff.mpr (List.nodup_dedup _)
    exact (hs.and hn).imp (fun hab => lt_of_le_of_ne hab.1 hab.2)
  · intro f
    rw [hkeys, (List.perm_insertionSort _ _).mem_iff, List.mem_dedup]
  · rw [hkeys]
    exact certificateLines_eq env G st hc
  · intro f hf b hb
    have hlt := mem_emittedCertificates env G st f hf b hb
    exact ⟨hlt, hexByte_digits b hlt⟩
  · intro env' G' k' u' st' h' hperm
    have hc' := counts_certificates env' G' k' u' st' h'
    rw [certificateLines_eq env G st hc, certificateLines_eq env' G' st' hc',
      sorted_dedup_perm hperm]
    apply List.map_congr_left
    intro f _
    exact congrArg
      (fun n => String.join (f.map hexByte) ++ ": " ++ toString n ++ "\n")
      (hperm.countP_eq _)

theorem mixedStar_certificates :
    (rootState vertexColoredEnv (graphOf false mixedStarOps) 2 0).certificates =
      [([64, 128, 0, 5, 0, 7], 2), ([64, 128, 0, 5, 0, 1], 1)] ∧
    (rootState descendingEnv (graphOf false mixedStarOps) 2 0).certificates =
      [([64, 128, 0, 5, 0, 1], 1), ([64, 128, 0, 5, 0, 7], 2)] :=
  ⟨by decide!, by decide!⟩

/-- The star of `mixedStarOps` in vertex-coloured mode, root 0, `k = 2`.
Walking the sets in insertion order the certificates come as
40 80 00 05 00 07 twice and then 40 80 00 05 00 01, walking them from the
largest element down as 40 80 00 05 00 01 and then 40 80 00 05 00 07 twice;
both runs write the lines `408000050001: 1` and `408000050007: 2`. -/
theorem certificate_lines_sorted_witness :
    EnumerateSubgraphsFromNode vertexColoredEnv (graphOf false mixedStarOps) 2 0 =
      some (rootState vertexColoredEnv (graphOf false mixedStarOps) 2 0) ∧
    emittedCertificates vertexColoredEnv (graphOf false mixedStarOps)
        (rootState vertexColoredEnv (graphOf false mixedStarOps) 2 0) =
      [[64, 128, 0, 5, 0, 7], [64, 128, 0, 5, 0, 7], [64, 128, 0, 5, 0, 1]] ∧
    emittedCertificates descendingEnv (graphOf false mixedStarOps)
        (rootState descendingEnv (graphOf false mixedStarOps) 2 0) =
      [[64, 128, 0, 5, 0, 1], [64, 128, 0, 5, 0, 7], [64, 128, 0, 5, 0, 7]] ∧
    certificateLines (rootState vertexColoredEnv (graphOf false mixedStarOps) 2 0).certificates =
      ["408000050001: 1\n", "408000050007: 2\n"] ∧
    certificateLines (rootState descendingEnv (graphOf false mixedStarOps) 2 0).certificates =
      ["408000050001: 1\n", "408000050007: 2\n"] ∧
    (((certificateEntries
        (rootState vertexColoredEnv (graphOf false mixedStarOps) 2 0).certificates).map
          Prod.fst).Pairwise (List.Lex (fun a b => a < b)) ∧
    (∀ f, f ∈ (certificateEntries
        (rootState vertexColoredEnv (graphOf false mixedStarOps) 2 0).certificates).map
          Prod.fst ↔
      f ∈ emittedCertificates vertexColoredEnv (graphOf false mixedStarOps)
        (rootState vertexColoredEnv (graphOf false mixedStarOps) 2 0)) ∧
    certificateLines (rootState vertexColoredEnv (graphOf false mixedStarOps) 2 0).certificates =
      ((certificateEntries
        (rootState vertexColoredEnv (graphOf false mixedStarOps) 2 0).certificates).map
          Prod.fst).map
        (fun f => String.join (f.map hexByte) ++ ": " ++
          toString ((emittedCertificates vertexColoredEnv (graphOf false mixedStarOps)
            (rootState vertexColoredEnv (graphOf false mixedStarOps) 2 0)).count f) ++ "\n") ∧
    (∀ f ∈ emittedCertificates vertexColoredEnv (graphOf false mixedStarOps)
        (rootState vertexColoredEnv (graphOf false mixedStarOps) 2 0), ∀ b ∈ f, b < 256 ∧
      hexByte b = String.mk [hexDigits.getD (b / 16) '0', hexDigits.getD (b % 16) '0']) ∧
    (∀ (env' : Env) (G' : Graph) (k' : Nat) (u' : Int) (st' : EnumState),
      EnumerateSubgraphsFromNode env' G' k' u' = some st' →
      (emittedCertificates env' G' st').Perm
        (emittedCertificates vertexColoredEnv (graphOf false mixedStarOps)
          (rootState vertexColoredEnv (graphOf false mixedStarOps) 2 0)) →
      certificateLines st'.certificates =
        certificateLines
          (rootState vertexColoredEnv (graphOf false mixedStarOps) 2 0).certificates)) :=
  ⟨EnumerateSubgraphsFromNode_rootState (by decide!) (by decide!) (by decide!),
   by decide!, by decide!,
   by rw [mixedStar_certificates.1]; simp only [certificateLines, certificateEntries]; decide,
   by rw [mixedStar_certificates.2]; simp only [certificateLines, certificateEntries]; decide,
   certificate_lines_sorted vertexColoredEnv (graphOf false mixedStarOps) 2 0
     (rootState vertexColoredEnv (graphOf false mixedStarOps) 2 0)
     (EnumerateSubgraphsFromNode_rootState (by decide!) (by decide!) (by decide!))⟩

/-- C31 as the code has it. `Validate` copies the unordered set
`valid_vertices` into the vector it returns in the iteration order of the set
and sorts nothing.  For the path 2-0-1 built with the edge 0-2 added before
the edge 0-1, root 0, parents `{0}` and `{0}` visited, it returns 2 before 1,
both when the sets are walked in insertion order and when they are walked in
reverse insertion order: the returned list is not in ascending order of
vertex index. -/
theorem validate_result_not_sorted :
    (graphOf false wedgeOps).Built ∧
    (graphOf false wedgeOps).neighbors 0 = [2, 1] ∧
    (Validate (plainEnv false) (graphOf false wedgeOps) [0] 0 [0]).1 = [2, 1] ∧
    (Validate reversedEnv (graphOf false wedgeOps) [0] 0 [0]).1 = [2, 1] ∧
    ¬ (Validate (plainEnv false) (graphOf false wedgeOps) [0] 0 [0]).1.Sorted
        (fun a b => a ≤ b) ∧
    ¬ (Validate reversedEnv (graphOf false wedgeOps) [0] 0 [0]).1.Sorted
        (fun a b => a ≤ b) := by
  have h1 : (Validate (plainEnv false) (graphOf false wedgeOps) [0] 0 [0]).1 = [2, 1] := by
    decide!
  have h2 : (Validate reversedEnv (graphOf false wedgeOps) [0] 0 [0]).1 = [2, 1] := by
    decide!
  refine ⟨graphOf_Built false wedgeOps (by decide!), by decide!, h1, h2, ?_, ?_⟩
  · rw [h1]; decide
  · rw [h2]; decide

/-- C32. For every call `EnumerateVertex(G, u, S, rem, i, visited)` with
`rem ≥ 0` (and `i ≥ 1`, as in every call the program makes), whatever the
depth allowed to the recursion, the visited set on return is the visited set
on entry and the level sets `S[0], ..., S[i-1]` are unchanged; after the
top-level call from `EnumerateSubgraphsFromNode` the visited set is again
`{u}` and `S[0]` is `{u}`. -/
theorem enumerate_vertex_restores_frame (env : Env) (G : Graph) (u : Int) (fuel : Nat)
    (st : EnumState) (rem i : Nat) (hi : 1 ≤ i) :
    (EnumerateVertex env G u fuel st rem i).visited = st.visited ∧
    (∀ j, j < i → (EnumerateVertex env G u fuel st rem i).S j = st.S j) ∧
    (∀ (k : Nat) (st' : EnumState), EnumerateSubgraphsFromNode env G k u = some st' →
      st'.visited = [u] ∧ st'.S 0 = [u]) := by
  have h := EnumerateVertex_emits env G u fuel st.S st.visited rem i hi st (fun _ _ => rfl) rfl
  refine ⟨h.1, h.2.1, ?_⟩
  intro k st' hst
  obtain ⟨_, _, _, rfl⟩ := (EnumerateSubgraphsFromNode_eq_some_iff env G k u st').mp hst
  have h' := EnumerateVertex_emits env G u (k - 1) (initialState env.flags G k u).S
    (initialState env.flags G k u).visited (k - 1) 1 (le_refl 1) (initialState env.flags G k u)
    (fun _ _ => rfl) rfl
  refine ⟨h'.1, ?_⟩
  rw [h'.2.1 0 (by decide)]
  simp [initialState, setInsert]

/-- The path 0-1-2-3, root 1, `k = 3`: the top-level call
`EnumerateVertex(G, 1, S, 2, 1, visited)` emits `{1, 2, 3}` and returns with
`{1}` visited and `S[0] = {1}`. -/
theorem enumerate_vertex_restores_frame_witness :
    (1 : Nat) ≤ 1 ∧
    (initialState (plainEnv false).flags (graphOf false pathOps) 3 1).visited = [1] ∧
    (EnumerateVertex (plainEnv false) (graphOf false pathOps) 1 2
      (initialState (plainEnv false).flags (graphOf false pathOps) 3 1) 2 1).emitted =
        [[[1], [2], [3]]] ∧
    ((EnumerateVertex (plainEnv false) (graphOf false pathOps) 1 2
        (initialState (plainEnv false).flags (graphOf false pathOps) 3 1) 2 1).visited =
      (initialState (plainEnv false).flags (graphOf false pathOps) 3 1).visited ∧
    (∀ j, j < 1 →
      (EnumerateVertex (plainEnv false) (graphOf false pathOps) 1 2
        (initialState (plainEnv false).flags (graphOf false pathOps) 3 1) 2 1).S j =
      (initialState (plainEnv false).flags (graphOf false pathOps) 3 1).S j) ∧
    (∀ (k : Nat) (st' : EnumState),
      EnumerateSubgraphsFromNode (plainEnv false) (graphOf false pathOps) k 1 = some st' →
      st'.visited = [1] ∧ st'.S 0 = [1])) :=
  ⟨by decide, by decide!, by decide!,
   enumerate_vertex_restores_frame (plainEnv false) (graphOf false pathOps) 1 2
     (initialState (plainEnv false).flags (graphOf false pathOps) 3 1) 2 1 (by decide)⟩

/-- The loop `while (color)` writes one entry for each layer listed by
`coloredLayers`, in that order. -/
theorem addColoredEdge_eq_foldl (m k out_index in_index : Nat) (fuel : Nat) :
    ∀ (color : Int) (current_layer : Nat) (M : List Nat),
      addColoredEdge m k out_index in_index fuel color current_layer M =
        (coloredLayers fuel color current_layer).foldl
          (fun M p => ADDELEMENT M m (out_index + p * k) (in_index + p * k)) M := by
  induction fuel with
  | zero => intro color layer M; simp [addColoredEdge, coloredLayers]
  | succ fuel ih =>
    intro color layer M
    unfold addColoredEdge coloredLayers
    by_cases h0 : color = 0
    · simp [h0]
    · simp only [h0, if_false]
      rw [ih, List.foldl_append]
      by_cases h1 : Int.tmod color 2 ≠ 0
      · simp [h1]
      · simp [h1]

/-- C36. For every `nedge_types` from 1 to 7, with `L` the layer count
computed from it: an edge colour `c` in `0, ..., nedge_types - 1` is put on
the layers at the bit positions set in `c + 1`; these form a non-empty set of
positions below `L`, and two colours with the same set of layers are the
same colour.  Hence every layered index `out_index + p * k` or
`in_index + p * k` that the coloured-edge loop writes (one entry for each of
these layers `p`, for subgraph indices below `k`) is smaller than `L * k`. -/
theorem colour_layers_injective (nedge_types : Int) (h1 : 1 ≤ nedge_types)
    (h7 : nedge_types ≤ 7) :
    (∀ c : Int, 0 ≤ c → c < nedge_types →
      coloredLayers 8 (toInt8 (c + 1)) 0 ≠ [] ∧
      coloredLayers 8 (toInt8 (c + 1)) 0 =
        (List.range (layerCount nedge_types)).filter (fun p => Nat.testBit (c.toNat + 1) p) ∧
      ∀ p, p ∈ coloredLayers 8 (toInt8 (c + 1)) 0 ↔
        p < layerCount nedge_types ∧ Nat.testBit (c.toNat + 1) p = true) ∧
    (∀ c c' : Int, 0 ≤ c → c < nedge_types → 0 ≤ c' → c' < nedge_types →
      (∀ p, p ∈ coloredLayers 8 (toInt8 (c + 1)) 0 ↔ p ∈ coloredLayers 8 (toInt8 (c' + 1)) 0) →
      c = c') ∧
    (∀ (c : Int) (m k out_index in_index : Nat) (M : List Nat), 0 ≤ c → c < nedge_types →
      out_index < k → in_index < k →
      addColoredEdge m k out_index in_index 8 (toInt8 (c + 1)) 0 M =
        (coloredLayers 8 (toInt8 (c + 1)) 0).foldl
          (fun M p => ADDELEMENT M m (out_index + p * k) (in_index + p * k)) M ∧
      ∀ p ∈ coloredLayers 8 (toInt8 (c + 1)) 0,
        out_index + p * k < layerCount nedge_types * k ∧
        in_index + p * k < layerCount nedge_types * k) := by
  have hmem : ∀ c : Int, 0 ≤ c → c < nedge_types → ∀ p,
      p ∈ coloredLayers 8 (toInt8 (c + 1)) 0 ↔
        p < layerCount nedge_types ∧ Nat.testBit (c.toNat + 1) p = true := by
    intro c h0 hc p
    constructor
    · intro hp
      exact ⟨coloredLayers_lt_layerCount h0 (by omega) hc hp,
        ((mem_coloredLayers h0 (by omega) p).mp hp).2⟩
    · rintro ⟨hp, hb⟩
      have hL : layerCount nedge_types ≤ 8 := by
        have : layerCount nedge_types ≤ 3 := by
          unfold layerCount
          apply (Nat.le_pow_iff_clog_le (by decide : 1 < 2)).mp
          omega
        omega
      exact (mem_coloredLayers h0 (by omega) p).mpr ⟨by omega, hb⟩
  refine ⟨?_, ?_, ?_⟩
  · intro c h0 hc
    refine ⟨?_, ?_, hmem c h0 hc⟩
    · obtain ⟨p, hp⟩ := coloredLayers_nonempty h0 (by omega : c ≤ 127)
      exact List.ne_nil_of_mem hp
    · obtain ⟨n, rfl⟩ : ∃ n : Nat, c = (n : Int) := ⟨c.toNat, (Int.toNat_of_nonneg h0).symm⟩
      obtain ⟨N, rfl⟩ : ∃ N : Nat, nedge_types = (N : Int) :=
        ⟨nedge_types.toNat, (Int.toNat_of_nonneg (by omega)).symm⟩
      rw [coloredLayers_of_color n (by omega), Int.toNat_ofNat]
      have hN1 : 1 ≤ N := by omega
      have hN7 : N ≤ 7 := by omega
      have hn : n < N := by omega
      interval_cases N <;> interval_cases n <;> decide!
  · intro c c' h0 hc h0' hc' hiff
    have hbits : c.toNat + 1 = c'.toNat + 1 := by
      apply Nat.eq_of_testBit_eq
      intro p
      by_cases hp : p < 8
      · have e1 := mem_coloredLayers h0 (by omega : c ≤ 127) p
        have e2 := mem_coloredLayers h0' (by omega : c' ≤ 127) p
        have e3 : (Nat.testBit (c.toNat + 1) p = true ↔ Nat.testBit (c'.toNat + 1) p = true) := by
          constructor
          · intro hb
            exact (e2.mp ((hiff p).mp (e1.mpr ⟨hp, hb⟩))).2
          · intro hb
            exact (e1.mp ((hiff p).mpr (e2.mpr ⟨hp, hb⟩))).2
        exact Bool.eq_iff_iff.mpr e3
      · have hpow : 2 ^ 8 ≤ 2 ^ p := Nat.pow_le_pow_right (by decide) (by omega)
        rw [Nat.testBit_lt_two_pow (by omega : c.toNat + 1 < 2 ^ p),
          Nat.testBit_lt_two_pow (by omega : c'.toNat + 1 < 2 ^ p)]
    omega
  · intro c m k out_index in_index M h0 hc hout hin
    refine ⟨addColoredEdge_eq_foldl m k out_index in_index 8 _ 0 M, ?_⟩
    intro p hp
    have hpL := ((hmem c h0 hc p).mp hp).1
    have hle : (p + 1) * k ≤ layerCount nedge_types * k := Nat.mul_le_mul_right k hpL
    have e : (p + 1) * k = p * k + k := by ring
    omega

/-- Seven edge types and three layers: the colours 0, ..., 6 go to the layer
sets 0; 1; 0 1; 2; 0 2; 1 2; 0 1 2, and for the colour 6 with `k = 3` the
edge from index 1 to index 2 is written at `(1, 2)`, `(4, 5)` and `(7, 8)`,
all below `3 * 3`. -/
theorem colour_layers_injective_witness :
    (1 : Int) ≤ 7 ∧ (7 : Int) ≤ 7 ∧ layerCount 7 = 3 ∧
    (List.range 7).map (fun c => coloredLayers 8 (toInt8 ((c : Int) + 1)) 0) =
      [[0], [1], [0, 1], [2], [0, 2], [1, 2], [0, 1, 2]] ∧
    (coloredLayers 8 (toInt8 (6 + 1)) 0).map (fun p => (1 + p * 3, 2 + p * 3)) =
      [(1, 2), (4, 5), (7, 8)] ∧
    ((∀ c : Int, 0 ≤ c → c < 7 →
      coloredLayers 8 (toInt8 (c + 1)) 0 ≠ [] ∧
      coloredLayers 8 (toInt8 (c + 1)) 0 =
        (List.range (layerCount 7)).filter (fun p => Nat.testBit (c.toNat + 1) p) ∧
      ∀ p, p ∈ coloredLayers 8 (toInt8 (c + 1)) 0 ↔
        p < layerCount 7 ∧ Nat.testBit (c.toNat + 1) p = true) ∧
    (∀ c c' : Int, 0 ≤ c → c < 7 → 0 ≤ c' → c' < 7 →
      (∀ p, p ∈ coloredLayers 8 (toInt8 (c + 1)) 0 ↔ p ∈ coloredLayers 8 (toInt8 (c' + 1)) 0) →
      c = c') ∧
    (∀ (c : Int) (m k out_index in_index : Nat) (M : List Nat), 0 ≤ c → c < 7 →
      out_index < k → in_index < k →
      addColoredEdge m k out_index in_index 8 (toInt8 (c + 1)) 0 M =
        (coloredLayers 8 (toInt8 (c + 1)) 0).foldl
          (fun M p => ADDELEMENT M m (out_index + p * k) (in_index + p * k)) M ∧
      ∀ p ∈ coloredLayers 8 (toInt8 (c + 1)) 0,
        out_index + p * k < layerCount 7 * k ∧ in_index + p * k < layerCount 7 * k)) :=
  ⟨by decide, by decide, by decide!, by decide!, by decide!,
   colour_layers_injective 7 (by decide) (by decide)⟩

/-- In vertex-coloured mode, when the canonicalizer keeps the cells, the
canonical position `iv` holds a vertex whose colour is the one of the cell of
`iv`. -/
theorem canonical_color_of_cells {env : Env} {G : Graph} {A : List Int} {L : Nat} {ng : NyGraph}
    (he : env.flags.EDGE_COLORED = false) (hv : env.flags.VERTEX_COLORED = true)
    (hws : EntryWorkspace env.flags L A.length ng)
    (hcells : KeepsCells (prepareNauty env.flags G A L ng)
      (callNauty env (prepareNauty env.flags G A L ng)))
    (iv : Nat) (hiv : iv < A.length) :
    lookupColoring env.flags G A
        ((callNauty env (prepareNauty env.flags G A L ng)).lab.getD iv 0) =
      (colorKeys G A).getD
        (cellAt ((colorKeys G A).flatMap (fun c => cellMarks ((A.map G.color).count c))) iv) 0 := by
  obtain ⟨hn, _, _, _, hlab, hptn, _, _⟩ := hws
  simp only [he, Bool.false_eq_true, if_false] at hn
  rw [hn] at hlab hptn
  obtain ⟨hmarks, hpos, _⟩ := colorPartition_spec G A ng.lab ng.ptn hlab hptn
  obtain ⟨hx1, hx2⟩ := prepareNauty_labptn_vertex env.flags G A L ng he hv
  unfold KeepsCells at hcells
  rw [(prepareNauty_fields _ _ _ _ _).1, hn] at hcells
  obtain ⟨q, hq, hq1, hq2⟩ := hcells iv hiv
  rw [hx1] at hq1
  rw [hx2, hmarks] at hq2
  obtain ⟨hlt, _, hcq⟩ := hpos q hq
  rw [hq1] at hlt
  rw [hq1, hmarks, hq2] at hcq
  unfold lookupColoring
  simp only [hv, Bool.true_and, hlt, decide_True, if_true]
  exact hcq

theorem replicated_getD (counts : Int → Nat) :
    ∀ (keys : List Int), (∀ c ∈ keys, 1 ≤ counts c) →
      ∀ p, p < (keys.flatMap (fun c => List.replicate (counts c) c)).length →
        (keys.flatMap (fun c => List.replicate (counts c) c)).getD p 0 =
          keys.getD (cellAt (keys.flatMap (fun c => cellMarks (counts c))) p) 0 := by
  intro keys
  induction keys with
  | nil => intro _ p hp; simp at hp
  | cons c rest ih =>
    intro hpos p hp
    have hc := hpos c (List.mem_cons_self _ _)
    simp only [List.flatMap_cons] at hp ⊢
    by_cases hlt : p < counts c
    · rw [cellAt_append_lt _ hlt, List.getD_append _ _ _ _ (by simpa using hlt)]
      simp [List.getD_eq_getElem, hlt]
    · have hge : counts c ≤ p := by omega
      rw [cellAt_append_ge _ hc hge, List.getD_append_right _ _ _ _ (by simpa using hge)]
      simp only [List.length_replicate, List.getD_cons_succ]
      apply ih (fun x hx => hpos x (List.mem_cons_of_mem _ hx))
      simp only [List.length_append, List.length_replicate] at hp
      omega

theorem replicated_sorted (counts : Int → Nat) :
    ∀ (keys : List Int), keys.Sorted (fun a b => a ≤ b) →
      (keys.flatMap (fun c => List.replicate (counts c) c)).Sorted (fun a b => a ≤ b) := by
  intro keys
  induction keys with
  | nil => intro _; simp
  | cons c rest ih =>
    intro hs
    have hs' := List.sorted_cons.mp hs
    simp only [List.flatMap_cons]
    unfold List.Sorted
    rw [List.pairwise_append]
    refine ⟨?_, ih hs'.2, ?_⟩
    · rw [List.pairwise_replicate]
      exact Or.inr (le_refl c)
    · intro a ha b hb
      rw [List.eq_of_mem_replicate ha]
      obtain ⟨d, hd, hbd⟩ := List.mem_flatMap.mp hb
      rw [List.eq_of_mem_replicate hbd]
      exact hs'.1 d hd

theorem replicated_count (l : List Int) :
    ∀ (keys : List Int), keys.Nodup → ∀ x,
      (keys.flatMap (fun c => List.replicate (l.count c) c)).count x =
        if x ∈ keys then l.count x else 0 := by
  intro keys
  induction keys with
  | nil => intro _ x; simp
  | cons c rest ih =>
    intro hnd x
    obtain ⟨hc, hnd'⟩ := List.nodup_cons.mp hnd
    simp only [List.flatMap_cons, List.count_append, ih hnd' x, List.count_replicate,
      List.mem_cons]
    by_cases hxc : x = c
    · subst hxc
      simp [hc]
    · have : ¬ c = x := fun e => hxc e.symm
      simp [hxc, this]

/-- The colours of the cells, each repeated as often as it occurs, are the
colours of the subgraph in ascending order. -/
theorem replicated_eq_sorted (G : Graph) (A : List Int) :
    (colorKeys G A).flatMap (fun c => List.replicate ((A.map G.color).count c) c) =
      (A.map G.color).insertionSort (fun a b => a ≤ b) := by
  obtain ⟨hs, hnd, hmem⟩ := colorKeys_spec G A
  apply List.eq_of_perm_of_sorted (r := fun a b => a ≤ b)
  · apply List.Perm.trans _ (List.perm_insertionSort _ _).symm
    rw [List.perm_iff_count]
    intro x
    rw [replicated_count _ _ hnd x]
    by_cases hx : x ∈ colorKeys G A
    · rw [if_pos hx]
    · rw [if_neg hx]
      exact (List.count_eq_zero.mpr (fun h => hx ((hmem x).mpr h))).symm
  · exact replicated_sorted _ _ hs
  · exact List.sorted_insertionSort _ _

/-- In vertex-coloured mode, when the canonicalizer keeps the cells, the
colour appendix lists the two bytes of each colour of the subgraph, the
colours taken in ascending order. -/
theorem colorAppendix_sorted {env : Env} {G : Graph} {A : List Int} {L : Nat} {ng : NyGraph}
    (he : env.flags.EDGE_COLORED = false) (hv : env.flags.VERTEX_COLORED = true)
    (hws : EntryWorkspace env.flags L A.length ng)
    (hcells : KeepsCells (prepareNauty env.flags G A L ng)
      (callNauty env (prepareNauty env.flags G A L ng))) :
    colorAppendix env.flags G A A.length (callNauty env (prepareNauty env.flags G A L ng)) =
      ((A.map G.color).insertionSort (fun a b => a ≤ b)).flatMap colorBytes := by
  have hT := replicated_eq_sorted G A
  have hlen : ((colorKeys G A).flatMap
      (fun c => List.replicate ((A.map G.color).count c) c)).length = A.length := by
    rw [hT, List.length_insertionSort, List.length_map]
  have hpos : ∀ c ∈ colorKeys G A, 1 ≤ (A.map G.color).count c := by
    intro c hc
    exact List.count_pos_iff.mpr (((colorKeys_spec G A).2.2 c).mp hc)
  rw [colorAppendix_vertex _ _ _ _ _ he hv, ← hT]
  conv_rhs => rw [← range_map_lookupVertex ((colorKeys G A).flatMap
    (fun c => List.replicate ((A.map G.color).count c) c)), List.flatMap_map, hlen]
  apply flatMap_congr_mem
  intro iv hiv
  have hiv' : iv < A.length := List.mem_range.mp hiv
  rw [canonical_color_of_cells he hv hws hcells iv hiv']
  unfold lookupVertex
  rw [replicated_getD _ _ hpos iv (by rw [hlen]; exact hiv')]

/-- C35. In vertex-coloured mode (no edge colours), assuming the `lab`
returned by the canonicalizer keeps the cells of the input partition in their
positions, the colour appendix of the certificate is the encoding, high byte
first, of the `k` vertex colours sorted in ascending signed order; so it
depends only on the multiset of the colours of the subgraph: another subgraph
with the same colours in any arrangement gets the same appendix. -/
theorem color_appendix_sorted_colors (env : Env) (G : Graph) (A : List Int) (L : Nat)
    (ng : NyGraph) (he : env.flags.EDGE_COLORED = false) (hv : env.flags.VERTEX_COLORED = true)
    (hws : EntryWorkspace env.flags L A.length ng)
    (hcells : KeepsCells (prepareNauty env.flags G A L ng)
      (callNauty env (prepareNauty env.flags G A L ng))) :
    colorAppendix env.flags G A A.length (callNauty env (prepareNauty env.flags G A L ng)) =
      ((A.map G.color).insertionSort (fun a b => a ≤ b)).flatMap
        (fun c => [toByte (c / 256), toByte c]) ∧
    ((A.map G.color).insertionSort (fun a b => a ≤ b)).Sorted (fun a b => a ≤ b) ∧
    ((A.map G.color).insertionSort (fun a b => a ≤ b)).Perm (A.map G.color) ∧
    (∀ c ∈ A.map G.color, -32768 ≤ c → c ≤ 32767 →
      decodeColor (toByte (c / 256)) (toByte c) = c) ∧
    (∀ (G' : Graph) (B : List Int) (ng' : NyGraph),
      EntryWorkspace env.flags L B.length ng' →
      KeepsCells (prepareNauty env.flags G' B L ng')
        (callNauty env (prepareNauty env.flags G' B L ng')) →
      (B.map G'.color).Perm (A.map G.color) →
      colorAppendix env.flags G' B B.length
          (callNauty env (prepareNauty env.flags G' B L ng')) =
        colorAppendix env.flags G A A.length
          (callNauty env (prepareNauty env.flags G A L ng))) := by
  have hb : (fun c : Int => [toByte (c / 256), toByte c]) = colorBytes := by
    funext c
    exact (colorBytes_eq c).symm
  rw [hb]
  refine ⟨colorAppendix_sorted he hv hws hcells, List.sorted_insertionSort _ _,
    List.perm_insertionSort _ _, ?_, ?_⟩
  · intro c _ h1 h2
    exact decodeColor_colorBytes c h1 h2
  · intro G' B ng' hws' hcells' hperm
    rw [colorAppendix_sorted he hv hws hcells, colorAppendix_sorted he hv hws' hcells']
    congr 1
    apply List.eq_of_perm_of_sorted (r := fun a b => a ≤ b)
    · exact ((List.perm_insertionSort _ _).trans hperm).trans (List.perm_insertionSort _ _).symm
    · exact List.sorted_insertionSort _ _
    · exact List.sorted_insertionSort _ _

theorem cellNauty_keepsCells (x : NyGraph) : KeepsCells x (callNauty cellEnv x) := by
  intro p hp
  exact ⟨p, hp, rfl, rfl⟩

/-- The path 0-1-2 with the vertex colours 7, -1, 3, numbered `[0, 1, 2]`,
with a canonicalizer that keeps the `lab` it is given: the partition lists
the indices as 1, 2, 0 and the appendix is ff ff 00 03 00 07, the colours
-1, 3, 7 in ascending order. -/
theorem color_appendix_sorted_colors_witness :
    ([0, 1, 2] : List Int).map (graphOf false unsortedColorOps).color = [7, -1, 3] ∧
    (prepareNauty cellEnv.flags (graphOf false unsortedColorOps) [0, 1, 2] 1
      (NyGraph.new 3 true)).lab = [1, 2, 0] ∧
    (([0, 1, 2] : List Int).map (graphOf false unsortedColorOps).color).insertionSort
      (fun a b => a ≤ b) = [-1, 3, 7] ∧
    colorAppendix cellEnv.flags (graphOf false unsortedColorOps) [0, 1, 2] 3
        (callNauty cellEnv (prepareNauty cellEnv.flags (graphOf false unsortedColorOps)
          [0, 1, 2] 1 (NyGraph.new 3 true))) = [255, 255, 0, 3, 0, 7] ∧
    (colorAppendix cellEnv.flags (graphOf false unsortedColorOps) [0, 1, 2]
        ([0, 1, 2] : List Int).length
        (callNauty cellEnv (prepareNauty cellEnv.flags (graphOf false unsortedColorOps)
          [0, 1, 2] 1 (NyGraph.new 3 true))) =
      ((([0, 1, 2] : List Int).map (graphOf false unsortedColorOps).color).insertionSort
        (fun a b => a ≤ b)).flatMap (fun c => [toByte (c / 256), toByte c]) ∧
    ((([0, 1, 2] : List Int).map (graphOf false unsortedColorOps).color).insertionSort
      (fun a b => a ≤ b)).Sorted (fun a b => a ≤ b) ∧
    ((([0, 1, 2] : List Int).map (graphOf false unsortedColorOps).color).insertionSort
      (fun a b => a ≤ b)).Perm
        (([0, 1, 2] : List Int).map (graphOf false unsortedColorOps).color) ∧
    (∀ c ∈ ([0, 1, 2] : List Int).map (graphOf false unsortedColorOps).color,
      -32768 ≤ c → c ≤ 32767 → decodeColor (toByte (c / 256)) (toByte c) = c) ∧
    (∀ (G' : Graph) (B : List Int) (ng' : NyGraph),
      EntryWorkspace cellEnv.flags 1 B.length ng' →
      KeepsCells (prepareNauty cellEnv.flags G' B 1 ng')
        (callNauty cellEnv (prepareNauty cellEnv.flags G' B 1 ng')) →
      (B.map G'.color).Perm (([0, 1, 2] : List Int).map (graphOf false unsortedColorOps).color) →
      colorAppendix cellEnv.flags G' B B.length
          (callNauty cellEnv (prepareNauty cellEnv.flags G' B 1 ng')) =
        colorAppendix cellEnv.flags (graphOf false unsortedColorOps) [0, 1, 2]
          ([0, 1, 2] : List Int).length
          (callNauty cellEnv (prepareNauty cellEnv.flags (graphOf false unsortedColorOps)
            [0, 1, 2] 1 (NyGraph.new 3 true))))) :=
  ⟨by decide!, by decide!, by decide!, by decide!,
   color_appendix_sorted_colors cellEnv (graphOf false unsortedColorOps) [0, 1, 2] 1
     (NyGraph.new 3 true) rfl rfl (NyGraph_new_entry 3 true (by decide) (by decide))
     (cellNauty_keepsCells _)⟩

/-- In community mode every vertex of an emitted subgraph has the community
of the root. -/
theorem emitted_community {env : Env} {G : Graph} {k : Nat} {u : Int} {st : EnumState}
    {levels : List (List Int)} (hcb : env.flags.COMMUNITY_BASED = true)
    (h : EnumerateSubgraphsFromNode env G k u = some st) (hl : levels ∈ st.emitted) :
    ∀ v ∈ levels.flatten, G.community v = G.community u := by
  obtain ⟨_, tail, _, rfl, hmem, _, _, _, hchain⟩ := emitted_shape h hl
  intro v hv
  rcases (hmem v).mp hv with hv | hv
  · rw [hv]
  · exact LevelChain_forall (fun _ => True) (fun x => G.community x = G.community u)
      (fun v w hv _ hadm _ => (hadm.1 hcb).symm.trans hv) tail [u] hchain
      (by intro p hp; rw [List.mem_singleton] at hp; rw [hp])
      (fun _ _ => trivial) v hv

/-- A walk from `u` inside a set `H` of vertices of one community reaches its
end by steps of the enumeration that stay in `H` without `u`, in community
mode too. -/
theorem reach_of_walk_in_community {env : Env} {G : Graph} (hwf : G.WellFormed)
    {H : Finset Int} (hcomm : ∀ a ∈ H, ∀ b ∈ H, G.community a = G.community b) {u x : Int}
    (h : Relation.ReflTransGen (fun x y => x ∈ H ∧ y ∈ H ∧ G.adjacent x y) u x) :
    x = u ∨ ReachVia env G (H.erase u) [u] x := by
  induction h with
  | refl => exact Or.inl rfl
  | @tail b c _ hbc ih =>
    by_cases hcu : c = u
    · exact Or.inl hcu
    · right
      have hcT : c ∈ H.erase u := Finset.mem_erase.mpr ⟨hcu, hbc.2.1⟩
      have hexp : Expands env G b c :=
        ⟨(hwf.neighbors_iff b c).mpr hbc.2.2, fun _ => hcomm b hbc.1 c hbc.2.1⟩
      rcases ih with hb | hb
      · subst hb
        exact ReachVia.base (List.mem_singleton.mpr rfl) hcT hexp
      · exact ReachVia.step hb hcT hexp

/-- A connected set `H` of `k` vertices of one community that holds the root
`u` and no vertex of smaller enumeration index is the vertex set of one of
the emitted subgraphs, in community mode too. -/
theorem community_set_emitted {env : Env} {G : Graph} {k : Nat} {u : Int} {st : EnumState}
    {H : Finset Int} (hG : G.Built)
    (hcomm : ∀ a ∈ H, ∀ b ∈ H, G.community a = G.community b)
    (h : EnumerateSubgraphsFromNode env G k u = some st)
    (hcard : H.card = k) (huH : u ∈ H) (hconn : G.InducedConnected H)
    (henum : ∀ v ∈ H, G.enumeration_index u ≤ G.enumeration_index v) :
    H ∈ st.emitted.map subgraphVertices := by
  have hwf := WellFormed_of_Built hG
  obtain ⟨he, _, _⟩ := EnumerateSubgraphsFromNode_emitted h
  obtain ⟨tail, ht, hmem⟩ := levelTails_complete env G u (k - 1) [u] [u] (k - 1) (H.erase u)
    (le_refl _) (by rw [Finset.card_erase_of_mem huH, hcard])
    (by
      intro t ht
      rw [List.mem_singleton]
      exact (Finset.mem_erase.mp ht).1)
    (fun t ht => henum t (Finset.mem_erase.mp ht).2)
    (by
      intro t ht
      obtain ⟨htu, htH⟩ := Finset.mem_erase.mp ht
      rcases reach_of_walk_in_community hwf hcomm (hconn u huH t htH) with h | h
      · exact absurd h htu
      · exact h)
  rw [he, List.map_map]
  refine List.mem_map.mpr ⟨tail, ht, ?_⟩
  simp only [Function.comp, subgraphVertices_emitted]
  ext x
  simp only [Finset.mem_insert, List.mem_toFinset, hmem, Finset.mem_erase]
  constructor
  · rintro (hx | hx)
    · rw [hx]; exact huH
    · exact hx.2
  · intro hx
    by_cases hxu : x = u
    · exact Or.inl hxu
    · exact Or.inr ⟨hxu, hx⟩

/-- What every emitted vertex set is like: `k` vertices of the graph, the root
among them, joined to the root by walks inside the set, none of smaller
enumeration index than the root. -/
theorem emitted_set_facts {env : Env} {G : Graph} {k : Nat} {u : Int} {st : EnumState}
    {H : Finset Int} (hG : G.Built) (h : EnumerateSubgraphsFromNode env G k u = some st)
    (hH : H ∈ st.emitted.map subgraphVertices) :
    H.card = k ∧ u ∈ H ∧ (∀ v ∈ H, G.hasVertex v = true) ∧
    (∀ x ∈ H, Relation.ReflTransGen (fun x y => x ∈ H ∧ y ∈ H ∧ G.adjacent x y) u x) ∧
    (∀ v ∈ H, G.enumeration_index u ≤ G.enumeration_index v) ∧
    (env.flags.COMMUNITY_BASED = true → ∀ v ∈ H, G.community v = G.community u) := by
  obtain ⟨levels, hl, rfl⟩ := List.mem_map.mp hH
  obtain ⟨hnd, hlen, hu, hv⟩ := emitted_vertices hG h hl
  obtain ⟨_, hwalk⟩ := emitted_walk_from_root hG h hl
  refine ⟨?_, ?_, ?_, hwalk, ?_, ?_⟩
  · unfold subgraphVertices
    rw [List.toFinset_card_of_nodup hnd, hlen]
  · exact List.mem_toFinset.mpr hu
  · intro v hv'
    exact hv v (List.mem_toFinset.mp hv')
  · intro v hv'
    exact emitted_enumeration_le h hl (List.mem_toFinset.mp hv')
  · intro hcb v hv'
    exact emitted_community hcb h hl v (List.mem_toFinset.mp hv')

theorem EnumerateSubgraphsFromNode_isSome_iff (env : Env) (G : Graph) (k : Nat) (u : Int) :
    (EnumerateSubgraphsFromNode env G k u).isSome = true ↔
      G.hasVertex u = true ∧ 1 ≤ nautyVertices env.flags G k ∧
      nautyVertices env.flags G k ≤ 64 := by
  constructor
  · intro h
    obtain ⟨st, hst⟩ := Option.isSome_iff_exists.mp h
    obtain ⟨h0, h1, h2, _⟩ := (EnumerateSubgraphsFromNode_eq_some_iff env G k u st).mp hst
    exact ⟨h0, h1, h2⟩
  · rintro ⟨h0, h1, h2⟩
    rw [EnumerateSubgraphsFromNode_rootState h0 h1 h2]
    rfl

/-- What the deletion of the other communities leaves, in terms of the tests
the enumeration makes. -/
theorem CommunityRestriction_spec {G G' : Graph} {c : Int} (hr : CommunityRestriction G G' c) :
    (∀ v, G'.hasVertex v = true ↔ G.hasVertex v = true ∧ G.community v = c) ∧
    (∀ v, G'.hasVertex v = true → G'.enumeration_index v = G.enumeration_index v) ∧
    (∀ a b, G'.hasEdge a b = true ↔
      G.hasEdge a b = true ∧ G.community a = c ∧ G.community b = c) := by
  obtain ⟨_, _, hv1, hv2, he1, he2⟩ := hr
  refine ⟨?_, ?_, ?_⟩
  · intro v
    rw [hasVertex_iff, hasVertex_iff]
    constructor
    · intro h
      exact ⟨(hv1 v h).1, (hv1 v h).2.1⟩
    · rintro ⟨h1, h2⟩
      exact hv2 v h1 h2
  · intro v h
    rw [hasVertex_iff] at h
    exact (hv1 v h).2.2.1
  · intro a b
    rw [hasEdge_iff, hasEdge_iff]
    constructor
    · intro h
      exact ⟨(he1 (a, b) h).1, (he1 (a, b) h).2.1, (he1 (a, b) h).2.2.1⟩
    · rintro ⟨h1, h2, h3⟩
      exact he2 (a, b) h1 h2 h3

/-- C34. For every graph `G` built by `AddVertex` and `AddEdge`, every `k` and
root `u`, and every graph `G'` that is `G` with the vertices of a community
other than that of `u` deleted together with their edges:
`EnumerateSubgraphsFromNode(G, k, u)` with `COMMUNITY_BASED` set runs exactly
when `EnumerateSubgraphsFromNode(G', k, u)` with `COMMUNITY_BASED` clear does
(the colour modes being the same), and the two runs emit the same multiset of
vertex sets. -/
theorem community_mode_deletes_other_communities (env env' : Env) (G G' : Graph) (k : Nat)
    (u : Int) (hG : G.Built) (hG' : G'.Built)
    (hon : env.flags.COMMUNITY_BASED = true) (hoff : env'.flags.COMMUNITY_BASED = false)
    (hedge : env'.flags.EDGE_COLORED = env.flags.EDGE_COLORED)
    (hr : CommunityRestriction G G' (G.community u)) :
    (EnumerateSubgraphsFromNode env G k u).isSome =
      (EnumerateSubgraphsFromNode env' G' k u).isSome ∧
    ∀ st st', EnumerateSubgraphsFromNode env G k u = some st →
      EnumerateSubgraphsFromNode env' G' k u = some st' →
      (st.emitted.map subgraphVertices).Perm (st'.emitted.map subgraphVertices) ∧
      (Multiset.ofList (st.emitted.map subgraphVertices) =
        Multiset.ofList (st'.emitted.map subgraphVertices)) := by
  obtain ⟨hv, henum, hedges⟩ := CommunityRestriction_spec hr
  have hadj : ∀ a b, G'.adjacent a b ↔
      G.adjacent a b ∧ G.community a = G.community u ∧ G.community b = G.community u := by
    intro a b
    unfold Graph.adjacent
    rw [hedges a b, hedges b a]
    tauto
  refine ⟨?_, ?_⟩
  · rw [Bool.eq_iff_iff, EnumerateSubgraphsFromNode_isSome_iff,
      EnumerateSubgraphsFromNode_isSome_iff]
    have hn : nautyVertices env'.flags G' k = nautyVertices env.flags G k := by
      unfold nautyVertices
      rw [hedge, hr.2.1]
    rw [hn, hv u]
    tauto
  · intro st st' h h'
    have hperm : (st.emitted.map subgraphVertices).Perm (st'.emitted.map subgraphVertices) := by
      rw [List.perm_ext_iff_of_nodup (emitted_sets_nodup h) (emitted_sets_nodup h')]
      intro H
      constructor
      · intro hH
        obtain ⟨hcard, hu, hvert, hwalk, hen, hcomm⟩ := emitted_set_facts hG h hH
        have hcomm' := hcomm hon
        have hvert' : ∀ v ∈ H, G'.hasVertex v = true :=
          fun v hvH => (hv v).mpr ⟨hvert v hvH, hcomm' v hvH⟩
        apply connected_set_emitted hG' hoff h' hcard hu
        · apply inducedConnected_of_walks G' H u
          intro x hx
          apply Relation.ReflTransGen.mono _ (hwalk x hx)
          rintro a b ⟨ha, hb, hab⟩
          exact ⟨ha, hb, (hadj a b).mpr ⟨hab, hcomm' a ha, hcomm' b hb⟩⟩
        · intro v hvH
          rw [henum u (hvert' u hu), henum v (hvert' v hvH)]
          exact hen v hvH
      · intro hH
        obtain ⟨hcard, hu, hvert, hwalk, hen, _⟩ := emitted_set_facts hG' h' hH
        have hcomm' : ∀ v ∈ H, G.community v = G.community u :=
          fun v hvH => ((hv v).mp (hvert v hvH)).2
        apply community_set_emitted hG
          (fun a ha b hb => (hcomm' a ha).trans (hcomm' b hb).symm) h hcard hu
        · apply inducedConnected_of_walks G H u
          intro x hx
          apply Relation.ReflTransGen.mono _ (hwalk x hx)
          rintro a b ⟨ha, hb, hab⟩
          exact ⟨ha, hb, ((hadj a b).mp hab).1⟩
        · intro v hvH
          rw [← henum u (hvert u hu), ← henum v (hvert v hvH)]
          exact hen v hvH
    exact ⟨hperm, Multiset.coe_eq_coe.mpr hperm⟩

/-- The complete graph on 0, 1, 2, 3 with communities 0, 0, 1, 1 and the
graph left when the vertices 2 and 3 are deleted, `k = 2`, root 0: in
community mode the complete graph gives the one set `{0, 1}`, and so does the
smaller graph with community mode off, whereas the complete graph with
community mode off gives three sets. -/
theorem community_mode_deletes_other_communities_witness :
    (rootState (plainEnv true) (graphOf false completeOps) 2 0).emitted = [[[0], [1]]] ∧
    (rootState (plainEnv false) (graphOf false communityPairOps) 2 0).emitted = [[[0], [1]]] ∧
    (rootState (plainEnv false) (graphOf false completeOps) 2 0).emitted =
      [[[0], [1]], [[0], [2]], [[0], [3]]] ∧
    CommunityRestriction (graphOf false completeOps) (graphOf false communityPairOps)
      ((graphOf false completeOps).community 0) ∧
    ((EnumerateSubgraphsFromNode (plainEnv true) (graphOf false completeOps) 2 0).isSome =
      (EnumerateSubgraphsFromNode (plainEnv false) (graphOf false communityPairOps) 2 0).isSome ∧
    ∀ st st', EnumerateSubgraphsFromNode (plainEnv true) (graphOf false completeOps) 2 0 =
        some st →
      EnumerateSubgraphsFromNode (plainEnv false) (graphOf false communityPairOps) 2 0 =
        some st' →
      (st.emitted.map subgraphVertices).Perm (st'.emitted.map subgraphVertices) ∧
      (Multiset.ofList (st.emitted.map subgraphVertices) =
        Multiset.ofList (st'.emitted.map subgraphVertices))) :=
  ⟨by decide!, by decide!, by decide!, by decide!,
   community_mode_deletes_other_communities (plainEnv true) (plainEnv false)
     (graphOf false completeOps) (graphOf false communityPairOps) 2 0
     (graphOf_Built false completeOps (by decide!))
     (graphOf_Built false communityPairOps (by decide!)) rfl rfl rfl (by decide!)⟩

theorem levelTails_validChain (env : Env) (G : Graph) (u : Int) (fuel : Nat) :
    ∀ (parents visited : List Int) (rem : Nat) (tail : List (List Int)),
      tail ∈ levelTails env G u fuel parents visited rem →
      ValidChain env G u visited parents tail := by
  induction fuel with
  | zero =>
    intro parents visited rem tail h
    cases rem with
    | zero =>
      simp only [levelTails, List.mem_singleton] at h
      subst h
      trivial
    | succ rem => simp [levelTails] at h
  | succ fuel ih =>
    intro parents visited rem tail h
    cases rem with
    | zero =>
      simp only [levelTails, List.mem_singleton] at h
      subst h
      trivial
    | succ rem =>
      obtain ⟨k_i, c, t', hk1, _, _, hc, ht', rfl⟩ := mem_levelTails_succ.mp h
      obtain ⟨hnd, _, _, _⟩ := Validate_spec env G parents u visited
      obtain ⟨_, hmem, _⟩ := combinationsFrom_spec k_i (Validate env G parents u visited).1 hnd
      obtain ⟨hsub, hlen⟩ := (hmem c).mp hc
      have hlev : levelOf c = c := levelOf_of_nodup c (hsub.nodup hnd)
      rw [hlev] at ht' ⊢
      refine ⟨?_, ?_, ih _ _ _ _ ht'⟩
      · intro hnil
        rw [hnil] at hlen
        simp at hlen
        omega
      · intro w hw
        exact hsub.subset hw

/-- No vertex chosen below a level was visited when that level was entered. -/
theorem ValidChain_not_visited (env : Env) (G : Graph) (u : Int) :
    ∀ (tail : List (List Int)) (visited parents : List Int),
      ValidChain env G u visited parents tail →
      ∀ level ∈ tail, ∀ w ∈ level, w ∉ visited := by
  intro tail
  induction tail with
  | nil => intro _ _ _ level hl; simp at hl
  | cons l rest ih =>
    intro visited parents h level hl w hw
    obtain ⟨_, hvalid, hrest⟩ := h
    obtain ⟨_, hnot, _, new, hnew, _⟩ := Validate_spec env G parents u visited
    rcases List.mem_cons.mp hl with rfl | hl
    · exact hnot w (hvalid w hw)
    · intro hv
      have := ih _ _ hrest level hl w hw
      rw [hnew] at this
      exact this (List.mem_append_left _ hv)

/-- A vertex chosen two or more levels below a level is not an admissible
neighbour of a vertex of that level. -/
theorem ValidChain_skip (env : Env) (G : Graph) (u : Int) (visited parents l : List Int)
    (rest : List (List Int)) (h : ValidChain env G u visited parents (l :: rest)) :
    ∀ level ∈ rest, ∀ w ∈ level, ∀ v ∈ parents,
      ¬ (w ∈ G.neighbors v ∧ Admissible env G u v w) := by
  intro level hl w hw v hv hadm
  obtain ⟨_, _, hrest⟩ := h
  obtain ⟨_, _, hiff, new, hnew, hperm⟩ := Validate_spec env G parents u visited
  have hnot := ValidChain_not_visited env G u rest _ _ hrest level hl w hw
  rw [hnew] at hnot
  by_cases hvis : w ∈ visited
  · exact hnot (List.mem_append_left _ hvis)
  · have : w ∈ (Validate env G parents u visited).1 := (hiff w).mpr ⟨hvis, v, hv, hadm⟩
    exact hnot (List.mem_append_right _ (hperm.mem_iff.mp this))

theorem mem_of_mem_getD {α : Type} {L : List (List α)} {j : Nat} {x : α}
    (h : x ∈ L.getD j []) : L.getD j [] ∈ L := by
  by_cases hj : j < L.length
  · rw [List.getD_eq_getElem L [] hj]
    exact List.getElem_mem hj
  · rw [List.getD_eq_default L [] (by omega)] at h
    simp at h

/-- The levels of a chain, numbered from the level `parents` as level 0: a
vertex of level `j + 1` is an admissible neighbour of a vertex of level `j`,
and not of any vertex of a level before `j`. -/
theorem ValidChain_levels (env : Env) (G : Graph) (u : Int) :
    ∀ (tail : List (List Int)) (visited parents : List Int),
      ValidChain env G u visited parents tail →
      (∀ j, ∀ w ∈ (parents :: tail).getD (j + 1) [],
        ∃ v ∈ (parents :: tail).getD j [], w ∈ G.neighbors v ∧ Admissible env G u v w) ∧
      (∀ j' j, j' + 1 < j → ∀ v ∈ (parents :: tail).getD j' [],
        ∀ w ∈ (parents :: tail).getD j [],
          ¬ (w ∈ G.neighbors v ∧ Admissible env G u v w)) := by
  intro tail
  induction tail with
  | nil =>
    intro visited parents _
    constructor
    · intro j w hw
      simp at hw
    · intro j' j hj v _ w hw
      cases j with
      | zero => omega
      | succ j => simp at hw
  | cons l rest ih =>
    intro visited parents h
    obtain ⟨ih1, ih2⟩ := ih _ _ h.2.2
    obtain ⟨_, _, hiff, _⟩ := Validate_spec env G parents u visited
    constructor
    · intro j w hw
      cases j with
      | zero =>
        simp only [List.getD_cons_succ, List.getD_cons_zero] at hw ⊢
        obtain ⟨_, v, hv, hadm⟩ := (hiff w).mp (h.2.1 w hw)
        exact ⟨v, hv, hadm⟩
      | succ j =>
        simp only [List.getD_cons_succ] at hw ⊢
        exact ih1 j w hw
    · intro j' j hj v hv w hw
      cases j with
      | zero => omega
      | succ j =>
        cases j' with
        | zero =>
          simp only [List.getD_cons_succ, List.getD_cons_zero] at hv hw
          cases j with
          | zero => omega
          | succ j =>
            simp only [List.getD_cons_succ] at hw
            exact ValidChain_skip env G u visited parents l rest h _ (mem_of_mem_getD hw) w hw
              v hv
        | succ j' =>
          simp only [List.getD_cons_succ] at hv hw
          exact ih2 j' j (by omega) v hv w hw

theorem mem_flatten_iff_getD {L : List (List Int)} {x : Int} :
    x ∈ L.flatten ↔ ∃ j, x ∈ L.getD j [] := by
  rw [List.mem_flatten]
  constructor
  · rintro ⟨l, hl, hx⟩
    obtain ⟨j, hj, rfl⟩ := List.mem_iff_getElem.mp hl
    exact ⟨j, by rw [List.getD_eq_getElem L [] hj]; exact hx⟩
  · rintro ⟨j, hx⟩
    exact ⟨_, mem_of_mem_getD hx, hx⟩

theorem level_unique {L : List (List Int)} (hnd : L.flatten.Nodup) {x : Int} {i j : Nat}
    (hi : x ∈ L.getD i []) (hj : x ∈ L.getD j []) : i = j := by
  have hpw := (List.nodup_flatten.mp hnd).2
  rw [List.pairwise_iff_getElem] at hpw
  have hi' : i < L.length := by
    by_contra hc
    rw [List.getD_eq_default L [] (by omega)] at hi
    simp at hi
  have hj' : j < L.length := by
    by_contra hc
    rw [List.getD_eq_default L [] (by omega)] at hj
    simp at hj
  rw [List.getD_eq_getElem L [] hi'] at hi
  rw [List.getD_eq_getElem L [] hj'] at hj
  rcases Nat.lt_trichotomy i j with h | h | h
  · exact absurd hj (hpw i j hi' hj' h hi)
  · exact h
  · exact absurd hi (hpw j i hj' hi' h hj)

/-- Level sets in which every vertex below the first level has a neighbour
one level up and none further up are the sets of vertices at each
breadth-first distance from the root. -/
theorem layers_are_distances (G : Graph) (u : Int) (Ls : List (List Int))
    (h0 : Ls.getD 0 [] = [u]) (hnd : Ls.flatten.Nodup)
    (hpar : ∀ j, ∀ w ∈ Ls.getD (j + 1) [], ∃ v ∈ Ls.getD j [], G.adjacent v w)
    (hskip : ∀ j' j, j' + 1 < j → ∀ v ∈ Ls.getD j' [], ∀ w ∈ Ls.getD j [],
      ¬ G.adjacent v w) :
    ∀ j w, w ∈ Ls.getD j [] ↔ G.DistanceWithin (subgraphVertices Ls) j u w := by
  have hH : ∀ x, x ∈ subgraphVertices Ls ↔ ∃ j, x ∈ Ls.getD j [] := by
    intro x
    unfold subgraphVertices
    rw [List.mem_toFinset, mem_flatten_iff_getD]
  have hwalk : ∀ j w, w ∈ Ls.getD j [] → G.WalkWithin (subgraphVertices Ls) j u w := by
    intro j
    induction j with
    | zero =>
      intro w hw
      rw [h0, List.mem_singleton] at hw
      subst hw
      exact ⟨rfl, (hH w).mpr ⟨0, by rw [h0]; exact List.mem_singleton.mpr rfl⟩⟩
    | succ j ih =>
      intro w hw
      obtain ⟨v, hv, hadj⟩ := hpar j w hw
      exact ⟨v, ih v hv, (hH w).mpr ⟨j + 1, hw⟩, hadj⟩
  have hle : ∀ m w, G.WalkWithin (subgraphVertices Ls) m u w → ∃ i, i ≤ m ∧ w ∈ Ls.getD i [] := by
    intro m
    induction m with
    | zero =>
      rintro w ⟨rfl, _⟩
      exact ⟨0, le_refl 0, by rw [h0]; exact List.mem_singleton.mpr rfl⟩
    | succ m ih =>
      rintro w ⟨c, hc, hwH, hadj⟩
      obtain ⟨i, hi, hci⟩ := ih c hc
      obtain ⟨i', hwi⟩ := (hH w).mp hwH
      refine ⟨i', ?_, hwi⟩
      by_contra hgt
      exact hskip i i' (by omega) c hci w hwi hadj
  intro j w
  constructor
  · intro hw
    refine ⟨hwalk j w hw, ?_⟩
    intro m hm hwm
    obtain ⟨i, hi, hwi⟩ := hle m w hwm
    have := level_unique hnd hwi hw
    omega
  · rintro ⟨hw, hmin⟩
    obtain ⟨i, hi, hwi⟩ := hle j w hw
    rcases Nat.lt_or_ge i j with h | h
    · exact absurd (hwalk i w hwi) (hmin i h)
    · have : i = j := by omega
      rw [← this]
      exact hwi

theorem ValidChain_nonempty (env : Env) (G : Graph) (u : Int) :
    ∀ (tail : List (List Int)) (visited parents : List Int),
      ValidChain env G u visited parents tail → ∀ level ∈ tail, level ≠ [] := by
  intro tail
  induction tail with
  | nil => intro _ _ _ level hl; simp at hl
  | cons l rest ih =>
    intro visited parents h level hl
    rcases List.mem_cons.mp hl with rfl | hl
    · exact h.1
    · exact ih _ _ h.2.2 level hl

theorem mem_getD_map_iter (it : IterOrder) (tail : List (List Int)) (j : Nat) (x : Int) :
    x ∈ (tail.map it.iter).getD j [] ↔ x ∈ tail.getD j [] := by
  by_cases hj : j < tail.length
  · rw [List.getD_eq_getElem _ [] (by simpa using hj), List.getD_eq_getElem _ [] hj,
      List.getElem_map]
    exact (it.perm _).mem_iff
  · rw [List.getD_eq_default _ [] (by simp; omega), List.getD_eq_default _ [] (by omega)]

theorem mem_getD_emitted (it : IterOrder) (u : Int) (tail : List (List Int)) (j : Nat) (x : Int) :
    x ∈ ([u] :: tail.map it.iter).getD j [] ↔ x ∈ ([u] :: tail).getD j [] := by
  cases j with
  | zero => simp
  | succ j =>
    simp only [List.getD_cons_succ]
    exact mem_getD_map_iter it tail j x

/-- C33. For every subgraph emitted from the root `u` of a graph built by
`AddVertex` and `AddEdge`, with level sets `S[0], ..., S[m]`: every level is
non-empty, `S[0]` is `{u}`, and `S[j]` is exactly the set of the vertices of
the subgraph at breadth-first distance `j` from `u` inside the subgraph (edges
taken in either direction); in particular no vertex of `S[j]` has a neighbour
in `S[j']` for `j' < j - 1`. -/
theorem levels_are_bfs_layers (env : Env) (G : Graph) (k : Nat) (u : Int) (st : EnumState)
    (levels : List (List Int)) (hG : G.Built)
    (h : EnumerateSubgraphsFromNode env G k u = some st) (hl : levels ∈ st.emitted) :
    (∀ level ∈ levels, level ≠ []) ∧
    levels.getD 0 [] = [u] ∧
    (∀ j w, w ∈ levels.getD j [] ↔ G.DistanceWithin (subgraphVertices levels) j u w) ∧
    (∀ j j', j' + 1 < j → ∀ w ∈ levels.getD j [], ∀ v ∈ levels.getD j' [],
      ¬ G.adjacent v w ∧ v ∉ G.neighbors w ∧ w ∉ G.neighbors v) := by
  have hwf := WellFormed_of_Built hG
  obtain ⟨hnd, _, _, _⟩ := emitted_vertices hG h hl
  have henum : ∀ v ∈ levels.flatten, G.enumeration_index u ≤ G.enumeration_index v :=
    fun v hv => emitted_enumeration_le h hl hv
  have hcomm : env.flags.COMMUNITY_BASED = true →
      ∀ v ∈ levels.flatten, G.community v = G.community u :=
    fun hcb => emitted_community hcb h hl
  obtain ⟨_, tail, ht, rfl, _, _, _, _, _⟩ := emitted_shape h hl
  have hchain := levelTails_validChain env G u (k - 1) [u] [u] (k - 1) tail ht
  obtain ⟨hpar, hskip⟩ := ValidChain_levels env G u tail [u] [u] hchain
  have hadm : ∀ j' j, ∀ v ∈ ([u] :: tail.map env.it.iter).getD j' [],
      ∀ w ∈ ([u] :: tail.map env.it.iter).getD j [], Admissible env G u v w := by
    intro j' j v hv w hw
    have hvf := mem_flatten_iff_getD.mpr ⟨j', hv⟩
    have hwf' := mem_flatten_iff_getD.mpr ⟨j, hw⟩
    exact ⟨fun hcb => (hcomm hcb v hvf).trans (hcomm hcb w hwf').symm, henum w hwf'⟩
  have hskip' : ∀ j' j, j' + 1 < j → ∀ v ∈ ([u] :: tail.map env.it.iter).getD j' [],
      ∀ w ∈ ([u] :: tail.map env.it.iter).getD j [], ¬ G.adjacent v w := by
    intro j' j hj v hv w hw hadj
    exact hskip j' j hj v ((mem_getD_emitted env.it u tail j' v).mp hv) w
      ((mem_getD_emitted env.it u tail j w).mp hw)
      ⟨(hwf.neighbors_iff v w).mpr hadj, hadm j' j v hv w hw⟩
  refine ⟨?_, rfl, ?_, ?_⟩
  · intro level hlev
    rcases List.mem_cons.mp hlev with rfl | hlev
    · simp
    · obtain ⟨l, hlt, rfl⟩ := List.mem_map.mp hlev
      intro hnil
      have hne := ValidChain_nonempty env G u tail [u] [u] hchain l hlt
      have := (env.it.perm l).length_eq
      rw [hnil] at this
      exact hne (List.length_eq_zero.mp this.symm)
  · apply layers_are_distances G u ([u] :: tail.map env.it.iter) rfl hnd
    · intro j w hw
      obtain ⟨v, hv, hn, _⟩ := hpar j w ((mem_getD_emitted env.it u tail (j + 1) w).mp hw)
      exact ⟨v, (mem_getD_emitted env.it u tail j v).mpr hv, (hwf.neighbors_iff v w).mp hn⟩
    · exact hskip'
  · intro j j' hj w hw v hv
    have hna := hskip' j' j hj v hv w hw
    refine ⟨hna, ?_, ?_⟩
    · intro hn
      exact hna (adjacent_symm G ((hwf.neighbors_iff w v).mp hn))
    · intro hn
      exact hna ((hwf.neighbors_iff v w).mp hn)

/-- The undirected triangle, root 0, `k = 3`: the one subgraph emitted has the
level sets `{0}` and `{1, 2}`, both 1 and 2 being at distance 1 from 0; the
path 0-1-2-3 from root 0 gives `{0}`, `{1}`, `{2}`. -/
theorem levels_are_bfs_layers_witness :
    (rootState (plainEnv false) (graphOf false triangleOps) 3 0).emitted = [[[0], [1, 2]]] ∧
    (rootState (plainEnv false) (graphOf false pathOps) 3 0).emitted = [[[0], [1], [2]]] ∧
    ((∀ level ∈ ([[0], [1, 2]] : List (List Int)), level ≠ []) ∧
    ([[0], [1, 2]] : List (List Int)).getD 0 [] = [0] ∧
    (∀ j w, w ∈ ([[0], [1, 2]] : List (List Int)).getD j [] ↔
      (graphOf false triangleOps).DistanceWithin (subgraphVertices [[0], [1, 2]]) j 0 w) ∧
    (∀ j j', j' + 1 < j → ∀ w ∈ ([[0], [1, 2]] : List (List Int)).getD j [],
      ∀ v ∈ ([[0], [1, 2]] : List (List Int)).getD j' [],
      ¬ (graphOf false triangleOps).adjacent v w ∧
      v ∉ (graphOf false triangleOps).neighbors w ∧
      w ∉ (graphOf false triangleOps).neighbors v)) :=
  ⟨by decide!, by decide!,
   levels_are_bfs_layers (plainEnv false) (graphOf false triangleOps) 3 0
     (rootState (plainEnv false) (graphOf false triangleOps) 3 0) [[0], [1, 2]]
     (graphOf_Built false triangleOps (by decide!))
     (EnumerateSubgraphsFromNode_rootState (by decide!) (by decide!) (by decide!))
     (by
      have e : (rootState (plainEnv false) (graphOf false triangleOps) 3 0).emitted =
          [[[0], [1, 2]]] := by decide!
      rw [e]
      exact List.mem_singleton.mpr rfl)⟩

end Kavosh
